import Mathlib

/-!
# Common Clock Framework (drivers/clk/clk.c): shallow embedding

Clock nodes (`struct clk_core`) and consumer handles (`struct clk`) are identified by natural
numbers; a C pointer is an `Option Nat`, `none` standing for `NULL`.  The fields of
`struct clk_core` and `struct clk` are kept one map per field in `State`.  The callbacks of
`struct clk_ops`, the notifier callbacks and the runtime-PM calls are external code: their results
are given by the oracle record `Hw`, and every invocation is appended to `State.trace`.

Recursive C functions (up the parent chain, or down the child lists) take a `fuel` argument;
`none` is returned only when the fuel runs out.

The reference counters (`unsigned int` in C) are modelled as natural numbers: the development
is about traces in which no counter reaches `2 ^ 32`.
-/

namespace Clk

/-- Errno constant of the kernel ABI (errno-base.h, not part of the sources at hand). -/
def EPERM : Int := 1
/-- Errno constant of the kernel ABI. -/
def ENOENT : Int := 2
/-- Errno constant of the kernel ABI. -/
def EBUSY : Int := 16
/-- Errno constant of the kernel ABI. -/
def EINVAL : Int := 22
/-- Errno constant of the kernel ABI. -/
def ESHUTDOWN : Int := 108

/-- Notifier return values and the stop bit (linux/notifier.h). -/
def NOTIFY_DONE : Nat := 0
/-- Stop bit of a notifier return value: `NOTIFY_STOP_MASK = 0x8000`. -/
def NOTIFY_STOP_MASK : Nat := 0x8000

/-- Rate-change notification types (linux/clk.h): `PRE_RATE_CHANGE = BIT(0)`. -/
def PRE_RATE_CHANGE : Nat := 1
/-- `POST_RATE_CHANGE = BIT(1)`. -/
def POST_RATE_CHANGE : Nat := 2
/-- `ABORT_RATE_CHANGE = BIT(2)`. -/
def ABORT_RATE_CHANGE : Nat := 4

/-- `ULONG_MAX` on a 64-bit kernel. -/
def ULONG_MAX : Nat := 2 ^ 64 - 1

/-- Modelled from the spec: the flag bits of `core->flags` (clk-provider.h is not part of the
sources at hand).  A flag word is represented by the set of flags it contains, so that
`core->flags & CLK_X` is the field `CLK_X`. -/
structure clk_flags where
  CLK_SET_RATE_GATE : Bool := false
  CLK_SET_PARENT_GATE : Bool := false
  CLK_SET_RATE_PARENT : Bool := false
  CLK_IGNORE_UNUSED : Bool := false
  CLK_GET_RATE_NOCACHE : Bool := false
  CLK_SET_RATE_NO_REPARENT : Bool := false
  CLK_GET_ACCURACY_NOCACHE : Bool := false
  CLK_RECALC_NEW_RATES : Bool := false
  CLK_SET_RATE_UNGATE : Bool := false
  CLK_IS_CRITICAL : Bool := false
  CLK_OPS_PARENT_ENABLE : Bool := false
  CLK_DUTY_CYCLE_PARENT : Bool := false
  deriving DecidableEq, Repr

/-- Which callbacks the operation table `core->ops` provides (`core->ops->x != NULL`). -/
structure clk_ops where
  prepare : Bool := false
  unprepare : Bool := false
  is_prepared : Bool := false
  enable : Bool := false
  disable : Bool := false
  is_enabled : Bool := false
  recalc_rate : Bool := false
  round_rate : Bool := false
  determine_rate : Bool := false
  set_parent : Bool := false
  get_parent : Bool := false
  set_rate : Bool := false
  set_rate_and_parent : Bool := false
  recalc_accuracy : Bool := false
  get_phase : Bool := false
  set_phase : Bool := false
  get_duty_cycle : Bool := false
  set_duty_cycle : Bool := false
  init : Bool := false
  terminate : Bool := false
  deriving DecidableEq, Repr

/-- The `struct clk_parent_map` of the source: one declared parent slot.  `hw` names the node
whose `clk_hw` the slot points at, `core` is the cached resolution. -/
structure clk_parent_map where
  hw : Option Nat := none
  core : Option Nat := none
  fw_name : Option String := none
  name : Option String := none
  index : Int := -1
  deriving DecidableEq, Repr

/-- The `struct clk_rate_request` of clk-provider.h. -/
structure clk_rate_request where
  rate : Nat := 0
  min_rate : Nat := 0
  max_rate : Nat := 0
  best_parent_rate : Nat := 0
  best_parent_hw : Option Nat := none
  deriving DecidableEq, Repr

/-- One interaction with external code: a `clk_ops` callback that acts on the hardware, a
notifier delivery, or a runtime-PM call. -/
inductive clk_event where
  | op_prepare (core : Nat)
  | op_unprepare (core : Nat)
  | op_enable (core : Nat)
  | op_disable (core : Nat)
  | op_set_rate (core : Nat) (rate parent_rate : Nat)
  | op_set_parent (core : Nat) (index : Nat)
  | op_set_rate_and_parent (core : Nat) (rate parent_rate : Nat) (index : Nat)
  | notify (clk : Nat) (msg : Nat) (old_rate new_rate : Nat)
  | pm_runtime_get_sync (core : Nat)
  | pm_runtime_put_noidle (core : Nat)
  | pm_runtime_put_sync (core : Nat)
  deriving DecidableEq, Repr

/-- The memory of the framework: the fields of every `struct clk_core` (indexed by node), of
every `struct clk` (indexed by handle), the global lists, and the trace of interactions with
external code.  A `struct clk_hw` carries the number of the node it belongs to; `hw_core` is
its `hw->core` pointer, `NULL` until the node is registered.  `duty_num` and `duty_den` are the
two members of `core->duty`, `ref` is the count of `core->ref`. -/
structure State where
  name : Nat → String
  ops : Nat → clk_ops
  parent : Nat → Option Nat
  parents : Nat → List clk_parent_map
  num_parents : Nat → Nat
  new_parent_index : Nat → Nat
  rate : Nat → Nat
  req_rate : Nat → Nat
  new_rate : Nat → Nat
  new_parent : Nat → Option Nat
  new_child : Nat → Option Nat
  flags : Nat → clk_flags
  orphan : Nat → Bool
  rpm_enabled : Nat → Bool
  enable_count : Nat → Nat
  prepare_count : Nat → Nat
  protect_count : Nat → Nat
  min_rate : Nat → Nat
  max_rate : Nat → Nat
  accuracy : Nat → Nat
  phase : Nat → Int
  duty_num : Nat → Nat
  duty_den : Nat → Nat
  ref : Nat → Nat
  children : Nat → List Nat
  clks : Nat → List Nat
  notifier_count : Nat → Nat
  hw_clk : Nat → Nat
  hw_core : Nat → Option Nat
  clk_core : Nat → Nat
  clk_min_rate : Nat → Nat
  clk_max_rate : Nat → Nat
  exclusive_count : Nat → Nat
  clk_root_list : List Nat
  clk_orphan_list : List Nat
  clk_notifier_list : List Nat
  trace : List clk_event

/-- A pointer result that may be an `ERR_PTR`, `NULL` or a node. -/
inductive clk_ptr where
  | err (errno : Int)
  | null
  | core (n : Nat)
  deriving DecidableEq, Repr

/-- The external code the framework calls into: the `clk_ops` callbacks of every node, the
notifier chains, runtime PM and the provider lookup behind `clk_core_get`.  Each oracle sees the
current state (the trace included) and its arguments. -/
structure Hw where
  prepare : State → Nat → Int
  enable : State → Nat → Int
  recalc_rate : State → Nat → Nat → Nat
  round_rate : State → Nat → Nat → Nat → Int × Nat
  determine_rate : State → Nat → clk_rate_request → Int × clk_rate_request
  set_parent : State → Nat → Nat → Int
  recalc_accuracy : State → Nat → Nat → Nat
  notifier_call_chain : State → Nat → Nat → Nat → Nat → Nat
  pm_runtime_get_sync : State → Nat → Int
  clk_core_get : State → Nat → Nat → clk_ptr
  init : State → Nat → Int
  get_parent : State → Nat → Nat
  get_phase : State → Nat → Int
  get_duty_cycle : State → Nat → Int × Nat × Nat
  set_phase : State → Nat → Int → Int
  set_duty_cycle : State → Nat → Nat → Nat → Int

/-- Append an interaction to the trace. -/
def State.log (s : State) (e : clk_event) : State :=
  { s with trace := s.trace ++ [e] }

/-- The source's `clk_pm_runtime_get`. -/
def clk_pm_runtime_get (hw : Hw) (s : State) (core : Nat) : Int × State :=
  if !s.rpm_enabled core then (0, s)
  else
    let ret := hw.pm_runtime_get_sync s core
    let s1 := s.log (.pm_runtime_get_sync core)
    if ret < 0 then (ret, s1.log (.pm_runtime_put_noidle core))
    else (0, s1)

/-- The source's `clk_pm_runtime_put`. -/
def clk_pm_runtime_put (s : State) (core : Nat) : State :=
  if !s.rpm_enabled core then s
  else s.log (.pm_runtime_put_sync core)

/-- The source's `clk_core_rate_is_protected`. -/
def clk_core_rate_is_protected (s : State) (core : Nat) : Bool :=
  s.protect_count core != 0

/-- The source's `clk_core_get_rate_nolock`. -/
def clk_core_get_rate_nolock (s : State) (core : Option Nat) : Nat :=
  match core with
  | none => 0
  | some c =>
    if s.num_parents c = 0 || (s.parent c).isSome then s.rate c
    else 0

/-- The source's `clk_core_get_boundaries`: returns `(*min_rate, *max_rate)`. -/
def clk_core_get_boundaries (s : State) (core : Nat) : Nat × Nat :=
  let min_rate := s.min_rate core
  let max_rate := s.max_rate core
  let min_rate := (s.clks core).foldl (fun m clk_user => max m (s.clk_min_rate clk_user)) min_rate
  let max_rate := (s.clks core).foldl (fun m clk_user => min m (s.clk_max_rate clk_user)) max_rate
  (min_rate, max_rate)

/-- The source's `clk_core_rate_unprotect`. -/
def clk_core_rate_unprotect : Nat → State → Option Nat → Option State
  | _, s, none => some s
  | 0, _, some _ => none
  | fuel + 1, s, some core =>
    if s.protect_count core = 0 then some s
    else
      let s1 := { s with protect_count := Function.update s.protect_count core (s.protect_count core - 1) }
      if s1.protect_count core > 0 then some s1
      else clk_core_rate_unprotect fuel s1 (s1.parent core)

/-- The source's `clk_core_rate_protect`. -/
def clk_core_rate_protect : Nat → State → Option Nat → Option State
  | _, s, none => some s
  | 0, _, some _ => none
  | fuel + 1, s, some core =>
    let s1? := if s.protect_count core = 0 then clk_core_rate_protect fuel s (s.parent core)
               else some s
    match s1? with
    | none => none
    | some s1 =>
      some { s1 with protect_count := Function.update s1.protect_count core (s1.protect_count core + 1) }

/-- The source's `clk_core_unprepare`. -/
def clk_core_unprepare : Nat → State → Option Nat → Option State
  | _, s, none => some s
  | 0, _, some _ => none
  | fuel + 1, s, some core =>
    if s.prepare_count core = 0 then some s
    else if s.prepare_count core = 1 && (s.flags core).CLK_IS_CRITICAL then some s
    else
      let s1? := if (s.flags core).CLK_SET_RATE_GATE then
                   clk_core_rate_unprotect (fuel + 1) s (some core)
                 else some s
      match s1? with
      | none => none
      | some s1 =>
        let s2 := { s1 with prepare_count := Function.update s1.prepare_count core (s1.prepare_count core - 1) }
        if s2.prepare_count core > 0 then some s2
        else
          let s3 := if (s2.ops core).unprepare then s2.log (.op_unprepare core) else s2
          let s4 := clk_pm_runtime_put s3 core
          clk_core_unprepare fuel s4 (s4.parent core)

/-- The source's `clk_core_prepare`. -/
def clk_core_prepare (hw : Hw) : Nat → State → Option Nat → Option (Int × State)
  | _, s, none => some (0, s)
  | 0, _, some _ => none
  | fuel + 1, s, some core =>
    let finish (s : State) : Option (Int × State) :=
      let s1 := { s with prepare_count := Function.update s.prepare_count core (s.prepare_count core + 1) }
      if (s1.flags core).CLK_SET_RATE_GATE then
        match clk_core_rate_protect (fuel + 1) s1 (some core) with
        | none => none
        | some s2 => some (0, s2)
      else some (0, s1)
    if s.prepare_count core = 0 then
      match clk_pm_runtime_get hw s core with
      | (ret, s1) =>
        if ret ≠ 0 then some (ret, s1)
        else
          match clk_core_prepare hw fuel s1 (s1.parent core) with
          | none => none
          | some (ret, s2) =>
            if ret ≠ 0 then some (ret, clk_pm_runtime_put s2 core)
            else
              let ret := if (s2.ops core).prepare then hw.prepare s2 core else 0
              let s3 := if (s2.ops core).prepare then s2.log (.op_prepare core) else s2
              if ret ≠ 0 then
                match clk_core_unprepare fuel s3 (s3.parent core) with
                | none => none
                | some s4 => some (ret, clk_pm_runtime_put s4 core)
              else finish s3
    else finish s

/-- The source's `clk_core_disable`. -/
def clk_core_disable : Nat → State → Option Nat → Option State
  | _, s, none => some s
  | 0, _, some _ => none
  | fuel + 1, s, some core =>
    if s.enable_count core = 0 then some s
    else if s.enable_count core = 1 && (s.flags core).CLK_IS_CRITICAL then some s
    else
      let s1 := { s with enable_count := Function.update s.enable_count core (s.enable_count core - 1) }
      if s1.enable_count core > 0 then some s1
      else
        let s2 := if (s1.ops core).disable then s1.log (.op_disable core) else s1
        clk_core_disable fuel s2 (s2.parent core)

/-- The source's `clk_core_enable`. -/
def clk_core_enable (hw : Hw) : Nat → State → Option Nat → Option (Int × State)
  | _, s, none => some (0, s)
  | 0, _, some _ => none
  | fuel + 1, s, some core =>
    if s.prepare_count core = 0 then some (-ESHUTDOWN, s)
    else if s.enable_count core = 0 then
      match clk_core_enable hw fuel s (s.parent core) with
      | none => none
      | some (ret, s1) =>
        if ret ≠ 0 then some (ret, s1)
        else
          let ret := if (s1.ops core).enable then hw.enable s1 core else 0
          let s2 := if (s1.ops core).enable then s1.log (.op_enable core) else s1
          if ret ≠ 0 then
            match clk_core_disable fuel s2 (s2.parent core) with
            | none => none
            | some s3 => some (ret, s3)
          else
            some (0, { s2 with enable_count := Function.update s2.enable_count core (s2.enable_count core + 1) })
    else
      some (0, { s with enable_count := Function.update s.enable_count core (s.enable_count core + 1) })

/-- The source's `clk_core_prepare_enable` (the `_lock` wrappers take and release the reentrant
locks around the call and do nothing else). -/
def clk_core_prepare_enable (hw : Hw) (fuel : Nat) (s : State) (core : Option Nat) :
    Option (Int × State) :=
  match clk_core_prepare hw fuel s core with
  | none => none
  | some (ret, s1) =>
    if ret ≠ 0 then some (ret, s1)
    else
      match clk_core_enable hw fuel s1 core with
      | none => none
      | some (ret, s2) =>
        if ret ≠ 0 then
          match clk_core_unprepare fuel s2 core with
          | none => none
          | some s3 => some (ret, s3)
        else some (ret, s2)

/-- The source's `clk_core_disable_unprepare`. -/
def clk_core_disable_unprepare (fuel : Nat) (s : State) (core : Option Nat) : Option State :=
  match clk_core_disable fuel s core with
  | none => none
  | some s1 => clk_core_unprepare fuel s1 core

/-- The source's `__clk_notify`, walking `clk_notifier_list`: returns the last value returned
by a notifier chain of `core`, stopping at the first one with the stop bit. -/
def __clk_notify.walk (hw : Hw) (core msg old_rate new_rate : Nat) :
    List Nat → Nat → State → Nat × State
  | [], ret, s => (ret, s)
  | cn :: rest, ret, s =>
    if s.clk_core cn = core then
      let ret1 := hw.notifier_call_chain s cn msg old_rate new_rate
      let s1 := s.log (.notify cn msg old_rate new_rate)
      if ret1 &&& NOTIFY_STOP_MASK ≠ 0 then (ret1, s1)
      else __clk_notify.walk hw core msg old_rate new_rate rest ret1 s1
    else __clk_notify.walk hw core msg old_rate new_rate rest ret s

/-- The source's `__clk_notify`. -/
def __clk_notify (hw : Hw) (s : State) (core msg old_rate new_rate : Nat) : Nat × State :=
  __clk_notify.walk hw core msg old_rate new_rate s.clk_notifier_list NOTIFY_DONE s

/-- The source's `clk_recalc`. -/
def clk_recalc (hw : Hw) (s : State) (core parent_rate : Nat) : Nat × State :=
  if (s.ops core).recalc_rate then
    match clk_pm_runtime_get hw s core with
    | (ret, s1) =>
      if ret = 0 then (hw.recalc_rate s1 core parent_rate, clk_pm_runtime_put s1 core)
      else (parent_rate, s1)
  else (parent_rate, s)

/-- The source's `clk_core_rate_nuke_protect`. -/
def clk_core_rate_nuke_protect (fuel : Nat) (s : State) (core : Option Nat) :
    Option (Int × State) :=
  match core with
  | none => some (-EINVAL, s)
  | some c =>
    if s.protect_count c = 0 then some (0, s)
    else
      let ret : Int := s.protect_count c
      let s1 := { s with protect_count := Function.update s.protect_count c 1 }
      match clk_core_rate_unprotect fuel s1 (some c) with
      | none => none
      | some s2 => some (ret, s2)

/-- The source's `clk_core_rate_restore_protect`. -/
def clk_core_rate_restore_protect (fuel : Nat) (s : State) (core : Option Nat) (count : Int) :
    Option State :=
  match core with
  | none => some s
  | some c =>
    if count = 0 then some s
    else
      match clk_core_rate_protect fuel s (some c) with
      | none => none
      | some s1 => some { s1 with protect_count := Function.update s1.protect_count c count.toNat }

/-- The source's `clk_core_determine_round_nolock`: the return value and `*req`. -/
def clk_core_determine_round_nolock (hw : Hw) (s : State) (core : Option Nat)
    (req : clk_rate_request) : Int × clk_rate_request :=
  match core with
  | none => (0, req)
  | some c =>
    if clk_core_rate_is_protected s c then (0, { req with rate := s.rate c })
    else if (s.ops c).determine_rate then hw.determine_rate s c req
    else if (s.ops c).round_rate then
      match hw.round_rate s c req.rate req.best_parent_rate with
      | (rate, best_parent_rate) =>
        if rate < 0 then (rate, { req with best_parent_rate := best_parent_rate })
        else (0, { req with best_parent_rate := best_parent_rate, rate := rate.toNat })
    else (-EINVAL, req)

/-- The source's `clk_core_init_rate_req`. -/
def clk_core_init_rate_req (s : State) (core : Nat) (req : clk_rate_request) :
    clk_rate_request :=
  match s.parent core with
  | some parent => { req with best_parent_hw := some parent, best_parent_rate := s.rate parent }
  | none => { req with best_parent_hw := none, best_parent_rate := 0 }

/-- The source's `clk_core_can_round`. -/
def clk_core_can_round (s : State) (core : Nat) : Bool :=
  (s.ops core).determine_rate || (s.ops core).round_rate

/-- The source's `clk_core_round_rate_nolock`: the return value and `*req`. -/
def clk_core_round_rate_nolock (hw : Hw) :
    Nat → State → Option Nat → clk_rate_request → Option (Int × clk_rate_request)
  | _, _, none, req => some (0, { req with rate := 0 })
  | 0, _, some _, _ => none
  | fuel + 1, s, some core, req =>
    let req := clk_core_init_rate_req s core req
    if clk_core_can_round s core then some (clk_core_determine_round_nolock hw s (some core) req)
    else if (s.flags core).CLK_SET_RATE_PARENT then
      clk_core_round_rate_nolock hw fuel s (s.parent core) req
    else some (0, { req with rate := s.rate core })

/-- The source's `clk_core_req_round_rate_nolock`. -/
def clk_core_req_round_rate_nolock (hw : Hw) (fuel : Nat) (s : State) (core : Option Nat)
    (req_rate : Nat) : Option (Nat × State) :=
  match core with
  | none => some (0, s)
  | some c =>
    match clk_core_rate_nuke_protect fuel s (some c) with
    | none => none
    | some (cnt, s1) =>
      if cnt < 0 then some ((cnt % 2 ^ 64).toNat, s1)
      else
        let b := clk_core_get_boundaries s1 c
        let req : clk_rate_request := { rate := req_rate, min_rate := b.1, max_rate := b.2 }
        match clk_core_round_rate_nolock hw fuel s1 (some c) req with
        | none => none
        | some (ret, req) =>
          match clk_core_rate_restore_protect fuel s1 (some c) cnt with
          | none => none
          | some s2 => some (if ret ≠ 0 then 0 else req.rate, s2)

/-- The slot test of the loop in the source's `clk_fetch_parent_index`: whether the loop ends at
slot `i`, by `return i` or by `break`. -/
def clk_fetch_parent_index.hit (hw : Hw) (s : State) (core parent : Nat) (i : Nat) : Bool :=
  let slot := (s.parents core).getD i {}
  if slot.core = some parent then true
  else if slot.core.isSome then false
  else if slot.hw.isSome then slot.hw = some parent
  else if hw.clk_core_get s core i = .core parent then true
  else slot.name = some (s.name parent)

/-- The source's `clk_fetch_parent_index`: the index (`-EINVAL` when there is none) and the
state with the slot's cache filled. -/
def clk_fetch_parent_index (hw : Hw) (s : State) (core : Nat) (parent : Option Nat) :
    Int × State :=
  match parent with
  | none => (-EINVAL, s)
  | some p =>
    match (List.range (s.num_parents core)).find? (clk_fetch_parent_index.hit hw s core p) with
    | none => (-EINVAL, s)
    | some i =>
      let slot : clk_parent_map := { (s.parents core).getD i {} with core := some p }
      (i, { s with parents := Function.update s.parents core ((s.parents core).set i slot) })

/-- The source's `clk_core_update_orphan_status`. -/
def clk_core_update_orphan_status : Nat → State → Nat → Bool → Option State
  | 0, _, _, _ => none
  | fuel + 1, s, core, is_orphan =>
    let s1 := { s with orphan := Function.update s.orphan core is_orphan }
    (s1.children core).foldlM
      (fun st child => clk_core_update_orphan_status fuel st child is_orphan) s1

/-- The `hlist_del(&core->child_node)` of the source: the node leaves the list it is on, which
is the child list of its parent, the root list or the orphan list. -/
def hlist_del_child_node (s : State) (core : Nat) : State :=
  let roots := s.clk_root_list.erase core
  let orphans := s.clk_orphan_list.erase core
  let s1 := { s with clk_root_list := roots, clk_orphan_list := orphans }
  match s.parent core with
  | none => s1
  | some p => { s1 with children := Function.update s1.children p ((s1.children p).erase core) }

/-- The source's `clk_reparent`. -/
def clk_reparent (fuel : Nat) (s : State) (core : Nat) (new_parent : Option Nat) :
    Option State :=
  let was_orphan := s.orphan core
  let s1 := hlist_del_child_node s core
  let s2? : Option State :=
    match new_parent with
    | some np =>
      let becomes_orphan := s1.orphan np
      let s2 := if s1.new_child np = some core then
                  { s1 with new_child := Function.update s1.new_child np none }
                else s1
      let s3 := { s2 with children := Function.update s2.children np (core :: s2.children np) }
      if was_orphan != becomes_orphan then
        clk_core_update_orphan_status fuel s3 core becomes_orphan
      else some s3
    | none =>
      let s2 := { s1 with clk_orphan_list := core :: s1.clk_orphan_list }
      if !was_orphan then clk_core_update_orphan_status fuel s2 core true
      else some s2
  match s2? with
  | none => none
  | some s4 => some { s4 with parent := Function.update s4.parent core new_parent }

/-- The source's `__clk_set_parent_before`: returns `old_parent` and the new state. -/
def __clk_set_parent_before (hw : Hw) (fuel : Nat) (s : State) (core : Nat)
    (parent : Option Nat) : Option (Option Nat × State) :=
  let old_parent := s.parent core
  let s2? : Option State :=
    if (s.flags core).CLK_OPS_PARENT_ENABLE then
      match clk_core_prepare_enable hw fuel s old_parent with
      | none => none
      | some (_, s1) =>
        match clk_core_prepare_enable hw fuel s1 parent with
        | none => none
        | some (_, s2) => some s2
    else some s
  match s2? with
  | none => none
  | some s2 =>
    let s4? : Option State :=
      if s2.prepare_count core ≠ 0 then
        match clk_core_prepare_enable hw fuel s2 parent with
        | none => none
        | some (_, s3) =>
          match clk_core_enable hw fuel s3 (some core) with
          | none => none
          | some (_, s4) => some s4
      else some s2
    match s4? with
    | none => none
    | some s4 =>
      match clk_reparent fuel s4 core parent with
      | none => none
      | some s5 => some (old_parent, s5)

/-- The source's `__clk_set_parent_after`. -/
def __clk_set_parent_after (fuel : Nat) (s : State) (core : Nat)
    (parent old_parent : Option Nat) : Option State :=
  let s2? : Option State :=
    if s.prepare_count core ≠ 0 then
      match clk_core_disable fuel s (some core) with
      | none => none
      | some s1 => clk_core_disable_unprepare fuel s1 old_parent
    else some s
  match s2? with
  | none => none
  | some s2 =>
    if (s2.flags core).CLK_OPS_PARENT_ENABLE then
      match clk_core_disable_unprepare fuel s2 parent with
      | none => none
      | some s3 => clk_core_disable_unprepare fuel s3 old_parent
    else some s2

/-- The source's `__clk_set_parent`. -/
def __clk_set_parent (hw : Hw) (fuel : Nat) (s : State) (core : Nat) (parent : Option Nat)
    (p_index : Nat) : Option (Int × State) :=
  match __clk_set_parent_before hw fuel s core parent with
  | none => none
  | some (old_parent, s1) =>
    let call := parent.isSome && (s1.ops core).set_parent
    let ret : Int := if call then hw.set_parent s1 core p_index else 0
    let s2 := if call then s1.log (.op_set_parent core p_index) else s1
    if ret ≠ 0 then
      match clk_reparent fuel s2 core old_parent with
      | none => none
      | some s3 =>
        match __clk_set_parent_after fuel s3 core old_parent parent with
        | none => none
        | some s4 => some (ret, s4)
    else
      match __clk_set_parent_after fuel s2 core parent old_parent with
      | none => none
      | some s3 => some (0, s3)

/-- The source's `__clk_speculate_rates`; the loop over the children stops at the first child
whose result carries the stop bit. -/
def __clk_speculate_rates (hw : Hw) : Nat → State → Nat → Nat → Option (Nat × State)
  | 0, _, _, _ => none
  | fuel + 1, s, core, parent_rate =>
    match clk_recalc hw s core parent_rate with
    | (new_rate, s1) =>
      match (if s1.notifier_count core ≠ 0 then
              __clk_notify hw s1 core PRE_RATE_CHANGE (s1.rate core) new_rate
             else (NOTIFY_DONE, s1)) with
      | (ret, s2) =>
        if ret &&& NOTIFY_STOP_MASK ≠ 0 then some (ret, s2)
        else
          (s2.children core).foldlM
            (fun (acc : Nat × State) child =>
              if acc.1 &&& NOTIFY_STOP_MASK ≠ 0 then some acc
              else __clk_speculate_rates hw fuel acc.2 child new_rate)
            (ret, s2)

/-- The source's `__clk_recalc_accuracies`. -/
def __clk_recalc_accuracies (hw : Hw) : Nat → State → Nat → Option State
  | 0, _, _ => none
  | fuel + 1, s, core =>
    let parent_accuracy := match s.parent core with
      | some p => s.accuracy p
      | none => 0
    let accuracy := if (s.ops core).recalc_accuracy then
        hw.recalc_accuracy s core parent_accuracy
      else parent_accuracy
    let s1 := { s with accuracy := Function.update s.accuracy core accuracy }
    (s1.children core).foldlM (fun st child => __clk_recalc_accuracies hw fuel st child) s1

/-- The source's `__clk_recalc_rates`. -/
def __clk_recalc_rates (hw : Hw) : Nat → State → Nat → Nat → Option State
  | 0, _, _, _ => none
  | fuel + 1, s, core, msg =>
    let old_rate := s.rate core
    let parent_rate := match s.parent core with
      | some p => s.rate p
      | none => 0
    match clk_recalc hw s core parent_rate with
    | (rate, s1) =>
      let s2 := { s1 with rate := Function.update s1.rate core rate }
      let s3 := if s2.notifier_count core ≠ 0 && msg ≠ 0 then
          (__clk_notify hw s2 core msg old_rate (s2.rate core)).2
        else s2
      (s3.children core).foldlM (fun st child => __clk_recalc_rates hw fuel st child msg) s3

/-- The source's `clk_calc_subtree`. -/
def clk_calc_subtree (hw : Hw) : Nat → State → Nat → Nat → Option Nat → Nat → Option State
  | 0, _, _, _, _, _ => none
  | fuel + 1, s, core, new_rate, new_parent, p_index =>
    let s1 := { s with new_rate := Function.update s.new_rate core new_rate,
                       new_parent := Function.update s.new_parent core new_parent,
                       new_parent_index := Function.update s.new_parent_index core p_index,
                       new_child := Function.update s.new_child core none }
    let s2 := match new_parent with
      | some np =>
        if new_parent ≠ s1.parent core then
          { s1 with new_child := Function.update s1.new_child np (some core) }
        else s1
      | none => s1
    (s2.children core).foldlM
      (fun st child =>
        match clk_recalc hw st child new_rate with
        | (child_rate, st1) =>
          let st2 := { st1 with new_rate := Function.update st1.new_rate child child_rate }
          clk_calc_subtree hw fuel st2 child (st2.new_rate child) none 0)
      s2

/-- The source's `clk_calc_new_rates`: returns `top` (`NULL` as `none`) and the new state. -/
def clk_calc_new_rates (hw : Hw) : Nat → State → Option Nat → Nat → Option (Option Nat × State)
  | _, s, none, _ => some (none, s)
  | 0, _, some _, _ => none
  | fuel + 1, s, some core, rate =>
    let old_parent := s.parent core
    let b := clk_core_get_boundaries s core
    let min_rate := b.1
    let max_rate := b.2
    if clk_core_can_round s core then
      let req : clk_rate_request := { rate := rate, min_rate := min_rate, max_rate := max_rate }
      let req := clk_core_init_rate_req s core req
      match clk_core_determine_round_nolock hw s (some core) req with
      | (ret, req) =>
        if ret < 0 then some (none, s)
        else
          let best_parent_rate := req.best_parent_rate
          let new_rate := req.rate
          let parent := req.best_parent_hw
          if new_rate < min_rate || new_rate > max_rate then some (none, s)
          else if parent ≠ old_parent && (s.flags core).CLK_SET_PARENT_GATE
              && s.prepare_count core ≠ 0 then some (none, s)
          else
            match (if parent.isSome && s.num_parents core > 1 then
                    clk_fetch_parent_index hw s core parent
                   else (0, s)) with
            | (p_index, s1) =>
              if p_index < 0 then some (none, s1)
              else
                let goup := (s1.flags core).CLK_SET_RATE_PARENT && parent.isSome
                  && best_parent_rate ≠ s1.rate (parent.getD 0)
                match (if goup then clk_calc_new_rates hw fuel s1 parent best_parent_rate
                       else some (some core, s1)) with
                | none => none
                | some (top, s2) =>
                  match clk_calc_subtree hw fuel s2 core new_rate parent p_index.toNat with
                  | none => none
                  | some s3 => some (top, s3)
    else
      match old_parent with
      | some parent =>
        if (s.flags core).CLK_SET_RATE_PARENT then
          match clk_calc_new_rates hw fuel s (some parent) rate with
          | none => none
          | some (top, s1) =>
            match clk_calc_subtree hw fuel s1 core (s1.new_rate parent) (some parent) 0 with
            | none => none
            | some s2 => some (top, s2)
        else some (none, { s with new_rate := Function.update s.new_rate core (s.rate core) })
      | none => some (none, { s with new_rate := Function.update s.new_rate core (s.rate core) })

/-- The source's `clk_propagate_rate_change`: returns `fail_clk` and the new state. -/
def clk_propagate_rate_change (hw : Hw) : Nat → State → Nat → Nat → Option (Option Nat × State)
  | 0, _, _, _ => none
  | fuel + 1, s, core, event =>
    if s.rate core = s.new_rate core then some (none, s)
    else
      match (if s.notifier_count core ≠ 0 then
              match __clk_notify hw s core event (s.rate core) (s.new_rate core) with
              | (ret, s1) =>
                ((if ret &&& NOTIFY_STOP_MASK ≠ 0 then some core else none : Option Nat), s1)
             else (none, s)) with
      | (fail_clk, s1) =>
        match (s1.children core).foldlM
            (fun (acc : Option Nat × State) child =>
              if (acc.2.new_parent child).isSome && acc.2.new_parent child ≠ some core then
                some acc
              else
                match clk_propagate_rate_change hw fuel acc.2 child event with
                | none => none
                | some (tmp_clk, st) => some (if tmp_clk.isSome then tmp_clk else acc.1, st))
            (fail_clk, s1) with
        | none => none
        | some (fail_clk, s2) =>
          match s2.new_child core with
          | some nc =>
            match clk_propagate_rate_change hw fuel s2 nc event with
            | none => none
            | some (tmp_clk, s3) => some (if tmp_clk.isSome then tmp_clk else fail_clk, s3)
          | none => some (fail_clk, s2)

/-- The element after `pos` on a list. -/
def hlist_next_in : List Nat → Nat → Option Nat
  | [], _ => none
  | [_], _ => none
  | a :: b :: rest, pos => if a = pos then some b else hlist_next_in (b :: rest) pos

/-- The `pos->child_node.next` of the source: the node after `pos` on the list `pos` is on. -/
def hlist_next (s : State) (pos : Nat) : Option Nat :=
  match s.parent pos with
  | some p => hlist_next_in (s.children p) pos
  | none =>
    if pos ∈ s.clk_root_list then hlist_next_in s.clk_root_list pos
    else hlist_next_in s.clk_orphan_list pos

mutual

/-- The source's `clk_change_rate`. -/
def clk_change_rate (hw : Hw) : Nat → State → Nat → Option State
  | 0, _, _ => none
  | fuel + 1, s, core =>
    let old_rate := s.rate core
    let parent : Option Nat :=
      if (s.new_parent core).isSome then s.new_parent core else s.parent core
    let best_parent_rate : Nat := match parent with
      | some p => s.rate p
      | none => 0
    match clk_pm_runtime_get hw s core with
    | (ret, s1) =>
      if ret ≠ 0 then some s1
      else
        let s3? : Option State :=
          if (s1.flags core).CLK_SET_RATE_UNGATE then
            match clk_core_prepare hw fuel s1 (some core) with
            | none => none
            | some (_, s2) =>
              match clk_core_enable hw fuel s2 (some core) with
              | none => none
              | some (_, s3) => some s3
          else some s1
        match s3? with
        | none => none
        | some s3 =>
          let reparent := (s3.new_parent core).isSome && s3.new_parent core ≠ s3.parent core
          let s5? : Option (Bool × State) :=
            if reparent then
              match __clk_set_parent_before hw fuel s3 core (s3.new_parent core) with
              | none => none
              | some (old_parent, s4) =>
                let s4a :=
                  if (s4.ops core).set_rate_and_parent then
                    s4.log (.op_set_rate_and_parent core (s4.new_rate core) best_parent_rate
                      (s4.new_parent_index core))
                  else if (s4.ops core).set_parent then
                    s4.log (.op_set_parent core (s4.new_parent_index core))
                  else s4
                match __clk_set_parent_after fuel s4a core (s4a.new_parent core) old_parent with
                | none => none
                | some s5 => some ((s4.ops core).set_rate_and_parent, s5)
            else some (false, s3)
          match s5? with
          | none => none
          | some (skip_set_rate, s5) =>
            let s6? : Option State :=
              if (s5.flags core).CLK_OPS_PARENT_ENABLE then
                match clk_core_prepare_enable hw fuel s5 parent with
                | none => none
                | some (_, s6) => some s6
              else some s5
            match s6? with
            | none => none
            | some s6 =>
              let s7 := if !skip_set_rate && (s6.ops core).set_rate then
                  s6.log (.op_set_rate core (s6.new_rate core) best_parent_rate)
                else s6
              match clk_recalc hw s7 core best_parent_rate with
              | (rate, s8) =>
                let s9 := { s8 with rate := Function.update s8.rate core rate }
                let s10? : Option State :=
                  if (s9.flags core).CLK_SET_RATE_UNGATE then
                    match clk_core_disable fuel s9 (some core) with
                    | none => none
                    | some s10 => clk_core_unprepare fuel s10 (some core)
                  else some s9
                match s10? with
                | none => none
                | some s10 =>
                  let s11? : Option State :=
                    if (s10.flags core).CLK_OPS_PARENT_ENABLE then
                      clk_core_disable_unprepare fuel s10 parent
                    else some s10
                  match s11? with
                  | none => none
                  | some s11 =>
                    let s12 := if s11.notifier_count core ≠ 0 && old_rate ≠ s11.rate core then
                        (__clk_notify hw s11 core POST_RATE_CHANGE old_rate (s11.rate core)).2
                      else s11
                    let s13? : Option State :=
                      if (s12.flags core).CLK_RECALC_NEW_RATES then
                        match clk_calc_new_rates hw fuel s12 (some core) (s12.new_rate core) with
                        | none => none
                        | some (_, s13) => some s13
                      else some s12
                    match s13? with
                    | none => none
                    | some s13 =>
                      match clk_change_rate.children hw fuel s13 core
                          (s13.children core).head? with
                      | none => none
                      | some s14 =>
                        match s14.new_child core with
                        | some nc =>
                          match clk_change_rate hw fuel s14 nc with
                          | none => none
                          | some s15 => some (clk_pm_runtime_put s15 core)
                        | none => some (clk_pm_runtime_put s14 core)

/-- The `hlist_for_each_entry_safe` loop over `core->children` in the source's
`clk_change_rate`, from position `pos` on: the successor is read before the body runs. -/
def clk_change_rate.children (hw : Hw) : Nat → State → Nat → Option Nat → Option State
  | _, s, _, none => some s
  | 0, _, _, some _ => none
  | fuel + 1, s, core, some child =>
    let tmp := hlist_next s child
    let s1? : Option State :=
      if (s.new_parent child).isSome && s.new_parent child ≠ some core then some s
      else clk_change_rate hw fuel s child
    match s1? with
    | none => none
    | some s1 => clk_change_rate.children hw fuel s1 core tmp

end

/-- The source's `clk_core_set_rate_nolock`. -/
def clk_core_set_rate_nolock (hw : Hw) (fuel : Nat) (s : State) (core : Option Nat)
    (req_rate : Nat) : Option (Int × State) :=
  match core with
  | none => some (0, s)
  | some c =>
    match clk_core_req_round_rate_nolock hw fuel s (some c) req_rate with
    | none => none
    | some (rate, s1) =>
      if rate = clk_core_get_rate_nolock s1 (some c) then some (0, s1)
      else if clk_core_rate_is_protected s1 c then some (-EBUSY, s1)
      else
        match clk_calc_new_rates hw fuel s1 (some c) req_rate with
        | none => none
        | some (none, s2) => some (-EINVAL, s2)
        | some (some top, s2) =>
          match clk_pm_runtime_get hw s2 c with
          | (ret, s3) =>
            if ret ≠ 0 then some (ret, s3)
            else
              match clk_propagate_rate_change hw fuel s3 top PRE_RATE_CHANGE with
              | none => none
              | some (some _, s4) =>
                match clk_propagate_rate_change hw fuel s4 top ABORT_RATE_CHANGE with
                | none => none
                | some (_, s5) => some (-EBUSY, clk_pm_runtime_put s5 c)
              | some (none, s4) =>
                match clk_change_rate hw fuel s4 top with
                | none => none
                | some s5 =>
                  let s6 := { s5 with req_rate := Function.update s5.req_rate c req_rate }
                  some (0, clk_pm_runtime_put s6 c)

/-- The source's `clk_set_rate`; `clk` is the handle, `none` for `NULL`. -/
def clk_set_rate (hw : Hw) (fuel : Nat) (s : State) (clk : Option Nat) (rate : Nat) :
    Option (Int × State) :=
  match clk with
  | none => some (0, s)
  | some k =>
    let s1? := if s.exclusive_count k ≠ 0 then clk_core_rate_unprotect fuel s (some (s.clk_core k))
               else some s
    match s1? with
    | none => none
    | some s1 =>
      match clk_core_set_rate_nolock hw fuel s1 (some (s1.clk_core k)) rate with
      | none => none
      | some (ret, s2) =>
        let s3? := if s2.exclusive_count k ≠ 0 then
                     clk_core_rate_protect fuel s2 (some (s2.clk_core k))
                   else some s2
        match s3? with
        | none => none
        | some s3 => some (ret, s3)

/-- The source's `clk_rate_exclusive_get`. -/
def clk_rate_exclusive_get (fuel : Nat) (s : State) (clk : Option Nat) : Option (Int × State) :=
  match clk with
  | none => some (0, s)
  | some k =>
    match clk_core_rate_protect fuel s (some (s.clk_core k)) with
    | none => none
    | some s1 =>
      let count := s1.exclusive_count k + 1
      some (0, { s1 with exclusive_count := Function.update s1.exclusive_count k count })

/-- The source's `clk_rate_exclusive_put`. -/
def clk_rate_exclusive_put (fuel : Nat) (s : State) (clk : Option Nat) : Option State :=
  match clk with
  | none => some s
  | some k =>
    if s.exclusive_count k = 0 then some s
    else
      match clk_core_rate_unprotect fuel s (some (s.clk_core k)) with
      | none => none
      | some s1 =>
        let count := s1.exclusive_count k - 1
        some { s1 with exclusive_count := Function.update s1.exclusive_count k count }

/-- The source's `clk_core_set_parent_nolock`. -/
def clk_core_set_parent_nolock (hw : Hw) (fuel : Nat) (s : State) (core parent : Option Nat) :
    Option (Int × State) :=
  match core with
  | none => some (0, s)
  | some c =>
    if s.parent c = parent then some (0, s)
    else if s.num_parents c > 1 && !(s.ops c).set_parent then some (-EPERM, s)
    else if (s.flags c).CLK_SET_PARENT_GATE && s.prepare_count c ≠ 0 then some (-EBUSY, s)
    else if clk_core_rate_is_protected s c then some (-EBUSY, s)
    else
      match (if parent.isSome then clk_fetch_parent_index hw s c parent else (0, s)) with
      | (p_index, s1) =>
        if p_index < 0 then some (p_index, s1)
        else
          let p_rate := match parent with
            | some p => s1.rate p
            | none => 0
          match clk_pm_runtime_get hw s1 c with
          | (ret, s2) =>
            if ret ≠ 0 then some (ret, s2)
            else
              match __clk_speculate_rates hw fuel s2 c p_rate with
              | none => none
              | some (nret, s3) =>
                if nret &&& NOTIFY_STOP_MASK ≠ 0 then some (nret, clk_pm_runtime_put s3 c)
                else
                  match __clk_set_parent hw fuel s3 c parent p_index.toNat with
                  | none => none
                  | some (ret, s4) =>
                    let s6? : Option State :=
                      if ret ≠ 0 then __clk_recalc_rates hw fuel s4 c ABORT_RATE_CHANGE
                      else
                        match __clk_recalc_rates hw fuel s4 c POST_RATE_CHANGE with
                        | none => none
                        | some s5 => __clk_recalc_accuracies hw fuel s5 c
                    match s6? with
                    | none => none
                    | some s6 => some (ret, clk_pm_runtime_put s6 c)

/-- The source's `clk_set_parent`; both arguments are handles. -/
def clk_set_parent (hw : Hw) (fuel : Nat) (s : State) (clk parent : Option Nat) :
    Option (Int × State) :=
  match clk with
  | none => some (0, s)
  | some k =>
    let s1? := if s.exclusive_count k ≠ 0 then clk_core_rate_unprotect fuel s (some (s.clk_core k))
               else some s
    match s1? with
    | none => none
    | some s1 =>
      match clk_core_set_parent_nolock hw fuel s1 (some (s1.clk_core k))
          (parent.map s1.clk_core) with
      | none => none
      | some (ret, s2) =>
        let s3? := if s2.exclusive_count k ≠ 0 then
                     clk_core_rate_protect fuel s2 (some (s2.clk_core k))
                   else some s2
        match s3? with
        | none => none
        | some s3 => some (ret, s3)

/-- The source's `clk_get_parent`: the handle `core->parent->hw->clk`, `NULL` without parent. -/
def clk_get_parent (s : State) (clk : Option Nat) : Option Nat :=
  match clk with
  | none => none
  | some k => (s.parent (s.clk_core k)).map s.hw_clk

/-- A state with no nodes worth mentioning: every counter zero, every list empty, every pointer
`NULL`, except that each `clk_hw` points back at its own node; concrete scenarios are built by
overriding fields. -/
def State.blank : State where
  name := fun _ => ""
  ops := fun _ => {}
  parent := fun _ => none
  parents := fun _ => []
  num_parents := fun _ => 0
  new_parent_index := fun _ => 0
  rate := fun _ => 0
  req_rate := fun _ => 0
  new_rate := fun _ => 0
  new_parent := fun _ => none
  new_child := fun _ => none
  flags := fun _ => {}
  orphan := fun _ => false
  rpm_enabled := fun _ => false
  enable_count := fun _ => 0
  prepare_count := fun _ => 0
  protect_count := fun _ => 0
  min_rate := fun _ => 0
  max_rate := fun _ => ULONG_MAX
  accuracy := fun _ => 0
  phase := fun _ => 0
  duty_num := fun _ => 0
  duty_den := fun _ => 0
  ref := fun _ => 0
  children := fun _ => []
  clks := fun _ => []
  notifier_count := fun _ => 0
  hw_clk := fun _ => 0
  hw_core := fun n => some n
  clk_core := fun _ => 0
  clk_min_rate := fun _ => 0
  clk_max_rate := fun _ => ULONG_MAX
  exclusive_count := fun _ => 0
  clk_root_list := []
  clk_orphan_list := []
  clk_notifier_list := []
  trace := []

/-- External code that always succeeds and has nothing to say: every callback returns 0, rounding
returns the requested rate, recalculation returns the parent rate. -/
def Hw.quiet : Hw where
  prepare := fun _ _ => 0
  enable := fun _ _ => 0
  recalc_rate := fun _ _ parent_rate => parent_rate
  round_rate := fun _ _ rate parent_rate => (rate, parent_rate)
  determine_rate := fun _ _ req => (0, req)
  set_parent := fun _ _ _ => 0
  recalc_accuracy := fun _ _ parent_accuracy => parent_accuracy
  notifier_call_chain := fun _ _ _ _ _ => NOTIFY_DONE
  pm_runtime_get_sync := fun _ _ => 0
  clk_core_get := fun _ _ _ => .err (-ENOENT)
  init := fun _ _ => 0
  get_parent := fun _ _ => 0
  get_phase := fun _ _ => 0
  get_duty_cycle := fun _ _ => (0, 1, 2)
  set_phase := fun _ _ _ => 0
  set_duty_cycle := fun _ _ _ _ => 0

/-! ## Reference walks in general

`clk_core_rate_protect`, `clk_core_prepare` and `clk_core_enable` climb the parent chain in the
same way, and so do the three release functions.  `ref_get` and `ref_put` are that walk on a bare
counter map; the lemmas below relate each source function to them. -/

/-- Take one reference on `core`: climb while the counter is 0, then increment on the way back. -/
def ref_get (par : Nat → Option Nat) : Nat → (Nat → Nat) → Option Nat → Option (Nat → Nat)
  | _, c, none => some c
  | 0, _, some _ => none
  | fuel + 1, c, some core =>
    if c core = 0 then
      match ref_get par fuel c (par core) with
      | none => none
      | some c1 => some (Function.update c1 core (c1 core + 1))
    else some (Function.update c core (c core + 1))

/-- Drop one reference on `core`: refuse at 0 and at the last reference of a critical node,
decrement, and climb when the counter reached 0. -/
def ref_put (par : Nat → Option Nat) (crit : Nat → Bool) :
    Nat → (Nat → Nat) → Option Nat → Option (Nat → Nat)
  | _, c, none => some c
  | 0, _, some _ => none
  | fuel + 1, c, some core =>
    if c core = 0 then some c
    else if c core = 1 && crit core then some c
    else if c core - 1 > 0 then some (Function.update c core (c core - 1))
    else ref_put par crit fuel (Function.update c core (c core - 1)) (par core)

/-- Number of children of `x` (among the nodes below `N`) whose counter is positive. -/
def live_children (par : Nat → Option Nat) (N : Nat) (c : Nat → Nat) (x : Nat) : Nat :=
  ((Finset.range N).filter (fun y => par y = some x ∧ 0 < c y)).card

/-- A depth function for the parent map `par`: the nodes that have a parent are below `N`, and
the depth, at most `N` on them, decreases strictly from child to parent. -/
def IsDepth (par : Nat → Option Nat) (N : Nat) (dep : Nat → Nat) : Prop :=
  ∀ n p, par n = some p → n < N ∧ dep p < dep n ∧ dep n ≤ N

/-- A finite forest: the parent map has a depth function. -/
def Forest (par : Nat → Option Nat) (N : Nat) : Prop :=
  ∃ dep : Nat → Nat, IsDepth par N dep

/-- Counting invariant from below, with one spare reference at `m` when `m` is a node: every
counter covers the direct references `g` and the children that are alive. -/
def LowInv (par : Nat → Option Nat) (N : Nat) (g c : Nat → Nat) (m : Option Nat) : Prop :=
  ∀ x, g x + live_children par N c x + (if m = some x then 1 else 0) ≤ c x

/-- Counting invariant from above, with one missing reference allowed at `m`. -/
def UpInv (par : Nat → Option Nat) (N : Nat) (g c : Nat → Nat) (m : Option Nat) : Prop :=
  ∀ x, c x ≤ g x + live_children par N c x + (if m = some x then 1 else 0)

/-- The hardware callbacks of the refcount engine and runtime PM never fail. -/
def OpsSucceed (hw : Hw) : Prop :=
  ∀ s n, hw.prepare s n = 0 ∧ hw.enable s n = 0 ∧ 0 ≤ hw.pm_runtime_get_sync s n

/-- One call into the refcount engine. -/
inductive refcount_call where
  | prepare (core : Nat)
  | unprepare (core : Nat)
  | enable (core : Nat)
  | disable (core : Nat)
  deriving DecidableEq, Repr

/-- Run one call: its return value (0 for the `void` functions) and the new state. -/
def refcount_step (hw : Hw) (fuel : Nat) (s : State) : refcount_call → Option (Int × State)
  | .prepare core => clk_core_prepare hw fuel s (some core)
  | .unprepare core => (clk_core_unprepare fuel s (some core)).map (fun s1 => (0, s1))
  | .enable core => clk_core_enable hw fuel s (some core)
  | .disable core => (clk_core_disable fuel s (some core)).map (fun s1 => (0, s1))

/-- Run a sequence of calls: the calls with their return values, and the final state. -/
def refcount_run (hw : Hw) (fuel : Nat) :
    State → List refcount_call → Option (List (refcount_call × Int) × State)
  | s, [] => some ([], s)
  | s, c :: cs =>
    match refcount_step hw fuel s c with
    | none => none
    | some (ret, s1) =>
      match refcount_run hw fuel s1 cs with
      | none => none
      | some (log, s2) => some ((c, ret) :: log, s2)

/-- How often the call `c` was made in `log`. -/
def called (c : refcount_call) (log : List (refcount_call × Int)) : Nat :=
  (log.map Prod.fst).count c

/-- How often the call `c` was made and returned 0 in `log`. -/
def acquired (c : refcount_call) (log : List (refcount_call × Int)) : Nat :=
  log.count (c, 0)

/-- No node is released more often than it was called for acquisition, in every prefix. -/
def balanced_calls (log : List (refcount_call × Int)) : Prop :=
  ∀ k n, called (.unprepare n) (log.take k) ≤ called (.prepare n) (log.take k) ∧
    called (.disable n) (log.take k) ≤ called (.enable n) (log.take k)

/-- No node is released more often than it was acquired, an acquisition being a call that
returned 0, in every prefix; `gp` and `ge` are the references held at the start. -/
def balanced_from (gp ge : Nat → Nat) (log : List (refcount_call × Int)) : Prop :=
  ∀ k n, called (.unprepare n) (log.take k) ≤ gp n + acquired (.prepare n) (log.take k) ∧
    called (.disable n) (log.take k) ≤ ge n + acquired (.enable n) (log.take k)

/-- In every prefix no node has more enables outstanding than prepares outstanding. -/
def enables_within_prepares (gp ge : Nat → Nat) (log : List (refcount_call × Int)) : Prop :=
  ∀ k n, ge n + acquired (.enable n) (log.take k) + called (.unprepare n) (log.take k) ≤
    gp n + acquired (.prepare n) (log.take k) + called (.disable n) (log.take k)

/-- The references held directly, after one more call that returned `ret`. -/
def ghost_step (gp ge : Nat → Nat) (c : refcount_call) (ret : Int) :
    (Nat → Nat) × (Nat → Nat) :=
  match c with
  | .prepare n => (if ret = 0 then Function.update gp n (gp n + 1) else gp, ge)
  | .unprepare n => (Function.update gp n (gp n - 1), ge)
  | .enable n => (gp, if ret = 0 then Function.update ge n (ge n + 1) else ge)
  | .disable n => (gp, Function.update ge n (ge n - 1))

/-- The references held directly at the end of a log. -/
def ghost_run (gp ge : Nat → Nat) : List (refcount_call × Int) → (Nat → Nat) × (Nat → Nat)
  | [] => (gp, ge)
  | (c, ret) :: log => ghost_run (ghost_step gp ge c ret).1 (ghost_step gp ge c ret).2 log

/-- A two-node chain: node 1 is the child of node 0. -/
def chain2 : State :=
  { State.blank with parent := fun n => if n = 1 then some 0 else none }

/-- A single node holding one protect reference, nothing else set. -/
def protected1 : State :=
  { State.blank with protect_count := fun n => if n = 0 then 1 else 0 }

/-- Hardware whose `recalc_rate` reports the rate last planned for the node (`new_rate`), every
other callback as in `Hw.quiet`. -/
def Hw.tracking : Hw :=
  { Hw.quiet with recalc_rate := fun s n _ => s.new_rate n }

/-- A single root node running at 100 with `round_rate`, `set_rate` and `recalc_rate` ops, and
two consumer handles 0 and 1 on it. -/
def tunable1 : State :=
  { State.blank with
    ops := fun n =>
      if n = 0 then { round_rate := true, set_rate := true, recalc_rate := true } else {},
    rate := fun n => if n = 0 then 100 else 0,
    new_rate := fun n => if n = 0 then 100 else 0,
    clks := fun n => if n = 0 then [0, 1] else [],
    clk_root_list := [0] }

/-- The rate `clk_calc_new_rates` plans for a node that can round: what the node's
`determine_rate` or `round_rate` op answers to the request `rate` within the node's window. -/
def planned_rate (hw : Hw) (s : State) (core rate : Nat) : Nat :=
  (clk_core_determine_round_nolock hw s (some core) (clk_core_init_rate_req s core
    { rate := rate, min_rate := (clk_core_get_boundaries s core).1,
      max_rate := (clk_core_get_boundaries s core).2 })).2.rate

/-- Hardware whose `round_rate` clamps the request into the node's own `[min_rate, max_rate]`
and whose `recalc_rate` reports the rate last planned. -/
def Hw.clamping : Hw :=
  { Hw.tracking with
    round_rate := fun s n rate parent_rate =>
      ((max (s.min_rate n) (min rate (s.max_rate n)) : Nat), parent_rate) }

/-- The single tunable node, with the limits `[50, 150]` set on the node itself. -/
def windowed1 : State :=
  { tunable1 with
    min_rate := fun n => if n = 0 then 50 else 0,
    max_rate := fun n => if n = 0 then 150 else ULONG_MAX }

/-- The state `s'` differs from `s` at most in the three reference counters and the trace. -/
def CountFrame (s s' : State) : Prop :=
  ∃ e p r tr, s' = { s with enable_count := e, prepare_count := p, protect_count := r,
                            trace := tr }

/-- The state `s'` differs from `s` at most in the reference counters, the trace, the rates, the
accuracies and the parent caches: the tree and every handle are as in `s`. -/
def AttrFrame (s s' : State) : Prop :=
  ∃ e p r tr rate acc ps, s' = { s with enable_count := e, prepare_count := p, protect_count := r,
                                        trace := tr, rate := rate, accuracy := acc, parents := ps }

/-- A mux (node 0) with the two possible parents 1 and 2, currently under 1; handle `k` is a
consumer of node `k`, and `hw->clk` of node `n` is handle `n`. -/
def mux1 : State :=
  { State.blank with
    parent := fun n => if n = 0 then some 1 else none,
    children := fun n => if n = 1 then [0] else [],
    num_parents := fun n => if n = 0 then 2 else 0,
    parents := fun n => if n = 0 then [{ core := some 1 }, { core := some 2 }] else [],
    ops := fun n => if n = 0 then { set_parent := true, get_parent := true } else {},
    clk_core := fun k => k,
    hw_clk := fun n => n,
    clk_root_list := [1, 2] }

/-- Whether the event is a runtime-PM call. -/
def clk_event.is_pm : clk_event → Bool
  | .pm_runtime_get_sync _ => true
  | .pm_runtime_put_noidle _ => true
  | .pm_runtime_put_sync _ => true
  | _ => false

/-- Whether the event is one of the ops that commit a rate or a parent to the hardware. -/
def clk_event.is_set_op : clk_event → Bool
  | .op_set_rate _ _ _ => true
  | .op_set_parent _ _ => true
  | .op_set_rate_and_parent _ _ _ _ => true
  | _ => false

/-- The state `s'` differs from `s` at most in the planning fields (`new_rate`, `new_parent`,
`new_parent_index`, `new_child`), the parent caches, and a trace extended by runtime-PM calls. -/
def PlanFrame (s s' : State) : Prop :=
  ∃ nr np npi nc ps ext, (∀ e ∈ ext, clk_event.is_pm e = true) ∧
    s' = { s with new_rate := nr, new_parent := np, new_parent_index := npi, new_child := nc,
                  parents := ps, trace := s.trace ++ ext }

/-- The state `t` is `s` with another trace. -/
def SameButTrace (s t : State) : Prop := ∃ tr, t = { s with trace := tr }

/-- Every event of `ext` is a notification with message `msg`. -/
def AllNotify (msg : Nat) (ext : List clk_event) : Prop :=
  ∀ e ∈ ext, ∃ cn o n, e = clk_event.notify cn msg o n

/-- Every node that has a handle notified in `ext1` has a handle notified in `ext2`. -/
def Covers (core_of : Nat → Nat) (ext1 ext2 : List clk_event) : Prop :=
  ∀ cn m o n, clk_event.notify cn m o n ∈ ext1 →
    ∃ cn' m' o' n', clk_event.notify cn' m' o' n' ∈ ext2 ∧ core_of cn' = core_of cn

/-- Two runs side by side, one from `s` to `s'` and one from `t` to `t'`: each only extends the
trace, the first by notifications `ev1`, the second by notifications `ev2`, and every node
notified in the first run is notified in the second. -/
def Paired (ev1 ev2 : Nat) (s s' t t' : State) : Prop :=
  ∃ ext1 ext2, s' = { s with trace := s.trace ++ ext1 } ∧ t' = { t with trace := t.trace ++ ext2 } ∧
    AllNotify ev1 ext1 ∧ AllNotify ev2 ext2 ∧ Covers s.clk_core ext1 ext2

/-- Hardware as `Hw.tracking`, with notifier chains that answer `NOTIFY_BAD` (stop bit set) to
`PRE_RATE_CHANGE` and `NOTIFY_DONE` to everything else. -/
def Hw.vetoing : Hw :=
  { Hw.tracking with
    notifier_call_chain := fun _ _ msg _ _ =>
      if msg = PRE_RATE_CHANGE then NOTIFY_STOP_MASK + 2 else NOTIFY_DONE }

/-- The single tunable node with a notifier registered through handle 0. -/
def notified1 : State :=
  { tunable1 with
    notifier_count := fun n => if n = 0 then 1 else 0,
    clk_notifier_list := [0] }

/-- A node with a positive counter has a parent (when it has one) with a positive counter. -/
def Ancestry (par : Nat → Option Nat) (c : Nat → Nat) : Prop :=
  ∀ n p, par n = some p → 0 < c n → 0 < c p

/-- The state `s'` differs from `s` at most in the parent caches, the trace, the rates and the
accuracies: counters, tree and flags are as in `s`. -/
def RecalcFrame (s s' : State) : Prop :=
  ∃ ps tr rate acc, s' = { s with parents := ps, trace := tr, rate := rate, accuracy := acc }

/-- The mux `mux1` with gate ops (`enable`, `disable`) on every node, one prepare reference on
each of the three nodes and nothing enabled. -/
def mux_busy : State :=
  { mux1 with
    ops := fun n =>
      if n = 0 then { set_parent := true, get_parent := true, enable := true, disable := true }
      else { enable := true, disable := true },
    prepare_count := fun n => if n ≤ 2 then 1 else 0 }

/-- Hardware as `Hw.quiet`, except that the `set_parent` op fails with `-EIO`. -/
def Hw.stuck : Hw :=
  { Hw.quiet with set_parent := fun _ _ _ => -5 }

/-- Hardware as `Hw.stuck`, where also the `enable` op of node 2 fails with `-EIO`. -/
def Hw.faulty : Hw :=
  { Hw.stuck with enable := fun _ n => if n = 2 then -5 else 0 }

/-- A single critical node holding exactly one prepare reference and one enable reference, as a
`CLK_IS_CRITICAL` clock does once registration has finished. -/
def critical1 : State :=
  { State.blank with
    flags := fun _ => { CLK_IS_CRITICAL := true }
    prepare_count := fun n => if n = 0 then 1 else 0
    enable_count := fun n => if n = 0 then 1 else 0 }

/-- A two-node chain (node 1 under node 0) in which both nodes are prepared once and node 1 is
gated for rate changes (`CLK_SET_RATE_GATE`). -/
def prepared2 : State :=
  { chain2 with
    flags := fun n => if n = 1 then { CLK_SET_RATE_GATE := true } else {}
    prepare_count := fun n => if n = 0 ∨ n = 1 then 1 else 0
    protect_count := fun n => if n = 0 ∨ n = 1 then 1 else 0 }

/-- Hardware as `Hw.quiet`, except that the `prepare` op of node 1 fails with `-EIO`. -/
def Hw.balky : Hw :=
  { Hw.quiet with prepare := fun _ n => if n = 1 then -5 else 0 }

/-- The two-node chain (node 1 under node 0), nothing prepared, where both nodes have a
`prepare` and an `unprepare` op. -/
def gated2 : State :=
  { chain2 with ops := fun _ => { prepare := true, unprepare := true } }

/-- A single fixed-rate root: no ops at all, no possible parent, running at 100. -/
def fixed1 : State :=
  { State.blank with rate := fun n => if n = 0 then 100 else 0 }

/-- A single node without ops that has one possible parent, not resolved yet, and whose
recorded rate is 100. -/
def orphan1 : State :=
  { State.blank with
    num_parents := fun n => if n = 0 then 1 else 0
    rate := fun n => if n = 0 then 100 else 0 }

/-- Errno constant of the kernel ABI (errno.h, not part of the sources at hand). -/
def EPROBE_DEFER : Int := 517

/-- Modelled from the spec: the `CLK_MUX_ROUND_CLOSEST` bit (`BIT(4)`) of the mux flags
(clk-provider.h is not part of the sources at hand). -/
def CLK_MUX_ROUND_CLOSEST : Nat := 16

/-- The source's `__clk_lookup_subtree`: the first node named `name` in the subtree of `core`, in
the order of the walk. -/
def __clk_lookup_subtree : Nat → State → String → Nat → Option (Option Nat)
  | 0, _, _, _ => none
  | fuel + 1, s, name, core =>
    if s.name core = name then some (some core)
    else
      (s.children core).foldlM
        (fun (ret : Option Nat) child =>
          if ret.isSome then some ret else __clk_lookup_subtree fuel s name child)
        none

/-- The source's `clk_core_lookup`: the root forest is searched first, then the orphan forest. -/
def clk_core_lookup (fuel : Nat) (s : State) (name : Option String) : Option (Option Nat) :=
  match name with
  | none => some none
  | some name =>
    (s.clk_root_list ++ s.clk_orphan_list).foldlM
      (fun (ret : Option Nat) root_clk =>
        if ret.isSome then some ret else __clk_lookup_subtree fuel s name root_clk)
      none

/-- The source's `clk_core_fill_parent_index`: the slot's cache is written unless the resolution
ends in an `ERR_PTR`. -/
def clk_core_fill_parent_index (hw : Hw) (fuel : Nat) (s : State) (core index : Nat) :
    Option State :=
  let entry := (s.parents core).getD index {}
  let parent? : Option clk_ptr :=
    match entry.hw with
    | some h =>
      match s.hw_core h with
      | some p => some (.core p)
      | none => some (.err (-EPROBE_DEFER))
    | none =>
      let parent := hw.clk_core_get s core index
      if parent = .err (-ENOENT) && entry.name.isSome then
        match clk_core_lookup fuel s entry.name with
        | none => none
        | some none => some .null
        | some (some p) => some (.core p)
      else some parent
  match parent? with
  | none => none
  | some (.err _) => some s
  | some .null =>
    some { s with parents := Function.update s.parents core ((s.parents core).set index { entry with core := none }) }
  | some (.core p) =>
    some { s with parents := Function.update s.parents core ((s.parents core).set index { entry with core := some p }) }

/-- The source's `clk_core_get_parent_by_index`: the parent (`NULL` as `none`) and the state with
the slot's cache filled.  `core->parents` is `NULL` exactly when the list of slots is empty. -/
def clk_core_get_parent_by_index (hw : Hw) (fuel : Nat) (s : State) (core : Option Nat)
    (index : Nat) : Option (Option Nat × State) :=
  match core with
  | none => some (none, s)
  | some c =>
    if index ≥ s.num_parents c || (s.parents c).isEmpty then some (none, s)
    else
      match (if ((s.parents c).getD index {}).core.isNone then
               clk_core_fill_parent_index hw fuel s c index
             else some s) with
      | none => none
      | some s1 => some (((s1.parents c).getD index {}).core, s1)

/-- The source's `__clk_determine_rate`; `hwp` is the `clk_hw` pointer, `none` for `NULL`. -/
def __clk_determine_rate (hw : Hw) (fuel : Nat) (s : State) (hwp : Option Nat)
    (req : clk_rate_request) : Option (Int × clk_rate_request) :=
  match hwp with
  | none => some (0, { req with rate := 0 })
  | some h => clk_core_round_rate_nolock hw fuel s (s.hw_core h) req

/-- A 64-bit pattern read as a `long`. -/
def to_long (x : Int) : Int :=
  if x % 2 ^ 64 < 2 ^ 63 then x % 2 ^ 64 else x % 2 ^ 64 - 2 ^ 64

/-- The kernel's `abs()` at type `unsigned long` (math.h is not part of the sources at hand): the
argument is stored in a `long`, which is negated, with wrap-around, when it is negative; the
result is a `long`. -/
def abs_long (x : Int) : Int :=
  if to_long x < 0 then to_long (-(to_long x)) else to_long x

/-- The source's `mux_is_better_rate`; the subtractions are those of `unsigned long`. -/
def mux_is_better_rate (rate now best flags : Nat) : Bool :=
  if flags &&& CLK_MUX_ROUND_CLOSEST ≠ 0 then
    abs_long ((now : Int) - rate) < abs_long ((best : Int) - rate)
  else now ≤ rate && now > best

/-- The body of the `for` loop of the source's `clk_mux_determine_rate_flags` at index `i`; the
accumulator is `best_parent`, `best` and the state.  Of `parent_req` only the rate is read after
the candidate has been asked, so it is not carried from one round to the next. -/
def clk_mux_determine_rate_flags.step (hw : Hw) (fuel : Nat) (core : Nat)
    (req : clk_rate_request) (flags : Nat) (acc : Option Nat × Nat × State) (i : Nat) :
    Option (Option Nat × Nat × State) :=
  match clk_core_get_parent_by_index hw fuel acc.2.2 (some core) i with
  | none => none
  | some (none, s1) => some (acc.1, acc.2.1, s1)
  | some (some parent, s1) =>
    if (s1.flags core).CLK_SET_RATE_PARENT then
      match __clk_determine_rate hw fuel s1 (some parent) req with
      | none => none
      | some (ret, parent_req) =>
        if ret ≠ 0 then some (acc.1, acc.2.1, s1)
        else if mux_is_better_rate req.rate parent_req.rate acc.2.1 flags then
          some (some parent, parent_req.rate, s1)
        else some (acc.1, acc.2.1, s1)
    else
      let rate := clk_core_get_rate_nolock s1 (some parent)
      if mux_is_better_rate req.rate rate acc.2.1 flags then some (some parent, rate, s1)
      else some (acc.1, acc.2.1, s1)

/-- The source's `clk_mux_determine_rate_flags`: the return value, `*req` and the state (parent
caches may have been filled).  `hwn` is the `clk_hw`; a `NULL` `hw->core` is dereferenced by the
source and gives no result here. -/
def clk_mux_determine_rate_flags (hw : Hw) (fuel : Nat) (s : State) (hwn : Nat)
    (req : clk_rate_request) (flags : Nat) : Option (Int × clk_rate_request × State) :=
  match s.hw_core hwn with
  | none => none
  | some core =>
    if (s.flags core).CLK_SET_RATE_NO_REPARENT then
      let parent := s.parent core
      if (s.flags core).CLK_SET_RATE_PARENT then
        match __clk_determine_rate hw fuel s parent req with
        | none => none
        | some (ret, parent_req) =>
          if ret ≠ 0 then some (ret, req, s)
          else
            some (0, { req with best_parent_rate := parent_req.rate, rate := parent_req.rate }, s)
      else
        let best := match parent with
          | some p => clk_core_get_rate_nolock s (some p)
          | none => clk_core_get_rate_nolock s (some core)
        some (0, { req with best_parent_rate := best, rate := best }, s)
    else
      match (List.range (s.num_parents core)).foldlM
          (clk_mux_determine_rate_flags.step hw fuel core req flags) (none, 0, s) with
      | none => none
      | some (none, _, s1) => some (-EINVAL, req, s1)
      | some (some best_parent, best, s1) =>
        some (0, { req with best_parent_hw := some best_parent, best_parent_rate := best,
                            rate := best }, s1)

/-- The parents the loop of `clk_mux_determine_rate_flags` resolves, in index order: the
non-`NULL` results of `clk_core_get_parent_by_index` at the indices `is`, each looked up in the
state the previous look-ups left, and the final state. -/
def mux_parents (hw : Hw) (fuel : Nat) (core : Nat) : State → List Nat → Option (List Nat × State)
  | s, [] => some ([], s)
  | s, i :: is =>
    match clk_core_get_parent_by_index hw fuel s (some core) i with
    | none => none
    | some (p, s1) =>
      match mux_parents hw fuel core s1 is with
      | none => none
      | some (ps, s2) => some (p.toList ++ ps, s2)

/-- A height function on the child lists: every child is strictly lower than its parent. -/
def IsHeight (children : Nat → List Nat) (ht : Nat → Nat) : Prop :=
  ∀ p c, c ∈ children p → ht c < ht p

/-- A mux (node 0) with the possible parents 1 (running at 100 MHz) and 2 (running at 50 MHz),
given by `clk_hw` pointers that are not resolved yet; the mux is currently under 1. -/
def mux_rates : State :=
  { mux1 with
    parents := fun n => if n = 0 then [{ hw := some 1 }, { hw := some 2 }] else []
    rate := fun n => if n = 1 then 100000000 else if n = 2 then 50000000 else 0 }

/-- A mux (node 0) whose only possible parent is node 1, running at 100 MHz. -/
def mux_single : State :=
  { State.blank with
    parent := fun n => if n = 0 then some 1 else none
    children := fun n => if n = 1 then [0] else []
    num_parents := fun n => if n = 0 then 1 else 0
    parents := fun n => if n = 0 then [{ hw := some 1 }] else []
    rate := fun n => if n = 1 then 100000000 else 0
    clk_root_list := [1] }

/-- The selection the loop of `clk_mux_determine_rate_flags` makes among the candidate parents
`ps`, whose rates are given by `R`: the accumulator is `best_parent` and `best`. -/
def mux_select (R : Nat → Nat) (rate flags : Nat) (ps : List Nat) (acc : Option Nat × Nat) :
    Option Nat × Nat :=
  ps.foldl (fun a p => if mux_is_better_rate rate (R p) a.2 flags then (some p, R p) else a) acc

/-- Whether the event is a notifier delivery. -/
def clk_event.is_notify : clk_event → Bool
  | .notify _ _ _ _ => true
  | _ => false

/-- Whether the event is neither a commit op (`set_rate`, `set_parent`, `set_rate_and_parent`)
nor a notifier delivery: the gate ops and the runtime-PM calls. -/
def clk_event.is_quiet (e : clk_event) : Bool :=
  !e.is_set_op && !e.is_notify

/-- Whether the event is a commit op (`set_rate`, `set_parent`, `set_rate_and_parent`) of the
node `core`. -/
def clk_event.commits (core : Nat) : clk_event → Bool
  | .op_set_rate c _ _ => c == core
  | .op_set_parent c _ => c == core
  | .op_set_rate_and_parent c _ _ _ => c == core
  | _ => false

/-- The run from `s` to `s'` only appended quiet events to the trace. -/
def QuietExt (s s' : State) : Prop :=
  ∃ ext, s'.trace = s.trace ++ ext ∧ ∀ e ∈ ext, clk_event.is_quiet e = true

/-- The run from `s` to `s'` left the handle-to-node map alone and appended to the trace only
events that satisfy `P`. -/
def TraceExt (P : clk_event → Prop) (s s' : State) : Prop :=
  s'.clk_core = s.clk_core ∧ ∃ ext, s'.trace = s.trace ++ ext ∧ ∀ e ∈ ext, P e

/-- The shape of the trace that one `clk_change_rate(core)` appends, with `owner` mapping a
handle to its node: first the node's own part `own`, in which every commit op is an op of
`core`; then `posts`, the `POST_RATE_CHANGE` deliveries to the handles of `core`; then the
quiet events `mid` of the re-planning under `CLK_RECALC_NEW_RATES`; then, one after the other,
the traces `kids` of the `clk_change_rate` calls on the nodes committed from `core` (the
entries of its child list that are not leaving, then `new_child`), each of the same shape; and
a quiet `tail`. -/
inductive Commits (owner : Nat → Nat) : Nat → List clk_event → Prop
  | block (core : Nat) (own posts mid tail : List clk_event) (kids : List (Nat × List clk_event)) :
      (∀ e ∈ own, clk_event.is_quiet e = true ∨ clk_event.commits core e = true) →
      (∀ e ∈ posts, ∃ cn o n, e = clk_event.notify cn POST_RATE_CHANGE o n ∧ owner cn = core) →
      (∀ e ∈ mid, clk_event.is_quiet e = true) →
      (∀ k ∈ kids, Commits owner k.1 k.2) →
      (∀ e ∈ tail, clk_event.is_quiet e = true) →
      Commits owner core
        (own ++ posts ++ mid ++ kids.foldr (fun k acc => k.2 ++ acc) [] ++ tail)

/-- Hardware as `Hw.tracking`, where `round_rate` of node 1 asks its parent for twice the
requested rate. -/
def Hw.doubling : Hw :=
  { Hw.tracking with
    round_rate := fun _ n rate parent_rate =>
      if n = 1 then (rate, 2 * rate) else (rate, parent_rate) }

/-- A source (node 0) feeding a divider (node 1) that forwards rate requests to it
(`CLK_SET_RATE_PARENT`), both running at 100, each with a notifier registered through the
handle of the same number. -/
def notified_pair : State :=
  { State.blank with
    parent := fun n => if n = 1 then some 0 else none
    children := fun n => if n = 0 then [1] else []
    num_parents := fun n => if n = 1 then 1 else 0
    parents := fun n => if n = 1 then [{ core := some 0 }] else []
    ops := fun n =>
      if n ≤ 1 then { round_rate := true, set_rate := true, recalc_rate := true } else {}
    flags := fun n => if n = 1 then { CLK_SET_RATE_PARENT := true } else {}
    rate := fun n => if n ≤ 1 then 100 else 0
    new_rate := fun n => if n ≤ 1 then 100 else 0
    clk_core := fun k => k
    hw_clk := fun n => n
    notifier_count := fun n => if n ≤ 1 then 1 else 0
    clk_notifier_list := [0, 1]
    clk_root_list := [0] }

/-- Errno constant of the kernel ABI. -/
def ENXIO : Int := 6

/-- Errno constant of the kernel ABI. -/
def EEXIST : Int := 17

/-- The source's `clk_set_rate_exclusive`: the rate is set without lifting the caller's own
protection, and the protect reference is taken when that returned 0. -/
def clk_set_rate_exclusive (hw : Hw) (fuel : Nat) (s : State) (clk : Option Nat) (rate : Nat) :
    Option (Int × State) :=
  match clk with
  | none => some (0, s)
  | some k =>
    match clk_core_set_rate_nolock hw fuel s (some (s.clk_core k)) rate with
    | none => none
    | some (ret, s1) =>
      if ret = 0 then
        match clk_core_rate_protect fuel s1 (some (s1.clk_core k)) with
        | none => none
        | some s2 =>
          let count := s2.exclusive_count k + 1
          some (ret, { s2 with exclusive_count := Function.update s2.exclusive_count k count })
      else some (ret, s1)

/-- The source's `__clk_init_parent`: the `get_parent` op answers a `u8`. -/
def __clk_init_parent (hw : Hw) (fuel : Nat) (s : State) (core : Nat) :
    Option (Option Nat × State) :=
  let index : Nat :=
    if s.num_parents core > 1 && (s.ops core).get_parent then hw.get_parent s core % 2 ^ 8
    else 0
  clk_core_get_parent_by_index hw fuel s (some core) index

/-- The source's `clk_core_get_accuracy_no_lock`. -/
def clk_core_get_accuracy_no_lock (s : State) (core : Option Nat) : Nat :=
  match core with
  | none => 0
  | some c => s.accuracy c

/-- The source's `clk_core_get_phase`: the return value and the state with the phase cached. -/
def clk_core_get_phase (hw : Hw) (s : State) (core : Nat) : Int × State :=
  if !(s.ops core).get_phase then (0, s)
  else
    let ret := hw.get_phase s core
    (ret, if ret ≥ 0 then { s with phase := Function.update s.phase core ret } else s)

/-- The source's `clk_core_reset_duty_cycle_nolock`. -/
def clk_core_reset_duty_cycle_nolock (s : State) (core : Nat) : State :=
  { s with duty_num := Function.update s.duty_num core 1,
           duty_den := Function.update s.duty_den core 2 }

/-- The source's `clk_core_update_duty_cycle_nolock`, with the body of
`clk_core_update_duty_cycle_parent_nolock` in the branch that calls it; the `get_duty_cycle` op
writes its answer (two `unsigned int`) into `core->duty`. -/
def clk_core_update_duty_cycle_nolock (hw : Hw) : Nat → State → Nat → Option (Int × State)
  | 0, _, _ => none
  | fuel + 1, s, core =>
    if !(s.ops core).get_duty_cycle then
      match s.parent core with
      | some p =>
        if (s.flags core).CLK_DUTY_CYCLE_PARENT then
          match clk_core_update_duty_cycle_nolock hw fuel s p with
          | none => none
          | some (ret, s1) =>
            some (ret, { s1 with duty_num := Function.update s1.duty_num core (s1.duty_num p),
                                 duty_den := Function.update s1.duty_den core (s1.duty_den p) })
        else some (0, clk_core_reset_duty_cycle_nolock s core)
      | none => some (0, clk_core_reset_duty_cycle_nolock s core)
    else
      match hw.get_duty_cycle s core with
      | (ret, num, den) =>
        let s1 := { s with duty_num := Function.update s.duty_num core (num % 2 ^ 32),
                           duty_den := Function.update s.duty_den core (den % 2 ^ 32) }
        if ret ≠ 0 then some (ret, clk_core_reset_duty_cycle_nolock s1 core)
        else if s1.duty_den core = 0 || s1.duty_num core > s1.duty_den core then
          some (-EINVAL, clk_core_reset_duty_cycle_nolock s1 core)
        else some (0, s1)

/-- The source's `clk_core_update_duty_cycle_parent_nolock`. -/
def clk_core_update_duty_cycle_parent_nolock (hw : Hw) (fuel : Nat) (s : State) (core : Nat) :
    Option (Int × State) :=
  match s.parent core with
  | some p =>
    if (s.flags core).CLK_DUTY_CYCLE_PARENT then
      match clk_core_update_duty_cycle_nolock hw fuel s p with
      | none => none
      | some (ret, s1) =>
        some (ret, { s1 with duty_num := Function.update s1.duty_num core (s1.duty_num p),
                             duty_den := Function.update s1.duty_den core (s1.duty_den p) })
    else some (0, clk_core_reset_duty_cycle_nolock s core)
  | none => some (0, clk_core_reset_duty_cycle_nolock s core)

/-- The `hlist_for_each_entry_safe` loop over `clk_orphan_list` in the source's
`clk_core_reparent_orphans_nolock`, from position `orphan` on: the successor is read before the
body runs. -/
def clk_core_reparent_orphans_nolock.walk (hw : Hw) : Nat → State → Option Nat → Option State
  | _, s, none => some s
  | 0, _, some _ => none
  | fuel + 1, s, some orphan =>
    let tmp2 := hlist_next s orphan
    match __clk_init_parent hw fuel s orphan with
    | none => none
    | some (parent, s1) =>
      let s5? : Option State :=
        if parent.isSome then
          match __clk_set_parent_before hw fuel s1 orphan parent with
          | none => none
          | some (_, s2) =>
            match __clk_set_parent_after fuel s2 orphan parent none with
            | none => none
            | some s3 =>
              match __clk_recalc_accuracies hw fuel s3 orphan with
              | none => none
              | some s4 => __clk_recalc_rates hw fuel s4 orphan 0
        else some s1
      match s5? with
      | none => none
      | some s5 => clk_core_reparent_orphans_nolock.walk hw fuel s5 tmp2

/-- The source's `clk_core_reparent_orphans_nolock`. -/
def clk_core_reparent_orphans_nolock (hw : Hw) (fuel : Nat) (s : State) : Option State :=
  clk_core_reparent_orphans_nolock.walk hw fuel s s.clk_orphan_list.head?

/-- The placement of the new node in the source's `__clk_core_init`: `core->parent` is set, the
node is added at the head of its parent's child list, of the root list (no declared parent) or
of the orphan list, and its orphan bit is set accordingly. -/
def __clk_core_init.link (s : State) (core : Nat) (parent : Option Nat) : State :=
  let s1 := { s with parent := Function.update s.parent core parent }
  match parent with
  | some p =>
    { s1 with children := Function.update s1.children p (core :: s1.children p),
              orphan := Function.update s1.orphan core (s1.orphan p) }
  | none =>
    if s1.num_parents core = 0 then
      { s1 with clk_root_list := core :: s1.clk_root_list,
                orphan := Function.update s1.orphan core false }
    else
      { s1 with clk_orphan_list := core :: s1.clk_orphan_list,
                orphan := Function.update s1.orphan core true }

/-- The part of the source's `__clk_core_init` after the tests on `core->ops`, up to the label
`out`: the `init` op, the placement in the forest, accuracy, phase, duty cycle and rate, the
references of a critical node, the adoption of orphans and `kref_init`.  Returns `ret` and
the state. -/
def __clk_core_init.body (hw : Hw) (fuel : Nat) (s : State) (core : Nat) :
    Option (Int × State) :=
  let ret : Int := if (s.ops core).init then hw.init s core else 0
  if ret ≠ 0 then some (ret, s)
  else
    match __clk_init_parent hw fuel s core with
    | none => none
    | some (parent, s1) =>
      let s2 := __clk_core_init.link s1 core parent
      let accuracy : Nat :=
        if (s2.ops core).recalc_accuracy then
          hw.recalc_accuracy s2 core (clk_core_get_accuracy_no_lock s2 parent)
        else match parent with
          | some p => s2.accuracy p
          | none => 0
      let s3 := { s2 with accuracy := Function.update s2.accuracy core accuracy }
      match clk_core_get_phase hw s3 core with
      | (phase, s4) =>
        if phase < 0 then some (phase, s4)
        else
          match clk_core_update_duty_cycle_nolock hw fuel s4 core with
          | none => none
          | some (_, s5) =>
            let rate : Nat :=
              if (s5.ops core).recalc_rate then
                hw.recalc_rate s5 core (clk_core_get_rate_nolock s5 parent)
              else match parent with
                | some p => s5.rate p
                | none => 0
            let s6 := { s5 with rate := Function.update s5.rate core rate,
                                req_rate := Function.update s5.req_rate core rate }
            let s8? : Option (Int × State) :=
              if (s6.flags core).CLK_IS_CRITICAL then
                match clk_core_prepare hw fuel s6 (some core) with
                | none => none
                | some (ret, s7) =>
                  if ret ≠ 0 then some (ret, s7)
                  else
                    match clk_core_enable hw fuel s7 (some core) with
                    | none => none
                    | some (ret, s8) =>
                      if ret ≠ 0 then
                        match clk_core_unprepare fuel s8 (some core) with
                        | none => none
                        | some s9 => some (ret, s9)
                      else some (0, s8)
              else some (0, s6)
            match s8? with
            | none => none
            | some (ret, s8) =>
              if ret ≠ 0 then some (ret, s8)
              else
                match clk_core_reparent_orphans_nolock hw fuel s8 with
                | none => none
                | some s9 => some (0, { s9 with ref := Function.update s9.ref core 1 })

/-- The source's `__clk_core_init`.  After the label `unlock` a failed registration takes the node
off the list it was put on (`hlist_del_init`). -/
def __clk_core_init (hw : Hw) (fuel : Nat) (s : State) (core : Option Nat) :
    Option (Int × State) :=
  match core with
  | none => some (-EINVAL, s)
  | some c =>
    match clk_pm_runtime_get hw s c with
    | (ret, s1) =>
      if ret ≠ 0 then some (ret, hlist_del_child_node s1 c)
      else
        match clk_core_lookup fuel s1 (some (s1.name c)) with
        | none => none
        | some found =>
          let ops := s1.ops c
          let out? : Option (Int × State) :=
            if found.isSome then some (-EEXIST, s1)
            else if ops.set_rate && !((ops.round_rate || ops.determine_rate) && ops.recalc_rate)
              then some (-EINVAL, s1)
            else if ops.set_parent && !ops.get_parent then some (-EINVAL, s1)
            else if s1.num_parents c > 1 && !ops.get_parent then some (-EINVAL, s1)
            else if ops.set_rate_and_parent && !(ops.set_parent && ops.set_rate)
              then some (-EINVAL, s1)
            else __clk_core_init.body hw fuel s1 c
          match out? with
          | none => none
          | some (ret, s2) =>
            let s3 := clk_pm_runtime_put s2 c
            some (ret, if ret ≠ 0 then hlist_del_child_node s3 c else s3)

/-- The source's `clk_nodrv_ops`, the operation table of an unregistered node: six callbacks,
each of which fails with `-ENXIO` or does nothing. -/
def clk_nodrv_ops : clk_ops :=
  { enable := true, disable := true, prepare := true, unprepare := true, set_rate := true,
    set_parent := true }

/-- The source's `clk_core_evict_parent_cache_subtree`. -/
def clk_core_evict_parent_cache_subtree : Nat → State → Nat → Nat → Option State
  | 0, _, _, _ => none
  | fuel + 1, s, root, target =>
    let slots := (List.range (s.num_parents root)).foldl
      (fun (l : List clk_parent_map) i =>
        if (l.getD i {}).core = some target then l.set i { l.getD i {} with core := none }
        else l)
      (s.parents root)
    let s1 := { s with parents := Function.update s.parents root slots }
    (s1.children root).foldlM
      (fun st child => clk_core_evict_parent_cache_subtree fuel st child target) s1

/-- The source's `clk_core_evict_parent_cache`: over `all_lists`, the root list and then the
orphan list. -/
def clk_core_evict_parent_cache (fuel : Nat) (s : State) (core : Nat) : Option State :=
  (s.clk_root_list ++ s.clk_orphan_list).foldlM
    (fun st root => clk_core_evict_parent_cache_subtree fuel st root core) s

/-- The `hlist_for_each_entry_safe` loop over `core->children` in the source's `clk_unregister`,
from position `child` on; the return value of `clk_core_set_parent_nolock` is not looked at. -/
def clk_unregister.children (hw : Hw) : Nat → State → Option Nat → Option State
  | _, s, none => some s
  | 0, _, some _ => none
  | fuel + 1, s, some child =>
    let t := hlist_next s child
    match clk_core_set_parent_nolock hw fuel s (some child) none with
    | none => none
    | some (_, s1) => clk_unregister.children hw fuel s1 t

/-- The source's `clk_unregister`; `clk` is the handle.  The comparison of `core->ops` with
`&clk_nodrv_ops` is a comparison of the tables (no table that passes the tests of
`__clk_core_init` equals `clk_nodrv_ops`); the `terminate` op and the freeing of memory have
no effect on the modelled state; `kref_put` lowers `core->ref`. -/
def clk_unregister (hw : Hw) (fuel : Nat) (s : State) (clk : Option Nat) : Option State :=
  match clk with
  | none => some s
  | some k =>
    let core := s.clk_core k
    if s.ops core = clk_nodrv_ops then some s
    else
      let s1 := { s with ops := Function.update s.ops core clk_nodrv_ops }
      match clk_unregister.children hw fuel s1 (s1.children core).head? with
      | none => none
      | some s2 =>
        match clk_core_evict_parent_cache fuel s2 core with
        | none => none
        | some s3 =>
          let s4 := hlist_del_child_node s3 core
          some { s4 with ref := Function.update s4.ref core (s4.ref core - 1) }

/-- The source's `__clk_put`; `clk` is the handle.  `protect_count` is an `unsigned int`, the
subtraction wraps at `2 ^ 32`; `kref_put` lowers `core->ref`, the freeing of memory has no effect
on the modelled state. -/
def __clk_put (hw : Hw) (fuel : Nat) (s : State) (clk : Option Nat) : Option State :=
  match clk with
  | none => some s
  | some k =>
    let core := s.clk_core k
    let s2? : Option State :=
      if s.exclusive_count k ≠ 0 then
        let count := (s.protect_count core + 2 ^ 32 - (s.exclusive_count k - 1) % 2 ^ 32) % 2 ^ 32
        let s1 := { s with protect_count := Function.update s.protect_count core count }
        match clk_core_rate_unprotect fuel s1 (some core) with
        | none => none
        | some s2 => some { s2 with exclusive_count := Function.update s2.exclusive_count k 0 }
      else some s
    match s2? with
    | none => none
    | some s2 =>
      let s3 := { s2 with clks := Function.update s2.clks core ((s2.clks core).erase k) }
      let s4? : Option State :=
        if s3.clk_min_rate k > s3.req_rate core || s3.clk_max_rate k < s3.req_rate core then
          match clk_core_set_rate_nolock hw fuel s3 (some core) (s3.req_rate core) with
          | none => none
          | some (_, s4) => some s4
        else some s3
      match s4? with
      | none => none
      | some s4 => some { s4 with ref := Function.update s4.ref core (s4.ref core - 1) }

/-- Hardware as `Hw.quiet`, except that the runtime-PM resume fails with `-EACCES`. -/
def Hw.asleep : Hw :=
  { Hw.quiet with pm_runtime_get_sync := fun _ _ => -13 }

/-- A node 0 about to be registered in an empty forest, whose operation table has `set_rate`
without a rounding op and without `recalc_rate`, and whose device has runtime PM enabled. -/
def unsound_ops : State :=
  { State.blank with
    ops := fun n => if n = 0 then { set_rate := true } else {},
    rpm_enabled := fun n => decide (n = 0) }

/-- A relation between states that every step of the rate-change commit respects: it is
reflexive and transitive, and it relates a state to the state after a planning step, a change of
the trace or of a rate, one of the four reference-count functions, or `clk_reparent`. -/
structure Closed (hw : Hw) (R : State → State → Prop) : Prop where
  refl : ∀ s, R s s
  trans : ∀ {a b c}, R a b → R b c → R a c
  plan : ∀ {s s'}, PlanFrame s s' → R s s'
  trace : ∀ s tr, R s { s with trace := tr }
  rate : ∀ s r, R s { s with rate := r }
  prepare : ∀ {fuel s m ret s'}, clk_core_prepare hw fuel s m = some (ret, s') → R s s'
  unprepare : ∀ {fuel s m s'}, clk_core_unprepare fuel s m = some s' → R s s'
  enable : ∀ {fuel s m ret s'}, clk_core_enable hw fuel s m = some (ret, s') → R s s'
  disable : ∀ {fuel s m s'}, clk_core_disable fuel s m = some s' → R s s'
  reparent : ∀ {fuel s c np s'}, clk_reparent fuel s c np = some s' → R s s'

/-- The state `s'` agrees with `s` on everything that neither a rate change nor a change of
parent writes: names, operation tables, flags, limits, phase and duty cycle, the reference
`ref`, the consumer lists and every field of every handle. -/
structure StaticFrame (s s' : State) : Prop where
  name : s'.name = s.name
  ops : s'.ops = s.ops
  num_parents : s'.num_parents = s.num_parents
  flags : s'.flags = s.flags
  rpm_enabled : s'.rpm_enabled = s.rpm_enabled
  min_rate : s'.min_rate = s.min_rate
  max_rate : s'.max_rate = s.max_rate
  phase : s'.phase = s.phase
  duty_num : s'.duty_num = s.duty_num
  duty_den : s'.duty_den = s.duty_den
  ref : s'.ref = s.ref
  clks : s'.clks = s.clks
  notifier_count : s'.notifier_count = s.notifier_count
  hw_clk : s'.hw_clk = s.hw_clk
  hw_core : s'.hw_core = s.hw_core
  clk_core : s'.clk_core = s.clk_core
  clk_min_rate : s'.clk_min_rate = s.clk_min_rate
  clk_max_rate : s'.clk_max_rate = s.clk_max_rate
  exclusive_count : s'.exclusive_count = s.exclusive_count
  clk_notifier_list : s'.clk_notifier_list = s.clk_notifier_list

/-- The tunable node of `tunable1` running at 200 after a request for 100: handle 1 holds the
window `[200, 300]`, handle 0 holds no window, and `req_rate` is the 100 that was asked for. -/
def clamped1 : State :=
  { tunable1 with
    rate := fun n => if n = 0 then 200 else 0,
    new_rate := fun n => if n = 0 then 200 else 0,
    req_rate := fun n => if n = 0 then 100 else 0,
    clk_min_rate := fun k => if k = 1 then 200 else 0,
    clk_max_rate := fun k => if k = 1 then 300 else ULONG_MAX,
    ref := fun _ => 3 }

/-- No node carries `CLK_SET_RATE_GATE`. -/
def GateFree (s : State) : Prop := ∀ x, (s.flags x).CLK_SET_RATE_GATE = false

/-- The state `s'` has the protect counts and the flags of `s`. -/
def Ungated (s s' : State) : Prop :=
  s'.protect_count = s.protect_count ∧ s'.flags = s.flags

/-- A root (node 0) and an orphan (node 1) that can round rates and whose one parent slot points
at the `clk_hw` of node 0 without being resolved yet; the orphan holds one protect reference,
taken by `clk_rate_exclusive_get` on handle 1.  Handle `k` is a consumer of node `k`. -/
def protected_orphan : State :=
  { State.blank with
    num_parents := fun n => if n = 1 then 1 else 0,
    parents := fun n => if n = 1 then [{ hw := some 0 }] else [],
    ops := fun n => if n = 1 then { round_rate := true } else {},
    orphan := fun n => decide (n = 1),
    protect_count := fun n => if n = 1 then 1 else 0,
    exclusive_count := fun k => if k = 1 then 1 else 0,
    clk_core := fun k => k,
    clk_root_list := [0],
    clk_orphan_list := [1] }

/-- Hardware as `Hw.quiet`, except that the `recalc_rate` op of node 0 reads the rate `R` from
the hardware. -/
def Hw.fixed (R : Nat) : Hw :=
  { Hw.quiet with recalc_rate := fun _ n parent_rate => if n = 0 then R else parent_rate }

/-- Two nodes that are not registered yet: node 0, named "Y", without parent slots and with a
`recalc_rate` op; node 1, named "X", with one parent slot that names "Y" and without a
`recalc_rate` op. -/
def unregistered_pair : State :=
  { State.blank with
    name := fun n => if n = 0 then "Y" else if n = 1 then "X" else "",
    num_parents := fun n => if n = 1 then 1 else 0,
    parents := fun n => if n = 1 then [{ name := some "Y" }] else [],
    ops := fun n => if n = 0 then { recalc_rate := true } else {} }

/-- The two nodes of `unregistered_pair`, with a notifier (handle 7) subscribed to node 1. -/
def subscribed_pair : State :=
  { unregistered_pair with
    notifier_count := fun n => if n = 1 then 1 else 0,
    clk_core := fun k => if k = 7 then 1 else 0,
    clk_notifier_list := [7] }

/-- The two nodes of `subscribed_pair` once Y is a registered root running at 12 MHz and X waits
on the orphan list with rate 0. -/
def adoptable_pair : State :=
  { subscribed_pair with
    clk_root_list := [0],
    clk_orphan_list := [1],
    orphan := fun n => decide (n = 1),
    rate := fun n => if n = 0 then 12000000 else 0 }

/-- The node `d` is `a` or a descendant of `a` along the child lists. -/
def Desc (children : Nat → List Nat) (a d : Nat) : Prop :=
  Relation.ReflTransGen (fun p c => c ∈ children p) a d

/-- The node `x` is in the root forest or in the orphan forest: it is reached along the child
lists from a member of `clk_root_list` or `clk_orphan_list`. -/
def InForest (s : State) (x : Nat) : Prop :=
  ∃ r ∈ s.clk_root_list ++ s.clk_orphan_list, Desc s.children r x

/-- Well-formedness of the forest: a node on a child list has that list's owner as its parent
pointer, a node on the root list or on the orphan list has no parent, no list holds a node
twice, and no node is on both the root list and the orphan list.  Hence a node that is on some
list is on exactly one of them, and on a child list only on that of its parent. -/
structure WellFormed (s : State) : Prop where
  child_parent : ∀ c p, c ∈ s.children p → s.parent c = some p
  children_nodup : ∀ p, (s.children p).Nodup
  roots_nodup : s.clk_root_list.Nodup
  orphans_nodup : s.clk_orphan_list.Nodup
  root_parent : ∀ c, c ∈ s.clk_root_list → s.parent c = none
  orphan_parent : ∀ c, c ∈ s.clk_orphan_list → s.parent c = none
  root_orphan : ∀ c, c ∈ s.clk_root_list → c ∉ s.clk_orphan_list

/-- Every node on a child list carries the orphan bit of the owner of the list. -/
def OrphanEdges (s : State) : Prop :=
  ∀ p c, c ∈ s.children p → s.orphan c = s.orphan p

/-- The nodes that slot `i` of node `o` can resolve to in state `s`: the cached node, the node
the slot's `clk_hw` is or points at, a node the provider lookup answers, or a node that carries
the slot's name. -/
def Resolves (hw : Hw) (s : State) (o i p : Nat) : Prop :=
  ((s.parents o).getD i {}).core = some p ∨
  ((s.parents o).getD i {}).hw = some p ∨
  (∃ h, ((s.parents o).getD i {}).hw = some h ∧ s.hw_core h = some p) ∨
  (∃ st, hw.clk_core_get st o i = .core p) ∨
  ((s.parents o).getD i {}).name = some (s.name p)

/-- The function `rank` decreases strictly from every node to its parent and to every node one
of its slots can resolve to: the declared parent relation has no cycle. -/
def Ranked (hw : Hw) (rank : Nat → Nat) (s : State) : Prop :=
  (∀ n p, s.parent n = some p → rank p < rank n) ∧
  (∀ o i p, Resolves hw s o i p → rank p < rank o)

/-- A step that leaves the forest alone: the parent pointers, the lists, the orphan bits, the
names and the `hw->core` pointers are kept, and a slot resolves to nothing new. -/
structure Calm (hw : Hw) (s s' : State) : Prop where
  parent : s'.parent = s.parent
  children : s'.children = s.children
  clk_root_list : s'.clk_root_list = s.clk_root_list
  clk_orphan_list : s'.clk_orphan_list = s.clk_orphan_list
  orphan : s'.orphan = s.orphan
  name : s'.name = s.name
  hw_core : s'.hw_core = s.hw_core
  num_parents : s'.num_parents = s.num_parents
  slots : ∀ o i p, Resolves hw s' o i p → Resolves hw s o i p

/-- A run made of calm steps and of calls `clk_reparent(c, np)` that satisfy the guard `G` in the
state they start from. -/
inductive Moves (hw : Hw) (G : State → Nat → Option Nat → Prop) : State → State → Prop
  | refl (s : State) : Moves hw G s s
  | calm {s s1 s' : State} : Calm hw s s1 → Moves hw G s1 s' → Moves hw G s s'
  | move {s s1 s' : State} (fuel c : Nat) (np : Option Nat) : G s c np →
      clk_reparent fuel s c np = some s1 → Moves hw G s1 s' → Moves hw G s s'

/-- The orphan bit that `clk_reparent` gives the moved node: the bit of the new parent, `true`
without one. -/
def clk_reparent.orphan_bit (s : State) (np : Option Nat) : Bool :=
  match np with
  | some p => s.orphan p
  | none => true

/-- The orphan list after `clk_reparent(c, np)`. -/
def clk_reparent.orphans (s : State) (c : Nat) (np : Option Nat) : List Nat :=
  match np with
  | some _ => s.clk_orphan_list.erase c
  | none => c :: s.clk_orphan_list.erase c

/-- The child lists after `clk_reparent(c, np)`. -/
def clk_reparent.children (s : State) (c : Nat) (np : Option Nat) : Nat → List Nat :=
  match np with
  | some p => Function.update (hlist_del_child_node s c).children p
      (c :: (hlist_del_child_node s c).children p)
  | none => (hlist_del_child_node s c).children

/-- The guard of the moves of `clk_core_set_parent_nolock(c, _)` from state `s0`: the node moved
is `c`, and the new parent is the parent `c` had in `s0` (when the change is undone), `NULL`, or
a node that a slot of `c` resolves to in `s0`. -/
def Settable (hw : Hw) (s0 : State) (c : Nat) (_a : State) (c' : Nat) (np : Option Nat) :
    Prop :=
  c' = c ∧ (np = s0.parent c ∨ ∀ p, np = some p → ∃ i, Resolves hw s0 c i p)

/-- The guard of the moves of the orphan adoption from state `s0`: the node moved is on the
orphan list, and its new parent is a node that one of its slots resolves to in `s0`. -/
def Adoptable (hw : Hw) (s0 : State) (a : State) (c : Nat) (np : Option Nat) : Prop :=
  c ∈ a.clk_orphan_list ∧ ∃ p i, np = some p ∧ Resolves hw s0 c i p

/-- The node `c` is not part of the forest yet: it is on no list and has no children. -/
def Fresh (s : State) (c : Nat) : Prop :=
  c ∉ s.clk_root_list ∧ c ∉ s.clk_orphan_list ∧ (∀ p, c ∉ s.children p) ∧ s.children c = []

/-- Orphan propagation as the specification words it: every descendant of a node whose orphan
bit is set has its orphan bit set. -/
def OrphanPropagation (s : State) : Prop :=
  ∀ n, s.orphan n = true → ∀ c, Desc s.children n c → s.orphan c = true

/-- Every node that is on a list is on exactly one list: a node of the root list or of the
orphan list is on no other list, and a node of a child list has the owner of that list as its
parent pointer and is on no other list. -/
def OnOneList (s : State) : Prop :=
  ∀ n, (n ∈ s.clk_root_list → n ∉ s.clk_orphan_list ∧ ∀ p, n ∉ s.children p) ∧
    (n ∈ s.clk_orphan_list → n ∉ s.clk_root_list ∧ ∀ p, n ∉ s.children p) ∧
    (∀ p, n ∈ s.children p → s.parent n = some p ∧ n ∉ s.clk_root_list ∧
      n ∉ s.clk_orphan_list ∧ ∀ q, n ∈ s.children q → q = p)

/-- Following parent pointers from a node never comes back to it. -/
def NoCycle (s : State) : Prop :=
  ∀ n, ¬ Relation.TransGen (fun a b => s.parent a = some b) n n

/-- The nodes of the two forests have pairwise distinct names. -/
def NamesDistinct (s : State) : Prop :=
  ∀ a b, InForest s a → InForest s b → s.name a = s.name b → a = b

/-- A root (node 0, not an orphan) whose child (node 1) has the orphan bit set, and a second
root (node 2, not an orphan). -/
def stray_bit : State :=
  { State.blank with
    parent := fun n => if n = 1 then some 0 else none,
    children := fun n => if n = 0 then [1] else [],
    orphan := fun n => decide (n = 1),
    clk_root_list := [0, 2] }

/-- A root (node 0) with one child (node 1). -/
def rooted_pair : State :=
  { State.blank with
    parent := fun n => if n = 1 then some 0 else none,
    children := fun n => if n = 0 then [1] else [],
    clk_root_list := [0] }

/-- Every node with a parent pointer is on the child list of the node the pointer names. -/
def ParentLinked (s : State) : Prop :=
  ∀ n p, s.parent n = some p → n ∈ s.children p

/-- The nodes of `adoptable_pair`, where node 2 is not registered and carries the name "Y" of
the registered node 0. -/
def name_clash : State :=
  { adoptable_pair with name := fun n => if n = 1 then "X" else "Y" }

/-- The invariant of the forest that the moves keep: the forest is well formed, every parent
pointer is backed by the parent's child list, and `rank` decreases along the parent pointers and
along everything a parent slot can resolve to. -/
def Sound (hw : Hw) (rank : Nat → Nat) (s : State) : Prop :=
  WellFormed s ∧ ParentLinked s ∧ Ranked hw rank s

/-- A registered root P (node 0, handle 7) with one child M (node 1) that has P as its only
declared parent, cached in its slot. -/
def plain_child : State :=
  { State.blank with
    name := fun n => if n = 0 then "P" else if n = 1 then "M" else "",
    parent := fun n => if n = 1 then some 0 else none,
    children := fun n => if n = 0 then [1] else [],
    num_parents := fun n => if n = 1 then 1 else 0,
    parents := fun n => if n = 1 then [{ name := some "P", core := some 0 }] else [],
    clk_core := fun _ => 0,
    clks := fun n => if n = 0 then [7] else [],
    ref := fun n => if n = 0 then 1 else if n = 1 then 1 else 0,
    clk_root_list := [0] }

/-- The nodes of `plain_child`, where the child M is a read-only mux: two declared parents, P and
a node named "Q" that is not registered, a `get_parent` op and no `set_parent` op. -/
def readonly_mux : State :=
  { plain_child with
    num_parents := fun n => if n = 1 then 2 else 0,
    parents := fun n =>
      if n = 1 then [{ name := some "P", core := some 0 }, { name := some "Q" }] else [],
    ops := fun n => if n = 1 then { get_parent := true } else {} }

/-- Orphan propagation along one edge: a child of a node whose orphan bit is set has its orphan
bit set. -/
def OrphanStep (s : State) : Prop :=
  ∀ p x, x ∈ s.children p → s.orphan p = true → s.orphan x = true

/-- A node (node 0) that is not registered yet and whose only parent slot points at its own
`clk_hw`. -/
def self_parent : State :=
  { State.blank with
    name := fun n => if n = 0 then "S" else "",
    num_parents := fun n => if n = 0 then 1 else 0,
    parents := fun n => if n = 0 then [{ hw := some 0 }] else [] }

/-- A reentrant lock of the source: the lock itself (`prepare_lock`, a mutex, or `enable_lock`,
a spinlock; `locked` says that it is held) with its two file-scope variables, the owning task
(`prepare_owner`, `enable_owner`; tasks are numbers) and the nesting count (`prepare_refcnt`,
`enable_refcnt`, an `int` that is taken not to reach `2 ^ 31`). -/
structure clk_lock where
  locked : Bool := false
  owner : Option Nat := none
  refcnt : Int := 0
  deriving DecidableEq, Repr

/-- The source's `clk_prepare_lock`, called by the task `current`.  `mutex_trylock` succeeds
when the mutex is not held.  The result is `none` where `mutex_lock` blocks on a mutex that
another task holds: with a single actor nobody releases it. -/
def clk_prepare_lock (l : clk_lock) (current : Nat) : Option clk_lock :=
  if l.locked then
    if l.owner = some current then some { l with refcnt := l.refcnt + 1 }
    else none
  else some { locked := true, owner := some current, refcnt := 1 }

/-- The source's `clk_prepare_unlock`; the two `WARN_ON_ONCE` have no effect on the state. -/
def clk_prepare_unlock (l : clk_lock) : clk_lock :=
  let refcnt := l.refcnt - 1
  if refcnt ≠ 0 then { l with refcnt := refcnt }
  else { locked := false, owner := none, refcnt := refcnt }

/-- The source's `clk_enable_lock`, called by the task `current`; `smp` is `CONFIG_SMP`, and the
saved interrupt flags are not modelled.  Without `CONFIG_SMP` the spinlock has no state and
`spin_lock_irqsave` never spins; with it, the result is `none` where `spin_lock_irqsave` spins on
a lock that another task holds. -/
def clk_enable_lock (smp : Bool) (l : clk_lock) (current : Nat) : Option clk_lock :=
  if !smp || l.locked then
    if l.owner = some current then some { l with refcnt := l.refcnt + 1 }
    else if smp then none
    else some { l with owner := some current, refcnt := 1 }
  else some { locked := true, owner := some current, refcnt := 1 }

/-- The source's `clk_enable_unlock`. -/
def clk_enable_unlock (l : clk_lock) : clk_lock :=
  let refcnt := l.refcnt - 1
  if refcnt ≠ 0 then { l with refcnt := refcnt }
  else { locked := false, owner := none, refcnt := refcnt }

/-- The source's `clk_core_set_phase_nolock`. -/
def clk_core_set_phase_nolock (hw : Hw) (s : State) (core : Option Nat) (degrees : Int) :
    Int × State :=
  match core with
  | none => (0, s)
  | some c =>
    if clk_core_rate_is_protected s c then (-EBUSY, s)
    else if (s.ops c).set_phase then
      let ret := hw.set_phase s c degrees
      (ret, if ret = 0 then { s with phase := Function.update s.phase c degrees } else s)
    else (-EINVAL, s)

/-- The sanity check of `degrees` at the head of the source's `clk_set_phase`: `degrees %= 360`
with the truncating remainder of C, then `degrees += 360` when the result is negative. -/
def clk_set_phase.degrees (degrees : Int) : Int :=
  let d := Int.tmod degrees 360
  if d < 0 then d + 360 else d

/-- The source's `clk_set_phase`; `clk` is the handle, `degrees` an `int`. -/
def clk_set_phase (hw : Hw) (fuel : Nat) (s : State) (clk : Option Nat) (degrees : Int) :
    Option (Int × State) :=
  match clk with
  | none => some (0, s)
  | some k =>
    let degrees := clk_set_phase.degrees degrees
    let s1? := if s.exclusive_count k ≠ 0 then clk_core_rate_unprotect fuel s (some (s.clk_core k))
               else some s
    match s1? with
    | none => none
    | some s1 =>
      match clk_core_set_phase_nolock hw s1 (some (s1.clk_core k)) degrees with
      | (ret, s2) =>
        let s3? := if s2.exclusive_count k ≠ 0 then
                     clk_core_rate_protect fuel s2 (some (s2.clk_core k))
                   else some s2
        match s3? with
        | none => none
        | some s3 => some (ret, s3)

/-- The source's `clk_core_set_duty_cycle_nolock`, with the body of
`clk_core_set_duty_cycle_parent_nolock` in the branch that calls it; `num` and `den` are the two
members of `*duty`. -/
def clk_core_set_duty_cycle_nolock (hw : Hw) :
    Nat → State → Nat → Nat → Nat → Option (Int × State)
  | 0, _, _, _, _ => none
  | fuel + 1, s, core, num, den =>
    if clk_core_rate_is_protected s core then some (-EBUSY, s)
    else if !(s.ops core).set_duty_cycle then
      match s.parent core with
      | some p =>
        if (s.flags core).CLK_DUTY_CYCLE_PARENT || (s.flags core).CLK_SET_RATE_PARENT then
          match clk_core_set_duty_cycle_nolock hw fuel s p num den with
          | none => none
          | some (ret, s1) =>
            some (ret, { s1 with duty_num := Function.update s1.duty_num core (s1.duty_num p),
                                 duty_den := Function.update s1.duty_den core (s1.duty_den p) })
        else some (0, s)
      | none => some (0, s)
    else
      let ret := hw.set_duty_cycle s core num den
      some (ret, if ret = 0 then
        { s with duty_num := Function.update s.duty_num core num,
                 duty_den := Function.update s.duty_den core den }
        else s)

/-- The source's `clk_set_duty_cycle`; `clk` is the handle, `num` and `den` are
`unsigned int`. -/
def clk_set_duty_cycle (hw : Hw) (fuel : Nat) (s : State) (clk : Option Nat) (num den : Nat) :
    Option (Int × State) :=
  match clk with
  | none => some (0, s)
  | some k =>
    if den = 0 || num > den then some (-EINVAL, s)
    else
      let s1? := if s.exclusive_count k ≠ 0 then
                   clk_core_rate_unprotect fuel s (some (s.clk_core k))
                 else some s
      match s1? with
      | none => none
      | some s1 =>
        match clk_core_set_duty_cycle_nolock hw fuel s1 (s1.clk_core k) num den with
        | none => none
        | some (ret, s2) =>
          let s3? := if s2.exclusive_count k ≠ 0 then
                       clk_core_rate_protect fuel s2 (some (s2.clk_core k))
                     else some s2
          match s3? with
          | none => none
          | some s3 => some (ret, s3)

/-- The conversion of an `unsigned int` to `int`. -/
def to_int (v : Nat) : Int :=
  if v % 2 ^ 32 < 2 ^ 31 then (v % 2 ^ 32 : Nat) else (v % 2 ^ 32 : Nat) - 2 ^ 32

/-- The kernel's `mult_frac(x, n, d)` on `unsigned int` (the macro of include/linux/math.h, which
is not part of the sources at hand): `(x / d) * n + ((x % d) * n) / d`, each product and the sum
modulo `2 ^ 32`.  The result is `none` where the macro divides by zero. -/
def mult_frac (x n d : Nat) : Option Nat :=
  if d = 0 then none
  else some (((x / d) * n % 2 ^ 32 + ((x % d) * n % 2 ^ 32) / d) % 2 ^ 32)

/-- The source's `clk_core_get_scaled_duty_cycle`; `scale` is an `unsigned int`.  The first
component of the result is the return value, `none` where `mult_frac` divides by zero. -/
def clk_core_get_scaled_duty_cycle (hw : Hw) (fuel : Nat) (s : State) (core scale : Nat) :
    Option (Option Int × State) :=
  match clk_core_update_duty_cycle_nolock hw fuel s core with
  | none => none
  | some (ret, s1) =>
    if ret = 0 then
      some ((mult_frac scale (s1.duty_num core) (s1.duty_den core)).map to_int, s1)
    else some (some ret, s1)

/-- The source's `clk_set_rate_range`; `clk` is the handle. -/
def clk_set_rate_range (hw : Hw) (fuel : Nat) (s : State) (clk : Option Nat) (min max : Nat) :
    Option (Int × State) :=
  match clk with
  | none => some (0, s)
  | some k =>
    if min > max then some (-EINVAL, s)
    else
      let s1? := if s.exclusive_count k ≠ 0 then
                   clk_core_rate_unprotect fuel s (some (s.clk_core k))
                 else some s
      match s1? with
      | none => none
      | some s1 =>
        let old_min := s1.clk_min_rate k
        let old_max := s1.clk_max_rate k
        let s2 := { s1 with clk_min_rate := Function.update s1.clk_min_rate k min,
                            clk_max_rate := Function.update s1.clk_max_rate k max }
        let rate := clk_core_get_rate_nolock s2 (some (s2.clk_core k))
        let s4? : Option (Int × State) :=
          if rate < min || rate > max then
            let rate := if rate < min then min else max
            match clk_core_set_rate_nolock hw fuel s2 (some (s2.clk_core k)) rate with
            | none => none
            | some (ret, s3) =>
              if ret ≠ 0 then
                some (ret, { s3 with clk_min_rate := Function.update s3.clk_min_rate k old_min,
                                     clk_max_rate := Function.update s3.clk_max_rate k old_max })
              else some (ret, s3)
          else some (0, s2)
        match s4? with
        | none => none
        | some (ret, s4) =>
          let s5? := if s4.exclusive_count k ≠ 0 then
                       clk_core_rate_protect fuel s4 (some (s4.clk_core k))
                     else some s4
          match s5? with
          | none => none
          | some s5 => some (ret, s5)

/-- The source's `clk_set_min_rate`. -/
def clk_set_min_rate (hw : Hw) (fuel : Nat) (s : State) (clk : Option Nat) (rate : Nat) :
    Option (Int × State) :=
  match clk with
  | none => some (0, s)
  | some k => clk_set_rate_range hw fuel s clk rate (s.clk_max_rate k)

/-- The source's `clk_set_max_rate`. -/
def clk_set_max_rate (hw : Hw) (fuel : Nat) (s : State) (clk : Option Nat) (rate : Nat) :
    Option (Int × State) :=
  match clk with
  | none => some (0, s)
  | some k => clk_set_rate_range hw fuel s clk (s.clk_min_rate k) rate

/-- The source's `alloc_clk` for the new handle `clk`: `kzalloc` (taken to succeed) clears every
field, then `clk->core` and `clk->max_rate` are set; the two strings are not modelled. -/
def alloc_clk (s : State) (core clk : Nat) : State :=
  { s with clk_core := Function.update s.clk_core clk core,
           clk_min_rate := Function.update s.clk_min_rate clk 0,
           clk_max_rate := Function.update s.clk_max_rate clk ULONG_MAX,
           exclusive_count := Function.update s.exclusive_count clk 0 }

/-- The single node of `tunable1` with a `set_phase` op instead of the rate ops. -/
def phased1 : State :=
  { tunable1 with ops := fun n => if n = 0 then { set_phase := true } else {} }

/-- The single node of `tunable1` with a `get_duty_cycle` op instead of the rate ops. -/
def cycled1 : State :=
  { tunable1 with ops := fun n => if n = 0 then { get_duty_cycle := true } else {} }

/-- Hardware as `Hw.quiet`, except that the `get_duty_cycle` op answers the ratio 3/2, which is
not a valid duty cycle. -/
def Hw.skewed : Hw :=
  { Hw.quiet with get_duty_cycle := fun _ _ => (0, 3, 2) }

/-- A call of the single actor to a reentrant lock: an acquisition (`clk_prepare_lock`,
`clk_enable_lock`) or a release (`clk_prepare_unlock`, `clk_enable_unlock`). -/
inductive lock_call where
  | acquire
  | release
  deriving DecidableEq, Repr

/-- A sequence of calls of the task `current` to the prepare lock, from the lock state `l`. -/
def prepare_lock_run (current : Nat) : clk_lock → List lock_call → Option clk_lock
  | l, [] => some l
  | l, .acquire :: rest =>
    match clk_prepare_lock l current with
    | none => none
    | some l1 => prepare_lock_run current l1 rest
  | l, .release :: rest => prepare_lock_run current (clk_prepare_unlock l) rest

/-- A sequence of calls of the task `current` to the enable lock, from the lock state `l`. -/
def enable_lock_run (smp : Bool) (current : Nat) : clk_lock → List lock_call → Option clk_lock
  | l, [] => some l
  | l, .acquire :: rest =>
    match clk_enable_lock smp l current with
    | none => none
    | some l1 => enable_lock_run smp current l1 rest
  | l, .release :: rest => enable_lock_run smp current (clk_enable_unlock l) rest

/-- The nesting depth after the calls, starting at depth `d`; `none` when a release is called at
depth 0, that is, on a lock that the actor does not hold. -/
def lock_depth : Nat → List lock_call → Option Nat
  | d, [] => some d
  | d, .acquire :: rest => lock_depth (d + 1) rest
  | 0, .release :: _ => none
  | d + 1, .release :: rest => lock_depth d rest

/-- The state of a lock held `d` times by `current` (free when `d = 0`); `hard` says that the lock
itself has a state (the mutex, or the spinlock with `CONFIG_SMP`). -/
def lock_at (hard : Bool) (current : Nat) (d : Nat) : clk_lock :=
  if d = 0 then {} else { locked := hard, owner := some current, refcnt := d }

/-- A call to one of the three functions that set the rate window of a handle. -/
inductive range_call where
  | set_rate_range (clk min max : Nat)
  | set_min_rate (clk rate : Nat)
  | set_max_rate (clk rate : Nat)
  deriving DecidableEq, Repr

/-- One call of `range_call` on the state. -/
def range_step (hw : Hw) (fuel : Nat) (s : State) : range_call → Option (Int × State)
  | .set_rate_range clk min max => clk_set_rate_range hw fuel s (some clk) min max
  | .set_min_rate clk rate => clk_set_min_rate hw fuel s (some clk) rate
  | .set_max_rate clk rate => clk_set_max_rate hw fuel s (some clk) rate

/-- A sequence of calls of `range_call`, whatever each of them returns. -/
def range_run (hw : Hw) (fuel : Nat) : State → List range_call → Option State
  | s, [] => some s
  | s, call :: rest =>
    match range_step hw fuel s call with
    | none => none
    | some (_, s1) => range_run hw fuel s1 rest

/-- The two-node chain where node 1 holds two protect references, both through the exclusive
handle 0, and node 0 holds the one that node 1 passes up. -/
def held2 : State :=
  { chain2 with
    protect_count := fun n => if n = 1 then 2 else if n = 0 then 1 else 0,
    exclusive_count := fun k => if k = 0 then 2 else 0,
    clk_core := fun _ => 1 }

/-- The nodes that the walk of `clk_propagate_rate_change` from `t` reaches in state `s`: `t`
itself when its rate is planned to change, and from a node whose rate is planned to change the
nodes reached from its children (those that are not planned to move to another parent) and from
its `new_child`. -/
inductive Visits (s : State) : Nat → Nat → Prop
  | here (t : Nat) : s.rate t ≠ s.new_rate t → Visits s t t
  | child (t c n : Nat) : s.rate t ≠ s.new_rate t → c ∈ s.children t →
      ¬ ((s.new_parent c).isSome = true ∧ s.new_parent c ≠ some t) → Visits s c n → Visits s t n
  | new_child (t c n : Nat) : s.rate t ≠ s.new_rate t → s.new_child t = some c →
      Visits s c n → Visits s t n

/-- The node `n` is sent the event `ev` in `ext` with its rate and its planned rate. -/
def Delivered (s : State) (ev : Nat) (ext : List clk_event) (n : Nat) : Prop :=
  ∃ cn, clk_event.notify cn ev (s.rate n) (s.new_rate n) ∈ ext ∧ s.clk_core cn = n

/-- Hardware as `Hw.tracking`, where the `round_rate` op of node 1 asks its parent for twice the
requested rate and the `round_rate` op of every other node answers the rate the node runs at. -/
def Hw.rigid : Hw :=
  { Hw.tracking with
    round_rate := fun s n rate parent_rate =>
      if n = 1 then (rate, 2 * rate) else (s.rate n, parent_rate) }

/-- The pair of `notified_pair` with the source running at 100 and the divider at 50, where only
the divider (node 1) has a notifier, registered through handle 1. -/
def watched_divider : State :=
  { notified_pair with
    rate := fun n => if n = 0 then 100 else if n = 1 then 50 else 0,
    new_rate := fun n => if n = 0 then 100 else if n = 1 then 50 else 0,
    notifier_count := fun n => if n = 1 then 1 else 0,
    clk_notifier_list := [1] }

/-- The mux of `mux1` with a notifier on the mux (node 0), registered through handle 0. -/
def watched_mux : State :=
  { mux1 with
    notifier_count := fun n => if n = 0 then 1 else 0,
    clk_notifier_list := [0] }

/-- Whether `x` is among the first `fuel` nodes of the chain that starts at `m` and climbs the
parent map `par`: the nodes that a reference walk from `m` with that fuel can reach. -/
def on_chain (par : Nat → Option Nat) : Nat → Option Nat → Nat → Bool
  | 0, _, _ => false
  | _ + 1, none, _ => false
  | fuel + 1, some m, x => m == x || on_chain par fuel (par m) x

/-- The mux of `mux1` over a two-level chain: node 2 feeds node 1, node 1 feeds the mux (node
0), whose other candidate parent is node 2; each node holds one prepare reference. -/
def stacked_mux : State :=
  { mux1 with
    parent := fun n => if n = 0 then some 1 else if n = 1 then some 2 else none,
    children := fun n => if n = 1 then [0] else if n = 2 then [1] else [],
    clk_root_list := [2],
    prepare_count := fun n => if n ≤ 2 then 1 else 0 }

/-- The invariant of the reference counts that the adoption of orphans keeps: no node uses
`CLK_OPS_PARENT_ENABLE`, the prepare counts and the enable counts respect ancestry, a critical
node holds both references, and an enabled node is prepared. -/
structure Counted (s : State) : Prop where
  flag : ∀ n, (s.flags n).CLK_OPS_PARENT_ENABLE = false
  prep : Ancestry s.parent s.prepare_count
  enab : Ancestry s.parent s.enable_count
  crit : ∀ x, (s.flags x).CLK_IS_CRITICAL = true →
    0 < s.prepare_count x ∧ 0 < s.enable_count x
  held : ∀ x, 0 < s.enable_count x → 0 < s.prepare_count x

/-- The pair of `adoptable_pair` where the orphan X (node 1) is a critical clock that holds its
prepare and enable reference while it waits for its parent Y (node 0). -/
def critical_orphan : State :=
  { adoptable_pair with
    flags := fun n => if n = 1 then { CLK_IS_CRITICAL := true } else {},
    prepare_count := fun n => if n = 1 then 1 else 0,
    enable_count := fun n => if n = 1 then 1 else 0 }

/-- The pair of `protected_orphan`, with the orphan (node 1) holding two protect references,
taken by `clk_rate_exclusive_get` on its two consumers, handles 1 and 2; handle 1 has set the
lower bound 200 of its window while the node's `req_rate` is 0. -/
def shared_orphan : State :=
  { protected_orphan with
    protect_count := fun n => if n = 1 then 2 else 0,
    exclusive_count := fun k => if k = 1 ∨ k = 2 then 1 else 0,
    clk_core := fun k => if k = 2 then 1 else k,
    clks := fun n => if n = 1 then [1, 2] else [],
    clk_min_rate := fun k => if k = 1 then 200 else 0 }

/-- A subscriber vetoed the event `ev` in the trace extension `ext` of `s`: `ext` holds a
delivery of `ev` to a handle `cn` whose notifier chain, called in the state of that moment (`s`
with the trace up to the delivery), returned a value with the stop bit. -/
def Vetoed (hw : Hw) (s : State) (ev : Nat) (ext : List clk_event) : Prop :=
  ∃ E1 cn o n E2, ext = E1 ++ clk_event.notify cn ev o n :: E2 ∧
    hw.notifier_call_chain { s with trace := s.trace ++ E1 } cn ev o n &&& NOTIFY_STOP_MASK ≠ 0

/-- The node `n` has a subscriber on the notifier list whose chain answers the event `ev`, sent
with the node's rate and planned rate, with the stop bit whatever the state. -/
def Stops (hw : Hw) (s : State) (ev : Nat) (n : Nat) : Prop :=
  ∃ cn ∈ s.clk_notifier_list, s.clk_core cn = n ∧
    ∀ st, hw.notifier_call_chain st cn ev (s.rate n) (s.new_rate n) &&& NOTIFY_STOP_MASK ≠ 0

/-- Hardware as `Hw.quiet`, where the `recalc_rate` op of node 0 reads back the rate planned for
it and that of every other node passes the parent rate on, `round_rate` accepts the requested
rate and asks the parent for the same rate, and the `determine_rate` op (of a mux) accepts the
requested rate and picks node 1 as parent, running at that rate. -/
def Hw.following : Hw :=
  { Hw.quiet with
    recalc_rate := fun s n parent_rate => if n = 0 then s.new_rate 0 else parent_rate,
    round_rate := fun _ _ rate _ => (rate, rate),
    determine_rate := fun _ _ req =>
      (0, { req with best_parent_hw := some 1, best_parent_rate := req.rate }) }

/-- An oscillator (node 0) that feeds a divider (node 1) and a mux (node 2), in this order on
its child list; the mux can also be fed by the divider; the divider feeds a peripheral clock
(node 3) that has a `set_rate` op and one subscriber, registered through handle 3.  Divider and
mux forward rate requests to their parent (`CLK_SET_RATE_PARENT`); every node runs at 100, and
handle `k` is a consumer of node `k`. -/
def sibling_mux : State :=
  { State.blank with
    parent := fun n => if n = 1 ∨ n = 2 then some 0 else if n = 3 then some 1 else none,
    children := fun n => if n = 0 then [1, 2] else if n = 1 then [3] else [],
    num_parents := fun n => if n = 1 ∨ n = 3 then 1 else if n = 2 then 2 else 0,
    parents := fun n =>
      if n = 1 then [{ core := some 0 }]
      else if n = 2 then [{ core := some 0 }, { core := some 1 }]
      else if n = 3 then [{ core := some 1 }] else [],
    ops := fun n =>
      if n ≤ 1 then { round_rate := true, set_rate := true, recalc_rate := true }
      else if n = 2 then { determine_rate := true, set_parent := true, recalc_rate := true }
      else if n = 3 then { set_rate := true, recalc_rate := true } else {},
    flags := fun n => if n = 1 ∨ n = 2 then { CLK_SET_RATE_PARENT := true } else {},
    rate := fun n => if n ≤ 3 then 100 else 0,
    new_rate := fun n => if n ≤ 3 then 100 else 0,
    clk_core := fun k => k,
    hw_clk := fun n => n,
    notifier_count := fun n => if n = 3 then 1 else 0,
    clk_notifier_list := [3],
    clk_root_list := [0] }

/-- The tree of `sibling_mux` with the mux before the divider on the child list of the
oscillator. -/
def sibling_mux_first : State :=
  { sibling_mux with children := fun n => if n = 0 then [2, 1] else if n = 1 then [3] else [] }

theorem live_children_congr (par : Nat → Option Nat) (N : Nat) (c c' : Nat → Nat) (x : Nat)
    (h : ∀ y, par y = some x → (0 < c' y ↔ 0 < c y)) :
    live_children par N c' x = live_children par N c x := by
  unfold live_children
  congr 1
  apply Finset.filter_congr
  intro y _
  constructor
  · rintro ⟨h1, h2⟩; exact ⟨h1, (h y h1).1 h2⟩
  · rintro ⟨h1, h2⟩; exact ⟨h1, (h y h1).2 h2⟩

theorem live_children_update_of_ne (par : Nat → Option Nat) (N : Nat) (c : Nat → Nat)
    (n v x : Nat) (h : par n ≠ some x) :
    live_children par N (Function.update c n v) x = live_children par N c x := by
  apply live_children_congr
  intro y hy
  have : y ≠ n := by rintro rfl; exact h hy
  simp [Function.update_noteq this]

theorem live_children_update_same (par : Nat → Option Nat) (N : Nat) (c : Nat → Nat)
    (n v x : Nat) (h : 0 < v ↔ 0 < c n) :
    live_children par N (Function.update c n v) x = live_children par N c x := by
  apply live_children_congr
  intro y _
  by_cases hyn : y = n
  · subst hyn; simpa using h
  · simp [Function.update_noteq hyn]

theorem live_children_update_pos (par : Nat → Option Nat) (N : Nat) (c : Nat → Nat)
    (n v p : Nat) (hn : n < N) (hp : par n = some p) (h0 : c n = 0) (hv : 0 < v) :
    live_children par N (Function.update c n v) p = live_children par N c p + 1 := by
  unfold live_children
  have hins : (Finset.range N).filter (fun y => par y = some p ∧ 0 < Function.update c n v y)
      = insert n ((Finset.range N).filter (fun y => par y = some p ∧ 0 < c y)) := by
    ext y
    simp only [Finset.mem_filter, Finset.mem_range, Finset.mem_insert]
    by_cases hyn : y = n
    · subst hyn; simp [hn, hp, hv]
    · simp [Function.update_noteq hyn, hyn]
  rw [hins, Finset.card_insert_of_not_mem]
  simp [h0]

theorem live_children_update_zero (par : Nat → Option Nat) (N : Nat) (c : Nat → Nat)
    (n p : Nat) (hn : n < N) (hp : par n = some p) (h0 : 0 < c n) :
    live_children par N (Function.update c n 0) p + 1 = live_children par N c p := by
  have h := live_children_update_pos par N (Function.update c n 0) n (c n) p hn hp (by simp) h0
  simpa using h.symm

theorem ref_get_total {par : Nat → Option Nat} {N : Nat} {dep : Nat → Nat}
    (hd : IsDepth par N dep) (fuel : Nat) (c : Nat → Nat) (m : Nat) (hf : dep m < fuel) :
    ∃ c', ref_get par fuel c (some m) = some c' := by
  induction fuel generalizing c m with
  | zero => omega
  | succ fuel ih =>
    unfold ref_get
    by_cases h0 : c m = 0
    · simp only [h0, if_true]
      cases hp : par m with
      | none => simp [ref_get]
      | some p =>
        obtain ⟨c1, hc1⟩ := ih c p (by have := (hd m p hp).2.1; omega)
        simp [hc1]
    · simp [h0]

theorem ref_put_total {par : Nat → Option Nat} {N : Nat} {dep : Nat → Nat}
    (hd : IsDepth par N dep) (crit : Nat → Bool) (fuel : Nat) (c : Nat → Nat) (m : Nat)
    (hf : dep m < fuel) :
    ∃ c', ref_put par crit fuel c (some m) = some c' := by
  induction fuel generalizing c m with
  | zero => omega
  | succ fuel ih =>
    unfold ref_put
    by_cases h0 : c m = 0
    · simp [h0]
    · simp only [h0, if_false]
      split
      · exact ⟨_, rfl⟩
      · split
        · exact ⟨_, rfl⟩
        · cases hp : par m with
          | none => simp [ref_put]
          | some p => exact ih _ p (by have := (hd m p hp).2.1; omega)

/-- What a walk leaves alone: the nodes deeper than its starting point. -/
theorem ref_get_frame {par : Nat → Option Nat} {N : Nat} {dep : Nat → Nat}
    (hd : IsDepth par N dep) (fuel : Nat) (c c' : Nat → Nat) (m : Nat)
    (h : ref_get par fuel c (some m) = some c') :
    ∀ x, dep m < dep x → c' x = c x := by
  induction fuel generalizing c c' m with
  | zero => simp [ref_get] at h
  | succ fuel ih =>
    unfold ref_get at h
    intro x hx
    have hxm : x ≠ m := by rintro rfl; omega
    by_cases h0 : c m = 0
    · simp only [h0, if_true] at h
      cases hp : par m with
      | none =>
        simp only [hp, ref_get] at h
        cases h
        simp [Function.update_noteq hxm]
      | some p =>
        rw [hp] at h
        cases hc1 : ref_get par fuel c (some p) with
        | none => simp [hc1] at h
        | some c1 =>
          simp only [hc1] at h
          cases h
          rw [Function.update_noteq hxm]
          exact ih c c1 p hc1 x (by have := (hd m p hp).2.1; omega)
    · simp only [h0, if_false] at h
      cases h
      simp [Function.update_noteq hxm]

theorem ref_get_low {par : Nat → Option Nat} {N : Nat} {dep : Nat → Nat}
    (hd : IsDepth par N dep) (g : Nat → Nat) (fuel : Nat) (c c' : Nat → Nat) (m : Nat)
    (hinv : LowInv par N g c none) (h : ref_get par fuel c (some m) = some c') :
    LowInv par N g c' (some m) := by
  induction fuel generalizing c c' m with
  | zero => simp [ref_get] at h
  | succ fuel ih =>
    unfold ref_get at h
    by_cases h0 : c m = 0
    · simp only [h0, if_true] at h
      have hm := hinv m
      simp only [h0] at hm
      cases hp : par m with
      | none =>
        simp only [hp, ref_get] at h
        cases h
        intro x
        rw [live_children_update_of_ne par N c m _ x (by simp [hp])]
        by_cases hx : x = m
        · subst hx; simp at hm ⊢; omega
        · have := hinv x
          simp [Function.update_noteq hx, Ne.symm hx] at this ⊢
          omega
      | some p =>
        rw [hp] at h
        cases hc1 : ref_get par fuel c (some p) with
        | none => simp [hc1] at h
        | some c1 =>
          simp only [hc1] at h
          cases h
          have hdm := hd m p hp
          have hpm : p ≠ m := by rintro rfl; omega
          have hfr := ref_get_frame hd fuel c c1 p hc1 m hdm.2.1
          have ih1 := ih c c1 p hinv hc1
          intro x
          by_cases hx : x = m
          · subst hx
            have := ih1 x
            rw [live_children_update_of_ne par N c1 x _ x (by rw [hp]; simp [hpm])]
            simp [hfr, h0, hpm] at this ⊢
            omega
          · by_cases hxp : x = p
            · subst hxp
              have := ih1 x
              rw [live_children_update_pos par N c1 m _ x hdm.1 hp (by rw [hfr, h0]) (by omega)]
              simp [Function.update_noteq hx, Ne.symm hx] at this ⊢
              omega
            · have := ih1 x
              rw [live_children_update_of_ne par N c1 m _ x (by rw [hp]; simp [Ne.symm hxp])]
              simp [Function.update_noteq hx, Ne.symm hx, Ne.symm hxp] at this ⊢
              omega
    · simp only [h0, if_false] at h
      cases h
      intro x
      rw [live_children_update_same par N c m _ x (by omega)]
      have := hinv x
      by_cases hx : x = m
      · subst hx; simp at this ⊢; omega
      · simp [Function.update_noteq hx, Ne.symm hx] at this ⊢
        omega

theorem ref_get_up {par : Nat → Option Nat} {N : Nat} {dep : Nat → Nat}
    (hd : IsDepth par N dep) (g : Nat → Nat) (fuel : Nat) (c c' : Nat → Nat) (m : Nat)
    (hinv : UpInv par N g c none) (h : ref_get par fuel c (some m) = some c') :
    UpInv par N g c' (some m) := by
  induction fuel generalizing c c' m with
  | zero => simp [ref_get] at h
  | succ fuel ih =>
    unfold ref_get at h
    by_cases h0 : c m = 0
    · simp only [h0, if_true] at h
      cases hp : par m with
      | none =>
        simp only [hp, ref_get] at h
        cases h
        intro x
        rw [live_children_update_of_ne par N c m _ x (by simp [hp])]
        by_cases hx : x = m
        · subst hx; simp [h0]
        · have := hinv x
          simp [Function.update_noteq hx, Ne.symm hx] at this ⊢
          omega
      | some p =>
        rw [hp] at h
        cases hc1 : ref_get par fuel c (some p) with
        | none => simp [hc1] at h
        | some c1 =>
          simp only [hc1] at h
          cases h
          have hdm := hd m p hp
          have hpm : p ≠ m := by rintro rfl; omega
          have hfr := ref_get_frame hd fuel c c1 p hc1 m hdm.2.1
          have ih1 := ih c c1 p hinv hc1
          intro x
          by_cases hx : x = m
          · subst hx
            simp [hfr, h0]
          · by_cases hxp : x = p
            · subst hxp
              have := ih1 x
              rw [live_children_update_pos par N c1 m _ x hdm.1 hp (by rw [hfr, h0]) (by omega)]
              simp [Function.update_noteq hx, Ne.symm hx] at this ⊢
              omega
            · have := ih1 x
              rw [live_children_update_of_ne par N c1 m _ x (by rw [hp]; simp [Ne.symm hxp])]
              simp [Function.update_noteq hx, Ne.symm hx, Ne.symm hxp] at this ⊢
              omega
    · simp only [h0, if_false] at h
      cases h
      intro x
      rw [live_children_update_same par N c m _ x (by omega)]
      have := hinv x
      by_cases hx : x = m
      · subst hx; simp at this ⊢; omega
      · simp [Function.update_noteq hx, Ne.symm hx] at this ⊢
        omega

theorem ref_put_low {par : Nat → Option Nat} {N : Nat} {dep : Nat → Nat}
    (hd : IsDepth par N dep) (crit : Nat → Bool) (g : Nat → Nat) (fuel : Nat)
    (c c' : Nat → Nat) (m : Nat)
    (hinv : LowInv par N g c (some m)) (h : ref_put par crit fuel c (some m) = some c') :
    LowInv par N g c' none := by
  induction fuel generalizing c c' m with
  | zero => simp [ref_put] at h
  | succ fuel ih =>
    unfold ref_put at h
    have hweak : LowInv par N g c none := by
      intro x; have := hinv x; simp at this ⊢; omega
    have hm := hinv m
    simp only [if_true] at hm
    by_cases h0 : c m = 0
    · omega
    · simp only [h0, if_false] at h
      split at h
      · cases h; exact hweak
      · split at h
        · cases h
          intro x
          rw [live_children_update_same par N c m _ x (by omega)]
          have := hinv x
          by_cases hx : x = m
          · subst hx; simp at this ⊢; omega
          · simp [Function.update_noteq hx, Ne.symm hx] at this ⊢
            omega
        · have h1 : c m = 1 := by omega
          rw [h1] at h
          simp only [Nat.sub_self] at h
          cases hp : par m with
          | none =>
            simp only [hp, ref_put] at h
            cases h
            intro x
            rw [live_children_update_of_ne par N c m _ x (by simp [hp])]
            have := hinv x
            by_cases hx : x = m
            · subst hx; simp at this ⊢; omega
            · simp [Function.update_noteq hx, Ne.symm hx] at this ⊢
              omega
          | some p =>
            rw [hp] at h
            have hdm := hd m p hp
            have hpm : p ≠ m := by rintro rfl; omega
            refine ih (Function.update c m 0) c' p ?_ h
            intro x
            by_cases hx : x = m
            · subst hx
              rw [live_children_update_of_ne par N c x _ x (by rw [hp]; simp [hpm])]
              simp [hpm]
              omega
            · by_cases hxp : x = p
              · subst hxp
                have := hinv x
                have hz := live_children_update_zero par N c m x hdm.1 hp (by omega)
                simp [Function.update_noteq hx, Ne.symm hx] at this ⊢
                omega
              · have := hinv x
                rw [live_children_update_of_ne par N c m _ x (by rw [hp]; simp [Ne.symm hxp])]
                simp [Function.update_noteq hx, Ne.symm hx, Ne.symm hxp] at this ⊢
                omega

theorem ref_put_up {par : Nat → Option Nat} {N : Nat} {dep : Nat → Nat}
    (hd : IsDepth par N dep) (crit : Nat → Bool) (hcrit : ∀ x, crit x = false)
    (g : Nat → Nat) (fuel : Nat) (c c' : Nat → Nat) (m : Nat)
    (hinv : UpInv par N g c (some m)) (h : ref_put par crit fuel c (some m) = some c') :
    UpInv par N g c' none := by
  induction fuel generalizing c c' m with
  | zero => simp [ref_put] at h
  | succ fuel ih =>
    unfold ref_put at h
    have hm := hinv m
    simp only [if_true] at hm
    by_cases h0 : c m = 0
    · simp only [h0, if_true] at h
      cases h
      intro x
      have := hinv x
      by_cases hx : x = m
      · subst hx; simp [h0]
      · simp [Ne.symm hx] at this ⊢; omega
    · simp only [h0, if_false, hcrit, Bool.and_false] at h
      split at h
      · rename_i hf; simp at hf
      · split at h
        · cases h
          intro x
          rw [live_children_update_same par N c m _ x (by omega)]
          have := hinv x
          by_cases hx : x = m
          · subst hx; simp at this ⊢; omega
          · simp [Function.update_noteq hx, Ne.symm hx] at this ⊢
            omega
        · have h1 : c m = 1 := by omega
          rw [h1] at h
          simp only [Nat.sub_self] at h
          cases hp : par m with
          | none =>
            simp only [hp, ref_put] at h
            cases h
            intro x
            rw [live_children_update_of_ne par N c m _ x (by simp [hp])]
            have := hinv x
            by_cases hx : x = m
            · subst hx; simp
            · simp [Function.update_noteq hx, Ne.symm hx] at this ⊢
              omega
          | some p =>
            rw [hp] at h
            have hdm := hd m p hp
            have hpm : p ≠ m := by rintro rfl; omega
            refine ih (Function.update c m 0) c' p ?_ h
            intro x
            by_cases hx : x = m
            · subst hx
              simp
            · by_cases hxp : x = p
              · subst hxp
                have := hinv x
                have hz := live_children_update_zero par N c m x hdm.1 hp (by omega)
                simp [Function.update_noteq hx, Ne.symm hx] at this ⊢
                omega
              · have := hinv x
                rw [live_children_update_of_ne par N c m _ x (by rw [hp]; simp [Ne.symm hxp])]
                simp [Function.update_noteq hx, Ne.symm hx, Ne.symm hxp] at this ⊢
                omega

theorem clk_core_rate_protect_eq (fuel : Nat) (s : State) (m : Option Nat) :
    clk_core_rate_protect fuel s m =
      (ref_get s.parent fuel s.protect_count m).map (fun c => { s with protect_count := c }) := by
  induction fuel generalizing s m with
  | zero => cases m <;> simp [clk_core_rate_protect, ref_get]
  | succ fuel ih =>
    cases m with
    | none => simp [clk_core_rate_protect, ref_get]
    | some core =>
      unfold clk_core_rate_protect ref_get
      by_cases h0 : s.protect_count core = 0
      · simp only [h0, if_true]
        rw [ih]
        cases ref_get s.parent fuel s.protect_count (s.parent core) <;> simp
      · simp [h0]

theorem clk_core_rate_unprotect_eq (fuel : Nat) (s : State) (m : Option Nat) :
    clk_core_rate_unprotect fuel s m =
      (ref_put s.parent (fun _ => false) fuel s.protect_count m).map
        (fun c => { s with protect_count := c }) := by
  induction fuel generalizing s m with
  | zero => cases m <;> simp [clk_core_rate_unprotect, ref_put]
  | succ fuel ih =>
    cases m with
    | none => simp [clk_core_rate_unprotect, ref_put]
    | some core =>
      unfold clk_core_rate_unprotect ref_put
      by_cases h0 : s.protect_count core = 0
      · simp [h0]
      · by_cases h1 : s.protect_count core - 1 > 0
        · simp [h0, h1]
        · simp only [h0, h1, if_false, Bool.and_false, Function.update_same]
          rw [ih]
          simp


theorem clk_core_disable_spec {N : Nat} {dep : Nat → Nat} (fuel : Nat) (s : State) (m : Nat)
    (hd : IsDepth s.parent N dep) (hf : dep m < fuel) :
    ∃ s', clk_core_disable fuel s (some m) = some s' ∧
      ref_put s.parent (fun n => (s.flags n).CLK_IS_CRITICAL) fuel s.enable_count (some m)
        = some s'.enable_count ∧
      s' = { s with enable_count := s'.enable_count, trace := s'.trace } := by
  induction fuel generalizing s m with
  | zero => omega
  | succ fuel ih =>
    unfold clk_core_disable ref_put
    by_cases h0 : s.enable_count m = 0
    · simp [h0]
    · by_cases h1 : (s.enable_count m = 1 && (s.flags m).CLK_IS_CRITICAL) = true
      · simp [h0, h1]
      · by_cases h2 : s.enable_count m - 1 > 0
        · simp [h0, h1, h2]
        · simp only [h0, h1, h2, if_false, Function.update_same, Bool.false_eq_true]
          cases hp : s.parent m with
          | none =>
            by_cases hop : (s.ops m).disable = true <;>
              simp [hop, State.log, hp, clk_core_disable, ref_put]
          | some p =>
            have hdm := hd m p hp
            by_cases hop : (s.ops m).disable = true
            · have := ih
                { s with enable_count := Function.update s.enable_count m (s.enable_count m - 1),
                         trace := s.trace ++ [.op_disable m] } p hd (by omega)
              simpa [hop, State.log, hp] using this
            · have := ih
                { s with enable_count := Function.update s.enable_count m (s.enable_count m - 1) }
                p hd (by omega)
              simpa [hop, State.log, hp] using this

theorem clk_core_enable_spec {N : Nat} {dep : Nat → Nat} (hw : Hw) (hops : OpsSucceed hw)
    (fuel : Nat) (s : State) (m : Nat)
    (hd : IsDepth s.parent N dep) (hf : dep m < fuel) :
    clk_core_enable hw fuel s (some m) = some (-ESHUTDOWN, s) ∨
    ∃ s', clk_core_enable hw fuel s (some m) = some (0, s') ∧
      ref_get s.parent fuel s.enable_count (some m) = some s'.enable_count ∧
      s' = { s with enable_count := s'.enable_count, trace := s'.trace } := by
  induction fuel generalizing s m with
  | zero => omega
  | succ fuel ih =>
    unfold clk_core_enable ref_get
    by_cases hp0 : s.prepare_count m = 0
    · left; simp [hp0]
    · by_cases h0 : s.enable_count m = 0
      · simp only [hp0, h0, if_false, if_true]
        cases hp : s.parent m with
        | none =>
          right
          by_cases hop : (s.ops m).enable = true <;>
            simp [clk_core_enable, ref_get, (hops _ _).2.1, hop, State.log, h0]
        | some p =>
          have hdm := hd m p hp
          rcases ih s p hd (by omega) with e | ⟨s1, e1, e2, e3⟩
          · left; simp [e, ESHUTDOWN]
          · right
            obtain ⟨c1, tr1, rfl⟩ : ∃ c1 tr1, s1 = { s with enable_count := c1, trace := tr1 } :=
              ⟨_, _, e3⟩
            by_cases hop : (s.ops m).enable = true <;>
              simp [e1, e2, (hops _ _).2.1, hop, State.log]
      · right
        simp [hp0, h0]

theorem clk_core_rate_unprotect_some {N : Nat} {dep : Nat → Nat} (fuel : Nat) (s : State)
    (m : Nat) (hd : IsDepth s.parent N dep) (hf : dep m < fuel) :
    ∃ r, clk_core_rate_unprotect fuel s (some m) = some { s with protect_count := r } := by
  obtain ⟨r, hr⟩ := ref_put_total hd (fun _ => false) fuel s.protect_count m hf
  exact ⟨r, by rw [clk_core_rate_unprotect_eq, hr]; rfl⟩

theorem clk_core_rate_protect_some {N : Nat} {dep : Nat → Nat} (fuel : Nat) (s : State)
    (m : Nat) (hd : IsDepth s.parent N dep) (hf : dep m < fuel) :
    ∃ r, clk_core_rate_protect fuel s (some m) = some { s with protect_count := r } := by
  obtain ⟨r, hr⟩ := ref_get_total hd fuel s.protect_count m hf
  exact ⟨r, by rw [clk_core_rate_protect_eq, hr]; rfl⟩

theorem clk_core_unprepare_spec {N : Nat} {dep : Nat → Nat} (fuel : Nat) (s : State) (m : Nat)
    (hd : IsDepth s.parent N dep) (hf : dep m < fuel) :
    ∃ s', clk_core_unprepare fuel s (some m) = some s' ∧
      ref_put s.parent (fun n => (s.flags n).CLK_IS_CRITICAL) fuel s.prepare_count (some m)
        = some s'.prepare_count ∧
      s' = { s with prepare_count := s'.prepare_count, protect_count := s'.protect_count,
                    trace := s'.trace } := by
  induction fuel generalizing s m with
  | zero => omega
  | succ fuel ih =>
    unfold clk_core_unprepare ref_put
    by_cases h0 : s.prepare_count m = 0
    · simp [h0]
    · by_cases h1 : (s.prepare_count m = 1 && (s.flags m).CLK_IS_CRITICAL) = true
      · simp [h0, h1]
      · obtain ⟨s1, hs1, r, hr⟩ : ∃ s1, (if (s.flags m).CLK_SET_RATE_GATE = true then
              clk_core_rate_unprotect (fuel + 1) s (some m) else some s) = some s1 ∧
            ∃ r, s1 = { s with protect_count := r } := by
          by_cases hg : (s.flags m).CLK_SET_RATE_GATE = true
          · obtain ⟨r, hr⟩ := clk_core_rate_unprotect_some (fuel + 1) s m hd hf
            exact ⟨_, by simp [hg, hr], r, rfl⟩
          · exact ⟨s, by simp [hg], s.protect_count, rfl⟩
        subst hr
        simp only [h0, h1, hs1, if_false, Function.update_same, Bool.false_eq_true]
        by_cases h2 : s.prepare_count m - 1 > 0
        · simp [h2]
        · simp only [h2, if_false]
          cases hp : s.parent m with
          | none =>
            by_cases hop : (s.ops m).unprepare = true <;>
            by_cases hrpm : s.rpm_enabled m = true <;>
              simp [hop, hrpm, State.log, hp, clk_core_unprepare, ref_put, clk_pm_runtime_put]
          | some p =>
            have hdm := hd m p hp
            by_cases hop : (s.ops m).unprepare = true <;>
            by_cases hrpm : s.rpm_enabled m = true
            · have := ih
                { s with prepare_count := Function.update s.prepare_count m (s.prepare_count m - 1),
                         protect_count := r,
                         trace := s.trace ++ [.op_unprepare m] ++ [.pm_runtime_put_sync m] }
                p hd (by omega)
              simpa [hop, hrpm, State.log, hp, clk_pm_runtime_put] using this
            · have := ih
                { s with prepare_count := Function.update s.prepare_count m (s.prepare_count m - 1),
                         protect_count := r,
                         trace := s.trace ++ [.op_unprepare m] }
                p hd (by omega)
              simpa [hop, hrpm, State.log, hp, clk_pm_runtime_put] using this
            · have := ih
                { s with prepare_count := Function.update s.prepare_count m (s.prepare_count m - 1),
                         protect_count := r,
                         trace := s.trace ++ [.pm_runtime_put_sync m] }
                p hd (by omega)
              simpa [hop, hrpm, State.log, hp, clk_pm_runtime_put] using this
            · have := ih
                { s with prepare_count := Function.update s.prepare_count m (s.prepare_count m - 1),
                         protect_count := r }
                p hd (by omega)
              simpa [hop, hrpm, State.log, hp, clk_pm_runtime_put] using this

theorem clk_pm_runtime_get_ok (hw : Hw) (hops : OpsSucceed hw) (s : State) (m : Nat) :
    clk_pm_runtime_get hw s m
      = (0, if s.rpm_enabled m then s.log (.pm_runtime_get_sync m) else s) := by
  unfold clk_pm_runtime_get
  have h := (hops s m).2.2
  by_cases hr : s.rpm_enabled m = true
  · simp [hr, not_lt.2 h]
  · simp [hr]

theorem clk_core_prepare_spec {N : Nat} {dep : Nat → Nat} (hw : Hw) (hops : OpsSucceed hw)
    (fuel : Nat) (s : State) (m : Nat)
    (hd : IsDepth s.parent N dep) (hf : dep m < fuel) :
    ∃ s', clk_core_prepare hw fuel s (some m) = some (0, s') ∧
      ref_get s.parent fuel s.prepare_count (some m) = some s'.prepare_count ∧
      s' = { s with prepare_count := s'.prepare_count, protect_count := s'.protect_count,
                    trace := s'.trace } := by
  induction fuel generalizing s m with
  | zero => omega
  | succ fuel ih =>
    unfold clk_core_prepare ref_get
    by_cases h0 : s.prepare_count m = 0
    · simp only [h0, if_true, clk_pm_runtime_get_ok hw hops]
      cases hp : s.parent m with
      | none =>
        obtain ⟨r', hr'⟩ := ref_get_total hd (fuel + 1) s.protect_count m hf
        by_cases hg : (s.flags m).CLK_SET_RATE_GATE = true <;>
        by_cases hop : (s.ops m).prepare = true <;>
        by_cases hrpm : s.rpm_enabled m = true <;>
          simp [hop, hrpm, hg, State.log, hp, clk_core_prepare, ref_get, (hops _ _).1, h0,
            clk_core_rate_protect_eq, hr']
      | some p =>
        have hdm := hd m p hp
        have key : ∀ s0 : State, s0.parent = s.parent → s0.prepare_count = s.prepare_count →
            ∃ s', clk_core_prepare hw fuel s0 (some p) = some (0, s') ∧
              ref_get s.parent fuel s.prepare_count (some p) = some s'.prepare_count ∧
              ∃ c1 r1 tr1,
                s' = { s0 with prepare_count := c1, protect_count := r1, trace := tr1 } := by
          intro s0 h1 h2
          obtain ⟨s', e1, e2, e3⟩ := ih s0 p (by rw [h1]; exact hd) (by omega)
          exact ⟨s', e1, by rw [← h1, ← h2]; exact e2, _, _, _, e3⟩
        by_cases hrpm : s.rpm_enabled m = true
        · obtain ⟨s1, e1, e2, c1, r1, tr1, rfl⟩ := key (s.log (.pm_runtime_get_sync m)) rfl rfl
          obtain ⟨r', hr'⟩ := ref_get_total hd (fuel + 1) r1 m hf
          by_cases hg : (s.flags m).CLK_SET_RATE_GATE = true <;>
          by_cases hop : (s.ops m).prepare = true <;>
            simp [hop, hrpm, hg, State.log, hp, (hops _ _).1, e1, e2,
              clk_core_rate_protect_eq, hr'] at e1 ⊢
        · obtain ⟨s1, e1, e2, c1, r1, tr1, rfl⟩ := key s rfl rfl
          obtain ⟨r', hr'⟩ := ref_get_total hd (fuel + 1) r1 m hf
          by_cases hg : (s.flags m).CLK_SET_RATE_GATE = true <;>
          by_cases hop : (s.ops m).prepare = true <;>
            simp [hop, hrpm, hg, State.log, hp, (hops _ _).1, e1, e2,
              clk_core_rate_protect_eq, hr']
    · obtain ⟨r', hr'⟩ := ref_get_total hd (fuel + 1) s.protect_count m hf
      by_cases hg : (s.flags m).CLK_SET_RATE_GATE = true <;>
        simp [h0, hg, clk_core_rate_protect_eq, hr']


theorem live_children_pos (par : Nat → Option Nat) (N : Nat) (c : Nat → Nat)
    (n p : Nat) (hn : n < N) (hp : par n = some p) (h0 : 0 < c n) :
    0 < live_children par N c p := by
  unfold live_children
  apply Finset.card_pos.2
  exact ⟨n, by simp [hn, hp, h0]⟩

theorem live_children_mono (par : Nat → Option Nat) (N : Nat) (c c' : Nat → Nat) (x : Nat)
    (h : ∀ y, par y = some x → 0 < c y → 0 < c' y) :
    live_children par N c x ≤ live_children par N c' x := by
  unfold live_children
  apply Finset.card_le_card
  intro y
  simp only [Finset.mem_filter, Finset.mem_range]
  rintro ⟨h1, h2, h3⟩
  exact ⟨h1, h2, h y h2 h3⟩

/-- A forest has a depth function that is bounded on every node, roots included. -/
theorem Forest_bounded {par : Nat → Option Nat} {N : Nat} (h : Forest par N) :
    ∃ dep : Nat → Nat, IsDepth par N dep ∧ ∀ n, dep n ≤ N := by
  obtain ⟨dep, hd⟩ := h
  refine ⟨fun n => if (par n).isSome then dep n else 0, ?_, ?_⟩
  · intro n p hp
    have h1 := hd n p hp
    refine ⟨h1.1, ?_, ?_⟩
    · simp only [hp, Option.isSome_some, if_true]
      split
      · exact h1.2.1
      · omega
    · simp only [hp, Option.isSome_some, if_true]; exact h1.2.2
  · intro n
    cases hp : par n with
    | none => simp [hp]
    | some p => simp only [hp, Option.isSome_some, if_true]; exact (hd n p hp).2.2

/-- What one call of the refcount engine does to the two counters, hardware succeeding. -/
theorem refcount_step_spec {N : Nat} {dep : Nat → Nat} (hw : Hw) (hops : OpsSucceed hw)
    (fuel : Nat) (s : State) (hd : IsDepth s.parent N dep) (hf : ∀ n, dep n < fuel)
    (c : refcount_call) :
    ∃ ret s', refcount_step hw fuel s c = some (ret, s') ∧
      s'.parent = s.parent ∧ s'.flags = s.flags ∧
      match c with
      | .prepare n => ret = 0 ∧ s'.enable_count = s.enable_count ∧
          ref_get s.parent fuel s.prepare_count (some n) = some s'.prepare_count
      | .unprepare n => s'.enable_count = s.enable_count ∧
          ref_put s.parent (fun n => (s.flags n).CLK_IS_CRITICAL) fuel s.prepare_count (some n)
            = some s'.prepare_count
      | .enable n => s'.prepare_count = s.prepare_count ∧
          ((ret ≠ 0 ∧ s'.enable_count = s.enable_count) ∨
           (ret = 0 ∧ ref_get s.parent fuel s.enable_count (some n) = some s'.enable_count))
      | .disable n => s'.prepare_count = s.prepare_count ∧
          ref_put s.parent (fun n => (s.flags n).CLK_IS_CRITICAL) fuel s.enable_count (some n)
            = some s'.enable_count := by
  cases c with
  | prepare n =>
    obtain ⟨s', e1, e2, e3⟩ := clk_core_prepare_spec hw hops fuel s n hd (hf n)
    exact ⟨0, s', e1, by rw [e3], by rw [e3], rfl, by rw [e3], e2⟩
  | unprepare n =>
    obtain ⟨s', e1, e2, e3⟩ := clk_core_unprepare_spec fuel s n hd (hf n)
    exact ⟨0, s', by simp [refcount_step, e1], by rw [e3], by rw [e3], by rw [e3], e2⟩
  | enable n =>
    rcases clk_core_enable_spec hw hops fuel s n hd (hf n) with e | ⟨s', e1, e2, e3⟩
    · exact ⟨_, s, e, rfl, rfl, rfl, Or.inl ⟨by simp [ESHUTDOWN], rfl⟩⟩
    · exact ⟨0, s', e1, by rw [e3], by rw [e3], by rw [e3], Or.inr ⟨rfl, e2⟩⟩
  | disable n =>
    obtain ⟨s', e1, e2, e3⟩ := clk_core_disable_spec fuel s n hd (hf n)
    exact ⟨0, s', by simp [refcount_step, e1], by rw [e3], by rw [e3], by rw [e3], e2⟩

theorem called_cons (x c : refcount_call) (r : Int) (l : List (refcount_call × Int)) :
    called x ((c, r) :: l) = called x l + (if c = x then 1 else 0) := by
  simp [called, List.count_cons]

theorem acquired_cons (x c : refcount_call) (r : Int) (l : List (refcount_call × Int)) :
    acquired x ((c, r) :: l) = acquired x l + (if c = x ∧ r = 0 then 1 else 0) := by
  simp [acquired, List.count_cons]

theorem called_nil (x : refcount_call) : called x [] = 0 := rfl

theorem acquired_nil (x : refcount_call) : acquired x [] = 0 := rfl

theorem balanced_from_head (gp ge : Nat → Nat) (c : refcount_call) (ret : Int)
    (log : List (refcount_call × Int)) (h : balanced_from gp ge ((c, ret) :: log)) :
    (∀ n, c = .unprepare n → 1 ≤ gp n) ∧ (∀ n, c = .disable n → 1 ≤ ge n) := by
  constructor
  · rintro n rfl
    have := (h 1 n).1
    simpa [called_cons, acquired_cons, called_nil, acquired_nil] using this
  · rintro n rfl
    have := (h 1 n).2
    simpa [called_cons, acquired_cons, called_nil, acquired_nil] using this

theorem balanced_from_tail (gp ge : Nat → Nat) (c : refcount_call) (ret : Int)
    (log : List (refcount_call × Int)) (h : balanced_from gp ge ((c, ret) :: log)) :
    balanced_from (ghost_step gp ge c ret).1 (ghost_step gp ge c ret).2 log := by
  have hh := balanced_from_head gp ge c ret log h
  intro k n
  have hk := h (k + 1) n
  simp only [List.take_succ_cons, called_cons, acquired_cons] at hk
  cases c with
  | prepare m =>
    rcases eq_or_ne n m with rfl | hm
    · by_cases hr : ret = 0 <;> simp [ghost_step, hr] at hk ⊢ <;> omega
    · by_cases hr : ret = 0 <;>
        simp [ghost_step, hr, Function.update_apply, hm, hm.symm] at hk ⊢ <;> omega
  | unprepare m =>
    have := hh.1 m rfl
    rcases eq_or_ne n m with rfl | hm
    · simp [ghost_step] at hk ⊢; omega
    · simp [ghost_step, Function.update_apply, hm, hm.symm] at hk ⊢; omega
  | enable m =>
    rcases eq_or_ne n m with rfl | hm
    · by_cases hr : ret = 0 <;> simp [ghost_step, hr] at hk ⊢ <;> omega
    · by_cases hr : ret = 0 <;>
        simp [ghost_step, hr, Function.update_apply, hm, hm.symm] at hk ⊢ <;> omega
  | disable m =>
    have := hh.2 m rfl
    rcases eq_or_ne n m with rfl | hm
    · simp [ghost_step] at hk ⊢; omega
    · simp [ghost_step, Function.update_apply, hm, hm.symm] at hk ⊢; omega

theorem LowInv_get {par : Nat → Option Nat} {N : Nat} {g c : Nat → Nat} {n : Nat}
    (h : LowInv par N g c (some n)) : LowInv par N (Function.update g n (g n + 1)) c none := by
  intro x
  have := h x
  rcases eq_or_ne x n with rfl | hx
  · simp at this ⊢; omega
  · simp [Function.update_noteq hx, hx.symm] at this ⊢; omega

theorem LowInv_put {par : Nat → Option Nat} {N : Nat} {g c : Nat → Nat} {n : Nat}
    (h : LowInv par N g c none) (hg : 1 ≤ g n) :
    LowInv par N (Function.update g n (g n - 1)) c (some n) := by
  intro x
  have := h x
  rcases eq_or_ne x n with rfl | hx
  · simp at this ⊢; omega
  · simp [Function.update_noteq hx, hx.symm] at this ⊢; omega

theorem UpInv_get {par : Nat → Option Nat} {N : Nat} {g c : Nat → Nat} {n : Nat}
    (h : UpInv par N g c (some n)) : UpInv par N (Function.update g n (g n + 1)) c none := by
  intro x
  have := h x
  rcases eq_or_ne x n with rfl | hx
  · simp at this ⊢; omega
  · simp [Function.update_noteq hx, hx.symm] at this ⊢; omega

theorem UpInv_put {par : Nat → Option Nat} {N : Nat} {g c : Nat → Nat} {n : Nat}
    (h : UpInv par N g c none) (hg : 1 ≤ g n) :
    UpInv par N (Function.update g n (g n - 1)) c (some n) := by
  intro x
  have := h x
  rcases eq_or_ne x n with rfl | hx
  · simp at this ⊢; omega
  · simp [Function.update_noteq hx, hx.symm] at this ⊢; omega

/-- Every sequence of calls runs to completion on a forest, given fuel beyond the depth. -/
theorem refcount_run_total {N : Nat} {dep : Nat → Nat} (hw : Hw) (hops : OpsSucceed hw)
    (fuel : Nat) (par : Nat → Option Nat) (hd : IsDepth par N dep) (hf : ∀ n, dep n < fuel)
    (calls : List refcount_call) (s : State) (hpar : s.parent = par) :
    ∃ log s', refcount_run hw fuel s calls = some (log, s') ∧ log.map Prod.fst = calls := by
  induction calls generalizing s with
  | nil => exact ⟨[], s, rfl, rfl⟩
  | cons c cs ih =>
    obtain ⟨ret, s1, e1, e2, -, -⟩ :=
      refcount_step_spec hw hops fuel s (by rw [hpar]; exact hd) hf c
    obtain ⟨log, s', e3, e4⟩ := ih s1 (by rw [e2, hpar])
    exact ⟨(c, ret) :: log, s', by simp [refcount_run, e1, e3], by simp [e4]⟩

/-- The counting invariants from below survive every balanced run. -/
theorem refcount_run_low {N : Nat} {dep : Nat → Nat} (hw : Hw) (hops : OpsSucceed hw)
    (fuel : Nat) (par : Nat → Option Nat) (hd : IsDepth par N dep) (hf : ∀ n, dep n < fuel)
    (calls : List refcount_call) (s : State) (gp ge : Nat → Nat)
    (log : List (refcount_call × Int)) (s' : State) (hpar : s.parent = par)
    (hlp : LowInv par N gp s.prepare_count none) (hle : LowInv par N ge s.enable_count none)
    (hrun : refcount_run hw fuel s calls = some (log, s'))
    (hbal : balanced_from gp ge log) :
    s'.parent = par ∧ s'.flags = s.flags ∧
    LowInv par N (ghost_run gp ge log).1 s'.prepare_count none ∧
    LowInv par N (ghost_run gp ge log).2 s'.enable_count none := by
  induction calls generalizing s gp ge log with
  | nil =>
    simp only [refcount_run, Option.some.injEq, Prod.mk.injEq] at hrun
    obtain ⟨rfl, rfl⟩ := hrun
    exact ⟨hpar, rfl, hlp, hle⟩
  | cons c cs ih =>
    have hd' : IsDepth s.parent N dep := by rw [hpar]; exact hd
    obtain ⟨ret, s1, e1, e2, e3, e4⟩ := refcount_step_spec hw hops fuel s hd' hf c
    simp only [refcount_run, e1] at hrun
    cases hr : refcount_run hw fuel s1 cs with
    | none => simp [hr] at hrun
    | some r =>
      obtain ⟨log1, s2⟩ := r
      simp only [hr, Option.some.injEq, Prod.mk.injEq] at hrun
      obtain ⟨rfl, rfl⟩ := hrun
      have hh := balanced_from_head gp ge c ret log1 hbal
      have ht := balanced_from_tail gp ge c ret log1 hbal
      have hpar1 : s1.parent = par := by rw [e2, hpar]
      rw [hpar] at e4
      suffices hs : LowInv par N (ghost_step gp ge c ret).1 s1.prepare_count none ∧
          LowInv par N (ghost_step gp ge c ret).2 s1.enable_count none by
        have := ih s1 _ _ log1 hpar1 hs.1 hs.2 hr ht
        exact ⟨this.1, by rw [this.2.1, e3], this.2.2⟩
      cases c with
      | prepare n =>
        obtain ⟨rfl, h1, h2⟩ := e4
        exact ⟨by simpa [ghost_step] using LowInv_get (ref_get_low hd gp fuel _ _ n hlp h2),
          by simpa [ghost_step, h1] using hle⟩
      | unprepare n =>
        obtain ⟨h1, h2⟩ := e4
        exact ⟨by simpa [ghost_step] using
            ref_put_low hd _ _ fuel _ _ n (LowInv_put hlp (hh.1 n rfl)) h2,
          by simpa [ghost_step, h1] using hle⟩
      | enable n =>
        obtain ⟨h1, h2⟩ := e4
        rcases h2 with ⟨hne, h2⟩ | ⟨rfl, h2⟩
        · exact ⟨by simpa [ghost_step, h1] using hlp, by simpa [ghost_step, hne, h2] using hle⟩
        · exact ⟨by simpa [ghost_step, h1] using hlp,
            by simpa [ghost_step] using LowInv_get (ref_get_low hd ge fuel _ _ n hle h2)⟩
      | disable n =>
        obtain ⟨h1, h2⟩ := e4
        exact ⟨by simpa [ghost_step, h1] using hlp,
          by simpa [ghost_step] using
            ref_put_low hd _ _ fuel _ _ n (LowInv_put hle (hh.2 n rfl)) h2⟩

theorem LowInv_zero (par : Nat → Option Nat) (N : Nat) (c : Nat → Nat) (hz : ∀ n, c n = 0) :
    LowInv par N (fun _ => 0) c none := by
  intro x
  have : live_children par N c x = 0 := by
    unfold live_children
    rw [Finset.card_eq_zero, Finset.filter_eq_empty_iff]
    intro y _
    simp [hz y]
  simp [this]

theorem UpInv_zero (par : Nat → Option Nat) (N : Nat) (c : Nat → Nat) (hz : ∀ n, c n = 0) :
    UpInv par N (fun _ => 0) c none := by
  intro x
  simp [hz x]

theorem LowInv_ancestry {par : Nat → Option Nat} {N : Nat} {dep g c : Nat → Nat}
    (hd : IsDepth par N dep) (h : LowInv par N g c none) (n p : Nat) (hp : par n = some p)
    (hn : 0 < c n) : 0 < c p := by
  have h1 := live_children_pos par N c n p (hd n p hp).1 hp hn
  have h2 := h p
  simp at h2
  omega

/-- C1 (amended): the refcount engine on a fixed forest, from all-zero counts, hardware
succeeding: every sequence of calls runs to completion, and when in every prefix no node is released more often
than it was acquired, an acquisition being a call that returned 0, then at the end every
enabled node has an enabled parent and every prepared node a prepared parent. -/
theorem refcount_ancestry_holds (hw : Hw) (hops : OpsSucceed hw) (s0 : State) (N : Nat)
    (hforest : Forest s0.parent N)
    (hzero : ∀ n, s0.prepare_count n = 0 ∧ s0.enable_count n = 0)
    (calls : List refcount_call) (fuel : Nat) (hfuel : N < fuel) :
    ∃ log s', refcount_run hw fuel s0 calls = some (log, s') ∧ log.map Prod.fst = calls ∧
      (balanced_from (fun _ => 0) (fun _ => 0) log →
        ∀ n p, s'.parent n = some p →
          (0 < s'.enable_count n → 0 < s'.enable_count p) ∧
          (0 < s'.prepare_count n → 0 < s'.prepare_count p)) := by
  obtain ⟨dep, hd, hb⟩ := Forest_bounded hforest
  have hf : ∀ n, dep n < fuel := fun n => lt_of_le_of_lt (hb n) hfuel
  obtain ⟨log, s', hrun, hmap⟩ := refcount_run_total hw hops fuel s0.parent hd hf calls s0 rfl
  refine ⟨log, s', hrun, hmap, ?_⟩
  intro hbal n p hp
  obtain ⟨h1, -, h3, h4⟩ := refcount_run_low hw hops fuel s0.parent hd hf calls s0 _ _ log s' rfl
    (LowInv_zero _ _ _ (fun n => (hzero n).1)) (LowInv_zero _ _ _ (fun n => (hzero n).2))
    hrun hbal
  rw [h1] at hp
  exact ⟨LowInv_ancestry hd h4 n p hp, LowInv_ancestry hd h3 n p hp⟩

theorem OpsSucceed_quiet : OpsSucceed Hw.quiet := by
  intro s n
  simp [Hw.quiet]

theorem Forest_chain2 : Forest chain2.parent 2 := by
  refine ⟨fun n => n, ?_⟩
  intro n p hp
  simp only [chain2, State.blank] at hp
  split at hp
  · rename_i h
    cases hp
    subst h
    exact ⟨by decide, by decide, by decide⟩
  · cases hp

/-- C1 as stated, with every call counted as an acquisition, fails: `clk_core_enable` on the
unprepared parent returns `-ESHUTDOWN` and takes no reference, yet the later `clk_core_disable`
on it is balanced call for call and drops the reference its enabled child relies on. -/
theorem refcount_ancestry_counterexample :
    OpsSucceed Hw.quiet ∧ Forest chain2.parent 2 ∧
    (∀ n, chain2.prepare_count n = 0 ∧ chain2.enable_count n = 0) ∧
    (refcount_run Hw.quiet 3 chain2 [.enable 0, .prepare 1, .enable 1, .disable 0]).map
        (fun r => (r.1, r.2.parent 1, r.2.enable_count 1, r.2.enable_count 0))
      = some ([(.enable 0, -ESHUTDOWN), (.prepare 1, 0), (.enable 1, 0), (.disable 0, 0)],
          some 0, 1, 0) ∧
    balanced_calls
      [(.enable 0, -ESHUTDOWN), (.prepare 1, 0), (.enable 1, 0), (.disable 0, 0)] := by
  refine ⟨OpsSucceed_quiet, Forest_chain2, fun n => ⟨rfl, rfl⟩, by decide, ?_⟩
  intro k n
  rcases k with _ | _ | _ | _ | k <;> simp [called, List.count_cons]

/-- C1 (amended), at a concrete run on the two-node chain. -/
theorem refcount_ancestry_holds_witness :
    ∃ log s', refcount_run Hw.quiet 3 chain2 [.prepare 1, .enable 1, .disable 1, .unprepare 1]
        = some (log, s') ∧
      balanced_from (fun _ => 0) (fun _ => 0) log ∧
      ∀ n p, s'.parent n = some p →
          (0 < s'.enable_count n → 0 < s'.enable_count p) ∧
          (0 < s'.prepare_count n → 0 < s'.prepare_count p) := by
  obtain ⟨log, s', hrun, -, himp⟩ := refcount_ancestry_holds Hw.quiet OpsSucceed_quiet chain2 2
    Forest_chain2 (fun n => ⟨rfl, rfl⟩) [.prepare 1, .enable 1, .disable 1, .unprepare 1] 3
    (by decide)
  have hlog : (refcount_run Hw.quiet 3 chain2
      [.prepare 1, .enable 1, .disable 1, .unprepare 1]).map Prod.fst
      = some [(.prepare 1, 0), (.enable 1, 0), (.disable 1, 0), (.unprepare 1, 0)] := by
    decide
  rw [hrun] at hlog
  simp only [Option.map_some', Option.some.injEq] at hlog
  subst hlog
  have hbal : balanced_from (fun _ => 0) (fun _ => 0)
      [(.prepare 1, 0), (.enable 1, 0), (.disable 1, 0), (.unprepare 1, 0)] := by
    intro k n
    rcases k with _ | _ | _ | _ | k <;> simp [called, acquired, List.count_cons]
  exact ⟨_, s', hrun, hbal, himp hbal⟩

theorem ewp_tail (gp ge : Nat → Nat) (c : refcount_call) (ret : Int)
    (log : List (refcount_call × Int)) (hb : balanced_from gp ge ((c, ret) :: log))
    (h : enables_within_prepares gp ge ((c, ret) :: log)) :
    enables_within_prepares (ghost_step gp ge c ret).1 (ghost_step gp ge c ret).2 log := by
  have hh := balanced_from_head gp ge c ret log hb
  intro k n
  have hk := h (k + 1) n
  simp only [List.take_succ_cons, called_cons, acquired_cons] at hk
  cases c with
  | prepare m =>
    rcases eq_or_ne n m with rfl | hm
    · by_cases hr : ret = 0 <;> simp [ghost_step, hr] at hk ⊢ <;> omega
    · by_cases hr : ret = 0 <;>
        simp [ghost_step, hr, Function.update_apply, hm, hm.symm] at hk ⊢ <;> omega
  | unprepare m =>
    have := hh.1 m rfl
    rcases eq_or_ne n m with rfl | hm
    · simp [ghost_step] at hk ⊢; omega
    · simp [ghost_step, Function.update_apply, hm, hm.symm] at hk ⊢; omega
  | enable m =>
    rcases eq_or_ne n m with rfl | hm
    · by_cases hr : ret = 0 <;> simp [ghost_step, hr] at hk ⊢ <;> omega
    · by_cases hr : ret = 0 <;>
        simp [ghost_step, hr, Function.update_apply, hm, hm.symm] at hk ⊢ <;> omega
  | disable m =>
    have := hh.2 m rfl
    rcases eq_or_ne n m with rfl | hm
    · simp [ghost_step] at hk ⊢; omega
    · simp [ghost_step, Function.update_apply, hm, hm.symm] at hk ⊢; omega

theorem ghost_run_le (gp ge : Nat → Nat) (log : List (refcount_call × Int))
    (hb : balanced_from gp ge log) (h : enables_within_prepares gp ge log) :
    ∀ n, (ghost_run gp ge log).2 n ≤ (ghost_run gp ge log).1 n := by
  induction log generalizing gp ge with
  | nil =>
    intro n
    have := h 0 n
    simpa [ghost_run, called_nil, acquired_nil] using this
  | cons cr log ih =>
    obtain ⟨c, ret⟩ := cr
    exact ih _ _ (balanced_from_tail gp ge c ret log hb) (ewp_tail gp ge c ret log hb h)

/-- With the counters pinned from both sides and no more direct enables than direct prepares,
no node is enabled more often than it is prepared. -/
theorem enable_le_prepare_of_inv {par : Nat → Option Nat} {N : Nat} {dep : Nat → Nat}
    (hd : IsDepth par N dep) (gp ge pc ec : Nat → Nat)
    (hl : LowInv par N gp pc none) (hu : UpInv par N ge ec none) (hg : ∀ n, ge n ≤ gp n) :
    ∀ x, ec x ≤ pc x := by
  have key : ∀ k x, N - dep x ≤ k → ec x ≤ pc x := by
    intro k
    induction k with
    | zero =>
      intro x hx
      have hmono : live_children par N ec x ≤ live_children par N pc x := by
        apply live_children_mono
        intro y hy _
        have := hd y x hy
        omega
      have h1 := hl x; have h2 := hu x; have h3 := hg x
      simp at h1 h2
      omega
    | succ k ih =>
      intro x hx
      have hmono : live_children par N ec x ≤ live_children par N pc x := by
        apply live_children_mono
        intro y hy hpos
        have := hd y x hy
        have := ih y (by omega)
        omega
      have h1 := hl x; have h2 := hu x; have h3 := hg x
      simp at h1 h2
      omega
  intro x
  exact key _ x le_rfl

/-- Without critical nodes the counting invariant from above on the enable counters survives
every balanced run. -/
theorem refcount_run_up {N : Nat} {dep : Nat → Nat} (hw : Hw) (hops : OpsSucceed hw)
    (fuel : Nat) (par : Nat → Option Nat) (hd : IsDepth par N dep) (hf : ∀ n, dep n < fuel)
    (calls : List refcount_call) (s : State) (gp ge : Nat → Nat)
    (log : List (refcount_call × Int)) (s' : State) (hpar : s.parent = par)
    (hcrit : ∀ n, (s.flags n).CLK_IS_CRITICAL = false)
    (hue : UpInv par N ge s.enable_count none)
    (hrun : refcount_run hw fuel s calls = some (log, s'))
    (hbal : balanced_from gp ge log) :
    UpInv par N (ghost_run gp ge log).2 s'.enable_count none := by
  induction calls generalizing s gp ge log with
  | nil =>
    simp only [refcount_run, Option.some.injEq, Prod.mk.injEq] at hrun
    obtain ⟨rfl, rfl⟩ := hrun
    exact hue
  | cons c cs ih =>
    have hd' : IsDepth s.parent N dep := by rw [hpar]; exact hd
    obtain ⟨ret, s1, e1, e2, e3, e4⟩ := refcount_step_spec hw hops fuel s hd' hf c
    simp only [refcount_run, e1] at hrun
    cases hr : refcount_run hw fuel s1 cs with
    | none => simp [hr] at hrun
    | some r =>
      obtain ⟨log1, s2⟩ := r
      simp only [hr, Option.some.injEq, Prod.mk.injEq] at hrun
      obtain ⟨rfl, rfl⟩ := hrun
      have hh := balanced_from_head gp ge c ret log1 hbal
      have ht := balanced_from_tail gp ge c ret log1 hbal
      have hpar1 : s1.parent = par := by rw [e2, hpar]
      rw [hpar] at e4
      suffices hs : UpInv par N (ghost_step gp ge c ret).2 s1.enable_count none from
        ih s1 _ _ log1 hpar1 (by rw [e3]; exact hcrit) hs hr ht
      cases c with
      | prepare n =>
        obtain ⟨rfl, h1, h2⟩ := e4
        simpa [ghost_step, h1] using hue
      | unprepare n =>
        obtain ⟨h1, h2⟩ := e4
        simpa [ghost_step, h1] using hue
      | enable n =>
        obtain ⟨h1, h2⟩ := e4
        rcases h2 with ⟨hne, h2⟩ | ⟨rfl, h2⟩
        · simpa [ghost_step, hne, h2] using hue
        · simpa [ghost_step] using UpInv_get (ref_get_up hd ge fuel _ _ n hue h2)
      | disable n =>
        obtain ⟨h1, h2⟩ := e4
        simpa [ghost_step] using
          ref_put_up hd _ hcrit _ fuel _ _ n (UpInv_put hue (hh.2 n rfl)) h2

/-- C2 (amended): the refcount engine on a fixed forest without critical nodes, from all-zero
counts, hardware succeeding: when in every prefix no node is released more often than it was acquired and no
node has more enables outstanding than prepares outstanding, then at the end every node has
`enable_count ≤ prepare_count`. -/
theorem enable_le_prepare_holds (hw : Hw) (hops : OpsSucceed hw) (s0 : State) (N : Nat)
    (hforest : Forest s0.parent N)
    (hzero : ∀ n, s0.prepare_count n = 0 ∧ s0.enable_count n = 0)
    (hcrit : ∀ n, (s0.flags n).CLK_IS_CRITICAL = false)
    (calls : List refcount_call) (fuel : Nat) (hfuel : N < fuel) :
    ∃ log s', refcount_run hw fuel s0 calls = some (log, s') ∧ log.map Prod.fst = calls ∧
      (balanced_from (fun _ => 0) (fun _ => 0) log →
        enables_within_prepares (fun _ => 0) (fun _ => 0) log →
        ∀ n, s'.enable_count n ≤ s'.prepare_count n) := by
  obtain ⟨dep, hd, hb⟩ := Forest_bounded hforest
  have hf : ∀ n, dep n < fuel := fun n => lt_of_le_of_lt (hb n) hfuel
  obtain ⟨log, s', hrun, hmap⟩ := refcount_run_total hw hops fuel s0.parent hd hf calls s0 rfl
  refine ⟨log, s', hrun, hmap, ?_⟩
  intro hbal hewp
  obtain ⟨-, -, h3, -⟩ := refcount_run_low hw hops fuel s0.parent hd hf calls s0 _ _ log s' rfl
    (LowInv_zero _ _ _ (fun n => (hzero n).1)) (LowInv_zero _ _ _ (fun n => (hzero n).2))
    hrun hbal
  have h5 := refcount_run_up hw hops fuel s0.parent hd hf calls s0 _ _ log s' rfl hcrit
    (UpInv_zero _ _ _ (fun n => (hzero n).2)) hrun hbal
  exact enable_le_prepare_of_inv hd _ _ _ _ h3 h5 (ghost_run_le _ _ log hbal hewp)

/-- C2 (amended), at a concrete run on the two-node chain. -/
theorem enable_le_prepare_holds_witness :
    ∃ log s', refcount_run Hw.quiet 3 chain2 [.prepare 1, .enable 1, .disable 1, .unprepare 1]
        = some (log, s') ∧
      balanced_from (fun _ => 0) (fun _ => 0) log ∧
      enables_within_prepares (fun _ => 0) (fun _ => 0) log ∧
      ∀ n, s'.enable_count n ≤ s'.prepare_count n := by
  obtain ⟨log, s', hrun, -, himp⟩ := enable_le_prepare_holds Hw.quiet OpsSucceed_quiet chain2 2
    Forest_chain2 (fun n => ⟨rfl, rfl⟩) (fun n => rfl)
    [.prepare 1, .enable 1, .disable 1, .unprepare 1] 3 (by decide)
  have hlog : (refcount_run Hw.quiet 3 chain2
      [.prepare 1, .enable 1, .disable 1, .unprepare 1]).map Prod.fst
      = some [(.prepare 1, 0), (.enable 1, 0), (.disable 1, 0), (.unprepare 1, 0)] := by
    decide
  rw [hrun] at hlog
  simp only [Option.map_some', Option.some.injEq] at hlog
  subst hlog
  have hbal : balanced_from (fun _ => 0) (fun _ => 0)
      [(.prepare 1, 0), (.enable 1, 0), (.disable 1, 0), (.unprepare 1, 0)] := by
    intro k n
    rcases k with _ | _ | _ | _ | k <;> simp [called, acquired, List.count_cons]
  have hewp : enables_within_prepares (fun _ => 0) (fun _ => 0)
      [(.prepare 1, 0), (.enable 1, 0), (.disable 1, 0), (.unprepare 1, 0)] := by
    intro k n
    rcases k with _ | _ | _ | _ | k <;> simp [called, acquired, List.count_cons]
  exact ⟨_, s', hrun, hbal, hewp, himp hbal hewp⟩

/-- C2 as stated fails: nothing stops a second `clk_core_enable` on a node prepared once: after `prepare`,
`enable`, `enable` on a single node, hardware succeeding, `enable_count = 2 > 1 =
prepare_count`. -/
theorem enable_le_prepare_counterexample :
    OpsSucceed Hw.quiet ∧
    (∀ n, State.blank.prepare_count n = 0 ∧ State.blank.enable_count n = 0) ∧
    (refcount_run Hw.quiet 3 State.blank [.prepare 0, .enable 0, .enable 0]).map
        (fun r => (r.1, r.2.enable_count 0, r.2.prepare_count 0))
      = some ([(.prepare 0, 0), (.enable 0, 0), (.enable 0, 0)], 2, 1) := by
  refine ⟨OpsSucceed_quiet, fun n => ⟨rfl, rfl⟩, by decide⟩

theorem foldl_max_spec (f : Nat → Nat) (l : List Nat) (init : Nat) :
    init ≤ l.foldl (fun m c => max m (f c)) init ∧
    (∀ c ∈ l, f c ≤ l.foldl (fun m c => max m (f c)) init) ∧
    (l.foldl (fun m c => max m (f c)) init = init ∨
      ∃ c ∈ l, l.foldl (fun m c => max m (f c)) init = f c) := by
  induction l generalizing init with
  | nil => simp
  | cons a l ih =>
    simp only [List.foldl_cons, List.mem_cons, forall_eq_or_imp, exists_eq_or_imp]
    obtain ⟨h1, h2, h3⟩ := ih (max init (f a))
    refine ⟨le_trans (le_max_left _ _) h1, ⟨le_trans (le_max_right _ _) h1, h2⟩, ?_⟩
    rcases h3 with h3 | ⟨c, hc, h3⟩
    · rcases le_total init (f a) with h | h
      · right; left; rw [h3, max_eq_right h]
      · left; rw [h3, max_eq_left h]
    · right; right; exact ⟨c, hc, h3⟩

theorem foldl_min_spec (f : Nat → Nat) (l : List Nat) (init : Nat) :
    l.foldl (fun m c => min m (f c)) init ≤ init ∧
    (∀ c ∈ l, l.foldl (fun m c => min m (f c)) init ≤ f c) ∧
    (l.foldl (fun m c => min m (f c)) init = init ∨
      ∃ c ∈ l, l.foldl (fun m c => min m (f c)) init = f c) := by
  induction l generalizing init with
  | nil => simp
  | cons a l ih =>
    simp only [List.foldl_cons, List.mem_cons, forall_eq_or_imp, exists_eq_or_imp]
    obtain ⟨h1, h2, h3⟩ := ih (min init (f a))
    refine ⟨le_trans h1 (min_le_left _ _), ⟨le_trans h1 (min_le_right _ _), h2⟩, ?_⟩
    rcases h3 with h3 | ⟨c, hc, h3⟩
    · rcases le_total init (f a) with h | h
      · left; rw [h3, min_eq_left h]
      · right; left; rw [h3, min_eq_right h]
    · right; right; exact ⟨c, hc, h3⟩

/-- C10: `clk_core_get_boundaries` returns as `min` the greatest of `core->min_rate` and the
`min_rate` of every consumer handle linked to the node, and as `max` the least of
`core->max_rate` and the `max_rate` of every linked handle; with no handle linked these are the
node's own limits. -/
theorem clk_core_get_boundaries_spec (s : State) (core : Nat) :
    (s.min_rate core ≤ (clk_core_get_boundaries s core).1 ∧
      (∀ clk ∈ s.clks core, s.clk_min_rate clk ≤ (clk_core_get_boundaries s core).1) ∧
      ((clk_core_get_boundaries s core).1 = s.min_rate core ∨
        ∃ clk ∈ s.clks core, (clk_core_get_boundaries s core).1 = s.clk_min_rate clk)) ∧
    ((clk_core_get_boundaries s core).2 ≤ s.max_rate core ∧
      (∀ clk ∈ s.clks core, (clk_core_get_boundaries s core).2 ≤ s.clk_max_rate clk) ∧
      ((clk_core_get_boundaries s core).2 = s.max_rate core ∨
        ∃ clk ∈ s.clks core, (clk_core_get_boundaries s core).2 = s.clk_max_rate clk)) ∧
    (s.clks core = [] →
      clk_core_get_boundaries s core = (s.min_rate core, s.max_rate core)) := by
  refine ⟨foldl_max_spec s.clk_min_rate (s.clks core) (s.min_rate core),
    foldl_min_spec s.clk_max_rate (s.clks core) (s.max_rate core), ?_⟩
  intro h
  simp [clk_core_get_boundaries, h]

theorem clk_core_round_rate_nolock_total {N : Nat} {dep : Nat → Nat} (hw : Hw) (fuel : Nat)
    (s : State) (c : Nat) (req : clk_rate_request)
    (hd : IsDepth s.parent N dep) (hf : dep c < fuel) :
    ∃ r, clk_core_round_rate_nolock hw fuel s (some c) req = some r := by
  induction fuel generalizing c req with
  | zero => omega
  | succ fuel ih =>
    unfold clk_core_round_rate_nolock
    simp only
    split
    · exact ⟨_, rfl⟩
    · split
      · cases hp : s.parent c with
        | none => simp [clk_core_round_rate_nolock]
        | some p => exact ih p _ (by have := hd c p hp; omega)
      · exact ⟨_, rfl⟩

/-- The rate a request rounds to on a protected node: protection is lifted for the planning and
put back, and nothing but protect counts can differ afterwards. -/
theorem clk_core_req_round_rate_nolock_protected {N : Nat} {dep : Nat → Nat} (hw : Hw)
    (fuel : Nat) (s : State) (c : Nat) (req_rate : Nat)
    (hd : IsDepth s.parent N dep) (hf : dep c < fuel) (hprot : 0 < s.protect_count c) :
    ∃ rate r, clk_core_req_round_rate_nolock hw fuel s (some c) req_rate
        = some (rate, { s with protect_count := r }) ∧ r c = s.protect_count c := by
  unfold clk_core_req_round_rate_nolock clk_core_rate_nuke_protect
  have h0 : s.protect_count c ≠ 0 := by omega
  obtain ⟨r1, hr1⟩ := clk_core_rate_unprotect_some fuel
    { s with protect_count := Function.update s.protect_count c 1 } c hd hf
  have hcnt : ¬ ((s.protect_count c : Int) < 0) := by omega
  have hcnt0 : ((s.protect_count c : Int) ≠ 0) := by omega
  simp only [h0, if_false, hr1, hcnt]
  obtain ⟨⟨ret, req⟩, hrr⟩ := clk_core_round_rate_nolock_total hw fuel
    { s with protect_count := r1 } c
    { rate := req_rate,
      min_rate := (clk_core_get_boundaries { s with protect_count := r1 } c).1,
      max_rate := (clk_core_get_boundaries { s with protect_count := r1 } c).2 } hd hf
  obtain ⟨r2, hr2⟩ := clk_core_rate_protect_some fuel { s with protect_count := r1 } c hd hf
  simp only [hrr, clk_core_rate_restore_protect, hcnt0, if_false, hr2]
  exact ⟨_, _, rfl, by simp⟩

theorem IsDepth_of_no_parent (s : State) (h : ∀ n, s.parent n = none) :
    IsDepth s.parent 0 (fun _ => 0) := by
  intro n p hp
  rw [h n] at hp
  cases hp

/-- C3 (amended): on a node with `protect_count > 0`, `clk_core_set_rate_nolock(node, r)`
returns `-EBUSY` exactly when the rate that `r` rounds to differs from the node's current rate
and 0 when it does not, and `clk_core_set_parent_nolock(node, p)` returns 0 when `p` already is
the parent, `-EPERM` on a multi-parent node without `set_parent` op, and `-EBUSY` otherwise;
neither call changes anything but protect counts. -/
theorem protected_refusal {N : Nat} {dep : Nat → Nat} (hw : Hw) (fuel : Nat) (s : State)
    (c : Nat) (hd : IsDepth s.parent N dep) (hf : dep c < fuel)
    (hprot : 0 < s.protect_count c) :
    (∀ r, ∃ rate pc,
      clk_core_req_round_rate_nolock hw fuel s (some c) r
        = some (rate, { s with protect_count := pc }) ∧
      clk_core_set_rate_nolock hw fuel s (some c) r
        = some (if rate = clk_core_get_rate_nolock s (some c) then 0 else -EBUSY,
            { s with protect_count := pc })) ∧
    (∀ p, clk_core_set_parent_nolock hw fuel s (some c) p
        = some (if s.parent c = p then 0
            else if s.num_parents c > 1 && !(s.ops c).set_parent then -EPERM
            else -EBUSY, s)) := by
  constructor
  · intro r
    obtain ⟨rate, pc, h1, h2⟩ :=
      clk_core_req_round_rate_nolock_protected hw fuel s c r hd hf hprot
    refine ⟨rate, pc, h1, ?_⟩
    unfold clk_core_set_rate_nolock
    simp only [h1]
    have hget : clk_core_get_rate_nolock { s with protect_count := pc } (some c)
        = clk_core_get_rate_nolock s (some c) := rfl
    have hp : clk_core_rate_is_protected { s with protect_count := pc } c = true := by
      simp [clk_core_rate_is_protected, h2]; omega
    rw [hget]
    by_cases hr : rate = clk_core_get_rate_nolock s (some c)
    · simp [hr]
    · simp [hr, hp]
  · intro p
    unfold clk_core_set_parent_nolock
    have hp : clk_core_rate_is_protected s c = true := by
      simp [clk_core_rate_is_protected]; omega
    by_cases h1 : s.parent c = p
    · simp [h1]
    · by_cases h2 : (decide (s.num_parents c > 1) && !(s.ops c).set_parent) = true
      · simp [h1, h2]
      · by_cases h3 : ((s.flags c).CLK_SET_PARENT_GATE && decide (s.prepare_count c ≠ 0)) = true
        · simp only [h1, h2, h3, if_true, if_false, Bool.false_eq_true]
        · simp only [h1, h2, h3, hp, if_true, if_false, Bool.false_eq_true]

/-- C3 (amended), on the single protected node. -/
theorem protected_refusal_witness :
    (∀ r, ∃ rate pc,
      clk_core_req_round_rate_nolock Hw.quiet 1 protected1 (some 0) r
        = some (rate, { protected1 with protect_count := pc }) ∧
      clk_core_set_rate_nolock Hw.quiet 1 protected1 (some 0) r
        = some (if rate = clk_core_get_rate_nolock protected1 (some 0) then 0 else -EBUSY,
            { protected1 with protect_count := pc })) ∧
    (∀ p, clk_core_set_parent_nolock Hw.quiet 1 protected1 (some 0) p
        = some (if protected1.parent 0 = p then 0
            else if protected1.num_parents 0 > 1 && !(protected1.ops 0).set_parent then -EPERM
            else -EBUSY, protected1)) :=
  protected_refusal Hw.quiet 1 protected1 0 (IsDepth_of_no_parent _ (fun _ => rfl))
    (by decide) (by decide)

/-- C3 as stated fails: on a protected node a request that rounds to the current rate is
answered 0 by the early exit of `clk_core_set_rate_nolock`, and so is
`clk_core_set_parent_nolock` for the parent the node already has. -/
theorem protected_refusal_counterexample :
    0 < protected1.protect_count 0 ∧
    (clk_core_set_rate_nolock Hw.quiet 1 protected1 (some 0) 0).map Prod.fst = some 0 ∧
    (clk_core_set_parent_nolock Hw.quiet 1 protected1 (some 0) none).map Prod.fst = some 0 := by
  decide

theorem ref_get_self {par : Nat → Option Nat} {N : Nat} {dep : Nat → Nat}
    (hd : IsDepth par N dep) (fuel : Nat) (c c' : Nat → Nat) (m : Nat)
    (h : ref_get par fuel c (some m) = some c') : c' m = c m + 1 := by
  cases fuel with
  | zero => simp [ref_get] at h
  | succ fuel =>
    unfold ref_get at h
    by_cases h0 : c m = 0
    · simp only [h0, if_true] at h
      cases hp : par m with
      | none =>
        simp only [hp, ref_get] at h
        cases h
        simp [h0]
      | some p =>
        rw [hp] at h
        cases hc1 : ref_get par fuel c (some p) with
        | none => simp [hc1] at h
        | some c1 =>
          simp only [hc1] at h
          cases h
          have := ref_get_frame hd fuel c c1 p hc1 m (hd m p hp).2.1
          simp [this]
    · simp only [h0, if_false] at h
      cases h
      simp

/-- Dropping the reference just taken undoes the walk, when no node refuses. -/
theorem ref_put_get {par : Nat → Option Nat} {N : Nat} {dep : Nat → Nat}
    (hd : IsDepth par N dep) (crit : Nat → Bool) (hcrit : ∀ x, crit x = false) (fuel : Nat)
    (c c' : Nat → Nat) (m : Option Nat)
    (h : ref_get par fuel c m = some c') : ref_put par crit fuel c' m = some c := by
  induction fuel generalizing c c' m with
  | zero =>
    cases m with
    | none => simp [ref_get] at h; simp [ref_put, h]
    | some m => simp [ref_get] at h
  | succ fuel ih =>
    cases m with
    | none => simp [ref_get] at h; simp [ref_put, h]
    | some m =>
      unfold ref_get at h
      unfold ref_put
      by_cases h0 : c m = 0
      · simp only [h0, if_true] at h
        cases hc1 : ref_get par fuel c (par m) with
        | none => simp [hc1] at h
        | some c1 =>
          simp only [hc1] at h
          cases h
          have hfr : c1 m = 0 := by
            cases hp : par m with
            | none => rw [hp] at hc1; simp [ref_get] at hc1; rw [← hc1, h0]
            | some p =>
              rw [hp] at hc1
              rw [ref_get_frame hd fuel c c1 p hc1 m (hd m p hp).2.1, h0]
          have hupd : Function.update c1 m 0 = c1 := by
            rw [← hfr, Function.update_eq_self]
          simp [hfr, hcrit, hupd]
          exact ih c c1 (par m) hc1
      · simp only [h0, if_false] at h
        cases h
        have : 0 < c m := by omega
        simp [hcrit, this]

/-- C4 (amended): after `clk_rate_exclusive_get(clk)` the node is protected, and
`clk_set_rate(other, r)` through a handle that holds no exclusivity returns `-EBUSY` when `r`
rounds to a rate different from the current one (0 when it rounds to the current rate); for
the holder itself `clk_set_rate` first lifts its own protection, which gives back the protect
counts from before the get, so the holder is not refused; a following
`clk_rate_exclusive_put(clk)` restores the state from before the get, so `clk_set_rate(clk, r)`
then returns what it would have returned before, 0 when the rate can be changed to `r`. -/
theorem exclusive_refusal {N : Nat} {dep : Nat → Nat} (hw : Hw) (fuel : Nat) (s : State)
    (k : Nat) (hd : IsDepth s.parent N dep) (hf : dep (s.clk_core k) < fuel) :
    ∃ s1, clk_rate_exclusive_get fuel s (some k) = some (0, s1) ∧
      0 < s1.protect_count (s.clk_core k) ∧
      (∀ o r, s.clk_core o = s.clk_core k → s1.exclusive_count o = 0 →
        ∃ rate pc,
          clk_core_req_round_rate_nolock hw fuel s1 (some (s.clk_core k)) r
            = some (rate, { s1 with protect_count := pc }) ∧
          clk_set_rate hw fuel s1 (some o) r
            = some (if rate = clk_core_get_rate_nolock s (some (s.clk_core k)) then 0
                else -EBUSY, { s1 with protect_count := pc })) ∧
      (s1.exclusive_count k ≠ 0 ∧
        clk_core_rate_unprotect fuel s1 (some (s1.clk_core k))
          = some { s with exclusive_count := s1.exclusive_count }) ∧
      clk_rate_exclusive_put fuel s1 (some k) = some s ∧
      (∀ r, (clk_rate_exclusive_put fuel s1 (some k)).bind
          (fun s2 => clk_set_rate hw fuel s2 (some k) r) = clk_set_rate hw fuel s (some k) r) := by
  obtain ⟨pc1, hpc1⟩ := ref_get_total hd fuel s.protect_count (s.clk_core k) hf
  have hself := ref_get_self hd fuel _ _ _ hpc1
  have hback := ref_put_get hd (fun _ => false) (fun _ => rfl) fuel _ _ _ hpc1
  have hget : clk_rate_exclusive_get fuel s (some k) = some (0,
      { s with protect_count := pc1,
               exclusive_count := Function.update s.exclusive_count k (s.exclusive_count k + 1) })
      := by
    simp [clk_rate_exclusive_get, clk_core_rate_protect_eq, hpc1]
  have hunp : clk_core_rate_unprotect fuel
      { s with protect_count := pc1,
               exclusive_count := Function.update s.exclusive_count k (s.exclusive_count k + 1) }
      (some (s.clk_core k))
      = some { s with exclusive_count :=
          Function.update s.exclusive_count k (s.exclusive_count k + 1) } := by
    rw [clk_core_rate_unprotect_eq]
    simp [hback]
  have hput : clk_rate_exclusive_put fuel
      { s with protect_count := pc1,
               exclusive_count := Function.update s.exclusive_count k (s.exclusive_count k + 1) }
      (some k) = some s := by
    unfold clk_rate_exclusive_put
    simp [hunp]
  refine ⟨_, hget, by simp [hself], ?_, ⟨by simp, hunp⟩, hput, ?_⟩
  · intro o r ho hex
    obtain ⟨rate, pc, h1, h2⟩ := (protected_refusal hw fuel
      { s with protect_count := pc1,
               exclusive_count := Function.update s.exclusive_count k (s.exclusive_count k + 1) }
      (s.clk_core k) hd hf (by simp [hself])).1 r
    refine ⟨rate, pc, h1, ?_⟩
    simp only at hex
    unfold clk_set_rate
    simp only [hex, ne_eq, not_true_eq_false, if_false, ho]
    rw [h2]
    simp only [hex, ne_eq, not_true_eq_false, if_false]
    rfl
  · intro r
    rw [hput]
    rfl

/-- C4 (amended), on the single tunable node with handle 0 taking exclusivity. -/
theorem exclusive_refusal_witness :
    ∃ s1, clk_rate_exclusive_get 2 tunable1 (some 0) = some (0, s1) ∧
      0 < s1.protect_count (tunable1.clk_core 0) ∧
      (∀ o r, tunable1.clk_core o = tunable1.clk_core 0 → s1.exclusive_count o = 0 →
        ∃ rate pc,
          clk_core_req_round_rate_nolock Hw.tracking 2 s1 (some (tunable1.clk_core 0)) r
            = some (rate, { s1 with protect_count := pc }) ∧
          clk_set_rate Hw.tracking 2 s1 (some o) r
            = some (if rate = clk_core_get_rate_nolock tunable1 (some (tunable1.clk_core 0))
                then 0 else -EBUSY, { s1 with protect_count := pc })) ∧
      (s1.exclusive_count 0 ≠ 0 ∧
        clk_core_rate_unprotect 2 s1 (some (s1.clk_core 0))
          = some { tunable1 with exclusive_count := s1.exclusive_count }) ∧
      clk_rate_exclusive_put 2 s1 (some 0) = some tunable1 ∧
      (∀ r, (clk_rate_exclusive_put 2 s1 (some 0)).bind
          (fun s2 => clk_set_rate Hw.tracking 2 s2 (some 0) r)
        = clk_set_rate Hw.tracking 2 tunable1 (some 0) r) :=
  exclusive_refusal Hw.tracking 2 tunable1 0 (IsDepth_of_no_parent _ (fun _ => rfl)) (by decide)

/-- C4 as stated fails: on the single tunable node, unprotected and able to go from 100 to
200, `clk_set_rate(clk, 200)` after `clk_rate_exclusive_get(clk)` on the same handle returns 0
and retunes the node, since `clk_set_rate` lifts the caller's own protection; it is the other
handle that gets `-EBUSY`. -/
theorem exclusive_refusal_counterexample :
    tunable1.protect_count 0 = 0 ∧
    (clk_set_rate Hw.tracking 2 tunable1 (some 0) 200).map Prod.fst = some 0 ∧
    ((clk_rate_exclusive_get 2 tunable1 (some 0)).bind
        (fun r => clk_set_rate Hw.tracking 2 r.2 (some 0) 200)).map
      (fun r => (r.1, r.2.rate 0, r.2.protect_count 0)) = some (0, 200, 1) ∧
    ((clk_rate_exclusive_get 2 tunable1 (some 0)).bind
        (fun r => clk_set_rate Hw.tracking 2 r.2 (some 1) 200)).map
      (fun r => (r.1, r.2.rate 0)) = some (-EBUSY, 100) := by
  decide

theorem clk_core_rate_unprotect_frame (fuel : Nat) (s s' : State) (m : Option Nat)
    (h : clk_core_rate_unprotect fuel s m = some s') :
    ∃ pc, s' = { s with protect_count := pc } := by
  rw [clk_core_rate_unprotect_eq] at h
  cases hr : ref_put s.parent (fun _ => false) fuel s.protect_count m with
  | none => simp [hr] at h
  | some pc => simp [hr] at h; exact ⟨pc, h.symm⟩

theorem clk_core_rate_protect_frame (fuel : Nat) (s s' : State) (m : Option Nat)
    (h : clk_core_rate_protect fuel s m = some s') :
    ∃ pc, s' = { s with protect_count := pc } := by
  rw [clk_core_rate_protect_eq] at h
  cases hr : ref_get s.parent fuel s.protect_count m with
  | none => simp [hr] at h
  | some pc => simp [hr] at h; exact ⟨pc, h.symm⟩

theorem clk_core_req_round_rate_nolock_frame (hw : Hw) (fuel : Nat) (s s' : State)
    (c : Option Nat) (r rate : Nat)
    (h : clk_core_req_round_rate_nolock hw fuel s c r = some (rate, s')) :
    ∃ pc, s' = { s with protect_count := pc } := by
  cases c with
  | none =>
    simp [clk_core_req_round_rate_nolock] at h
    exact ⟨s.protect_count, h.2.symm⟩
  | some c =>
    unfold clk_core_req_round_rate_nolock at h
    simp only at h
    cases hn : clk_core_rate_nuke_protect fuel s (some c) with
    | none => simp [hn] at h
    | some r1 =>
      obtain ⟨cnt, s1⟩ := r1
      have hs1 : ∃ pc, s1 = { s with protect_count := pc } := by
        unfold clk_core_rate_nuke_protect at hn
        simp only at hn
        split at hn
        · simp at hn; exact ⟨s.protect_count, hn.2.symm⟩
        · cases hu : clk_core_rate_unprotect fuel
              { s with protect_count := Function.update s.protect_count c 1 } (some c) with
          | none => simp [hu] at hn
          | some s2 =>
            simp [hu] at hn
            obtain ⟨pc, hpc⟩ := clk_core_rate_unprotect_frame _ _ _ _ hu
            exact ⟨pc, by rw [← hn.2, hpc]⟩
      obtain ⟨pc1, rfl⟩ := hs1
      simp only [hn] at h
      split at h
      · simp at h; exact ⟨pc1, h.2.symm⟩
      · split at h
        · simp at h
        · rename_i ret req hrr
          split at h
          · simp at h
          · rename_i s2 hrs
            simp at h
            unfold clk_core_rate_restore_protect at hrs
            simp only at hrs
            split at hrs
            · simp at hrs; exact ⟨pc1, by rw [← h.2, ← hrs]⟩
            · split at hrs
              · simp at hrs
              · rename_i s3 hp
                obtain ⟨pc, hpc⟩ := clk_core_rate_protect_frame _ _ _ _ hp
                simp at hrs
                exact ⟨_, by rw [← h.2, ← hrs, hpc]⟩

/-- A plan made for a node that can round was checked against the node's window. -/
theorem clk_calc_new_rates_window (hw : Hw) (fuel : Nat) (s s' : State) (c r top : Nat)
    (hcr : clk_core_can_round s c = true)
    (h : clk_calc_new_rates hw fuel s (some c) r = some (some top, s')) :
    (clk_core_get_boundaries s c).1 ≤ planned_rate hw s c r ∧
    planned_rate hw s c r ≤ (clk_core_get_boundaries s c).2 := by
  unfold planned_rate
  cases fuel with
  | zero => simp [clk_calc_new_rates] at h
  | succ fuel =>
    unfold clk_calc_new_rates at h
    simp only [hcr, if_true] at h
    split at h
    · simp at h
    · split at h
      · simp at h
      · rename_i hwin
        simp only [Bool.or_eq_true, decide_eq_true_eq, not_or, not_lt] at hwin
        exact hwin

/-- What a successful `clk_core_set_rate_nolock` leaves in `req_rate`. -/
theorem clk_core_set_rate_nolock_req_rate (hw : Hw) (fuel : Nat) (s s' : State) (c r : Nat)
    (h : clk_core_set_rate_nolock hw fuel s (some c) r = some (0, s')) :
    ∃ rate s1, clk_core_req_round_rate_nolock hw fuel s (some c) r = some (rate, s1) ∧
      ((rate = clk_core_get_rate_nolock s (some c) ∧ s' = s1) ∨
       (rate ≠ clk_core_get_rate_nolock s (some c) ∧ s'.req_rate c = r ∧
         (clk_core_can_round s c = true →
           (clk_core_get_boundaries s c).1 ≤ planned_rate hw s1 c r ∧
           planned_rate hw s1 c r ≤ (clk_core_get_boundaries s c).2))) := by
  unfold clk_core_set_rate_nolock at h
  simp only at h
  cases hrr : clk_core_req_round_rate_nolock hw fuel s (some c) r with
  | none => simp [hrr] at h
  | some x =>
    obtain ⟨rate, s1⟩ := x
    obtain ⟨pc, rfl⟩ := clk_core_req_round_rate_nolock_frame hw fuel s s1 (some c) r rate hrr
    refine ⟨rate, _, rfl, ?_⟩
    simp only [hrr] at h
    have hget : clk_core_get_rate_nolock { s with protect_count := pc } (some c)
        = clk_core_get_rate_nolock s (some c) := rfl
    rw [hget] at h
    by_cases hr : rate = clk_core_get_rate_nolock s (some c)
    · left
      simp [hr] at h
      exact ⟨hr, h.symm⟩
    · right
      simp only [hr, if_false] at h
      refine ⟨hr, ?_⟩
      by_cases hprot : clk_core_rate_is_protected { s with protect_count := pc } c = true
      · simp [hprot, EBUSY] at h
      · simp only [hprot, if_false] at h
        cases hcalc : clk_calc_new_rates hw fuel { s with protect_count := pc } (some c) r with
        | none => simp [hcalc] at h
        | some x =>
          obtain ⟨top?, s2⟩ := x
          cases top? with
          | none => simp [hcalc, EINVAL] at h
          | some top =>
            simp only [hcalc] at h
            by_cases hpm : (clk_pm_runtime_get hw s2 c).1 = 0
            · simp [hpm] at h
              cases hpre : clk_propagate_rate_change hw fuel (clk_pm_runtime_get hw s2 c).2 top
                  PRE_RATE_CHANGE with
              | none => simp [hpre] at h
              | some y =>
                obtain ⟨fail?, s4⟩ := y
                cases fail? with
                | some f =>
                  simp [hpre] at h
                  cases hab : clk_propagate_rate_change hw fuel s4 top ABORT_RATE_CHANGE with
                  | none => simp [hab] at h
                  | some z => simp [hab, EBUSY] at h
                | none =>
                  simp [hpre] at h
                  cases hch : clk_change_rate hw fuel s4 top with
                  | none => simp [hch] at h
                  | some s5 =>
                    simp [hch] at h
                    subst h
                    refine ⟨by simp [clk_pm_runtime_put]; split <;> simp [State.log], ?_⟩
                    intro hcr
                    exact clk_calc_new_rates_window hw fuel { s with protect_count := pc } s2 c r
                      top hcr hcalc
            · simp [hpm] at h
              exact absurd (by rw [h]) hpm

/-- C9 (amended): after a `clk_set_rate(clk, r)` that returns 0, either `r` rounded to the
current rate and `req_rate` is untouched, or `req_rate` is `r` itself, not clamped into the
window; what was checked against the effective window `[min, max]` of
`clk_core_get_boundaries` is the rate planned by the node's `determine_rate` / `round_rate` op,
which lies within it. -/
theorem set_rate_req_rate (hw : Hw) (fuel : Nat) (s s' : State) (k r : Nat)
    (h : clk_set_rate hw fuel s (some k) r = some (0, s')) :
    ∃ s0 rate s1,
      (if s.exclusive_count k ≠ 0 then clk_core_rate_unprotect fuel s (some (s.clk_core k))
        else some s) = some s0 ∧
      clk_core_req_round_rate_nolock hw fuel s0 (some (s.clk_core k)) r = some (rate, s1) ∧
      ((rate = clk_core_get_rate_nolock s (some (s.clk_core k)) ∧ s'.req_rate = s.req_rate) ∨
       (rate ≠ clk_core_get_rate_nolock s (some (s.clk_core k)) ∧
         s'.req_rate (s.clk_core k) = r ∧
         (clk_core_can_round s (s.clk_core k) = true →
           (clk_core_get_boundaries s (s.clk_core k)).1 ≤ planned_rate hw s1 (s.clk_core k) r ∧
           planned_rate hw s1 (s.clk_core k) r ≤ (clk_core_get_boundaries s (s.clk_core k)).2)))
    := by
  unfold clk_set_rate at h
  simp only at h
  cases h0 : (if s.exclusive_count k ≠ 0 then
      clk_core_rate_unprotect fuel s (some (s.clk_core k)) else some s) with
  | none => simp [h0] at h
  | some s0 =>
    have hs0 : ∃ pc, s0 = { s with protect_count := pc } := by
      split at h0
      · exact clk_core_rate_unprotect_frame _ _ _ _ h0
      · simp at h0; exact ⟨s.protect_count, h0.symm⟩
    obtain ⟨pc0, rfl⟩ := hs0
    simp only [h0] at h
    cases h1 : clk_core_set_rate_nolock hw fuel { s with protect_count := pc0 }
        (some (s.clk_core k)) r with
    | none => simp [h1] at h
    | some x =>
      obtain ⟨ret, s2⟩ := x
      simp only [h1] at h
      have hs' : ret = 0 ∧ s'.req_rate = s2.req_rate := by
        split at h
        · simp at h
        · rename_i s3 hs3
          simp only [Option.some.injEq, Prod.mk.injEq] at h
          refine ⟨h.1, ?_⟩
          rw [← h.2]
          split at hs3
          · obtain ⟨pc, rfl⟩ := clk_core_rate_protect_frame _ _ _ _ hs3
            rfl
          · simp at hs3; rw [hs3]
      obtain ⟨rfl, hreq⟩ := hs'
      obtain ⟨rate, s1, e1, e2⟩ := clk_core_set_rate_nolock_req_rate hw fuel _ s2 _ r h1
      refine ⟨_, rate, s1, rfl, e1, ?_⟩
      rcases e2 with ⟨e3, e4⟩ | ⟨e3, e4, e5⟩
      · left
        refine ⟨e3, ?_⟩
        obtain ⟨pc, rfl⟩ := clk_core_req_round_rate_nolock_frame _ _ _ _ _ _ _ e1
        rw [hreq, e4]
      · right
        exact ⟨e3, by rw [hreq]; exact e4, e5⟩

/-- C9 as stated fails: on the node with window `[50, 150]` whose `round_rate` clamps,
`clk_set_rate(clk, 500)` returns 0, the node runs at 150, and `req_rate` is 500, above the
effective maximum. -/
theorem set_rate_req_rate_counterexample :
    (clk_set_rate Hw.clamping 2 windowed1 (some 0) 500).map
      (fun x => (x.1, x.2.rate 0, x.2.req_rate 0, clk_core_get_boundaries x.2 0))
      = some (0, 150, 500, (50, 150)) := by
  decide

/-- C9 (amended), for `clk_set_rate(clk, 500)` on the node with window `[50, 150]`. -/
theorem set_rate_req_rate_witness :
    ∃ s' s0 rate s1, clk_set_rate Hw.clamping 2 windowed1 (some 0) 500 = some (0, s') ∧
      (if windowed1.exclusive_count 0 ≠ 0 then
          clk_core_rate_unprotect 2 windowed1 (some (windowed1.clk_core 0))
        else some windowed1) = some s0 ∧
      clk_core_req_round_rate_nolock Hw.clamping 2 s0 (some (windowed1.clk_core 0)) 500
        = some (rate, s1) ∧
      ((rate = clk_core_get_rate_nolock windowed1 (some (windowed1.clk_core 0)) ∧
          s'.req_rate = windowed1.req_rate) ∨
       (rate ≠ clk_core_get_rate_nolock windowed1 (some (windowed1.clk_core 0)) ∧
         s'.req_rate (windowed1.clk_core 0) = 500 ∧
         (clk_core_can_round windowed1 (windowed1.clk_core 0) = true →
           (clk_core_get_boundaries windowed1 (windowed1.clk_core 0)).1
              ≤ planned_rate Hw.clamping s1 (windowed1.clk_core 0) 500 ∧
           planned_rate Hw.clamping s1 (windowed1.clk_core 0) 500
              ≤ (clk_core_get_boundaries windowed1 (windowed1.clk_core 0)).2))) := by
  have h0 : (clk_set_rate Hw.clamping 2 windowed1 (some 0) 500).map Prod.fst = some 0 := by
    decide
  cases h : clk_set_rate Hw.clamping 2 windowed1 (some 0) 500 with
  | none => rw [h] at h0; simp at h0
  | some x =>
    obtain ⟨ret, s'⟩ := x
    rw [h] at h0
    simp only [Option.map_some', Option.some.injEq] at h0
    subst h0
    obtain ⟨s0, rate, s1, e⟩ := set_rate_req_rate Hw.clamping 2 windowed1 s' 0 500 h
    exact ⟨s', s0, rate, s1, rfl, e⟩

theorem CountFrame_refl (s : State) : CountFrame s s := ⟨_, _, _, _, rfl⟩

theorem CountFrame_trans {s s1 s2 : State} (h1 : CountFrame s s1) (h2 : CountFrame s1 s2) :
    CountFrame s s2 := by
  obtain ⟨e, p, r, tr, rfl⟩ := h1
  obtain ⟨e', p', r', tr', rfl⟩ := h2
  exact ⟨_, _, _, _, rfl⟩

theorem CountFrame_log (s : State) (e : clk_event) : CountFrame s (s.log e) :=
  ⟨_, _, _, _, rfl⟩

theorem CountFrame_enable (s : State) (c : Nat → Nat) :
    CountFrame s { s with enable_count := c } := ⟨_, _, _, _, rfl⟩

theorem CountFrame_prepare (s : State) (c : Nat → Nat) :
    CountFrame s { s with prepare_count := c } := ⟨_, _, _, _, rfl⟩

theorem CountFrame_protect (s : State) (c : Nat → Nat) :
    CountFrame s { s with protect_count := c } := ⟨_, _, _, _, rfl⟩

theorem CountFrame_log_r {s a : State} (e : clk_event) (h : CountFrame s a) :
    CountFrame s (a.log e) := CountFrame_trans h (CountFrame_log _ _)

theorem CountFrame_enable_r {s a : State} (c : Nat → Nat) (h : CountFrame s a) :
    CountFrame s { a with enable_count := c } := CountFrame_trans h (CountFrame_enable _ _)

theorem CountFrame_prepare_r {s a : State} (c : Nat → Nat) (h : CountFrame s a) :
    CountFrame s { a with prepare_count := c } := CountFrame_trans h (CountFrame_prepare _ _)

theorem CountFrame_ite_r {s a b : State} (c : Prop) [Decidable c] (ha : CountFrame s a)
    (hb : CountFrame s b) : CountFrame s (if c then a else b) := by
  split
  · exact ha
  · exact hb

theorem clk_pm_runtime_get_frame (hw : Hw) (s : State) (c : Nat) :
    CountFrame s (clk_pm_runtime_get hw s c).2 := by
  unfold clk_pm_runtime_get
  by_cases h1 : (!s.rpm_enabled c) = true
  · simp only [h1, if_true]; exact CountFrame_refl s
  · by_cases h2 : hw.pm_runtime_get_sync s c < 0
    · simp only [h1, h2, if_true, if_false, Bool.false_eq_true]; exact ⟨_, _, _, _, rfl⟩
    · simp only [h1, h2, if_false, Bool.false_eq_true]; exact ⟨_, _, _, _, rfl⟩

theorem clk_pm_runtime_put_frame (s : State) (c : Nat) :
    CountFrame s (clk_pm_runtime_put s c) := by
  unfold clk_pm_runtime_put
  split
  · exact CountFrame_refl s
  · exact ⟨_, _, _, _, rfl⟩

theorem CountFrame_pm_put_r {s a : State} (c : Nat) (h : CountFrame s a) :
    CountFrame s (clk_pm_runtime_put a c) := CountFrame_trans h (clk_pm_runtime_put_frame _ _)

theorem clk_core_rate_unprotect_count_frame (fuel : Nat) (s s' : State) (m : Option Nat)
    (h : clk_core_rate_unprotect fuel s m = some s') : CountFrame s s' := by
  obtain ⟨pc, rfl⟩ := clk_core_rate_unprotect_frame fuel s s' m h
  exact ⟨_, _, _, _, rfl⟩

theorem clk_core_rate_protect_count_frame (fuel : Nat) (s s' : State) (m : Option Nat)
    (h : clk_core_rate_protect fuel s m = some s') : CountFrame s s' := by
  obtain ⟨pc, rfl⟩ := clk_core_rate_protect_frame fuel s s' m h
  exact ⟨_, _, _, _, rfl⟩

theorem clk_core_unprepare_frame (fuel : Nat) (s s' : State) (m : Option Nat)
    (h : clk_core_unprepare fuel s m = some s') : CountFrame s s' := by
  induction fuel generalizing s s' m with
  | zero =>
    cases m with
    | none => simp [clk_core_unprepare] at h; subst h; exact CountFrame_refl s
    | some c => simp [clk_core_unprepare] at h
  | succ fuel ih =>
    cases m with
    | none => simp [clk_core_unprepare] at h; subst h; exact CountFrame_refl s
    | some c =>
      unfold clk_core_unprepare at h
      simp only at h
      split at h
      · simp at h; subst h; exact CountFrame_refl s
      · split at h
        · simp at h; subst h; exact CountFrame_refl s
        · cases hu : (if (s.flags c).CLK_SET_RATE_GATE = true then
              clk_core_rate_unprotect (fuel + 1) s (some c) else some s) with
          | none => simp [hu] at h
          | some s1 =>
            have f1 : CountFrame s s1 := by
              split at hu
              · exact clk_core_rate_unprotect_count_frame _ _ _ _ hu
              · simp at hu; subst hu; exact CountFrame_refl s
            simp only [hu] at h
            split at h
            · simp at h; subst h
              exact CountFrame_prepare_r _ f1
            · refine CountFrame_trans ?_ (ih _ _ _ h)
              apply CountFrame_pm_put_r
              apply CountFrame_ite_r
              · exact CountFrame_log_r _ (CountFrame_prepare_r _ f1)
              · exact CountFrame_prepare_r _ f1

theorem clk_core_disable_frame (fuel : Nat) (s s' : State) (m : Option Nat)
    (h : clk_core_disable fuel s m = some s') : CountFrame s s' := by
  induction fuel generalizing s s' m with
  | zero =>
    cases m with
    | none => simp [clk_core_disable] at h; subst h; exact CountFrame_refl s
    | some c => simp [clk_core_disable] at h
  | succ fuel ih =>
    cases m with
    | none => simp [clk_core_disable] at h; subst h; exact CountFrame_refl s
    | some c =>
      unfold clk_core_disable at h
      simp only at h
      split at h
      · simp at h; subst h; exact CountFrame_refl s
      · split at h
        · simp at h; subst h; exact CountFrame_refl s
        · split at h
          · simp at h; subst h; exact CountFrame_enable _ _
          · refine CountFrame_trans ?_ (ih _ _ _ h)
            apply CountFrame_ite_r
            · exact CountFrame_log_r _ (CountFrame_enable _ _)
            · exact CountFrame_enable _ _

theorem clk_core_enable_frame (hw : Hw) (fuel : Nat) (s s' : State) (m : Option Nat) (ret : Int)
    (h : clk_core_enable hw fuel s m = some (ret, s')) : CountFrame s s' := by
  induction fuel generalizing s s' m ret with
  | zero =>
    cases m with
    | none => simp [clk_core_enable] at h; rw [← h.2]; exact CountFrame_refl s
    | some c => simp [clk_core_enable] at h
  | succ fuel ih =>
    cases m with
    | none => simp [clk_core_enable] at h; rw [← h.2]; exact CountFrame_refl s
    | some c =>
      unfold clk_core_enable at h
      by_cases h1 : s.prepare_count c = 0
      · simp [h1] at h; rw [← h.2]; exact CountFrame_refl s
      · by_cases h2 : s.enable_count c = 0
        · simp only [h1, h2, if_true, if_false] at h
          cases hp : clk_core_enable hw fuel s (s.parent c) with
          | none => simp [hp] at h
          | some r =>
            obtain ⟨r1, s1⟩ := r
            have f1 := ih _ _ _ _ hp
            simp only [hp] at h
            by_cases h3 : r1 = 0
            · have fe : CountFrame s (if (s1.ops c).enable = true then s1.log (.op_enable c)
                  else s1) := CountFrame_ite_r _ (CountFrame_log_r _ f1) f1
              by_cases h4 : (if (s1.ops c).enable = true then hw.enable s1 c else 0) = 0
              · simp only [h3, h4, ne_eq, not_true_eq_false, if_false] at h
                simp at h; rw [← h.2]
                exact CountFrame_enable_r _ fe
              · simp only [h3, h4, ne_eq, not_true_eq_false, not_false_eq_true, if_true,
                  if_false] at h
                cases hd : clk_core_disable fuel
                    (if (s1.ops c).enable = true then s1.log (.op_enable c) else s1)
                    ((if (s1.ops c).enable = true then s1.log (.op_enable c) else s1).parent c) with
                | none => simp [hd] at h
                | some s3 =>
                  simp [hd] at h; rw [← h.2]
                  exact CountFrame_trans fe (clk_core_disable_frame _ _ _ _ hd)
            · simp [h3] at h; rw [← h.2]; exact f1
        · simp [h1, h2] at h; rw [← h.2]; exact CountFrame_enable _ _

theorem clk_core_prepare_frame (hw : Hw) (fuel : Nat) (s s' : State) (m : Option Nat) (ret : Int)
    (h : clk_core_prepare hw fuel s m = some (ret, s')) : CountFrame s s' := by
  induction fuel generalizing s s' m ret with
  | zero =>
    cases m with
    | none => simp [clk_core_prepare] at h; rw [← h.2]; exact CountFrame_refl s
    | some c => simp [clk_core_prepare] at h
  | succ fuel ih =>
    cases m with
    | none => simp [clk_core_prepare] at h; rw [← h.2]; exact CountFrame_refl s
    | some c =>
      have fin : ∀ (a : State) (r : Int) (b : State), CountFrame s a →
          (let a1 : State := { a with prepare_count := Function.update a.prepare_count c (a.prepare_count c + 1) }
           (if (a1.flags c).CLK_SET_RATE_GATE then
              match clk_core_rate_protect (fuel + 1) a1 (some c) with
              | none => none
              | some s2 => some ((0 : Int), s2)
            else some (0, a1)) = some (r, b)) → CountFrame s b := by
        intro a r b fa hb
        simp only at hb
        split at hb
        · cases hq : clk_core_rate_protect (fuel + 1) { a with prepare_count := Function.update a.prepare_count c (a.prepare_count c + 1) } (some c) with
          | none => simp [hq] at hb
          | some s2 =>
            simp [hq] at hb; rw [← hb.2]
            exact CountFrame_trans (CountFrame_prepare_r _ fa)
              (clk_core_rate_protect_count_frame _ _ _ _ hq)
        · simp at hb; rw [← hb.2]; exact CountFrame_prepare_r _ fa
      unfold clk_core_prepare at h
      by_cases h1 : s.prepare_count c = 0
      · simp only [h1, if_true] at h
        have fg := clk_pm_runtime_get_frame hw s c
        by_cases h2 : (clk_pm_runtime_get hw s c).1 = 0
        · simp only [h2, ne_eq, not_true_eq_false, if_false] at h
          cases hp : clk_core_prepare hw fuel (clk_pm_runtime_get hw s c).2
              ((clk_pm_runtime_get hw s c).2.parent c) with
          | none => simp [hp] at h
          | some r =>
            obtain ⟨r1, s2⟩ := r
            have f2 := CountFrame_trans fg (ih _ _ _ _ hp)
            simp only [hp] at h
            by_cases h3 : r1 = 0
            · have fe : CountFrame s (if (s2.ops c).prepare = true then s2.log (.op_prepare c)
                  else s2) := CountFrame_ite_r _ (CountFrame_log_r _ f2) f2
              by_cases h4 : (if (s2.ops c).prepare = true then hw.prepare s2 c else 0) = 0
              · simp only [h3, h4, ne_eq, not_true_eq_false, if_false] at h
                exact fin _ _ _ fe h
              · simp only [h3, h4, ne_eq, not_true_eq_false, not_false_eq_true, if_true,
                  if_false] at h
                cases hd : clk_core_unprepare fuel
                    (if (s2.ops c).prepare = true then s2.log (.op_prepare c) else s2)
                    ((if (s2.ops c).prepare = true then s2.log (.op_prepare c) else s2).parent c) with
                | none => simp [hd] at h
                | some s4 =>
                  simp [hd] at h; rw [← h.2]
                  exact CountFrame_pm_put_r _
                    (CountFrame_trans fe (clk_core_unprepare_frame _ _ _ _ hd))
            · simp [h3] at h; rw [← h.2]; exact CountFrame_pm_put_r _ f2
        · simp [h2] at h; rw [h] at fg; exact fg
      · simp only [h1, if_false] at h
        exact fin _ _ _ (CountFrame_refl s) h

theorem clk_core_prepare_enable_frame (hw : Hw) (fuel : Nat) (s s' : State) (m : Option Nat)
    (ret : Int) (h : clk_core_prepare_enable hw fuel s m = some (ret, s')) :
    CountFrame s s' := by
  unfold clk_core_prepare_enable at h
  cases hp : clk_core_prepare hw fuel s m with
  | none => simp [hp] at h
  | some r =>
    obtain ⟨r1, s1⟩ := r
    have f1 := clk_core_prepare_frame _ _ _ _ _ _ hp
    simp only [hp] at h
    by_cases h1 : r1 = 0
    · simp only [h1, ne_eq, not_true_eq_false, if_false] at h
      cases he : clk_core_enable hw fuel s1 m with
      | none => simp [he] at h
      | some r =>
        obtain ⟨r2, s2⟩ := r
        have f2 := CountFrame_trans f1 (clk_core_enable_frame _ _ _ _ _ _ he)
        simp only [he] at h
        by_cases h2 : r2 = 0
        · simp [h2] at h; rw [← h.2]; exact f2
        · simp only [h2, ne_eq, not_false_eq_true, if_true] at h
          cases hu : clk_core_unprepare fuel s2 m with
          | none => simp [hu] at h
          | some s3 =>
            simp [hu] at h; rw [← h.2]
            exact CountFrame_trans f2 (clk_core_unprepare_frame _ _ _ _ hu)
    · simp [h1] at h; rw [← h.2]; exact f1

theorem clk_core_disable_unprepare_frame (fuel : Nat) (s s' : State) (m : Option Nat)
    (h : clk_core_disable_unprepare fuel s m = some s') : CountFrame s s' := by
  unfold clk_core_disable_unprepare at h
  cases hd : clk_core_disable fuel s m with
  | none => simp [hd] at h
  | some s1 =>
    simp only [hd] at h
    exact CountFrame_trans (clk_core_disable_frame _ _ _ _ hd)
      (clk_core_unprepare_frame _ _ _ _ h)

theorem __clk_set_parent_after_frame (fuel : Nat) (s s' : State) (c : Nat)
    (p o : Option Nat) (h : __clk_set_parent_after fuel s c p o = some s') :
    CountFrame s s' := by
  unfold __clk_set_parent_after at h
  have key : ∀ s2, CountFrame s s2 →
      (if (s2.flags c).CLK_OPS_PARENT_ENABLE then
        match clk_core_disable_unprepare fuel s2 p with
        | none => none
        | some s3 => clk_core_disable_unprepare fuel s3 o
      else some s2) = some s' → CountFrame s s' := by
    intro s2 f2 h
    split at h
    · cases hd : clk_core_disable_unprepare fuel s2 p with
      | none => simp [hd] at h
      | some s3 =>
        simp only [hd] at h
        exact CountFrame_trans f2 (CountFrame_trans
          (clk_core_disable_unprepare_frame _ _ _ _ hd)
          (clk_core_disable_unprepare_frame _ _ _ _ h))
    · simp at h; subst h; exact f2
  by_cases hp : s.prepare_count c = 0
  · simp only [hp, ne_eq, not_true_eq_false, if_false] at h
    exact key _ (CountFrame_refl s) h
  · simp only [hp, ne_eq, not_false_eq_true, if_true] at h
    cases hd : clk_core_disable fuel s (some c) with
    | none => simp [hd] at h
    | some s1 =>
      simp only [hd] at h
      cases hd2 : clk_core_disable_unprepare fuel s1 o with
      | none => simp [hd2] at h
      | some s2 =>
        simp only [hd2] at h
        exact key _ (CountFrame_trans (clk_core_disable_frame _ _ _ _ hd)
          (clk_core_disable_unprepare_frame _ _ _ _ hd2)) h

theorem AttrFrame_refl (s : State) : AttrFrame s s := ⟨_, _, _, _, _, _, _, rfl⟩

theorem AttrFrame_trans {s s1 s2 : State} (h1 : AttrFrame s s1) (h2 : AttrFrame s1 s2) :
    AttrFrame s s2 := by
  obtain ⟨e, p, r, tr, ra, ac, ps, rfl⟩ := h1
  obtain ⟨e', p', r', tr', ra', ac', ps', rfl⟩ := h2
  exact ⟨_, _, _, _, _, _, _, rfl⟩

theorem AttrFrame_of_count {s s' : State} (h : CountFrame s s') : AttrFrame s s' := by
  obtain ⟨e, p, r, tr, rfl⟩ := h
  exact ⟨_, _, _, _, _, _, _, rfl⟩

theorem foldlM_rel {α β : Type} (g : β → State) (R : State → State → Prop)
    (hr : ∀ s, R s s) (ht : ∀ a b c, R a b → R b c → R a c)
    (f : β → α → Option β) (l : List α)
    (hf : ∀ b x b', x ∈ l → f b x = some b' → R (g b) (g b')) (b b' : β)
    (h : l.foldlM f b = some b') : R (g b) (g b') := by
  induction l generalizing b with
  | nil => simp at h; subst h; exact hr _
  | cons x xs ih =>
    simp only [List.foldlM_cons] at h
    cases hx : f b x with
    | none => simp [hx] at h
    | some b1 =>
      simp [hx] at h
      exact ht _ _ _ (hf _ _ _ (List.mem_cons_self _ _) hx)
        (ih (fun b x b' hm => hf b x b' (List.mem_cons_of_mem _ hm)) _ h)

theorem __clk_notify_walk_frame (hw : Hw) (core msg o n : Nat) (l : List Nat) (ret : Nat)
    (s : State) : ∃ tr, (__clk_notify.walk hw core msg o n l ret s).2 = { s with trace := tr } := by
  induction l generalizing ret s with
  | nil => exact ⟨_, rfl⟩
  | cons cn rest ih =>
    unfold __clk_notify.walk
    by_cases h1 : s.clk_core cn = core
    · by_cases h2 : hw.notifier_call_chain s cn msg o n &&& NOTIFY_STOP_MASK = 0
      · simp only [h1, h2, if_true, if_false, ne_eq, not_true_eq_false]
        obtain ⟨tr, e⟩ := ih (hw.notifier_call_chain s cn msg o n)
          (s.log (.notify cn msg o n))
        rw [e]; exact ⟨_, rfl⟩
      · simp only [h1, h2, if_true, ne_eq, not_false_eq_true]; exact ⟨_, rfl⟩
    · simp only [h1, if_false]; exact ih _ _

theorem __clk_notify_frame (hw : Hw) (s : State) (core msg o n : Nat) :
    AttrFrame s (__clk_notify hw s core msg o n).2 := by
  obtain ⟨tr, e⟩ := __clk_notify_walk_frame hw core msg o n s.clk_notifier_list NOTIFY_DONE s
  unfold __clk_notify
  rw [e]; exact ⟨_, _, _, _, _, _, _, rfl⟩

theorem clk_recalc_frame (hw : Hw) (s : State) (core pr : Nat) :
    CountFrame s (clk_recalc hw s core pr).2 := by
  unfold clk_recalc
  split
  · by_cases h : (clk_pm_runtime_get hw s core).1 = 0
    · simp only [h, if_true]
      exact CountFrame_pm_put_r _ (clk_pm_runtime_get_frame hw s core)
    · simp only [h, if_false]
      exact clk_pm_runtime_get_frame hw s core
  · exact CountFrame_refl s

theorem clk_fetch_parent_index_frame (hw : Hw) (s : State) (core : Nat) (p : Option Nat) :
    AttrFrame s (clk_fetch_parent_index hw s core p).2 := by
  unfold clk_fetch_parent_index
  cases p with
  | none => exact AttrFrame_refl s
  | some p =>
    simp only
    split
    · exact AttrFrame_refl s
    · exact ⟨_, _, _, _, _, _, _, rfl⟩

theorem __clk_recalc_accuracies_frame (hw : Hw) (fuel : Nat) (s s' : State) (core : Nat)
    (h : __clk_recalc_accuracies hw fuel s core = some s') : AttrFrame s s' := by
  induction fuel generalizing s s' core with
  | zero => simp [__clk_recalc_accuracies] at h
  | succ fuel ih =>
    unfold __clk_recalc_accuracies at h
    refine AttrFrame_trans ?_ (foldlM_rel id AttrFrame AttrFrame_refl
      (fun _ _ _ => AttrFrame_trans) _ _ (fun b x b' _ hb => ih _ _ _ hb) _ _ h)
    exact ⟨_, _, _, _, _, _, _, rfl⟩

theorem __clk_recalc_rates_frame (hw : Hw) (fuel : Nat) (s s' : State) (core msg : Nat)
    (h : __clk_recalc_rates hw fuel s core msg = some s') : AttrFrame s s' := by
  induction fuel generalizing s s' core with
  | zero => simp [__clk_recalc_rates] at h
  | succ fuel ih =>
    unfold __clk_recalc_rates at h
    refine AttrFrame_trans ?_ (foldlM_rel id AttrFrame AttrFrame_refl
      (fun _ _ _ => AttrFrame_trans) _ _ (fun b x b' _ hb => ih _ _ _ hb) _ _ h)
    have f1 := AttrFrame_of_count (clk_recalc_frame hw s core
      (match s.parent core with
        | some p => s.rate p
        | none => 0))
    have f2 : ∀ a r, AttrFrame s a → AttrFrame s { a with rate := r } := by
      intro a r fa
      obtain ⟨e, p, r, tr, ra, ac, ps, rfl⟩ := fa
      exact ⟨_, _, _, _, _, _, _, rfl⟩
    split
    · exact AttrFrame_trans (f2 _ _ f1) (__clk_notify_frame _ _ _ _ _ _)
    · exact f2 _ _ f1

theorem __clk_speculate_rates_frame (hw : Hw) (fuel : Nat) (s s' : State) (core pr ret : Nat)
    (h : __clk_speculate_rates hw fuel s core pr = some (ret, s')) : AttrFrame s s' := by
  induction fuel generalizing s s' core pr ret with
  | zero => simp [__clk_speculate_rates] at h
  | succ fuel ih =>
    unfold __clk_speculate_rates at h
    have f1 := AttrFrame_of_count (clk_recalc_frame hw s core pr)
    cases hrc : clk_recalc hw s core pr with
    | mk nr s1 =>
      rw [hrc] at f1
      simp only [hrc] at h
      cases hq : (if s1.notifier_count core ≠ 0 then
          __clk_notify hw s1 core PRE_RATE_CHANGE (s1.rate core) nr
          else (NOTIFY_DONE, s1)) with
      | mk r2 s2 =>
        have f2 : AttrFrame s s2 := by
          split at hq
          · have := __clk_notify_frame hw s1 core PRE_RATE_CHANGE (s1.rate core) nr
            rw [hq] at this
            exact AttrFrame_trans f1 this
          · simp at hq; rw [← hq.2]; exact f1
        simp only [hq] at h
        by_cases h3 : r2 &&& NOTIFY_STOP_MASK = 0
        · simp only [h3, ne_eq, not_true_eq_false, if_false] at h
          refine AttrFrame_trans f2 (foldlM_rel (fun a => a.2) AttrFrame AttrFrame_refl
            (fun _ _ _ => AttrFrame_trans) _ _ ?_ _ (ret, s') h)
          intro b x b' _ hb
          split at hb
          · simp at hb; subst hb; exact AttrFrame_refl _
          · exact ih _ _ _ _ _ hb
        · simp [h3] at h; rw [← h.2]; exact f2

theorem clk_core_update_orphan_status_frame (fuel : Nat) (s s' : State) (core : Nat) (b : Bool)
    (h : clk_core_update_orphan_status fuel s core b = some s') :
    ∃ o, s' = { s with orphan := o } := by
  induction fuel generalizing s s' core with
  | zero => simp [clk_core_update_orphan_status] at h
  | succ fuel ih =>
    unfold clk_core_update_orphan_status at h
    have := foldlM_rel id (fun a b => ∃ o, b = { a with orphan := o }) (fun a => ⟨_, rfl⟩)
      (fun a b c hab hbc => by
        obtain ⟨o1, rfl⟩ := hab
        obtain ⟨o2, rfl⟩ := hbc
        exact ⟨_, rfl⟩) _ _ (fun b x b' _ hb => ih _ _ _ hb) _ _ h
    obtain ⟨o, e⟩ := this
    exact ⟨o, e⟩

theorem clk_reparent_spec (fuel : Nat) (s s' : State) (core : Nat) (np : Option Nat)
    (h : clk_reparent fuel s core np = some s') :
    ∃ orph rl ol nc, s' = { s with orphan := orph, clk_root_list := rl, clk_orphan_list := ol, new_child := nc, parent := Function.update s.parent core np, children := (match np with | some p => Function.update (hlist_del_child_node s core).children p (core :: (hlist_del_child_node s core).children p) | none => (hlist_del_child_node s core).children) } := by
  have hd : ∃ rl ol ch, hlist_del_child_node s core = { s with clk_root_list := rl, clk_orphan_list := ol, children := ch } := by
    unfold hlist_del_child_node
    cases s.parent core with
    | none => exact ⟨_, _, _, rfl⟩
    | some p => exact ⟨_, _, _, rfl⟩
  unfold clk_reparent at h
  generalize hD : hlist_del_child_node s core = D at h hd ⊢
  obtain ⟨rl, ol, ch, rfl⟩ := hd
  cases np with
  | some p =>
    simp only at h
    split at h
    · cases h
    · rename_i s4 heq
      simp only [Option.some.injEq] at h
      subst h
      split at heq
      · obtain ⟨o, e⟩ := clk_core_update_orphan_status_frame _ _ _ _ _ heq
        subst e
        split <;> exact ⟨_, _, _, _, rfl⟩
      · simp only [Option.some.injEq] at heq
        subst heq
        split <;> exact ⟨_, _, _, _, rfl⟩
  | none =>
    simp only at h
    split at h
    · cases h
    · rename_i s4 heq
      simp only [Option.some.injEq] at h
      subst h
      split at heq
      · obtain ⟨o, e⟩ := clk_core_update_orphan_status_frame _ _ _ _ _ heq
        subst e
        exact ⟨_, _, _, _, rfl⟩
      · simp only [Option.some.injEq] at heq
        subst heq
        exact ⟨_, _, _, _, rfl⟩

theorem __clk_set_parent_before_spec (hw : Hw) (fuel : Nat) (s s5 : State) (c : Nat)
    (par o : Option Nat) (h : __clk_set_parent_before hw fuel s c par = some (o, s5)) :
    o = s.parent c ∧ ∃ s4, CountFrame s s4 ∧ clk_reparent fuel s4 c par = some s5 := by
  unfold __clk_set_parent_before at h
  simp only at h
  split at h
  · cases h
  · rename_i s2 heq2
    have f2 : CountFrame s s2 := by
      split at heq2
      · split at heq2
        · cases heq2
        · rename_i r1 s1 hq1
          split at heq2
          · cases heq2
          · rename_i r2 s2a hq2
            simp only [Option.some.injEq] at heq2
            subst heq2
            exact CountFrame_trans (clk_core_prepare_enable_frame _ _ _ _ _ _ hq1)
              (clk_core_prepare_enable_frame _ _ _ _ _ _ hq2)
      · simp only [Option.some.injEq] at heq2
        subst heq2
        exact CountFrame_refl s
    split at h
    · cases h
    · rename_i s4 heq4
      have f4 : CountFrame s2 s4 := by
        split at heq4
        · split at heq4
          · cases heq4
          · rename_i r3 s3 hq3
            split at heq4
            · cases heq4
            · rename_i r4 s4a hq4
              simp only [Option.some.injEq] at heq4
              subst heq4
              exact CountFrame_trans (clk_core_prepare_enable_frame _ _ _ _ _ _ hq3)
                (clk_core_enable_frame _ _ _ _ _ _ hq4)
        · simp only [Option.some.injEq] at heq4
          subst heq4
          exact CountFrame_refl _
      split at h
      · cases h
      · rename_i s5a hq5
        simp only [Option.some.injEq, Prod.mk.injEq] at h
        obtain ⟨h1, h2⟩ := h
        subst h2
        exact ⟨h1.symm, s4, CountFrame_trans f2 f4, hq5⟩

theorem __clk_set_parent_ok (hw : Hw) (fuel : Nat) (s s' : State) (c : Nat)
    (par : Option Nat) (idx : Nat) (h : __clk_set_parent hw fuel s c par idx = some (0, s')) :
    ∃ s4 s5, CountFrame s s4 ∧ clk_reparent fuel s4 c par = some s5 ∧ CountFrame s5 s' := by
  unfold __clk_set_parent at h
  split at h
  · cases h
  · rename_i o s1 hb
    obtain ⟨ho, s4, f4, hr⟩ := __clk_set_parent_before_spec _ _ _ _ _ _ _ hb
    refine ⟨s4, s1, f4, hr, ?_⟩
    simp only at h
    by_cases hr : (if (par.isSome && (s1.ops c).set_parent) = true then hw.set_parent s1 c idx
        else 0) = 0
    · simp only [hr, ne_eq, not_true_eq_false, if_false] at h
      split at h
      · cases h
      · rename_i s3 ha
        simp only [Option.some.injEq, Prod.mk.injEq, true_and] at h
        subst h
        refine CountFrame_trans ?_ (__clk_set_parent_after_frame _ _ _ _ _ _ ha)
        exact CountFrame_ite_r _ (CountFrame_log _ _) (CountFrame_refl _)
    · simp only [hr, ne_eq, not_false_eq_true, if_true] at h
      split at h
      · cases h
      · split at h
        · cases h
        · simp only [Option.some.injEq, Prod.mk.injEq] at h
          exact absurd h.1 hr

theorem clk_core_set_parent_nolock_ok (hw : Hw) (fuel : Nat) (s s' : State) (c : Nat)
    (par : Option Nat) (h : clk_core_set_parent_nolock hw fuel s (some c) par = some (0, s')) :
    (s.parent c = par ∧ s' = s) ∨
    (∃ s3 s4 s5, AttrFrame s s3 ∧ CountFrame s3 s4 ∧ clk_reparent fuel s4 c par = some s5 ∧
      AttrFrame s5 s') := by
  unfold clk_core_set_parent_nolock at h
  simp only at h
  by_cases h1 : s.parent c = par
  · left
    simp only [h1, if_true, Option.some.injEq, Prod.mk.injEq, true_and] at h
    exact ⟨h1, h.symm⟩
  · right
    simp only [h1, if_false] at h
    split at h
    · simp [EPERM] at h
    · split at h
      · simp [EBUSY] at h
      · split at h
        · simp [EBUSY] at h
        · have f1 : AttrFrame s (if par.isSome = true then clk_fetch_parent_index hw s c par
              else (0, s)).2 := by
            split
            · exact clk_fetch_parent_index_frame _ _ _ _
            · exact AttrFrame_refl s
          generalize (if par.isSome = true then clk_fetch_parent_index hw s c par
              else (0, s)) = q at h f1
          obtain ⟨pi, s1⟩ := q
          simp only at h f1
          split at h
          · rename_i hlt
            simp only [Option.some.injEq, Prod.mk.injEq] at h
            omega
          · have f2 := AttrFrame_trans f1 (AttrFrame_of_count (clk_pm_runtime_get_frame hw s1 c))
            generalize clk_pm_runtime_get hw s1 c = q at h f2
            obtain ⟨r2, s2⟩ := q
            simp only at h f2
            split at h
            · rename_i hne
              simp only [Option.some.injEq, Prod.mk.injEq] at h
              exact absurd h.1 hne
            · split at h
              · cases h
              · rename_i nret s3 hsp
                have f3 := AttrFrame_trans f2 (__clk_speculate_rates_frame _ _ _ _ _ _ _ hsp)
                split at h
                · rename_i hstop
                  simp only [Option.some.injEq, Prod.mk.injEq] at h
                  have : nret = 0 := by exact_mod_cast h.1
                  subst this
                  simp at hstop
                · cases hsp4 : __clk_set_parent hw fuel s3 c par pi.toNat with
                  | none => simp [hsp4] at h
                  | some q =>
                    obtain ⟨ret, s4⟩ := q
                    simp only [hsp4] at h
                    by_cases hret : ret = 0
                    · subst hret
                      simp only [ne_eq, not_true_eq_false, if_false] at h
                      obtain ⟨t4, t5, g4, g5, g6⟩ := __clk_set_parent_ok _ _ _ _ _ _ _ hsp4
                      refine ⟨s3, t4, t5, f3, g4, g5, ?_⟩
                      cases hr5 : __clk_recalc_rates hw fuel s4 c POST_RATE_CHANGE with
                      | none => simp [hr5] at h
                      | some s5 =>
                        simp only [hr5] at h
                        cases hr6 : __clk_recalc_accuracies hw fuel s5 c with
                        | none => simp [hr6] at h
                        | some s6 =>
                          simp only [hr6, Option.some.injEq, Prod.mk.injEq, true_and] at h
                          subst h
                          exact AttrFrame_trans (AttrFrame_of_count g6)
                            (AttrFrame_trans (__clk_recalc_rates_frame _ _ _ _ _ _ hr5)
                              (AttrFrame_trans (__clk_recalc_accuracies_frame _ _ _ _ _ hr6)
                                (AttrFrame_of_count (clk_pm_runtime_put_frame _ _))))
                    · simp only [hret, ne_eq, not_false_eq_true, if_true] at h
                      split at h
                      · cases h
                      · simp only [Option.some.injEq, Prod.mk.injEq] at h
                        exact absurd h.1 hret

/-- C8: when `clk_set_parent(n, p)` returns 0 on a tree in which `n` is on the child list of its
parent, then right afterwards `core->parent` of `n` is the node of `p`, `clk_get_parent(n)`
returns the handle of that node, and `n` is on that node's child list. -/
theorem set_parent_round_trip (hw : Hw) (fuel : Nat) (s s' : State) (k : Nat) (p : Option Nat)
    (hlinked : ∀ P, s.parent (s.clk_core k) = some P → s.clk_core k ∈ s.children P)
    (h : clk_set_parent hw fuel s (some k) p = some (0, s')) :
    s'.parent (s'.clk_core k) = p.map s'.clk_core ∧
    clk_get_parent s' (some k) = (p.map s'.clk_core).map s'.hw_clk ∧
    (∀ P, p.map s'.clk_core = some P → s'.clk_core k ∈ s'.children P) := by
  have key : s'.parent (s'.clk_core k) = p.map s'.clk_core ∧
      (∀ P, p.map s'.clk_core = some P → s'.clk_core k ∈ s'.children P) := by
    unfold clk_set_parent at h
    simp only at h
    split at h
    · cases h
    · rename_i s1 h1
      have f1 : CountFrame s s1 := by
        split at h1
        · exact clk_core_rate_unprotect_count_frame _ _ _ _ h1
        · simp only [Option.some.injEq] at h1
          subst h1
          exact CountFrame_refl s
      split at h
      · cases h
      · rename_i ret s2 h2
        split at h
        · cases h
        · rename_i s3 h3
          have f3 : CountFrame s2 s3 := by
            split at h3
            · exact clk_core_rate_protect_count_frame _ _ _ _ h3
            · simp only [Option.some.injEq] at h3
              subst h3
              exact CountFrame_refl s2
          simp only [Option.some.injEq, Prod.mk.injEq] at h
          obtain ⟨hr, hs⟩ := h
          subst hr hs
          obtain ⟨e1, p1, r1, tr1, rfl⟩ := f1
          obtain ⟨e3, p3, r3, tr3, rfl⟩ := f3
          rcases clk_core_set_parent_nolock_ok _ _ _ _ _ _ h2 with ⟨hp, rfl⟩ | hx
          · exact ⟨hp, fun P hP => hlinked P (hp.trans hP)⟩
          · obtain ⟨t3, t4, t5, g3, g4, g5, g6⟩ := hx
            obtain ⟨a1, a2, a3, a4, a5, a6, a7, rfl⟩ := g3
            obtain ⟨b1, b2, b3, b4, rfl⟩ := g4
            obtain ⟨o, rl, ol, nc, rfl⟩ := clk_reparent_spec _ _ _ _ _ g5
            obtain ⟨d1, d2, d3, d4, d5, d6, d7, rfl⟩ := g6
            refine ⟨by simp, ?_⟩
            intro P hP
            simp only at hP ⊢
            rw [hP]
            simp
  exact ⟨key.1, by simp only [clk_get_parent, key.1], key.2⟩

/-- C8 on the mux `mux1`: `clk_set_parent(0, 2)` returns 0 and node 0 hangs under node 2. -/
theorem set_parent_round_trip_witness :
    ∃ s', clk_set_parent Hw.quiet 3 mux1 (some 0) (some 2) = some (0, s') ∧
      s'.parent (s'.clk_core 0) = (some 2).map s'.clk_core ∧
      clk_get_parent s' (some 0) = ((some 2).map s'.clk_core).map s'.hw_clk ∧
      (∀ P, (some 2).map s'.clk_core = some P → s'.clk_core 0 ∈ s'.children P) := by
  have h0 : (clk_set_parent Hw.quiet 3 mux1 (some 0) (some 2)).map Prod.fst = some 0 := by
    decide
  cases h : clk_set_parent Hw.quiet 3 mux1 (some 0) (some 2) with
  | none => rw [h] at h0; simp at h0
  | some x =>
    obtain ⟨ret, s'⟩ := x
    rw [h] at h0
    simp only [Option.map_some', Option.some.injEq] at h0
    subst h0
    refine ⟨s', rfl, set_parent_round_trip Hw.quiet 3 mux1 s' 0 (some 2) ?_ h⟩
    intro P hP
    have h1 : mux1.parent (mux1.clk_core 0) = some 1 := by decide
    rw [h1] at hP
    cases hP
    decide

theorem PlanFrame_refl (s : State) : PlanFrame s s :=
  ⟨s.new_rate, s.new_parent, s.new_parent_index, s.new_child, s.parents, [], by simp, by simp⟩

theorem PlanFrame_trans {s s1 s2 : State} (h1 : PlanFrame s s1) (h2 : PlanFrame s1 s2) :
    PlanFrame s s2 := by
  obtain ⟨a1, a2, a3, a4, a5, ext1, he1, rfl⟩ := h1
  obtain ⟨b1, b2, b3, b4, b5, ext2, he2, rfl⟩ := h2
  refine ⟨b1, b2, b3, b4, b5, ext1 ++ ext2, ?_, by simp⟩
  intro e he
  rcases List.mem_append.1 he with h | h
  · exact he1 e h
  · exact he2 e h

theorem PlanFrame_log (s : State) (e : clk_event) (he : clk_event.is_pm e = true) :
    PlanFrame s (s.log e) :=
  ⟨_, _, _, _, _, [e], by simpa using he, rfl⟩

theorem clk_pm_runtime_get_plan (hw : Hw) (s : State) (c : Nat) :
    PlanFrame s (clk_pm_runtime_get hw s c).2 := by
  unfold clk_pm_runtime_get
  by_cases h1 : (!s.rpm_enabled c) = true
  · simp only [h1, if_true]; exact PlanFrame_refl s
  · by_cases h2 : hw.pm_runtime_get_sync s c < 0
    · simp only [h1, h2, if_true, if_false, Bool.false_eq_true]
      exact PlanFrame_trans (PlanFrame_log _ (.pm_runtime_get_sync c) rfl)
        (PlanFrame_log _ (.pm_runtime_put_noidle c) rfl)
    · simp only [h1, h2, if_false, Bool.false_eq_true]
      exact PlanFrame_log _ (.pm_runtime_get_sync c) rfl

theorem clk_pm_runtime_put_plan (s : State) (c : Nat) :
    PlanFrame s (clk_pm_runtime_put s c) := by
  unfold clk_pm_runtime_put
  split
  · exact PlanFrame_refl s
  · exact PlanFrame_log _ (.pm_runtime_put_sync c) rfl

theorem clk_recalc_plan (hw : Hw) (s : State) (core pr : Nat) :
    PlanFrame s (clk_recalc hw s core pr).2 := by
  unfold clk_recalc
  split
  · by_cases h : (clk_pm_runtime_get hw s core).1 = 0
    · simp only [h, if_true]
      exact PlanFrame_trans (clk_pm_runtime_get_plan hw s core) (clk_pm_runtime_put_plan _ _)
    · simp only [h, if_false]
      exact clk_pm_runtime_get_plan hw s core
  · exact PlanFrame_refl s

theorem PlanFrame_parents {s a : State} (f : Nat → List clk_parent_map) (h : PlanFrame s a) :
    PlanFrame s { a with parents := f } := by
  obtain ⟨a1, a2, a3, a4, a5, ext1, he1, rfl⟩ := h
  exact ⟨_, _, _, _, _, ext1, he1, rfl⟩

theorem clk_fetch_parent_index_plan (hw : Hw) (s : State) (core : Nat) (p : Option Nat) :
    PlanFrame s (clk_fetch_parent_index hw s core p).2 := by
  unfold clk_fetch_parent_index
  cases p with
  | none => exact PlanFrame_refl s
  | some p =>
    simp only
    split
    · exact PlanFrame_refl s
    · exact PlanFrame_parents _ (PlanFrame_refl s)

theorem PlanFrame_new_rate {s a : State} (f : Nat → Nat) (h : PlanFrame s a) :
    PlanFrame s { a with new_rate := f } := by
  obtain ⟨a1, a2, a3, a4, a5, ext1, he1, rfl⟩ := h
  exact ⟨_, _, _, _, _, ext1, he1, rfl⟩

theorem PlanFrame_new_child {s a : State} (f : Nat → Option Nat) (h : PlanFrame s a) :
    PlanFrame s { a with new_child := f } := by
  obtain ⟨a1, a2, a3, a4, a5, ext1, he1, rfl⟩ := h
  exact ⟨_, _, _, _, _, ext1, he1, rfl⟩

theorem PlanFrame_new_parent {s a : State} (f : Nat → Option Nat) (h : PlanFrame s a) :
    PlanFrame s { a with new_parent := f } := by
  obtain ⟨a1, a2, a3, a4, a5, ext1, he1, rfl⟩ := h
  exact ⟨_, _, _, _, _, ext1, he1, rfl⟩

theorem PlanFrame_new_parent_index {s a : State} (f : Nat → Nat) (h : PlanFrame s a) :
    PlanFrame s { a with new_parent_index := f } := by
  obtain ⟨a1, a2, a3, a4, a5, ext1, he1, rfl⟩ := h
  exact ⟨_, _, _, _, _, ext1, he1, rfl⟩

theorem clk_calc_subtree_plan (hw : Hw) (fuel : Nat) (s s' : State) (core nr : Nat)
    (np : Option Nat) (pi : Nat) (h : clk_calc_subtree hw fuel s core nr np pi = some s') :
    PlanFrame s s' := by
  induction fuel generalizing s s' core nr np pi with
  | zero => simp [clk_calc_subtree] at h
  | succ fuel ih =>
    unfold clk_calc_subtree at h
    refine PlanFrame_trans ?_ (foldlM_rel id PlanFrame PlanFrame_refl
      (fun _ _ _ => PlanFrame_trans) _ _ ?_ _ _ h)
    · have f1 : PlanFrame s { s with new_rate := Function.update s.new_rate core nr, new_parent := Function.update s.new_parent core np, new_parent_index := Function.update s.new_parent_index core pi, new_child := Function.update s.new_child core none } :=
        ⟨Function.update s.new_rate core nr, Function.update s.new_parent core np, Function.update s.new_parent_index core pi, Function.update s.new_child core none, s.parents, [], by simp, by simp⟩
      cases np with
      | none => exact f1
      | some p =>
        simp only
        split
        · exact PlanFrame_new_child _ f1
        · exact f1
    · intro b x b' _ hb
      simp only [id] at hb ⊢
      exact PlanFrame_trans (PlanFrame_new_rate _ (clk_recalc_plan hw b x nr)) (ih _ _ _ _ _ _ hb)

theorem clk_calc_new_rates_plan (hw : Hw) (fuel : Nat) (s s' : State) (m top : Option Nat)
    (r : Nat) (h : clk_calc_new_rates hw fuel s m r = some (top, s')) : PlanFrame s s' := by
  induction fuel generalizing s s' m top r with
  | zero =>
    cases m with
    | none => simp [clk_calc_new_rates] at h; rw [← h.2]; exact PlanFrame_refl s
    | some c => simp [clk_calc_new_rates] at h
  | succ fuel ih =>
    cases m with
    | none => simp [clk_calc_new_rates] at h; rw [← h.2]; exact PlanFrame_refl s
    | some c =>
      unfold clk_calc_new_rates at h
      simp only at h
      by_cases hcr : clk_core_can_round s c = true
      · simp only [hcr, if_true] at h
        generalize clk_core_determine_round_nolock hw s (some c) _ = dr at h
        obtain ⟨ret, req⟩ := dr
        simp only at h
        split at h
        · simp only [Option.some.injEq, Prod.mk.injEq] at h
          rw [← h.2]; exact PlanFrame_refl s
        · split at h
          · simp only [Option.some.injEq, Prod.mk.injEq] at h
            rw [← h.2]; exact PlanFrame_refl s
          · split at h
            · simp only [Option.some.injEq, Prod.mk.injEq] at h
              rw [← h.2]; exact PlanFrame_refl s
            · have ff : PlanFrame s (if (req.best_parent_hw.isSome && decide (s.num_parents c > 1))
                  = true then clk_fetch_parent_index hw s c req.best_parent_hw else (0, s)).2 := by
                split
                · exact clk_fetch_parent_index_plan _ _ _ _
                · exact PlanFrame_refl s
              generalize (if (req.best_parent_hw.isSome && decide (s.num_parents c > 1))
                  = true then clk_fetch_parent_index hw s c req.best_parent_hw else (0, s)) = q
                  at h ff
              obtain ⟨pi, s1⟩ := q
              simp only at h ff
              split at h
              · simp only [Option.some.injEq, Prod.mk.injEq] at h
                rw [← h.2]; exact ff
              · split at h
                · cases h
                · rename_i top2 s2 heq
                  have f2 : PlanFrame s1 s2 := by
                    split at heq
                    · exact ih _ _ _ _ _ heq
                    · simp only [Option.some.injEq, Prod.mk.injEq] at heq
                      rw [← heq.2]; exact PlanFrame_refl s1
                  split at h
                  · cases h
                  · rename_i s3 hsub
                    simp only [Option.some.injEq, Prod.mk.injEq] at h
                    rw [← h.2]
                    exact PlanFrame_trans ff (PlanFrame_trans f2
                      (clk_calc_subtree_plan _ _ _ _ _ _ _ _ hsub))
      · simp only [hcr, if_false, Bool.false_eq_true] at h
        split at h
        · rename_i parent hpar
          split at h
          · split at h
            · cases h
            · rename_i top2 s1 heq
              split at h
              · cases h
              · rename_i s2 hsub
                simp only [Option.some.injEq, Prod.mk.injEq] at h
                rw [← h.2]
                exact PlanFrame_trans (ih _ _ _ _ _ heq)
                  (clk_calc_subtree_plan _ _ _ _ _ _ _ _ hsub)
          · simp only [Option.some.injEq, Prod.mk.injEq] at h
            rw [← h.2]; exact PlanFrame_new_rate _ (PlanFrame_refl s)
        · simp only [Option.some.injEq, Prod.mk.injEq] at h
          rw [← h.2]; exact PlanFrame_new_rate _ (PlanFrame_refl s)

theorem Paired_refl (ev1 ev2 : Nat) (s t : State) : Paired ev1 ev2 s s t t :=
  ⟨[], [], by simp, by simp, by simp [AllNotify], by simp [AllNotify], by simp [Covers]⟩

theorem Paired_trans {ev1 ev2 : Nat} {s s1 s2 t t1 t2 : State}
    (h1 : Paired ev1 ev2 s s1 t t1) (h2 : Paired ev1 ev2 s1 s2 t1 t2) :
    Paired ev1 ev2 s s2 t t2 := by
  obtain ⟨a1, b1, rfl, rfl, ha1, hb1, hc1⟩ := h1
  obtain ⟨a2, b2, rfl, rfl, ha2, hb2, hc2⟩ := h2
  refine ⟨a1 ++ a2, b1 ++ b2, by simp, by simp, ?_, ?_, ?_⟩
  · intro e he
    rcases List.mem_append.1 he with h | h
    · exact ha1 e h
    · exact ha2 e h
  · intro e he
    rcases List.mem_append.1 he with h | h
    · exact hb1 e h
    · exact hb2 e h
  · intro cn m o n he
    rcases List.mem_append.1 he with h | h
    · obtain ⟨cn', m', o', n', hm, hc⟩ := hc1 cn m o n h
      exact ⟨cn', m', o', n', List.mem_append_left _ hm, hc⟩
    · obtain ⟨cn', m', o', n', hm, hc⟩ := hc2 cn m o n h
      exact ⟨cn', m', o', n', List.mem_append_right _ hm, hc⟩

theorem Paired_same {ev1 ev2 : Nat} {s s' t t' : State} (h : Paired ev1 ev2 s s' t t')
    (hst : SameButTrace s t) : SameButTrace s' t' := by
  obtain ⟨a1, b1, rfl, rfl, -, -, -⟩ := h
  obtain ⟨tr, rfl⟩ := hst
  exact ⟨_, rfl⟩

theorem __clk_notify_walk_spec (hw : Hw) (core msg o n : Nat) (l : List Nat) (ret : Nat)
    (s : State) :
    ∃ ext, (__clk_notify.walk hw core msg o n l ret s).2 = { s with trace := s.trace ++ ext } ∧
      (∀ e ∈ ext, ∃ cn, e = clk_event.notify cn msg o n ∧ cn ∈ l ∧ s.clk_core cn = core) ∧
      ((∃ cn ∈ l, s.clk_core cn = core) → ext ≠ []) := by
  induction l generalizing ret s with
  | nil => exact ⟨[], by simp [__clk_notify.walk], by simp, by simp⟩
  | cons cn rest ih =>
    unfold __clk_notify.walk
    by_cases h1 : s.clk_core cn = core
    · by_cases h2 : hw.notifier_call_chain s cn msg o n &&& NOTIFY_STOP_MASK = 0
      · simp only [h1, h2, if_true, if_false, ne_eq, not_true_eq_false]
        obtain ⟨ext, e, ha, hb⟩ := ih (hw.notifier_call_chain s cn msg o n)
          (s.log (.notify cn msg o n))
        refine ⟨.notify cn msg o n :: ext, ?_, ?_, by simp⟩
        · rw [e]; simp [State.log]
        · intro e he
          rcases List.mem_cons.1 he with rfl | he
          · exact ⟨cn, rfl, List.mem_cons_self _ _, h1⟩
          · obtain ⟨cn', rfl, hm, hc⟩ := ha e he
            exact ⟨cn', rfl, List.mem_cons_of_mem _ hm, hc⟩
      · simp only [h1, h2, if_true, ne_eq, not_false_eq_true]
        refine ⟨[.notify cn msg o n], rfl, ?_, by simp⟩
        intro e he
        rw [List.mem_singleton] at he
        exact ⟨cn, he, List.mem_cons_self _ _, h1⟩
    · simp only [h1, if_false]
      obtain ⟨ext, e, ha, hb⟩ := ih ret s
      refine ⟨ext, e, ?_, ?_⟩
      · intro e he
        obtain ⟨cn', rfl, hm, hc⟩ := ha e he
        exact ⟨cn', rfl, List.mem_cons_of_mem _ hm, hc⟩
      · rintro ⟨cn', hm, hc⟩
        rcases List.mem_cons.1 hm with rfl | hm
        · exact absurd hc h1
        · exact hb ⟨cn', hm, hc⟩

theorem __clk_notify_paired (hw : Hw) (ev1 ev2 : Nat) (s t : State) (core o n o2 n2 : Nat)
    (hst : SameButTrace s t) :
    Paired ev1 ev2 s (__clk_notify hw s core ev1 o n).2 t (__clk_notify hw t core ev2 o2 n2).2 := by
  obtain ⟨tr, rfl⟩ := hst
  unfold __clk_notify
  obtain ⟨ext1, e1, ha1, hb1⟩ := __clk_notify_walk_spec hw core ev1 o n s.clk_notifier_list
    NOTIFY_DONE s
  obtain ⟨ext2, e2, ha2, hb2⟩ := __clk_notify_walk_spec hw core ev2 o2 n2 s.clk_notifier_list
    NOTIFY_DONE { s with trace := tr }
  refine ⟨ext1, ext2, e1, e2, ?_, ?_, ?_⟩
  · intro e he
    obtain ⟨cn, rfl, -, -⟩ := ha1 e he
    exact ⟨_, _, _, rfl⟩
  · intro e he
    obtain ⟨cn, rfl, -, -⟩ := ha2 e he
    exact ⟨_, _, _, rfl⟩
  · intro cn m o' n' he
    obtain ⟨cn1, heq, hm, hc⟩ := ha1 _ he
    have hne := hb2 ⟨cn1, hm, hc⟩
    obtain ⟨e', he'⟩ := List.exists_mem_of_ne_nil _ hne
    obtain ⟨cn2, rfl, hm2, hc2⟩ := ha2 e' he'
    refine ⟨cn2, _, _, _, he', ?_⟩
    cases heq
    exact hc2.trans hc.symm

theorem foldlM_paired {β : Type} (ev1 ev2 : Nat)
    (F1 F2 : Option Nat × State → β → Option (Option Nat × State)) (l : List β)
    (step : ∀ a b x r1 r2, SameButTrace a.2 b.2 → F1 a x = some r1 → F2 b x = r2 →
      ∃ r', r2 = some r' ∧ Paired ev1 ev2 a.2 r1.2 b.2 r'.2)
    (a b a' : Option Nat × State) (r : Option (Option Nat × State))
    (hab : SameButTrace a.2 b.2) (h1 : l.foldlM F1 a = some a') (h2 : l.foldlM F2 b = r) :
    ∃ b', r = some b' ∧ Paired ev1 ev2 a.2 a'.2 b.2 b'.2 := by
  induction l generalizing a b with
  | nil =>
    simp only [List.foldlM_nil, Option.pure_def, Option.some.injEq] at h1 h2
    subst h1 h2
    exact ⟨b, rfl, Paired_refl _ _ _ _⟩
  | cons x xs ihl =>
    simp only [List.foldlM_cons, Option.bind_eq_bind] at h1 h2
    cases hs : F1 a x with
    | none => simp [hs] at h1
    | some r1 =>
      obtain ⟨r', hr', p1⟩ := step a b x r1 _ hab hs rfl
      rw [hs] at h1
      rw [hr'] at h2
      simp only [Option.some_bind] at h1 h2
      obtain ⟨b', hb', p2⟩ := ihl r1 r' (Paired_same p1 hab) h1 h2
      exact ⟨b', hb', Paired_trans p1 p2⟩

theorem clk_propagate_rate_change_paired (hw : Hw) (ev1 ev2 : Nat) (fuel : Nat) (s t : State)
    (core : Nat) (f1 : Option Nat) (s' : State) (hst : SameButTrace s t)
    (h : clk_propagate_rate_change hw fuel s core ev1 = some (f1, s')) :
    ∃ f2 t', clk_propagate_rate_change hw fuel t core ev2 = some (f2, t') ∧
      Paired ev1 ev2 s s' t t' := by
  induction fuel generalizing s t core f1 s' with
  | zero => simp [clk_propagate_rate_change] at h
  | succ fuel ih =>
    suffices H : ∀ r, clk_propagate_rate_change hw (fuel + 1) t core ev2 = r →
        ∃ f2 t', r = some (f2, t') ∧ Paired ev1 ev2 s s' t t' by
      obtain ⟨f2, t', e, p⟩ := H _ rfl
      exact ⟨f2, t', e, p⟩
    intro r hg
    have hst0 := hst
    obtain ⟨tr, et⟩ := hst
    have hrate : t.rate = s.rate := by rw [et]
    have hnew : t.new_rate = s.new_rate := by rw [et]
    have hcnt : t.notifier_count = s.notifier_count := by rw [et]
    unfold clk_propagate_rate_change at h hg
    by_cases hr : s.rate core = s.new_rate core
    · rw [if_pos hr] at h
      rw [if_pos (by rw [hrate, hnew]; exact hr)] at hg
      simp only [Option.some.injEq, Prod.mk.injEq] at h
      rw [← h.2, ← hg]
      exact ⟨none, t, rfl, Paired_refl _ _ _ _⟩
    · rw [if_neg hr] at h
      rw [if_neg (by rw [hrate, hnew]; exact hr)] at hg
      simp only at h hg
      generalize hX : (if s.notifier_count core ≠ 0 then
          ((if (__clk_notify hw s core ev1 (s.rate core) (s.new_rate core)).1
              &&& NOTIFY_STOP_MASK ≠ 0 then some core else none : Option Nat),
            (__clk_notify hw s core ev1 (s.rate core) (s.new_rate core)).2)
          else (none, s)) = X at h
      generalize hY : (if t.notifier_count core ≠ 0 then
          ((if (__clk_notify hw t core ev2 (t.rate core) (t.new_rate core)).1
              &&& NOTIFY_STOP_MASK ≠ 0 then some core else none : Option Nat),
            (__clk_notify hw t core ev2 (t.rate core) (t.new_rate core)).2)
          else (none, t)) = Y at hg
      have p1 : Paired ev1 ev2 s X.2 t Y.2 := by
        rw [← hX, ← hY, hcnt]
        by_cases hn : s.notifier_count core = 0
        · simp only [hn, ne_eq, not_true_eq_false, if_false]
          exact Paired_refl _ _ _ _
        · simp only [hn, ne_eq, not_false_eq_true, if_true]
          exact __clk_notify_paired hw ev1 ev2 s t core _ _ _ _ hst0
      have hst1 : SameButTrace X.2 Y.2 := Paired_same p1 hst0
      have hch : Y.2.children = X.2.children := by
        obtain ⟨tr1, e1⟩ := hst1
        rw [e1]
      rw [hch] at hg
      split at h
      · cases h
      · rename_i fc2 s2 hF
        generalize hG : @List.foldlM Option _ (Option Nat × State) Nat _ (Y.1, Y.2)
          (X.2.children core) = r0 at hg
        obtain ⟨b', hb', p2⟩ : ∃ b', r0 = some b' ∧ Paired ev1 ev2 X.2 s2 Y.2 b'.2 := by
          refine foldlM_paired ev1 ev2 _ _ _ ?_ (X.1, X.2) (Y.1, Y.2) _ _ hst1 hF hG
          intro a b x r1 r2 hab h1 h2
          have hnp : b.2.new_parent = a.2.new_parent := by
            obtain ⟨tr, e⟩ := hab
            rw [e]
          simp only at h1 h2
          rw [hnp] at h2
          by_cases hc : ((a.2.new_parent x).isSome && decide (a.2.new_parent x ≠ some core)) = true
          · simp only [hc, if_true, Option.some.injEq] at h1 h2
            subst h1 h2
            exact ⟨b, rfl, Paired_refl _ _ _ _⟩
          · simp only [hc, if_false, Bool.false_eq_true] at h1 h2
            cases hp : clk_propagate_rate_change hw fuel a.2 x ev1 with
            | none => simp [hp] at h1
            | some q =>
              obtain ⟨tmp, st⟩ := q
              obtain ⟨f2, t', hq, hpair⟩ := ih _ _ _ _ _ hab hp
              simp only [hp, hq, Option.some.injEq] at h1 h2
              subst h1 h2
              exact ⟨_, rfl, hpair⟩
        subst hb'
        obtain ⟨gc2, t2⟩ := b'
        simp only at hg p2
        have p12 : Paired ev1 ev2 s s2 t t2 := Paired_trans p1 p2
        have hst2 : SameButTrace s2 t2 := Paired_same p12 hst0
        have hnc : t2.new_child = s2.new_child := by
          obtain ⟨tr2, e2⟩ := hst2
          rw [e2]
        rw [hnc] at hg
        cases hc : s2.new_child core with
        | none =>
          simp only [hc, Option.some.injEq, Prod.mk.injEq] at h hg
          rw [← h.2, ← hg]
          exact ⟨gc2, t2, rfl, p12⟩
        | some nc =>
          simp only [hc] at h hg
          cases hp : clk_propagate_rate_change hw fuel s2 nc ev1 with
          | none => simp [hp] at h
          | some q =>
            obtain ⟨tmp, s3⟩ := q
            obtain ⟨f2, t3, hq, p3⟩ := ih _ _ _ _ _ hst2 hp
            simp only [hp, hq, Option.some.injEq, Prod.mk.injEq] at h hg
            rw [← h.2, ← hg]
            exact ⟨_, t3, rfl, Paired_trans p12 p3⟩

theorem PlanFrame_facts {s s' : State} (h : PlanFrame s s') :
    s'.rate = s.rate ∧ s'.parent = s.parent ∧ s'.clk_core = s.clk_core ∧
    ∃ ext, s'.trace = s.trace ++ ext ∧ ∀ e ∈ ext, clk_event.is_pm e = true := by
  obtain ⟨nr, np, npi, nc, ps, ext, he, rfl⟩ := h
  exact ⟨rfl, rfl, rfl, ext, rfl, he⟩

theorem eq_some_of_map_fst {α β : Type} (o : Option (α × β)) (a : α) (d : α × β)
    (h : o.map Prod.fst = some a) : o = some (a, (o.getD d).2) := by
  cases o with
  | none => simp at h
  | some x =>
    obtain ⟨x1, x2⟩ := x
    simp only [Option.map_some', Option.some.injEq] at h
    subst h
    rfl

theorem SameButTrace_refl (s : State) : SameButTrace s s := ⟨s.trace, rfl⟩

/-- The trace of the vetoed call on `notified1`: the `PRE_RATE_CHANGE` notification, then the
`ABORT_RATE_CHANGE` one, and no hardware op. -/
theorem set_rate_veto_trace :
    (clk_core_set_rate_nolock Hw.vetoing 2 notified1 (some 0) 200).map
      (fun x => (x.1, x.2.trace, x.2.rate 0)) =
    some (-EBUSY, [clk_event.notify 0 PRE_RATE_CHANGE 100 200,
      clk_event.notify 0 ABORT_RATE_CHANGE 100 200], 100) := by
  decide

theorem ref_get_mono (par : Nat → Option Nat) (fuel : Nat) (c c' : Nat → Nat) (m : Option Nat)
    (h : ref_get par fuel c m = some c') : ∀ x, c x ≤ c' x := by
  induction fuel generalizing c c' m with
  | zero =>
    cases m with
    | none => simp [ref_get] at h; subst h; intro x; exact le_refl _
    | some m => simp [ref_get] at h
  | succ fuel ih =>
    cases m with
    | none => simp [ref_get] at h; subst h; intro x; exact le_refl _
    | some m =>
      unfold ref_get at h
      intro x
      by_cases h0 : c m = 0
      · simp only [h0, if_true] at h
        cases hc1 : ref_get par fuel c (par m) with
        | none => simp [hc1] at h
        | some c1 =>
          simp only [hc1] at h
          cases h
          have := ih c c1 (par m) hc1 x
          by_cases hx : x = m
          · subst hx; simp; omega
          · simp [Function.update_apply, hx]; exact this
      · simp only [h0, if_false] at h
        cases h
        by_cases hx : x = m
        · subst hx; simp
        · simp [Function.update_apply, hx]

theorem ref_put_get_crit {par : Nat → Option Nat} {N : Nat} {dep : Nat → Nat}
    (hd : IsDepth par N dep) (crit : Nat → Bool) (fuel : Nat)
    (c c' : Nat → Nat) (m : Option Nat) (hcrit : ∀ x, crit x = true → 0 < c x)
    (h : ref_get par fuel c m = some c') : ref_put par crit fuel c' m = some c := by
  induction fuel generalizing c c' m with
  | zero =>
    cases m with
    | none => simp [ref_get] at h; simp [ref_put, h]
    | some m => simp [ref_get] at h
  | succ fuel ih =>
    cases m with
    | none => simp [ref_get] at h; simp [ref_put, h]
    | some m =>
      unfold ref_get at h
      unfold ref_put
      by_cases h0 : c m = 0
      · simp only [h0, if_true] at h
        have hncrit : crit m = false := by
          cases hcm : crit m with
          | false => rfl
          | true => have := hcrit m hcm; omega
        cases hc1 : ref_get par fuel c (par m) with
        | none => simp [hc1] at h
        | some c1 =>
          simp only [hc1] at h
          cases h
          have hfr : c1 m = 0 := by
            cases hp : par m with
            | none => rw [hp] at hc1; simp [ref_get] at hc1; rw [← hc1, h0]
            | some p =>
              rw [hp] at hc1
              rw [ref_get_frame hd fuel c c1 p hc1 m (hd m p hp).2.1, h0]
          have hupd : Function.update c1 m 0 = c1 := by
            rw [← hfr, Function.update_eq_self]
          simp [hfr, hncrit, hupd]
          exact ih c c1 (par m) hcrit hc1
      · simp only [h0, if_false] at h
        cases h
        have : 0 < c m := by omega
        have h1 : ¬ (c m + 1 = 1) := by omega
        simp [h1, this]

theorem ref_get_ancestry {par : Nat → Option Nat} {N : Nat} {dep : Nat → Nat}
    (hd : IsDepth par N dep) (fuel : Nat) (c c' : Nat → Nat) (m : Option Nat)
    (hanc : Ancestry par c) (h : ref_get par fuel c m = some c') : Ancestry par c' := by
  induction fuel generalizing c c' m with
  | zero =>
    cases m with
    | none => simp [ref_get] at h; subst h; exact hanc
    | some m => simp [ref_get] at h
  | succ fuel ih =>
    cases m with
    | none => simp [ref_get] at h; subst h; exact hanc
    | some m =>
      unfold ref_get at h
      by_cases h0 : c m = 0
      · simp only [h0, if_true] at h
        cases hc1 : ref_get par fuel c (par m) with
        | none => simp [hc1] at h
        | some c1 =>
          simp only [hc1] at h
          cases h
          have a1 := ih c c1 (par m) hanc hc1
          intro n p hp hn
          have hpos : 0 < c1 p := by
            by_cases hnm : n = m
            · subst hnm
              rw [hp] at hc1
              have := ref_get_self hd fuel c c1 p hc1
              omega
            · simp [Function.update_apply, hnm] at hn
              exact a1 n p hp hn
          by_cases hpm : p = m
          · subst hpm; simp
          · simp [Function.update_apply, hpm]; exact hpos
      · simp only [h0, if_false] at h
        cases h
        intro n p hp hn
        have hpos : 0 < c p := by
          by_cases hnm : n = m
          · subst hnm
            exact hanc n p hp (by omega)
          · simp [Function.update_apply, hnm] at hn
            exact hanc n p hp hn
        by_cases hpm : p = m
        · subst hpm; simp
        · simp [Function.update_apply, hpm]; exact hpos

theorem clk_core_enable_ret {N : Nat} {dep : Nat → Nat} (hw : Hw) (hops : OpsSucceed hw)
    (fuel : Nat) (s s' : State) (m : Nat) (r : Int)
    (hanc : Ancestry s.parent s.prepare_count) (hm : 0 < s.prepare_count m)
    (hd : IsDepth s.parent N dep) (hf : dep m < fuel)
    (h : clk_core_enable hw fuel s (some m) = some (r, s')) : r = 0 := by
  induction fuel generalizing s s' m r with
  | zero => omega
  | succ fuel ih =>
    rcases clk_core_enable_spec hw hops (fuel + 1) s m hd hf with h1 | ⟨s1, h1, -, -⟩
    · unfold clk_core_enable at h1
      have hp0 : s.prepare_count m ≠ 0 := by omega
      by_cases h0 : s.enable_count m = 0
      · simp only [hp0, h0, if_false, if_true] at h1
        cases hp : s.parent m with
        | none =>
          rw [hp] at h1
          simp [clk_core_enable, (hops s m).2.1, ESHUTDOWN] at h1
        | some p =>
          rw [hp] at h1
          cases hq : clk_core_enable hw fuel s (some p) with
          | none => simp [hq] at h1
          | some q =>
            obtain ⟨r1, s1⟩ := q
            have hr1 := ih s s1 p r1 hanc (hanc m p hp hm) hd (by have := (hd m p hp).2.1; omega) hq
            subst hr1
            simp [hq, (hops s1 m).2.1, ESHUTDOWN] at h1
      · simp [hp0, h0, ESHUTDOWN] at h1
    · rw [h1] at h
      cases h
      rfl

theorem clk_core_prepare_enable_ok {N : Nat} {dep : Nat → Nat} (hw : Hw) (hops : OpsSucceed hw)
    (fuel : Nat) (s : State) (m : Option Nat)
    (hd : IsDepth s.parent N dep) (hf : ∀ n, dep n < fuel)
    (hanc : Ancestry s.parent s.prepare_count) :
    ∃ pc ec rc tr, clk_core_prepare_enable hw fuel s m = some (0, { s with prepare_count := pc, enable_count := ec, protect_count := rc, trace := tr }) ∧
      ref_get s.parent fuel s.prepare_count m = some pc ∧
      ref_get s.parent fuel s.enable_count m = some ec := by
  cases m with
  | none =>
    refine ⟨s.prepare_count, s.enable_count, s.protect_count, s.trace, ?_, ?_, ?_⟩
    · cases fuel <;> simp [clk_core_prepare_enable, clk_core_prepare, clk_core_enable]
    · cases fuel <;> simp [ref_get]
    · cases fuel <;> simp [ref_get]
  | some p =>
    obtain ⟨s1, h1, g1, e1⟩ := clk_core_prepare_spec hw hops fuel s p hd (hf p)
    obtain ⟨pc, rc, tr, rfl⟩ : ∃ pc rc tr, s1 = { s with prepare_count := pc, protect_count := rc, trace := tr } := ⟨_, _, _, e1⟩
    have hanc1 : Ancestry s.parent pc := ref_get_ancestry hd fuel _ _ _ hanc g1
    have hpos : 0 < pc p := by
      have : pc p = s.prepare_count p + 1 := ref_get_self hd fuel _ _ p g1
      omega
    rcases clk_core_enable_spec hw hops fuel { s with prepare_count := pc, protect_count := rc, trace := tr } p hd (hf p) with h2 | ⟨s2, h2, g2, e2⟩
    · have := clk_core_enable_ret hw hops fuel { s with prepare_count := pc, protect_count := rc, trace := tr } _ p _ hanc1 hpos hd (hf p) h2
      simp [ESHUTDOWN] at this
    · obtain ⟨ec, tr2, rfl⟩ : ∃ ec tr2, s2 = { s with prepare_count := pc, protect_count := rc, enable_count := ec, trace := tr2 } := ⟨_, _, e2⟩
      refine ⟨pc, ec, rc, tr2, ?_, g1, g2⟩
      unfold clk_core_prepare_enable
      simp only [h1, h2, ne_eq, not_true_eq_false, if_false]

theorem clk_core_disable_unprepare_spec {N : Nat} {dep : Nat → Nat} (fuel : Nat) (s : State)
    (m : Option Nat) (hd : IsDepth s.parent N dep) (hf : ∀ n, dep n < fuel) :
    ∃ pc ec rc tr, clk_core_disable_unprepare fuel s m = some { s with prepare_count := pc, enable_count := ec, protect_count := rc, trace := tr } ∧
      ref_put s.parent (fun n => (s.flags n).CLK_IS_CRITICAL) fuel s.enable_count m = some ec ∧
      ref_put s.parent (fun n => (s.flags n).CLK_IS_CRITICAL) fuel s.prepare_count m = some pc := by
  cases m with
  | none =>
    refine ⟨s.prepare_count, s.enable_count, s.protect_count, s.trace, ?_, ?_, ?_⟩
    · cases fuel <;> simp [clk_core_disable_unprepare, clk_core_disable, clk_core_unprepare]
    · cases fuel <;> simp [ref_put]
    · cases fuel <;> simp [ref_put]
  | some p =>
    obtain ⟨s1, h1, g1, e1⟩ := clk_core_disable_spec fuel s p hd (hf p)
    obtain ⟨ec, tr, rfl⟩ : ∃ ec tr, s1 = { s with enable_count := ec, trace := tr } := ⟨_, _, e1⟩
    obtain ⟨s2, h2, g2, e2⟩ := clk_core_unprepare_spec fuel { s with enable_count := ec, trace := tr } p hd (hf p)
    obtain ⟨pc, rc, tr2, rfl⟩ : ∃ pc rc tr2, s2 = { s with enable_count := ec, prepare_count := pc, protect_count := rc, trace := tr2 } := ⟨_, _, _, e2⟩
    refine ⟨pc, ec, rc, tr2, ?_, g1, g2⟩
    unfold clk_core_disable_unprepare
    simp only [h1, h2]

theorem hlist_del_child_node_children (s : State) (c : Nat) :
    (hlist_del_child_node s c).children = (match s.parent c with
      | none => s.children
      | some o => Function.update s.children o ((s.children o).erase c)) := by
  unfold hlist_del_child_node
  cases s.parent c <;> rfl

theorem clk_reparent_back (fuel : Nat) (s s1 s3 : State) (c : Nat) (par : Option Nat)
    (tr : List clk_event) (h1 : clk_reparent fuel s c par = some s1)
    (h3 : clk_reparent fuel { s1 with trace := tr } c (s.parent c) = some s3) :
    ∃ ch o rl ol nc, s3 = { s with children := ch, orphan := o, clk_root_list := rl, clk_orphan_list := ol, new_child := nc, trace := tr } ∧
      (∀ P, s.parent c = some P → c ∈ ch P) ∧ (∀ Q, s.parent c ≠ some Q → ch Q = s.children Q) := by
  obtain ⟨o1, rl1, ol1, nc1, e1⟩ := clk_reparent_spec _ _ _ _ _ h1
  obtain ⟨o3, rl3, ol3, nc3, e3⟩ := clk_reparent_spec _ _ _ _ _ h3
  rw [hlist_del_child_node_children] at e1 e3
  subst e1
  simp only [Function.update_same, Function.update_idem, Function.update_eq_self] at e3
  refine ⟨_, o3, rl3, ol3, nc3, e3, ?_, ?_⟩
  · intro P hP
    simp only [hP]
    simp
  · intro Q hQ
    cases hold : s.parent c with
    | none =>
      cases par with
      | none => simp
      | some p =>
        simp only
        by_cases hq : Q = p
        · subst hq; simp
        · simp [Function.update_apply, hq]
    | some o =>
      have hqo : Q ≠ o := by
        rintro rfl
        exact hQ hold
      cases par with
      | none => simp [Function.update_apply, hqo]
      | some p =>
        simp only
        by_cases hq : Q = p
        · subst hq; simp [Function.update_apply, hqo]
        · simp [Function.update_apply, hq, hqo]

theorem __clk_set_parent_before_acquire {N : Nat} {dep : Nat → Nat} (hw : Hw)
    (hops : OpsSucceed hw) (fuel : Nat) (s : State) (c : Nat) (par : Option Nat)
    (hd : IsDepth s.parent N dep) (hf : ∀ n, dep n < fuel)
    (hflag : (s.flags c).CLK_OPS_PARENT_ENABLE = false)
    (hanc : Ancestry s.parent s.prepare_count) :
    ∃ pcB ecB rcB trB, __clk_set_parent_before hw fuel s c par
        = (clk_reparent fuel { s with prepare_count := pcB, enable_count := ecB, protect_count := rcB, trace := trB } c par).map (fun s5 => (s.parent c, s5)) ∧
      (s.prepare_count c = 0 → pcB = s.prepare_count ∧ ecB = s.enable_count) ∧
      (s.prepare_count c ≠ 0 → pcB c ≠ 0 ∧
        ref_get s.parent fuel s.prepare_count par = some pcB ∧
        ∃ ec1, ref_get s.parent fuel s.enable_count par = some ec1 ∧
          ref_get s.parent fuel ec1 (some c) = some ecB) := by
  by_cases hpc : s.prepare_count c = 0
  · refine ⟨s.prepare_count, s.enable_count, s.protect_count, s.trace, ?_, fun _ => ⟨rfl, rfl⟩,
      fun h => absurd hpc h⟩
    unfold __clk_set_parent_before
    simp only [hflag, hpc, ne_eq, not_true_eq_false, if_false, Bool.false_eq_true]
    cases clk_reparent fuel s c par <;> rfl
  · obtain ⟨pc, ec, rc, tr, hA, gp, ge⟩ := clk_core_prepare_enable_ok hw hops fuel s par hd hf hanc
    have hanc1 : Ancestry s.parent pc := ref_get_ancestry hd fuel _ _ _ hanc gp
    have hpos : 0 < pc c := by
      have := ref_get_mono _ _ _ _ _ gp c
      omega
    rcases clk_core_enable_spec hw hops fuel { s with prepare_count := pc, enable_count := ec, protect_count := rc, trace := tr } c hd (hf c) with h2 | ⟨s2, h2, g2, e2⟩
    · have := clk_core_enable_ret hw hops fuel { s with prepare_count := pc, enable_count := ec, protect_count := rc, trace := tr } _ c _ hanc1 hpos hd (hf c) h2
      simp [ESHUTDOWN] at this
    · obtain ⟨ec2, tr2, rfl⟩ : ∃ ec2 tr2, s2 = { s with prepare_count := pc, protect_count := rc, enable_count := ec2, trace := tr2 } := ⟨_, _, e2⟩
      refine ⟨pc, ec2, rc, tr2, ?_, fun h => absurd h hpc, fun _ => ⟨by omega, gp, ec, ge, g2⟩⟩
      unfold __clk_set_parent_before
      simp only [hflag, hpc, hA, h2, ne_eq, not_false_eq_true, if_true, if_false,
        Bool.false_eq_true]
      cases clk_reparent fuel { s with prepare_count := pc, protect_count := rc, enable_count := ec2, trace := tr2 } c par <;> rfl

theorem __clk_set_parent_after_release {N : Nat} {dep : Nat → Nat} (fuel : Nat) (s t : State)
    (c : Nat) (par : Option Nat)
    (hd : IsDepth s.parent N dep) (hf : ∀ n, dep n < fuel)
    (hflag : (s.flags c).CLK_OPS_PARENT_ENABLE = false)
    (hcrit : ∀ x, (s.flags x).CLK_IS_CRITICAL = true →
      0 < s.prepare_count x ∧ 0 < s.enable_count x)
    (htp : t.parent = s.parent) (htf : t.flags = s.flags)
    (h0 : s.prepare_count c = 0 →
      t.prepare_count = s.prepare_count ∧ t.enable_count = s.enable_count)
    (h1 : s.prepare_count c ≠ 0 → t.prepare_count c ≠ 0 ∧
        ref_get s.parent fuel s.prepare_count par = some t.prepare_count ∧
        ∃ ec1, ref_get s.parent fuel s.enable_count par = some ec1 ∧
          ref_get s.parent fuel ec1 (some c) = some t.enable_count) :
    ∃ rc tr, __clk_set_parent_after fuel t c (s.parent c) par = some { t with prepare_count := s.prepare_count, enable_count := s.enable_count, protect_count := rc, trace := tr } := by
  have hdt : IsDepth t.parent N dep := by rw [htp]; exact hd
  by_cases hpc : s.prepare_count c = 0
  · obtain ⟨e1, e2⟩ := h0 hpc
    refine ⟨t.protect_count, t.trace, ?_⟩
    unfold __clk_set_parent_after
    have : t.prepare_count c = 0 := by rw [e1]; exact hpc
    simp only [this, ne_eq, not_true_eq_false, if_false, htf, hflag, Bool.false_eq_true]
    congr 1
    cases t
    simp only at e1 e2 htf
    subst e1 e2 htf
    rfl
  · obtain ⟨hne, gp, ec1, ge1, ge2⟩ := h1 hpc
    have hc_pc : ∀ x, (s.flags x).CLK_IS_CRITICAL = true → 0 < s.prepare_count x :=
      fun x hx => (hcrit x hx).1
    have hc_ec : ∀ x, (s.flags x).CLK_IS_CRITICAL = true → 0 < s.enable_count x :=
      fun x hx => (hcrit x hx).2
    have hc_ec1 : ∀ x, (s.flags x).CLK_IS_CRITICAL = true → 0 < ec1 x := by
      intro x hx
      have := ref_get_mono _ _ _ _ _ ge1 x
      have := hc_ec x hx
      omega
    have p1 := ref_put_get_crit hd (fun n => (s.flags n).CLK_IS_CRITICAL) fuel _ _ _ hc_ec1 ge2
    have p2 := ref_put_get_crit hd (fun n => (s.flags n).CLK_IS_CRITICAL) fuel _ _ _ hc_ec ge1
    have p3 := ref_put_get_crit hd (fun n => (s.flags n).CLK_IS_CRITICAL) fuel _ _ _ hc_pc gp
    obtain ⟨t1, d1, g1, e1⟩ := clk_core_disable_spec fuel t c hdt (hf c)
    rw [htp, htf, p1] at g1
    obtain ⟨ecx, trx, rfl⟩ : ∃ ecx trx, t1 = { t with enable_count := ecx, trace := trx } := ⟨_, _, e1⟩
    simp only [Option.some.injEq] at g1
    subst g1
    obtain ⟨pc2, ec2, rc2, tr2, d2, g2, g3⟩ := clk_core_disable_unprepare_spec fuel { t with enable_count := ec1, trace := trx } par hdt hf
    simp only [htp, htf] at g2 g3
    rw [p2] at g2
    rw [p3] at g3
    simp only [Option.some.injEq] at g2 g3
    subst g2 g3
    refine ⟨rc2, tr2, ?_⟩
    unfold __clk_set_parent_after
    simp only [hne, ne_eq, not_false_eq_true, if_true, d1]
    rw [d2]
    simp only [htf, hflag, if_false, Bool.false_eq_true]

theorem __clk_set_parent_rollback {N : Nat} {dep : Nat → Nat} (hw : Hw) (hops : OpsSucceed hw)
    (fuel : Nat) (s s' : State) (c : Nat) (par : Option Nat) (idx : Nat) (ret : Int)
    (hd : IsDepth s.parent N dep) (hf : ∀ n, dep n < fuel)
    (hflag : (s.flags c).CLK_OPS_PARENT_ENABLE = false)
    (hanc : Ancestry s.parent s.prepare_count)
    (hcrit : ∀ x, (s.flags x).CLK_IS_CRITICAL = true →
      0 < s.prepare_count x ∧ 0 < s.enable_count x)
    (h : __clk_set_parent hw fuel s c par idx = some (ret, s')) (hret : ret ≠ 0) :
    ∃ ch o rl ol nc rc tr, s' = { s with children := ch, orphan := o, clk_root_list := rl, clk_orphan_list := ol, new_child := nc, protect_count := rc, trace := tr } ∧
      (∀ P, s.parent c = some P → c ∈ ch P) ∧ (∀ Q, s.parent c ≠ some Q → ch Q = s.children Q) := by
  obtain ⟨pcB, ecB, rcB, trB, hb, a0, a1⟩ :=
    __clk_set_parent_before_acquire hw hops fuel s c par hd hf hflag hanc
  unfold __clk_set_parent at h
  rw [hb] at h
  cases hr1 : clk_reparent fuel { s with prepare_count := pcB, enable_count := ecB, protect_count := rcB, trace := trB } c par with
  | none => simp [hr1] at h
  | some s1 =>
    simp only [hr1, Option.map_some'] at h
    by_cases hr : (if (par.isSome && (s1.ops c).set_parent) = true then hw.set_parent s1 c idx
        else 0) = 0
    · simp only [hr, ne_eq, not_true_eq_false, if_false] at h
      split at h
      · cases h
      · simp only [Option.some.injEq, Prod.mk.injEq] at h
        exact absurd h.1.symm hret
    · simp only [hr, ne_eq, not_false_eq_true, if_true] at h
      obtain ⟨tr2, hs2⟩ : ∃ tr2, (if (par.isSome && (s1.ops c).set_parent) = true then
          s1.log (.op_set_parent c idx) else s1) = { s1 with trace := tr2 } := by
        split
        · exact ⟨_, rfl⟩
        · exact ⟨s1.trace, rfl⟩
      rw [hs2] at h
      cases hr3 : clk_reparent fuel { s1 with trace := tr2 } c (s.parent c) with
      | none => simp [hr3] at h
      | some s3 =>
        simp only [hr3] at h
        obtain ⟨ch, o, rl, ol, nc, e3, c1, c2⟩ := clk_reparent_back fuel { s with prepare_count := pcB, enable_count := ecB, protect_count := rcB, trace := trB } s1 s3 c par tr2 hr1 hr3
        subst e3
        obtain ⟨rc, tr, hrel⟩ := __clk_set_parent_after_release fuel s { s with prepare_count := pcB, enable_count := ecB, protect_count := rcB, children := ch, orphan := o, clk_root_list := rl, clk_orphan_list := ol, new_child := nc, trace := tr2 } c par hd hf hflag hcrit rfl rfl a0 a1
        rw [hrel] at h
        simp only [Option.some.injEq, Prod.mk.injEq] at h
        refine ⟨ch, o, rl, ol, nc, rc, tr, h.2.symm, c1, c2⟩

theorem RecalcFrame_refl (s : State) : RecalcFrame s s := ⟨_, _, _, _, rfl⟩

theorem RecalcFrame_trans {s s1 s2 : State} (h1 : RecalcFrame s s1) (h2 : RecalcFrame s1 s2) :
    RecalcFrame s s2 := by
  obtain ⟨a1, a2, a3, a4, rfl⟩ := h1
  obtain ⟨b1, b2, b3, b4, rfl⟩ := h2
  exact ⟨_, _, _, _, rfl⟩

theorem clk_pm_runtime_get_recalc (hw : Hw) (s : State) (c : Nat) :
    RecalcFrame s (clk_pm_runtime_get hw s c).2 := by
  unfold clk_pm_runtime_get
  by_cases h1 : (!s.rpm_enabled c) = true
  · simp only [h1, if_true]; exact RecalcFrame_refl s
  · by_cases h2 : hw.pm_runtime_get_sync s c < 0
    · simp only [h1, h2, if_true, if_false, Bool.false_eq_true]; exact ⟨_, _, _, _, rfl⟩
    · simp only [h1, h2, if_false, Bool.false_eq_true]; exact ⟨_, _, _, _, rfl⟩

theorem clk_pm_runtime_put_recalc (s : State) (c : Nat) :
    RecalcFrame s (clk_pm_runtime_put s c) := by
  unfold clk_pm_runtime_put
  split
  · exact RecalcFrame_refl s
  · exact ⟨_, _, _, _, rfl⟩

theorem clk_recalc_recalc (hw : Hw) (s : State) (core pr : Nat) :
    RecalcFrame s (clk_recalc hw s core pr).2 := by
  unfold clk_recalc
  split
  · by_cases h : (clk_pm_runtime_get hw s core).1 = 0
    · simp only [h, if_true]
      exact RecalcFrame_trans (clk_pm_runtime_get_recalc hw s core)
        (clk_pm_runtime_put_recalc _ _)
    · simp only [h, if_false]
      exact clk_pm_runtime_get_recalc hw s core
  · exact RecalcFrame_refl s

theorem __clk_notify_recalc (hw : Hw) (s : State) (core msg o n : Nat) :
    RecalcFrame s (__clk_notify hw s core msg o n).2 := by
  obtain ⟨tr, e⟩ := __clk_notify_walk_frame hw core msg o n s.clk_notifier_list NOTIFY_DONE s
  unfold __clk_notify
  rw [e]; exact ⟨_, _, _, _, rfl⟩

theorem clk_fetch_parent_index_recalc (hw : Hw) (s : State) (core : Nat) (p : Option Nat) :
    RecalcFrame s (clk_fetch_parent_index hw s core p).2 := by
  unfold clk_fetch_parent_index
  cases p with
  | none => exact RecalcFrame_refl s
  | some p =>
    simp only
    split
    · exact RecalcFrame_refl s
    · exact ⟨_, _, _, _, rfl⟩

theorem __clk_recalc_accuracies_recalc (hw : Hw) (fuel : Nat) (s s' : State) (core : Nat)
    (h : __clk_recalc_accuracies hw fuel s core = some s') : RecalcFrame s s' := by
  induction fuel generalizing s s' core with
  | zero => simp [__clk_recalc_accuracies] at h
  | succ fuel ih =>
    unfold __clk_recalc_accuracies at h
    refine RecalcFrame_trans ?_ (foldlM_rel id RecalcFrame RecalcFrame_refl
      (fun _ _ _ => RecalcFrame_trans) _ _ (fun b x b' _ hb => ih _ _ _ hb) _ _ h)
    exact ⟨_, _, _, _, rfl⟩

theorem __clk_recalc_rates_recalc (hw : Hw) (fuel : Nat) (s s' : State) (core msg : Nat)
    (h : __clk_recalc_rates hw fuel s core msg = some s') : RecalcFrame s s' := by
  induction fuel generalizing s s' core with
  | zero => simp [__clk_recalc_rates] at h
  | succ fuel ih =>
    unfold __clk_recalc_rates at h
    refine RecalcFrame_trans ?_ (foldlM_rel id RecalcFrame RecalcFrame_refl
      (fun _ _ _ => RecalcFrame_trans) _ _ (fun b x b' _ hb => ih _ _ _ hb) _ _ h)
    have f1 := clk_recalc_recalc hw s core
      (match s.parent core with
        | some p => s.rate p
        | none => 0)
    have f2 : ∀ a r, RecalcFrame s a → RecalcFrame s { a with rate := r } := by
      intro a r fa
      obtain ⟨a1, a2, a3, a4, rfl⟩ := fa
      exact ⟨_, _, _, _, rfl⟩
    split
    · exact RecalcFrame_trans (f2 _ _ f1) (__clk_notify_recalc _ _ _ _ _ _)
    · exact f2 _ _ f1

theorem __clk_speculate_rates_recalc (hw : Hw) (fuel : Nat) (s s' : State) (core pr ret : Nat)
    (h : __clk_speculate_rates hw fuel s core pr = some (ret, s')) : RecalcFrame s s' := by
  induction fuel generalizing s s' core pr ret with
  | zero => simp [__clk_speculate_rates] at h
  | succ fuel ih =>
    unfold __clk_speculate_rates at h
    have f1 := clk_recalc_recalc hw s core pr
    cases hrc : clk_recalc hw s core pr with
    | mk nr s1 =>
      rw [hrc] at f1
      simp only [hrc] at h
      cases hq : (if s1.notifier_count core ≠ 0 then
          __clk_notify hw s1 core PRE_RATE_CHANGE (s1.rate core) nr
          else (NOTIFY_DONE, s1)) with
      | mk r2 s2 =>
        have f2 : RecalcFrame s s2 := by
          split at hq
          · have := __clk_notify_recalc hw s1 core PRE_RATE_CHANGE (s1.rate core) nr
            rw [hq] at this
            exact RecalcFrame_trans f1 this
          · simp at hq; rw [← hq.2]; exact f1
        simp only [hq] at h
        by_cases h3 : r2 &&& NOTIFY_STOP_MASK = 0
        · simp only [h3, ne_eq, not_true_eq_false, if_false] at h
          refine RecalcFrame_trans f2 (foldlM_rel (fun a => a.2) RecalcFrame RecalcFrame_refl
            (fun _ _ _ => RecalcFrame_trans) _ _ ?_ _ (ret, s') h)
          intro b x b' _ hb
          split at hb
          · simp at hb; subst hb; exact RecalcFrame_refl _
          · exact ih _ _ _ _ _ hb
        · simp [h3] at h; rw [← h.2]; exact f2

theorem clk_core_set_parent_nolock_cases (hw : Hw) (fuel : Nat) (s s' : State) (c : Nat)
    (par : Option Nat) (ret : Int)
    (h : clk_core_set_parent_nolock hw fuel s (some c) par = some (ret, s')) :
    RecalcFrame s s' ∨
    (∃ s3 idx s4, RecalcFrame s s3 ∧ __clk_set_parent hw fuel s3 c par idx = some (ret, s4) ∧
      RecalcFrame s4 s') := by
  unfold clk_core_set_parent_nolock at h
  simp only at h
  split at h
  · simp only [Option.some.injEq, Prod.mk.injEq] at h
    rw [← h.2]; exact Or.inl (RecalcFrame_refl s)
  · split at h
    · simp only [Option.some.injEq, Prod.mk.injEq] at h
      rw [← h.2]; exact Or.inl (RecalcFrame_refl s)
    · split at h
      · simp only [Option.some.injEq, Prod.mk.injEq] at h
        rw [← h.2]; exact Or.inl (RecalcFrame_refl s)
      · split at h
        · simp only [Option.some.injEq, Prod.mk.injEq] at h
          rw [← h.2]; exact Or.inl (RecalcFrame_refl s)
        · have f1 : RecalcFrame s (if par.isSome = true then clk_fetch_parent_index hw s c par
              else (0, s)).2 := by
            split
            · exact clk_fetch_parent_index_recalc _ _ _ _
            · exact RecalcFrame_refl s
          generalize (if par.isSome = true then clk_fetch_parent_index hw s c par
              else (0, s)) = q at h f1
          obtain ⟨pi, s1⟩ := q
          simp only at h f1
          split at h
          · simp only [Option.some.injEq, Prod.mk.injEq] at h
            rw [← h.2]; exact Or.inl f1
          · have f2 := RecalcFrame_trans f1 (clk_pm_runtime_get_recalc hw s1 c)
            generalize clk_pm_runtime_get hw s1 c = q at h f2
            obtain ⟨r2, s2⟩ := q
            simp only at h f2
            split at h
            · simp only [Option.some.injEq, Prod.mk.injEq] at h
              rw [← h.2]; exact Or.inl f2
            · split at h
              · cases h
              · rename_i nret s3 hsp
                have f3 := RecalcFrame_trans f2 (__clk_speculate_rates_recalc _ _ _ _ _ _ _ hsp)
                split at h
                · simp only [Option.some.injEq, Prod.mk.injEq] at h
                  rw [← h.2]
                  exact Or.inl (RecalcFrame_trans f3 (clk_pm_runtime_put_recalc _ _))
                · cases hsp4 : __clk_set_parent hw fuel s3 c par pi.toNat with
                  | none => simp [hsp4] at h
                  | some q =>
                    obtain ⟨ret4, s4⟩ := q
                    simp only [hsp4] at h
                    right
                    by_cases hret : ret4 = 0
                    · subst hret
                      simp only [ne_eq, not_true_eq_false, if_false] at h
                      cases hr5 : __clk_recalc_rates hw fuel s4 c POST_RATE_CHANGE with
                      | none => simp [hr5] at h
                      | some s5 =>
                        simp only [hr5] at h
                        cases hr6 : __clk_recalc_accuracies hw fuel s5 c with
                        | none => simp [hr6] at h
                        | some s6 =>
                          simp only [hr6, Option.some.injEq, Prod.mk.injEq] at h
                          obtain ⟨h1, h2⟩ := h
                          subst h1 h2
                          exact ⟨s3, _, s4, f3, hsp4,
                            RecalcFrame_trans (__clk_recalc_rates_recalc _ _ _ _ _ _ hr5)
                              (RecalcFrame_trans (__clk_recalc_accuracies_recalc _ _ _ _ _ hr6)
                                (clk_pm_runtime_put_recalc _ _))⟩
                    · simp only [hret, ne_eq, not_false_eq_true, if_true] at h
                      cases hr5 : __clk_recalc_rates hw fuel s4 c ABORT_RATE_CHANGE with
                      | none => simp [hr5] at h
                      | some s5 =>
                        simp only [hr5, Option.some.injEq, Prod.mk.injEq] at h
                        obtain ⟨h1, h2⟩ := h
                        subst h1 h2
                        exact ⟨s3, _, s4, f3, hsp4,
                          RecalcFrame_trans (__clk_recalc_rates_recalc _ _ _ _ _ _ hr5)
                            (clk_pm_runtime_put_recalc _ _)⟩

theorem OpsSucceed_stuck : OpsSucceed Hw.stuck := by
  intro s n
  simp [Hw.stuck, Hw.quiet]

theorem IsDepth_mux_busy : IsDepth mux_busy.parent 1 (fun n => if n = 0 then 1 else 0) := by
  intro n p hp
  simp only [mux_busy, mux1, State.blank] at hp
  split at hp
  · rename_i h
    cases hp
    subst h
    exact ⟨by decide, by decide, by decide⟩
  · cases hp

/-- C7 (amended): when `clk_core_set_parent_nolock` fails (in particular when the node's
`set_parent` op returns an error), on a node without `CLK_OPS_PARENT_ENABLE`, with prepare and
enable callbacks and runtime PM that succeed, prepare ancestry in the tree, and every
`CLK_IS_CRITICAL` node holding its references, then afterwards every parent pointer, every
`prepare_count` and every `enable_count` is as before the call, the node is on its old
parent's child list if it was, and every other child list is unchanged. -/
theorem set_parent_rollback {N : Nat} {dep : Nat → Nat} (hw : Hw) (hops : OpsSucceed hw)
    (fuel : Nat) (s s' : State) (c : Nat) (par : Option Nat) (ret : Int)
    (hd : IsDepth s.parent N dep) (hf : ∀ n, dep n < fuel)
    (hflag : (s.flags c).CLK_OPS_PARENT_ENABLE = false)
    (hanc : Ancestry s.parent s.prepare_count)
    (hcrit : ∀ x, (s.flags x).CLK_IS_CRITICAL = true →
      0 < s.prepare_count x ∧ 0 < s.enable_count x)
    (h : clk_core_set_parent_nolock hw fuel s (some c) par = some (ret, s')) (hret : ret ≠ 0) :
    s'.parent = s.parent ∧
    (∀ P, s.parent c = some P → c ∈ s.children P → c ∈ s'.children P) ∧
    (∀ Q, s.parent c ≠ some Q → s'.children Q = s.children Q) ∧
    s'.prepare_count = s.prepare_count ∧ s'.enable_count = s.enable_count := by
  rcases clk_core_set_parent_nolock_cases hw fuel s s' c par ret h with hfr | hx
  · obtain ⟨a1, a2, a3, a4, rfl⟩ := hfr
    exact ⟨rfl, fun _ _ hm => hm, fun _ _ => rfl, rfl, rfl⟩
  · obtain ⟨s3, idx, s4, f3, hsp, f4⟩ := hx
    obtain ⟨a1, a2, a3, a4, rfl⟩ := f3
    obtain ⟨ch, o, rl, ol, nc, rc, tr, e4, c1, c2⟩ := __clk_set_parent_rollback hw hops fuel { s with parents := a1, trace := a2, rate := a3, accuracy := a4 } s4 c par idx ret hd hf hflag hanc hcrit hsp hret
    subst e4
    obtain ⟨b1, b2, b3, b4, rfl⟩ := f4
    exact ⟨rfl, fun P hP _ => c1 P hP, c2, rfl, rfl⟩

/-- C7 (amended) on `mux_busy` with the `set_parent` op failing: the call returns the op's
error and the tree and the counters are as before. -/
theorem set_parent_rollback_witness :
    ∃ s', clk_core_set_parent_nolock Hw.stuck 3 mux_busy (some 0) (some 2) = some (-5, s') ∧
      s'.parent = mux_busy.parent ∧
      (∀ P, mux_busy.parent 0 = some P → 0 ∈ mux_busy.children P → 0 ∈ s'.children P) ∧
      (∀ Q, mux_busy.parent 0 ≠ some Q → s'.children Q = mux_busy.children Q) ∧
      s'.prepare_count = mux_busy.prepare_count ∧ s'.enable_count = mux_busy.enable_count := by
  have h := eq_some_of_map_fst
    (clk_core_set_parent_nolock Hw.stuck 3 mux_busy (some 0) (some 2)) (-5) (0, mux_busy)
    (by decide)
  refine ⟨_, h, set_parent_rollback Hw.stuck OpsSucceed_stuck 3 mux_busy _ 0 (some 2) (-5)
    IsDepth_mux_busy ?_ (by decide) ?_ ?_ h (by decide)⟩
  · intro n
    by_cases hn : n = 0
    · subst hn; decide
    · simp [hn]
  · intro n p hp hn
    simp only [mux_busy, mux1, State.blank] at hp
    split at hp
    · cases hp
      decide
    · cases hp
  · intro x hx
    simp [mux_busy, mux1, State.blank] at hx

/-- C7 as stated fails when an acquisition made for the migration fails: with the `enable` op
of the new parent (node 2) and the `set_parent` op both failing, the roll-back drops a prepare
reference of node 2 that the call never took (`prepare_count` 1 before, 0 after). -/
theorem set_parent_rollback_counterexample :
    mux_busy.prepare_count 2 = 1 ∧
    (clk_core_set_parent_nolock Hw.faulty 3 mux_busy (some 0) (some 2)).map
      (fun x => (x.1, x.2.parent 0, x.2.prepare_count 2)) = some (-5, some 1, 0) := by
  decide

theorem __clk_notify_rate (hw : Hw) (s : State) (core msg o n : Nat) :
    (__clk_notify hw s core msg o n).2.rate = s.rate := by
  obtain ⟨tr, e⟩ := __clk_notify_walk_frame hw core msg o n s.clk_notifier_list NOTIFY_DONE s
  unfold __clk_notify
  rw [e]

theorem clk_propagate_rate_change_rate (hw : Hw) (fuel : Nat) (s s' : State) (core ev : Nat)
    (f : Option Nat) (h : clk_propagate_rate_change hw fuel s core ev = some (f, s')) :
    s'.rate = s.rate := by
  obtain ⟨-, -, -, ext, -, d1, -, -, -, -⟩ := clk_propagate_rate_change_paired hw
    ev ev fuel _ _ core _ _ (SameButTrace_refl _) h
  rw [d1]

theorem IsDepth_chain2 : IsDepth chain2.parent 2 (fun n => if n = 1 then 1 else 0) := by
  intro n p h
  by_cases h1 : n = 1
  · subst h1
    have : p = 0 := by simpa [chain2] using h.symm
    subst this
    simp
  · simp [chain2, h1] at h

/-- C19: `clk_core_enable` on a node whose `prepare_count` is 0 returns `-ESHUTDOWN` and hands
back the state it was given: no `enable` op is logged and no `enable_count` changes. -/
theorem enable_unprepared (hw : Hw) (fuel : Nat) (s : State) (n : Nat)
    (h : s.prepare_count n = 0) :
    clk_core_enable hw (fuel + 1) s (some n) = some (-ESHUTDOWN, s) := by
  unfold clk_core_enable
  simp only [h, if_true]

theorem enable_unprepared_witness :
    chain2.prepare_count 1 = 0 ∧
      clk_core_enable Hw.quiet 1 chain2 (some 1) = some (-ESHUTDOWN, chain2) :=
  ⟨rfl, enable_unprepared Hw.quiet 0 chain2 1 rfl⟩

/-- C20: a refused release changes nothing. `clk_core_unprepare` on a node with
`prepare_count` 0, or on a critical node with `prepare_count` 1, and `clk_core_disable` on a
node with `enable_count` 0, or on a critical node with `enable_count` 1, return the state they
were given, so no count moves and no op is logged. -/
theorem refused_release (fuel : Nat) (s : State) (n : Nat) :
    ((s.prepare_count n = 0 ∨
        (s.prepare_count n = 1 ∧ (s.flags n).CLK_IS_CRITICAL = true)) →
      clk_core_unprepare (fuel + 1) s (some n) = some s) ∧
    ((s.enable_count n = 0 ∨
        (s.enable_count n = 1 ∧ (s.flags n).CLK_IS_CRITICAL = true)) →
      clk_core_disable (fuel + 1) s (some n) = some s) := by
  constructor
  · intro h
    unfold clk_core_unprepare
    rcases h with h | ⟨h, hc⟩
    · simp only [h, if_true]
    · simp [h, hc]
  · intro h
    unfold clk_core_disable
    rcases h with h | ⟨h, hc⟩
    · simp only [h, if_true]
    · simp [h, hc]

theorem refused_release_witness :
    (clk_core_unprepare 1 chain2 (some 1) = some chain2 ∧
      clk_core_disable 1 chain2 (some 1) = some chain2) ∧
    (clk_core_unprepare 1 critical1 (some 0) = some critical1 ∧
      clk_core_disable 1 critical1 (some 0) = some critical1) :=
  ⟨⟨(refused_release 0 chain2 1).1 (Or.inl rfl), (refused_release 0 chain2 1).2 (Or.inl rfl)⟩,
   ⟨(refused_release 0 critical1 0).1 (Or.inr ⟨rfl, rfl⟩),
    (refused_release 0 critical1 0).2 (Or.inr ⟨rfl, rfl⟩)⟩⟩

/-- C17: on a node that is already prepared (`prepare_count > 0`), `clk_core_prepare` returns 0
having raised only that node's `prepare_count` by one, and the `clk_core_unprepare` that follows
returns with the `prepare_count` of every node, the node and its ancestors included, back at the
value it had before the pair. -/
theorem prepare_unprepare_round_trip {N : Nat} {dep : Nat → Nat} (hw : Hw) (fuel : Nat)
    (s : State) (n : Nat) (hd : IsDepth s.parent N dep) (hf : dep n < fuel)
    (hp : 0 < s.prepare_count n) :
    ∃ s1 s2, clk_core_prepare hw fuel s (some n) = some (0, s1) ∧
      s1.prepare_count = Function.update s.prepare_count n (s.prepare_count n + 1) ∧
      clk_core_unprepare fuel s1 (some n) = some s2 ∧
      s2.prepare_count = s.prepare_count := by
  obtain ⟨f, rfl⟩ : ∃ f, fuel = f + 1 := ⟨fuel - 1, by omega⟩
  have hp0 : s.prepare_count n ≠ 0 := by omega
  have hprep : ∃ pc, clk_core_prepare hw (f + 1) s (some n)
      = some (0, { s with prepare_count := Function.update s.prepare_count n (s.prepare_count n + 1), protect_count := pc }) := by
    unfold clk_core_prepare
    simp only [hp0, if_false]
    by_cases hg : (s.flags n).CLK_SET_RATE_GATE = true
    · obtain ⟨r, hr⟩ := clk_core_rate_protect_some (f + 1) { s with prepare_count := Function.update s.prepare_count n (s.prepare_count n + 1) } n hd hf
      refine ⟨r, ?_⟩
      simp only [hg, if_true, hr]
    · refine ⟨s.protect_count, ?_⟩
      simp only [hg, if_false, Bool.false_eq_true]
  obtain ⟨pc, hprep⟩ := hprep
  obtain ⟨s1, hs1⟩ : ∃ s1 : State, s1 = { s with prepare_count := Function.update s.prepare_count n (s.prepare_count n + 1), protect_count := pc } := ⟨_, rfl⟩
  have hs1p : s1.parent = s.parent := by rw [hs1]
  have hs1f : s1.flags = s.flags := by rw [hs1]
  have hs1c : s1.prepare_count = Function.update s.prepare_count n (s.prepare_count n + 1) := by
    rw [hs1]
  have hs1n : s1.prepare_count n = s.prepare_count n + 1 := by
    rw [hs1c]; simp
  have hun : ∃ s2, clk_core_unprepare (f + 1) s1 (some n) = some s2 ∧
      s2.prepare_count = s.prepare_count := by
    unfold clk_core_unprepare
    have h0 : s1.prepare_count n ≠ 0 := by omega
    have h1 : s1.prepare_count n ≠ 1 := by omega
    simp only [h0, h1, if_false, decide_False, Bool.false_and, Bool.false_eq_true]
    by_cases hg : (s.flags n).CLK_SET_RATE_GATE = true
    · obtain ⟨r, hr⟩ := clk_core_rate_unprotect_some (f + 1) s1 n (hs1p ▸ hd) hf
      simp only [hs1f, hg, if_true, hr]
      have hpos : 0 < Function.update s1.prepare_count n (s1.prepare_count n - 1) n := by
        simp; omega
      simp only [gt_iff_lt, hpos, if_true]
      refine ⟨_, rfl, ?_⟩
      show Function.update s1.prepare_count n (s1.prepare_count n - 1) = s.prepare_count
      rw [hs1c]
      funext k
      by_cases hk : k = n
      · subst hk; simp
      · simp [Function.update, hk]
    · simp only [hs1f, hg, if_false, Bool.false_eq_true]
      have hpos : 0 < Function.update s1.prepare_count n (s1.prepare_count n - 1) n := by
        simp; omega
      simp only [gt_iff_lt, hpos, if_true]
      refine ⟨_, rfl, ?_⟩
      show Function.update s1.prepare_count n (s1.prepare_count n - 1) = s.prepare_count
      rw [hs1c]
      funext k
      by_cases hk : k = n
      · subst hk; simp
      · simp [Function.update, hk]
  obtain ⟨s2, hs2, hs2c⟩ := hun
  exact ⟨s1, s2, by rw [hprep, hs1], hs1c, hs2, hs2c⟩

theorem prepare_unprepare_round_trip_witness :
    0 < prepared2.prepare_count 1 ∧
    ∃ s1 s2, clk_core_prepare Hw.quiet 2 prepared2 (some 1) = some (0, s1) ∧
      s1.prepare_count
        = Function.update prepared2.prepare_count 1 (prepared2.prepare_count 1 + 1) ∧
      clk_core_unprepare 2 s1 (some 1) = some s2 ∧
      s2.prepare_count = prepared2.prepare_count :=
  ⟨by decide, prepare_unprepare_round_trip Hw.quiet 2 prepared2 1 IsDepth_chain2
    (by decide) (by decide)⟩

theorem ref_put_get_below {par : Nat → Option Nat} {N : Nat} {dep : Nat → Nat}
    (hd : IsDepth par N dep) (crit : Nat → Bool) (fuel : Nat)
    (c c' : Nat → Nat) (m : Option Nat)
    (hcrit : ∀ d, m = some d → ∀ x, crit x = true → dep x ≤ dep d → 0 < c x)
    (h : ref_get par fuel c m = some c') : ref_put par crit fuel c' m = some c := by
  induction fuel generalizing c c' m with
  | zero =>
    cases m with
    | none => simp [ref_get] at h; simp [ref_put, h]
    | some m => simp [ref_get] at h
  | succ fuel ih =>
    cases m with
    | none => simp [ref_get] at h; simp [ref_put, h]
    | some m =>
      unfold ref_get at h
      unfold ref_put
      by_cases h0 : c m = 0
      · simp only [h0, if_true] at h
        have hncrit : crit m = false := by
          cases hcm : crit m with
          | false => rfl
          | true => have := hcrit m rfl m hcm (le_refl _); omega
        cases hc1 : ref_get par fuel c (par m) with
        | none => simp [hc1] at h
        | some c1 =>
          simp only [hc1] at h
          cases h
          have hfr : c1 m = 0 := by
            cases hp : par m with
            | none => rw [hp] at hc1; simp [ref_get] at hc1; rw [← hc1, h0]
            | some p =>
              rw [hp] at hc1
              rw [ref_get_frame hd fuel c c1 p hc1 m (hd m p hp).2.1, h0]
          have hupd : Function.update c1 m 0 = c1 := by
            rw [← hfr, Function.update_eq_self]
          simp [hfr, hncrit, hupd]
          refine ih c c1 (par m) ?_ hc1
          intro d hdp x hx hle
          exact hcrit m rfl x hx (le_trans hle (le_of_lt (hd m d hdp).2.1))
      · simp only [h0, if_false] at h
        cases h
        have : 0 < c m := by omega
        have h1 : ¬ (c m + 1 = 1) := by omega
        simp [h1, this]

theorem clk_pm_runtime_get_same (hw : Hw) (s : State) (c : Nat) :
    SameButTrace s (clk_pm_runtime_get hw s c).2 := by
  unfold clk_pm_runtime_get
  by_cases h1 : (!s.rpm_enabled c) = true
  · simp only [h1, if_true]; exact ⟨_, rfl⟩
  · simp only [h1, if_false, Bool.false_eq_true]
    split
    · exact ⟨_, rfl⟩
    · exact ⟨_, rfl⟩

theorem clk_pm_runtime_put_same (s : State) (c : Nat) :
    SameButTrace s (clk_pm_runtime_put s c) := by
  unfold clk_pm_runtime_put
  split
  · exact ⟨_, rfl⟩
  · exact ⟨_, rfl⟩

/-- What `clk_core_prepare` does to the prepare counts, for arbitrary hardware: a successful call
is the reference walk `ref_get`, a failed one leaves every count as it was, provided the
critical nodes above the node hold a prepare reference. -/
theorem clk_core_prepare_counts {N : Nat} {dep : Nat → Nat} (hw : Hw) (fuel : Nat)
    (s s' : State) (m : Option Nat) (ret : Int)
    (hd : IsDepth s.parent N dep) (hf : ∀ d, m = some d → dep d < fuel)
    (hcrit : ∀ d, m = some d → ∀ x, (s.flags x).CLK_IS_CRITICAL = true → dep x < dep d →
      0 < s.prepare_count x)
    (h : clk_core_prepare hw fuel s m = some (ret, s')) :
    (ret = 0 → ref_get s.parent fuel s.prepare_count m = some s'.prepare_count) ∧
    (ret ≠ 0 → s'.prepare_count = s.prepare_count) := by
  induction fuel generalizing s s' m ret with
  | zero =>
    cases m with
    | none =>
      simp [clk_core_prepare] at h
      obtain ⟨h1, h2⟩ := h
      subst h1 h2
      simp [ref_get]
    | some c => simp [clk_core_prepare] at h
  | succ fuel ih =>
    cases m with
    | none =>
      simp [clk_core_prepare] at h
      obtain ⟨h1, h2⟩ := h
      subst h1 h2
      simp [ref_get]
    | some c =>
      have fin : ∀ (a : State) (r : Int) (b : State),
          (let a1 : State := { a with prepare_count := Function.update a.prepare_count c (a.prepare_count c + 1) }
           (if (a1.flags c).CLK_SET_RATE_GATE then
              match clk_core_rate_protect (fuel + 1) a1 (some c) with
              | none => none
              | some s2 => some ((0 : Int), s2)
            else some (0, a1)) = some (r, b)) →
          r = 0 ∧ b.prepare_count = Function.update a.prepare_count c (a.prepare_count c + 1) := by
        intro a r b hb
        simp only at hb
        split at hb
        · cases hq : clk_core_rate_protect (fuel + 1) { a with prepare_count := Function.update a.prepare_count c (a.prepare_count c + 1) } (some c) with
          | none => simp [hq] at hb
          | some s2 =>
            simp [hq] at hb
            rw [clk_core_rate_protect_eq] at hq
            cases hg : ref_get a.parent (fuel + 1) a.protect_count (some c) with
            | none => simp [hg] at hq
            | some pc =>
              simp [hg] at hq
              rw [← hb.2, ← hq]
              exact ⟨hb.1.symm, rfl⟩
        · simp at hb; rw [← hb.2]; exact ⟨hb.1.symm, rfl⟩
      unfold clk_core_prepare at h
      unfold ref_get
      by_cases h1 : s.prepare_count c = 0
      · simp only [h1, if_true] at h ⊢
        obtain ⟨tr1, hs1⟩ := clk_pm_runtime_get_same hw s c
        by_cases h2 : (clk_pm_runtime_get hw s c).1 = 0
        · simp only [h2, ne_eq, not_true_eq_false, if_false] at h
          cases hp : clk_core_prepare hw fuel (clk_pm_runtime_get hw s c).2
              ((clk_pm_runtime_get hw s c).2.parent c) with
          | none => simp [hp] at h
          | some r =>
            obtain ⟨r1, s2⟩ := r
            have f2 := clk_core_prepare_frame _ _ _ _ _ _ hp
            obtain ⟨e2, p2, q2, t2, hs2⟩ := f2
            simp only [hp] at h
            rw [hs1] at hp hs2
            simp only at hp hs2
            have hfp : ∀ d, s.parent c = some d → dep d < fuel := by
              intro d hdp
              have := (hd c d hdp).2.1
              have := hf c rfl
              omega
            have hcp : ∀ d, s.parent c = some d → ∀ x, (s.flags x).CLK_IS_CRITICAL = true →
                dep x < dep d → 0 < s.prepare_count x := by
              intro d hdp x hx hlt
              exact hcrit c rfl x hx (lt_trans hlt (hd c d hdp).2.1)
            have i2 := ih { s with trace := tr1 } s2 (s.parent c) r1 hd hfp hcp hp
            simp only at i2
            have hs2p : s2.parent = s.parent := by rw [hs2]
            have hs2f : s2.flags = s.flags := by rw [hs2]
            by_cases h3 : r1 = 0
            · have g2 := i2.1 h3
              rw [g2]
              by_cases h4 : (if (s2.ops c).prepare = true then hw.prepare s2 c else 0) = 0
              · simp only [h3, h4, ne_eq, not_true_eq_false, if_false] at h
                obtain ⟨hr, hb⟩ := fin _ _ _ h
                have e3 : (if (s2.ops c).prepare = true then s2.log (.op_prepare c) else s2).prepare_count = s2.prepare_count := by
                  split <;> rfl
                rw [e3] at hb
                refine ⟨fun _ => ?_, fun hn => absurd hr hn⟩
                simp only [hb]
              · simp only [h3, h4, ne_eq, not_true_eq_false, not_false_eq_true, if_true,
                  if_false] at h
                cases hu : clk_core_unprepare fuel
                    (if (s2.ops c).prepare = true then s2.log (.op_prepare c) else s2)
                    ((if (s2.ops c).prepare = true then s2.log (.op_prepare c) else s2).parent c) with
                | none => simp [hu] at h
                | some s4 =>
                  simp only [hu, Option.some.injEq, Prod.mk.injEq] at h
                  obtain ⟨hr, hb⟩ := h
                  refine ⟨fun h0 => absurd (hr.trans h0) h4, fun _ => ?_⟩
                  obtain ⟨t5, hs5⟩ := clk_pm_runtime_put_same s4 c
                  rw [← hb, hs5]
                  show s4.prepare_count = s.prepare_count
                  obtain ⟨s3, hs3⟩ : ∃ s3, s3 = (if (s2.ops c).prepare = true then s2.log (.op_prepare c) else s2) := ⟨_, rfl⟩
                  rw [← hs3] at hu
                  have e3p : s3.parent = s.parent := by
                    rw [hs3]; split
                    · exact hs2p
                    · exact hs2p
                  have e3f : s3.flags = s.flags := by
                    rw [hs3]; split
                    · exact hs2f
                    · exact hs2f
                  have e3c : s3.prepare_count = s2.prepare_count := by
                    rw [hs3]; split <;> rfl
                  rw [e3p] at hu
                  cases hpar : s.parent c with
                  | none =>
                    rw [hpar] at hu g2
                    simp [clk_core_unprepare] at hu
                    simp [ref_get] at g2
                    rw [← hu, e3c, ← g2]
                  | some p =>
                    rw [hpar] at hu g2
                    obtain ⟨s4', hu', hput, _⟩ :=
                      clk_core_unprepare_spec fuel s3 p (e3p ▸ hd) (hfp p hpar)
                    rw [hu] at hu'
                    cases hu'
                    rw [e3p, e3f, e3c] at hput
                    have hback := ref_put_get_below hd (fun n => (s.flags n).CLK_IS_CRITICAL)
                      fuel s.prepare_count s2.prepare_count (some p)
                      (by
                        intro d hdd x hx hle
                        cases hdd
                        exact hcrit c rfl x hx (lt_of_le_of_lt hle (hd c p hpar).2.1))
                      g2
                    rw [hback] at hput
                    exact (Option.some.inj hput).symm
            · simp only [h3, ne_eq, not_false_eq_true, if_true, Option.some.injEq,
                Prod.mk.injEq] at h
              obtain ⟨hr, hb⟩ := h
              refine ⟨fun h0 => absurd (hr.trans h0) h3, fun _ => ?_⟩
              obtain ⟨t5, hs5⟩ := clk_pm_runtime_put_same s2 c
              rw [← hb, hs5]
              show s2.prepare_count = s.prepare_count
              exact i2.2 h3
        · simp only [h2, ne_eq, not_false_eq_true, if_true, Option.some.injEq] at h
          simp only [Prod.mk.injEq] at h
          obtain ⟨hr, hb⟩ := h
          refine ⟨fun h0 => absurd (hr.trans h0) h2, fun _ => ?_⟩
          rw [← hb, hs1]
      · simp only [h1, if_false] at h ⊢
        obtain ⟨hr, hb⟩ := fin _ _ _ h
        refine ⟨fun _ => ?_, fun hn => absurd hr hn⟩
        rw [hb]

/-- C18: a failed prepare is atomic. On a finite acyclic forest where every critical node other
than `n` holds a prepare reference, if `clk_core_prepare(n)` returns a non-zero error (the
node's own `prepare` op, an ancestor's `prepare` op or a runtime-PM resume failed), then the
`prepare_count` of every node, the ancestors prepared on the way included, equals its value
before the call. -/
theorem failed_prepare_atomic {N : Nat} {dep : Nat → Nat} (hw : Hw) (fuel : Nat)
    (s s' : State) (n : Nat) (ret : Int)
    (hd : IsDepth s.parent N dep) (hf : dep n < fuel)
    (hcrit : ∀ x, (s.flags x).CLK_IS_CRITICAL = true → x ≠ n → 0 < s.prepare_count x)
    (h : clk_core_prepare hw fuel s (some n) = some (ret, s')) (hret : ret ≠ 0) :
    s'.prepare_count = s.prepare_count := by
  refine (clk_core_prepare_counts hw fuel s s' (some n) ret hd ?_ ?_ h).2 hret
  · intro d hdd
    cases hdd
    exact hf
  · intro d hdd x hx hlt
    cases hdd
    refine hcrit x hx ?_
    intro hxn
    subst hxn
    exact lt_irrefl _ hlt

theorem failed_prepare_atomic_witness :
    ∃ s', clk_core_prepare Hw.balky 2 gated2 (some 1) = some (-5, s') ∧
      s'.trace = [.op_prepare 0, .op_prepare 1, .op_unprepare 0] ∧
      s'.prepare_count = gated2.prepare_count :=
  ⟨_, eq_some_of_map_fst _ _ (0, gated2) (by decide), by decide,
    failed_prepare_atomic Hw.balky 2 gated2 _ 1 (-5) IsDepth_chain2 (by decide)
      (by intro x hx; simp [gated2, chain2, State.blank] at hx)
      (eq_some_of_map_fst _ _ (0, gated2) (by decide)) (by decide)⟩

theorem clk_calc_new_rates_outside (hw : Hw) (fuel : Nat) (s : State) (c r : Nat)
    (hcr : clk_core_can_round s c = true)
    (hout : planned_rate hw s c r < (clk_core_get_boundaries s c).1 ∨
      (clk_core_get_boundaries s c).2 < planned_rate hw s c r) :
    clk_calc_new_rates hw (fuel + 1) s (some c) r = some (none, s) := by
  unfold clk_calc_new_rates
  simp only [hcr, if_true]
  unfold planned_rate at hout
  split
  · rfl
  · rw [if_pos]
    simpa using hout

/-- C11 (amended): when `clk_core_set_rate_nolock` gets past its early exits (the rounded rate
differs from the current rate and the node is not protected) on a node with a `round_rate` or
`determine_rate` op, and the rate planned by that op falls outside the effective
`[min, max]` window of the node, the call returns `-EINVAL`, not `-ENOENT`, and the state is
the one left by the rounding. -/
theorem set_rate_out_of_window (hw : Hw) (fuel : Nat) (s s1 : State) (c r rate : Nat)
    (hround : clk_core_req_round_rate_nolock hw fuel s (some c) r = some (rate, s1))
    (hne : rate ≠ clk_core_get_rate_nolock s1 (some c))
    (hprot : clk_core_rate_is_protected s1 c = false)
    (hcr : clk_core_can_round s1 c = true)
    (hout : planned_rate hw s1 c r < (clk_core_get_boundaries s1 c).1 ∨
      (clk_core_get_boundaries s1 c).2 < planned_rate hw s1 c r) :
    clk_core_set_rate_nolock hw fuel s (some c) r = some (-EINVAL, s1) := by
  cases fuel with
  | zero =>
    unfold clk_core_req_round_rate_nolock clk_core_rate_nuke_protect at hround
    by_cases h0 : s.protect_count c = 0
    · simp [h0, clk_core_round_rate_nolock] at hround
    · simp [h0, clk_core_rate_unprotect] at hround
  | succ f =>
    unfold clk_core_set_rate_nolock
    simp only [hround, hne, if_false, hprot, Bool.false_eq_true,
      clk_calc_new_rates_outside hw f s1 c r hcr hout]

/-- C11 as stated fails: on the node with window `[50, 150]` whose `round_rate` answers the
request unclamped, `clk_core_set_rate_nolock(core, 500)` plans 500, outside the window, and
returns `-EINVAL` (-22), which is not `-ENOENT` (-2). -/
theorem set_rate_out_of_window_counterexample :
    planned_rate Hw.tracking windowed1 0 500 = 500 ∧
    clk_core_get_boundaries windowed1 0 = (50, 150) ∧
    (clk_core_set_rate_nolock Hw.tracking 2 windowed1 (some 0) 500).map Prod.fst
      = some (-EINVAL) ∧
    (clk_core_set_rate_nolock Hw.tracking 2 windowed1 (some 0) 500).map Prod.fst
      ≠ some (-ENOENT) := by
  decide

theorem set_rate_out_of_window_witness :
    clk_core_set_rate_nolock Hw.tracking 2 windowed1 (some 0) 500
      = some (-EINVAL, windowed1) :=
  set_rate_out_of_window Hw.tracking 2 windowed1 windowed1 0 500 500 rfl (by decide)
    (by decide) (by decide) (Or.inr (by decide))

/-- C12 (amended): on an unprotected node that has neither `round_rate` nor `determine_rate`
and cannot delegate upward (no parent, or `CLK_SET_RATE_PARENT` not set),
`clk_core_set_rate_nolock` ignores the requested rate altogether. Rounding answers the node's
own recorded rate (0 when the flag is set and there is no parent); when that equals what
`clk_core_get_rate_nolock` reports, as it does for every node whose parent is resolved or
that has no possible parent when the flag is unset, the call returns 0 and changes nothing,
whatever rate was asked for; otherwise it returns `-EINVAL` having set `new_rate` to the
current rate. -/
theorem set_rate_no_round_op (hw : Hw) (fuel : Nat) (s : State) (c r : Nat)
    (hprot : s.protect_count c = 0)
    (hcr : clk_core_can_round s c = false)
    (hdel : s.parent c = none ∨ (s.flags c).CLK_SET_RATE_PARENT = false) :
    clk_core_set_rate_nolock hw (fuel + 1) s (some c) r =
      some (if (if (s.flags c).CLK_SET_RATE_PARENT then 0 else s.rate c)
              = clk_core_get_rate_nolock s (some c) then (0, s)
            else (-EINVAL, { s with new_rate := Function.update s.new_rate c (s.rate c) })) := by
  have hcalc : clk_calc_new_rates hw (fuel + 1) s (some c) r
      = some (none, { s with new_rate := Function.update s.new_rate c (s.rate c) }) := by
    unfold clk_calc_new_rates
    simp only [hcr, Bool.false_eq_true, if_false]
    cases hp : s.parent c with
    | none => rfl
    | some p =>
      have hfl : (s.flags c).CLK_SET_RATE_PARENT = false := by
        rcases hdel with h | h
        · rw [hp] at h; cases h
        · exact h
      simp only [hfl, Bool.false_eq_true, if_false]
  have hnp : clk_core_rate_is_protected s c = false := by
    simp [clk_core_rate_is_protected, hprot]
  unfold clk_core_set_rate_nolock clk_core_req_round_rate_nolock clk_core_rate_nuke_protect
    clk_core_rate_restore_protect
  by_cases hfl : (s.flags c).CLK_SET_RATE_PARENT = true
  · have hp : s.parent c = none := by
      rcases hdel with h | h
      · exact h
      · rw [hfl] at h; cases h
    simp only [hprot, if_true, lt_self_iff_false, if_false, clk_core_round_rate_nolock, hcr,
      Bool.false_eq_true, hfl, hp, ne_eq, not_true_eq_false]
    by_cases he : 0 = clk_core_get_rate_nolock s (some c)
    · simp only [he, if_true]
    · simp only [he, if_false, hnp, Bool.false_eq_true, hcalc]
  · simp only [hprot, if_true, lt_self_iff_false, if_false, clk_core_round_rate_nolock, hcr,
      Bool.false_eq_true, hfl, ne_eq, not_true_eq_false]
    by_cases he : s.rate c = clk_core_get_rate_nolock s (some c)
    · simp only [he, if_true]
    · simp only [he, if_false, hnp, Bool.false_eq_true, hcalc]

/-- C12 as stated fails: the fixed-rate root running at 100 is unprotected, has no rounding op
and no parent, and `clk_core_set_rate_nolock(core, 200)` returns 0, leaving the rate at 100. -/
theorem set_rate_no_round_op_counterexample :
    fixed1.protect_count 0 = 0 ∧ clk_core_can_round fixed1 0 = false ∧
    fixed1.parent 0 = none ∧ 200 ≠ fixed1.rate 0 ∧
    (clk_core_set_rate_nolock Hw.quiet 1 fixed1 (some 0) 200).map
      (fun x => (x.1, x.2.rate 0)) = some (0, 100) := by
  decide

theorem set_rate_no_round_op_witness :
    clk_core_set_rate_nolock Hw.quiet 1 orphan1 (some 0) 200 =
      some (-EINVAL, { orphan1 with new_rate := Function.update orphan1.new_rate 0 100 }) :=
  set_rate_no_round_op Hw.quiet 0 orphan1 0 200 rfl rfl (Or.inl rfl)

theorem foldlM_total {α β : Type} (f : β → α → Option β) (l : List α)
    (h : ∀ x ∈ l, ∀ b, ∃ r, f b x = some r) (b : β) : ∃ r, l.foldlM f b = some r := by
  induction l generalizing b with
  | nil => exact ⟨b, rfl⟩
  | cons x l ih =>
    obtain ⟨r, hr⟩ := h x (List.mem_cons_self _ _) b
    obtain ⟨r2, hr2⟩ := ih (fun y hy => h y (List.mem_cons_of_mem _ hy)) r
    exact ⟨r2, by simp [List.foldlM, hr, hr2]⟩

theorem __clk_lookup_subtree_total {ht : Nat → Nat} (fuel : Nat) (s : State) (name : String)
    (core : Nat) (hht : IsHeight s.children ht) (hf : ht core < fuel) :
    ∃ r, __clk_lookup_subtree fuel s name core = some r := by
  induction fuel generalizing core with
  | zero => omega
  | succ fuel ih =>
    unfold __clk_lookup_subtree
    split
    · exact ⟨_, rfl⟩
    · refine foldlM_total _ _ ?_ _
      intro x hx b
      split
      · exact ⟨_, rfl⟩
      · exact ih x (by have := hht core x hx; omega)

theorem clk_core_lookup_total {ht : Nat → Nat} (fuel : Nat) (s : State) (name : Option String)
    (hht : IsHeight s.children ht)
    (hf : ∀ r ∈ s.clk_root_list ++ s.clk_orphan_list, ht r < fuel) :
    ∃ r, clk_core_lookup fuel s name = some r := by
  unfold clk_core_lookup
  cases name with
  | none => exact ⟨_, rfl⟩
  | some name =>
    refine foldlM_total _ _ ?_ _
    intro x hx b
    split
    · exact ⟨_, rfl⟩
    · exact __clk_lookup_subtree_total fuel s name x hht (hf x hx)

theorem clk_core_fill_parent_index_frame (hw : Hw) (fuel : Nat) (s s1 : State) (core index : Nat)
    (h : clk_core_fill_parent_index hw fuel s core index = some s1) :
    ∃ pm, s1 = { s with parents := pm } := by
  unfold clk_core_fill_parent_index at h
  simp only at h
  split at h
  · cases h
  · simp only [Option.some.injEq] at h
    exact ⟨s.parents, h.symm⟩
  · simp only [Option.some.injEq] at h
    exact ⟨_, h.symm⟩
  · simp only [Option.some.injEq] at h
    exact ⟨_, h.symm⟩

theorem clk_core_fill_parent_index_total {ht : Nat → Nat} (hw : Hw) (fuel : Nat) (s : State)
    (core index : Nat) (hht : IsHeight s.children ht)
    (hf : ∀ r ∈ s.clk_root_list ++ s.clk_orphan_list, ht r < fuel) :
    ∃ s1, clk_core_fill_parent_index hw fuel s core index = some s1 := by
  obtain ⟨r, hr⟩ := clk_core_lookup_total fuel s ((s.parents core).getD index {}).name hht hf
  unfold clk_core_fill_parent_index
  simp only [hr]
  split
  · rename_i h
    split at h
    · split at h <;> cases h
    · split at h
      · cases r <;> simp at h
      · cases h
  · exact ⟨_, rfl⟩
  · exact ⟨_, rfl⟩
  · exact ⟨_, rfl⟩

theorem clk_core_get_parent_by_index_frame (hw : Hw) (fuel : Nat) (s s1 : State)
    (core : Option Nat) (index : Nat) (p : Option Nat)
    (h : clk_core_get_parent_by_index hw fuel s core index = some (p, s1)) :
    ∃ pm, s1 = { s with parents := pm } := by
  unfold clk_core_get_parent_by_index at h
  cases core with
  | none =>
    simp only [Option.some.injEq, Prod.mk.injEq] at h
    exact ⟨s.parents, h.2.symm⟩
  | some c =>
    simp only at h
    split at h
    · simp only [Option.some.injEq, Prod.mk.injEq] at h
      exact ⟨s.parents, h.2.symm⟩
    · split at h
      · cases h
      · rename_i s2 h2
        simp only [Option.some.injEq, Prod.mk.injEq] at h
        rw [← h.2]
        split at h2
        · exact clk_core_fill_parent_index_frame _ _ _ _ _ _ h2
        · simp only [Option.some.injEq] at h2
          exact ⟨s.parents, h2.symm⟩

theorem clk_core_get_parent_by_index_total {ht : Nat → Nat} (hw : Hw) (fuel : Nat) (s : State)
    (core : Option Nat) (index : Nat) (hht : IsHeight s.children ht)
    (hf : ∀ r ∈ s.clk_root_list ++ s.clk_orphan_list, ht r < fuel) :
    ∃ r, clk_core_get_parent_by_index hw fuel s core index = some r := by
  unfold clk_core_get_parent_by_index
  cases core with
  | none => exact ⟨_, rfl⟩
  | some c =>
    simp only
    split
    · exact ⟨_, rfl⟩
    · by_cases hc : ((s.parents c).getD index {}).core.isNone = true
      · obtain ⟨s1, hs1⟩ := clk_core_fill_parent_index_total hw fuel s c index hht hf
        simp only [hc, if_true, hs1]
        exact ⟨_, rfl⟩
      · simp only [hc, if_false, Bool.false_eq_true]
        exact ⟨_, rfl⟩

theorem mux_parents_total {ht : Nat → Nat} (hw : Hw) (fuel : Nat) (core : Nat) (l : List Nat)
    (s : State) (hht : IsHeight s.children ht)
    (hf : ∀ r ∈ s.clk_root_list ++ s.clk_orphan_list, ht r < fuel) :
    ∃ ps s', mux_parents hw fuel core s l = some (ps, s') := by
  induction l generalizing s with
  | nil => exact ⟨_, _, rfl⟩
  | cons i l ih =>
    obtain ⟨⟨p, s1⟩, h1⟩ := clk_core_get_parent_by_index_total hw fuel s (some core) i hht hf
    obtain ⟨pm, hpm⟩ := clk_core_get_parent_by_index_frame _ _ _ _ _ _ _ h1
    have hht1 : IsHeight s1.children ht := by rw [hpm]; exact hht
    have hf1 : ∀ r ∈ s1.clk_root_list ++ s1.clk_orphan_list, ht r < fuel := by
      rw [hpm]; exact hf
    obtain ⟨ps, s2, h2⟩ := ih s1 hht1 hf1
    exact ⟨p.toList ++ ps, s2, by simp only [mux_parents, h1, h2]⟩

theorem mux_loop_spec (hw : Hw) (fuel : Nat) (core : Nat) (req : clk_rate_request)
    (flags : Nat) (l : List Nat) (s : State) (bp : Option Nat) (best : Nat) (ps : List Nat)
    (s' : State) (hsp : (s.flags core).CLK_SET_RATE_PARENT = false)
    (h : mux_parents hw fuel core s l = some (ps, s')) :
    (∃ pm, s' = { s with parents := pm }) ∧
    l.foldlM (clk_mux_determine_rate_flags.step hw fuel core req flags) (bp, best, s)
      = some ((mux_select (fun p => clk_core_get_rate_nolock s (some p)) req.rate flags ps
                (bp, best)).1,
              (mux_select (fun p => clk_core_get_rate_nolock s (some p)) req.rate flags ps
                (bp, best)).2, s') := by
  induction l generalizing s bp best ps with
  | nil =>
    simp only [mux_parents, Option.some.injEq, Prod.mk.injEq] at h
    obtain ⟨h1, h2⟩ := h
    subst h1 h2
    exact ⟨⟨s.parents, rfl⟩, rfl⟩
  | cons i l ih =>
    unfold mux_parents at h
    split at h
    · cases h
    · rename_i p s1 h1
      split at h
      · cases h
      · rename_i ps1 s2 h2
        simp only [Option.some.injEq, Prod.mk.injEq] at h
        obtain ⟨hps, hs2⟩ := h
        subst hps hs2
        obtain ⟨pm, hpm⟩ := clk_core_get_parent_by_index_frame _ _ _ _ _ _ _ h1
        subst hpm
        have hstep : clk_mux_determine_rate_flags.step hw fuel core req flags (bp, best, s) i
            = some ((mux_select (fun p => clk_core_get_rate_nolock s (some p)) req.rate flags
                      p.toList (bp, best)).1,
                    (mux_select (fun p => clk_core_get_rate_nolock s (some p)) req.rate flags
                      p.toList (bp, best)).2, { s with parents := pm }) := by
          unfold clk_mux_determine_rate_flags.step
          simp only [h1]
          cases p with
          | none => rfl
          | some q =>
            simp only [hsp, Bool.false_eq_true, if_false, Option.toList, mux_select,
              List.foldl_cons, List.foldl_nil]
            have e : clk_core_get_rate_nolock { s with parents := pm } (some q)
                = clk_core_get_rate_nolock s (some q) := rfl
            rw [e]
            split <;> rfl
        obtain ⟨⟨pm2, hpm2⟩, hfold⟩ := ih { s with parents := pm } _ _ ps1 hsp h2
        refine ⟨⟨pm2, by rw [hpm2]⟩, ?_⟩
        simp only [List.foldlM, hstep]
        rw [show (some ((mux_select (fun p => clk_core_get_rate_nolock s (some p)) req.rate flags
                      p.toList (bp, best)).1,
                    (mux_select (fun p => clk_core_get_rate_nolock s (some p)) req.rate flags
                      p.toList (bp, best)).2, ({ s with parents := pm } : State)) >>=
              fun b => List.foldlM (clk_mux_determine_rate_flags.step hw fuel core req flags) b l)
            = List.foldlM (clk_mux_determine_rate_flags.step hw fuel core req flags)
                ((mux_select (fun p => clk_core_get_rate_nolock s (some p)) req.rate flags
                      p.toList (bp, best)).1,
                    (mux_select (fun p => clk_core_get_rate_nolock s (some p)) req.rate flags
                      p.toList (bp, best)).2, ({ s with parents := pm } : State)) l from rfl]
        rw [hfold]
        simp only [mux_select, List.foldl_append]
        rfl

theorem mux_select_cons (R : Nat → Nat) (rate flags : Nat) (p : Nat) (ps : List Nat)
    (acc : Option Nat × Nat) :
    mux_select R rate flags (p :: ps) acc
      = mux_select R rate flags ps
          (if mux_is_better_rate rate (R p) acc.2 flags then (some p, R p) else acc) := rfl

theorem mux_is_better_rate_default (rate now best : Nat) :
    mux_is_better_rate rate now best 0 = true ↔ now ≤ rate ∧ best < now := by
  simp [mux_is_better_rate, CLK_MUX_ROUND_CLOSEST]

theorem mux_is_better_rate_closest (rate now best : Nat) :
    mux_is_better_rate rate now best CLK_MUX_ROUND_CLOSEST = true ↔
      abs_long ((now : Int) - rate) < abs_long ((best : Int) - rate) := by
  simp [mux_is_better_rate, CLK_MUX_ROUND_CLOSEST]

theorem abs_long_sub (a b : Nat) (ha : a < 2 ^ 63) (hb : b < 2 ^ 63) :
    abs_long ((a : Int) - b) = (Int.natAbs ((a : Int) - b) : Int) := by
  unfold abs_long to_long
  norm_num at ha hb ⊢
  by_cases hab : b ≤ a
  · have e1 : ((a : Int) - b) % 18446744073709551616 = (a : Int) - b := by omega
    rw [e1]
    have h1 : (a : Int) - b < 9223372036854775808 := by omega
    have h2 : ¬ ((a : Int) - b < 0) := by omega
    simp only [h1, if_true, h2, if_false]
    exact (abs_of_nonneg (by omega)).symm
  · have e1 : ((a : Int) - b) % 18446744073709551616 = (a : Int) - b + 18446744073709551616 := by
      omega
    rw [e1]
    have h1 : ¬ ((a : Int) - b + 18446744073709551616 < 9223372036854775808) := by omega
    simp only [h1, if_false]
    have h2 : (a : Int) - b + 18446744073709551616 - 18446744073709551616 < 0 := by omega
    simp only [h2, if_true]
    have e2 : (-((a : Int) - b + 18446744073709551616 - 18446744073709551616))
        % 18446744073709551616 = (b : Int) - a := by omega
    rw [e2]
    have h3 : (b : Int) - a < 9223372036854775808 := by omega
    simp only [h3, if_true]
    rw [abs_of_neg (by omega)]
    omega

theorem mux_select_default (R : Nat → Nat) (rate : Nat) (ps : List Nat) (bp : Option Nat)
    (best : Nat) :
    best ≤ (mux_select R rate 0 ps (bp, best)).2 ∧
    (∀ q ∈ ps, R q ≤ rate → R q ≤ (mux_select R rate 0 ps (bp, best)).2) ∧
    (mux_select R rate 0 ps (bp, best) = (bp, best) ∨
      ∃ p ∈ ps, mux_select R rate 0 ps (bp, best) = (some p, R p) ∧ R p ≤ rate ∧
        best < R p) := by
  induction ps generalizing bp best with
  | nil => exact ⟨le_refl _, ⟨fun q hq => absurd hq (List.not_mem_nil q), Or.inl rfl⟩⟩
  | cons p ps ih =>
    rw [mux_select_cons]
    by_cases hb : mux_is_better_rate rate (R p) best 0 = true
    · simp only [hb, if_true]
      obtain ⟨hle, hlt⟩ := (mux_is_better_rate_default _ _ _).1 hb
      obtain ⟨i1, i2, i3⟩ := ih (some p) (R p)
      refine ⟨by omega, ?_, Or.inr ?_⟩
      · intro q hq hqr
        rcases List.mem_cons.1 hq with e | hq
        · subst e; exact i1
        · exact i2 q hq hqr
      · rcases i3 with e | ⟨p2, hp2, e, h1, h2⟩
        · exact ⟨p, List.mem_cons_self _ _, e, hle, hlt⟩
        · exact ⟨p2, List.mem_cons_of_mem _ hp2, e, h1, by omega⟩
    · simp only [hb, if_false, Bool.false_eq_true]
      have hnb : ¬ (R p ≤ rate ∧ best < R p) := fun h =>
        hb ((mux_is_better_rate_default _ _ _).2 h)
      obtain ⟨i1, i2, i3⟩ := ih bp best
      refine ⟨i1, ?_, ?_⟩
      · intro q hq hqr
        rcases List.mem_cons.1 hq with e | hq
        · subst e
          have : R q ≤ best := by
            by_contra hc
            exact hnb ⟨hqr, by omega⟩
          omega
        · exact i2 q hq hqr
      · rcases i3 with e | ⟨p2, hp2, e, h1, h2⟩
        · exact Or.inl e
        · exact Or.inr ⟨p2, List.mem_cons_of_mem _ hp2, e, h1, h2⟩

theorem mux_select_closest (R : Nat → Nat) (rate : Nat) (ps : List Nat) (bp : Option Nat)
    (best : Nat) :
    abs_long (((mux_select R rate CLK_MUX_ROUND_CLOSEST ps (bp, best)).2 : Int) - rate)
      ≤ abs_long ((best : Int) - rate) ∧
    (∀ q ∈ ps,
      abs_long (((mux_select R rate CLK_MUX_ROUND_CLOSEST ps (bp, best)).2 : Int) - rate)
        ≤ abs_long ((R q : Int) - rate)) ∧
    (mux_select R rate CLK_MUX_ROUND_CLOSEST ps (bp, best) = (bp, best) ∨
      ∃ p ∈ ps, mux_select R rate CLK_MUX_ROUND_CLOSEST ps (bp, best) = (some p, R p) ∧
        abs_long ((R p : Int) - rate) < abs_long ((best : Int) - rate)) := by
  induction ps generalizing bp best with
  | nil => exact ⟨le_refl _, ⟨fun q hq => absurd hq (List.not_mem_nil q), Or.inl rfl⟩⟩
  | cons p ps ih =>
    rw [mux_select_cons]
    by_cases hb : mux_is_better_rate rate (R p) best CLK_MUX_ROUND_CLOSEST = true
    · simp only [hb, if_true]
      have hlt := (mux_is_better_rate_closest _ _ _).1 hb
      obtain ⟨i1, i2, i3⟩ := ih (some p) (R p)
      refine ⟨by omega, ?_, Or.inr ?_⟩
      · intro q hq
        rcases List.mem_cons.1 hq with e | hq
        · subst e; exact i1
        · exact i2 q hq
      · rcases i3 with e | ⟨p2, hp2, e, h1⟩
        · exact ⟨p, List.mem_cons_self _ _, e, hlt⟩
        · exact ⟨p2, List.mem_cons_of_mem _ hp2, e, by omega⟩
    · simp only [hb, if_false, Bool.false_eq_true]
      have hnb : ¬ (abs_long ((R p : Int) - rate) < abs_long ((best : Int) - rate)) :=
        fun h => hb ((mux_is_better_rate_closest _ _ _).2 h)
      obtain ⟨i1, i2, i3⟩ := ih bp best
      refine ⟨i1, ?_, ?_⟩
      · intro q hq
        rcases List.mem_cons.1 hq with e | hq
        · subst e; omega
        · exact i2 q hq
      · rcases i3 with e | ⟨p2, hp2, e, h1⟩
        · exact Or.inl e
        · exact Or.inr ⟨p2, List.mem_cons_of_mem _ hp2, e, h1⟩

theorem IsHeight_mux1 : IsHeight mux1.children (fun n => if n = 1 then 1 else 0) := by
  intro p c hc
  by_cases hp : p = 1
  · subst hp
    have : c = 0 := by simpa [mux1] using hc
    subst this
    decide
  · simp [mux1, hp] at hc

/-- C15: the default policy of the mux. For a mux node without `CLK_SET_RATE_NO_REPARENT` and
without `CLK_SET_RATE_PARENT`, on a finite forest, `clk_mux_determine_rate_flags(hw, req, 0)`
resolves its parents `ps` and, when one of them runs at a rate `r` with `0 < r <= req.rate`,
returns 0 with `req.rate = req.best_parent_rate` = the highest current rate among the resolved
parents that does not exceed the requested rate and `best_parent_hw` = a parent running at that
rate; it returns `-EINVAL`, with `*req` untouched, exactly when no resolved parent has such a
rate. -/
theorem mux_default_policy {ht : Nat → Nat} (hw : Hw) (fuel : Nat) (s : State) (hwn core : Nat)
    (req : clk_rate_request)
    (hcore : s.hw_core hwn = some core)
    (hnr : (s.flags core).CLK_SET_RATE_NO_REPARENT = false)
    (hsp : (s.flags core).CLK_SET_RATE_PARENT = false)
    (hht : IsHeight s.children ht)
    (hfuel : ∀ r ∈ s.clk_root_list ++ s.clk_orphan_list, ht r < fuel) :
    ∃ ps s', mux_parents hw fuel core s (List.range (s.num_parents core)) = some (ps, s') ∧
      ((∃ q ∈ ps, 0 < clk_core_get_rate_nolock s (some q) ∧
            clk_core_get_rate_nolock s (some q) ≤ req.rate) →
        ∃ p ∈ ps, 0 < clk_core_get_rate_nolock s (some p) ∧
          clk_core_get_rate_nolock s (some p) ≤ req.rate ∧
          (∀ q ∈ ps, clk_core_get_rate_nolock s (some q) ≤ req.rate →
            clk_core_get_rate_nolock s (some q) ≤ clk_core_get_rate_nolock s (some p)) ∧
          clk_mux_determine_rate_flags hw fuel s hwn req 0
            = some (0, { req with best_parent_hw := some p, best_parent_rate := clk_core_get_rate_nolock s (some p), rate := clk_core_get_rate_nolock s (some p) }, s')) ∧
      ((¬ ∃ q ∈ ps, 0 < clk_core_get_rate_nolock s (some q) ∧
            clk_core_get_rate_nolock s (some q) ≤ req.rate) →
        clk_mux_determine_rate_flags hw fuel s hwn req 0 = some (-EINVAL, req, s')) := by
  obtain ⟨ps, s', hps⟩ := mux_parents_total hw fuel core (List.range (s.num_parents core)) s
    hht hfuel
  obtain ⟨_, hfold⟩ := mux_loop_spec hw fuel core req 0 _ s none 0 ps s' hsp hps
  obtain ⟨_, hmax, hsel⟩ :=
    mux_select_default (fun p => clk_core_get_rate_nolock s (some p)) req.rate ps none 0
  refine ⟨ps, s', hps, ?_, ?_⟩
  · rintro ⟨q, hq, hq0, hqr⟩
    rcases hsel with e | ⟨p, hp, e, hpr, hp0⟩
    · have := hmax q hq hqr
      rw [e] at this
      simp only at this
      omega
    · refine ⟨p, hp, hp0, hpr, ?_, ?_⟩
      · intro q2 hq2 hle
        have := hmax q2 hq2 hle
        rw [e] at this
        exact this
      · unfold clk_mux_determine_rate_flags
        simp only [hcore, hnr, Bool.false_eq_true, if_false, hfold, e]
  · intro hno
    rcases hsel with e | ⟨p, hp, e, hpr, hp0⟩
    · unfold clk_mux_determine_rate_flags
      simp only [hcore, hnr, Bool.false_eq_true, if_false, hfold, e]
    · exact absurd ⟨p, hp, hp0, hpr⟩ hno

theorem mux_default_policy_witness :
    (clk_mux_determine_rate_flags Hw.quiet 3 mux_rates 0 { rate := 70000000 } 0).map
        (fun x => (x.1, x.2.1)) =
      some (0, { rate := 50000000, best_parent_rate := 50000000, best_parent_hw := some 2 }) ∧
    ∃ ps s', mux_parents Hw.quiet 3 0 mux_rates (List.range (mux_rates.num_parents 0))
        = some (ps, s') ∧
      ((∃ q ∈ ps, 0 < clk_core_get_rate_nolock mux_rates (some q) ∧
            clk_core_get_rate_nolock mux_rates (some q) ≤ 70000000) →
        ∃ p ∈ ps, 0 < clk_core_get_rate_nolock mux_rates (some p) ∧
          clk_core_get_rate_nolock mux_rates (some p) ≤ 70000000 ∧
          (∀ q ∈ ps, clk_core_get_rate_nolock mux_rates (some q) ≤ 70000000 →
            clk_core_get_rate_nolock mux_rates (some q)
              ≤ clk_core_get_rate_nolock mux_rates (some p)) ∧
          clk_mux_determine_rate_flags Hw.quiet 3 mux_rates 0 { rate := 70000000 } 0
            = some (0, { rate := clk_core_get_rate_nolock mux_rates (some p), best_parent_rate := clk_core_get_rate_nolock mux_rates (some p), best_parent_hw := some p }, s')) ∧
      ((¬ ∃ q ∈ ps, 0 < clk_core_get_rate_nolock mux_rates (some q) ∧
            clk_core_get_rate_nolock mux_rates (some q) ≤ 70000000) →
        clk_mux_determine_rate_flags Hw.quiet 3 mux_rates 0 { rate := 70000000 } 0
          = some (-EINVAL, { rate := 70000000 }, s')) :=
  ⟨by decide, mux_default_policy Hw.quiet 3 mux_rates 0 0 { rate := 70000000 } rfl rfl rfl
    IsHeight_mux1 (by decide)⟩

/-- C16 (amended): the `CLK_MUX_ROUND_CLOSEST` policy of the mux. For a mux node without
`CLK_SET_RATE_NO_REPARENT` and without `CLK_SET_RATE_PARENT`, on a finite forest with all rates
and the request below `2 ^ 63`, `clk_mux_determine_rate_flags(hw, req, CLK_MUX_ROUND_CLOSEST)`
resolves its parents `ps`; when one of them runs at a rate strictly closer to the requested
rate than 0 is (`|r - req.rate| < req.rate`), it returns 0 with the rate of a resolved parent
whose distance `|parent_rate - req.rate|` is minimal among all resolved parents; when none
does, it returns `-EINVAL` although there may be resolved parents, because the comparison
starts from `best = 0`. -/
theorem mux_closest_policy {ht : Nat → Nat} (hw : Hw) (fuel : Nat) (s : State) (hwn core : Nat)
    (req : clk_rate_request)
    (hcore : s.hw_core hwn = some core)
    (hnr : (s.flags core).CLK_SET_RATE_NO_REPARENT = false)
    (hsp : (s.flags core).CLK_SET_RATE_PARENT = false)
    (hht : IsHeight s.children ht)
    (hfuel : ∀ r ∈ s.clk_root_list ++ s.clk_orphan_list, ht r < fuel)
    (hreq : req.rate < 2 ^ 63) (hrates : ∀ n, s.rate n < 2 ^ 63) :
    ∃ ps s', mux_parents hw fuel core s (List.range (s.num_parents core)) = some (ps, s') ∧
      ((∃ q ∈ ps, Int.natAbs ((clk_core_get_rate_nolock s (some q) : Int) - req.rate)
            < req.rate) →
        ∃ p ∈ ps,
          Int.natAbs ((clk_core_get_rate_nolock s (some p) : Int) - req.rate) < req.rate ∧
          (∀ q ∈ ps, Int.natAbs ((clk_core_get_rate_nolock s (some p) : Int) - req.rate)
            ≤ Int.natAbs ((clk_core_get_rate_nolock s (some q) : Int) - req.rate)) ∧
          clk_mux_determine_rate_flags hw fuel s hwn req CLK_MUX_ROUND_CLOSEST
            = some (0, { req with best_parent_hw := some p, best_parent_rate := clk_core_get_rate_nolock s (some p), rate := clk_core_get_rate_nolock s (some p) }, s')) ∧
      ((¬ ∃ q ∈ ps, Int.natAbs ((clk_core_get_rate_nolock s (some q) : Int) - req.rate)
            < req.rate) →
        clk_mux_determine_rate_flags hw fuel s hwn req CLK_MUX_ROUND_CLOSEST
          = some (-EINVAL, req, s')) := by
  obtain ⟨ps, s', hps⟩ := mux_parents_total hw fuel core (List.range (s.num_parents core)) s
    hht hfuel
  obtain ⟨_, hfold⟩ :=
    mux_loop_spec hw fuel core req CLK_MUX_ROUND_CLOSEST _ s none 0 ps s' hsp hps
  obtain ⟨_, hmin, hsel⟩ :=
    mux_select_closest (fun p => clk_core_get_rate_nolock s (some p)) req.rate ps none 0
  have hR : ∀ n, clk_core_get_rate_nolock s (some n) < 2 ^ 63 := by
    intro n
    show (if s.num_parents n = 0 || (s.parent n).isSome then s.rate n else 0) < 2 ^ 63
    split
    · exact hrates n
    · norm_num
  have hd : ∀ n, abs_long ((clk_core_get_rate_nolock s (some n) : Int) - req.rate)
      = (Int.natAbs ((clk_core_get_rate_nolock s (some n) : Int) - req.rate) : Int) :=
    fun n => abs_long_sub _ _ (hR n) hreq
  have hd0 : abs_long (((0 : Nat) : Int) - req.rate) = (req.rate : Int) := by
    rw [abs_long_sub 0 req.rate (by norm_num) hreq]
    omega
  refine ⟨ps, s', hps, ?_, ?_⟩
  · rintro ⟨q, hq, hqd⟩
    rcases hsel with e | ⟨p, hp, e, hpd⟩
    · have := hmin q hq
      rw [e] at this
      rw [hd0, hd q] at this
      omega
    · rw [hd0, hd p] at hpd
      refine ⟨p, hp, by omega, ?_, ?_⟩
      · intro q2 hq2
        have := hmin q2 hq2
        rw [e] at this
        rw [hd p, hd q2] at this
        omega
      · unfold clk_mux_determine_rate_flags
        simp only [hcore, hnr, Bool.false_eq_true, if_false, hfold, e]
  · intro hno
    rcases hsel with e | ⟨p, hp, e, hpd⟩
    · unfold clk_mux_determine_rate_flags
      simp only [hcore, hnr, Bool.false_eq_true, if_false, hfold, e]
    · rw [hd0, hd p] at hpd
      exact absurd ⟨p, hp, by omega⟩ hno

/-- C16 as stated fails: the mux whose only possible parent runs at 100 MHz has a resolvable
parent, yet `clk_mux_determine_rate_flags(hw, req, CLK_MUX_ROUND_CLOSEST)` for 40 MHz selects
nothing and returns `-EINVAL`: 100 MHz is 60 MHz away from the request, not closer than the
initial `best = 0`, which is 40 MHz away. -/
theorem mux_closest_policy_counterexample :
    (mux_parents Hw.quiet 3 0 mux_single (List.range (mux_single.num_parents 0))).map Prod.fst
      = some [1] ∧
    clk_core_get_rate_nolock mux_single (some 1) = 100000000 ∧
    (clk_mux_determine_rate_flags Hw.quiet 3 mux_single 0 { rate := 40000000 }
        CLK_MUX_ROUND_CLOSEST).map (fun x => (x.1, x.2.1))
      = some (-EINVAL, { rate := 40000000 }) := by
  decide

theorem mux_closest_policy_witness :
    ((mux_parents Hw.quiet 3 0 mux_rates (List.range (mux_rates.num_parents 0))).map Prod.fst
        = some [1, 2] ∧
      (clk_mux_determine_rate_flags Hw.quiet 3 mux_rates 0 { rate := 40000000 }
          CLK_MUX_ROUND_CLOSEST).map (fun x => (x.1, x.2.1)) =
        some (0, { rate := 50000000, best_parent_rate := 50000000,
                   best_parent_hw := some 2 })) ∧
    ∃ ps s', mux_parents Hw.quiet 3 0 mux_rates (List.range (mux_rates.num_parents 0))
        = some (ps, s') ∧
      ((∃ q ∈ ps, Int.natAbs ((clk_core_get_rate_nolock mux_rates (some q) : Int)
            - (40000000 : Nat)) < 40000000) →
        ∃ p ∈ ps,
          Int.natAbs ((clk_core_get_rate_nolock mux_rates (some p) : Int) - (40000000 : Nat))
            < 40000000 ∧
          (∀ q ∈ ps,
            Int.natAbs ((clk_core_get_rate_nolock mux_rates (some p) : Int) - (40000000 : Nat))
              ≤ Int.natAbs ((clk_core_get_rate_nolock mux_rates (some q) : Int)
                  - (40000000 : Nat))) ∧
          clk_mux_determine_rate_flags Hw.quiet 3 mux_rates 0 { rate := 40000000 }
              CLK_MUX_ROUND_CLOSEST
            = some (0, { rate := clk_core_get_rate_nolock mux_rates (some p), best_parent_rate := clk_core_get_rate_nolock mux_rates (some p), best_parent_hw := some p }, s')) ∧
      ((¬ ∃ q ∈ ps, Int.natAbs ((clk_core_get_rate_nolock mux_rates (some q) : Int)
            - (40000000 : Nat)) < 40000000) →
        clk_mux_determine_rate_flags Hw.quiet 3 mux_rates 0 { rate := 40000000 }
            CLK_MUX_ROUND_CLOSEST
          = some (-EINVAL, { rate := 40000000 }, s')) :=
  ⟨by decide, mux_closest_policy Hw.quiet 3 mux_rates 0 0 { rate := 40000000 } rfl rfl rfl
    IsHeight_mux1 (by decide) (by decide)
    (by
      intro n
      show (if n = 1 then 100000000 else if n = 2 then 50000000 else 0) < 2 ^ 63
      split
      · norm_num
      · split <;> norm_num)⟩

theorem QuietExt_refl (s : State) : QuietExt s s :=
  ⟨[], by simp, by simp⟩

theorem QuietExt_trans {s s1 s2 : State} (h1 : QuietExt s s1) (h2 : QuietExt s1 s2) :
    QuietExt s s2 := by
  obtain ⟨e1, h1, q1⟩ := h1
  obtain ⟨e2, h2, q2⟩ := h2
  refine ⟨e1 ++ e2, by rw [h2, h1, List.append_assoc], ?_⟩
  intro e he
  rcases List.mem_append.1 he with h | h
  · exact q1 e h
  · exact q2 e h

theorem QuietExt_of_trace {s s' : State} (h : s'.trace = s.trace) : QuietExt s s' :=
  ⟨[], by simp [h], by simp⟩

theorem QuietExt_log (s : State) (e : clk_event) (he : clk_event.is_quiet e = true) :
    QuietExt s (s.log e) :=
  ⟨[e], rfl, by simpa using he⟩

theorem QuietExt_enable (s : State) (c : Nat → Nat) :
    QuietExt s { s with enable_count := c } := QuietExt_of_trace rfl

theorem QuietExt_prepare (s : State) (c : Nat → Nat) :
    QuietExt s { s with prepare_count := c } := QuietExt_of_trace rfl

theorem QuietExt_log_r {s a : State} (e : clk_event) (h : QuietExt s a)
    (he : clk_event.is_quiet e = true) : QuietExt s (a.log e) :=
  QuietExt_trans h (QuietExt_log _ _ he)

theorem QuietExt_enable_r {s a : State} (c : Nat → Nat) (h : QuietExt s a) :
    QuietExt s { a with enable_count := c } := QuietExt_trans h (QuietExt_enable _ _)

theorem QuietExt_prepare_r {s a : State} (c : Nat → Nat) (h : QuietExt s a) :
    QuietExt s { a with prepare_count := c } := QuietExt_trans h (QuietExt_prepare _ _)

theorem QuietExt_ite_r {s a b : State} (c : Prop) [Decidable c] (ha : QuietExt s a)
    (hb : QuietExt s b) : QuietExt s (if c then a else b) := by
  split
  · exact ha
  · exact hb

theorem is_quiet_of_is_pm (e : clk_event) (h : clk_event.is_pm e = true) :
    clk_event.is_quiet e = true := by
  cases e <;> simp_all [clk_event.is_pm, clk_event.is_quiet, clk_event.is_set_op,
    clk_event.is_notify]

theorem QuietExt_of_plan {s s' : State} (h : PlanFrame s s') : QuietExt s s' := by
  obtain ⟨-, -, -, ext, e, q⟩ := PlanFrame_facts h
  exact ⟨ext, e, fun x hx => is_quiet_of_is_pm x (q x hx)⟩

theorem clk_pm_runtime_get_quiet (hw : Hw) (s : State) (c : Nat) :
    QuietExt s (clk_pm_runtime_get hw s c).2 :=
  QuietExt_of_plan (clk_pm_runtime_get_plan hw s c)

theorem clk_pm_runtime_put_quiet (s : State) (c : Nat) :
    QuietExt s (clk_pm_runtime_put s c) :=
  QuietExt_of_plan (clk_pm_runtime_put_plan s c)

theorem QuietExt_pm_put_r {s a : State} (c : Nat) (h : QuietExt s a) :
    QuietExt s (clk_pm_runtime_put a c) := QuietExt_trans h (clk_pm_runtime_put_quiet _ _)

theorem clk_core_rate_unprotect_quiet (fuel : Nat) (s s' : State) (m : Option Nat)
    (h : clk_core_rate_unprotect fuel s m = some s') : QuietExt s s' := by
  obtain ⟨pc, rfl⟩ := clk_core_rate_unprotect_frame fuel s s' m h
  exact QuietExt_of_trace rfl

theorem clk_core_rate_protect_quiet (fuel : Nat) (s s' : State) (m : Option Nat)
    (h : clk_core_rate_protect fuel s m = some s') : QuietExt s s' := by
  obtain ⟨pc, rfl⟩ := clk_core_rate_protect_frame fuel s s' m h
  exact QuietExt_of_trace rfl

theorem clk_core_unprepare_quiet (fuel : Nat) (s s' : State) (m : Option Nat)
    (h : clk_core_unprepare fuel s m = some s') : QuietExt s s' := by
  induction fuel generalizing s s' m with
  | zero =>
    cases m with
    | none => simp [clk_core_unprepare] at h; subst h; exact QuietExt_refl s
    | some c => simp [clk_core_unprepare] at h
  | succ fuel ih =>
    cases m with
    | none => simp [clk_core_unprepare] at h; subst h; exact QuietExt_refl s
    | some c =>
      unfold clk_core_unprepare at h
      simp only at h
      split at h
      · simp at h; subst h; exact QuietExt_refl s
      · split at h
        · simp at h; subst h; exact QuietExt_refl s
        · cases hu : (if (s.flags c).CLK_SET_RATE_GATE = true then
              clk_core_rate_unprotect (fuel + 1) s (some c) else some s) with
          | none => simp [hu] at h
          | some s1 =>
            have f1 : QuietExt s s1 := by
              split at hu
              · exact clk_core_rate_unprotect_quiet _ _ _ _ hu
              · simp at hu; subst hu; exact QuietExt_refl s
            simp only [hu] at h
            split at h
            · simp at h; subst h
              exact QuietExt_prepare_r _ f1
            · refine QuietExt_trans ?_ (ih _ _ _ h)
              apply QuietExt_pm_put_r
              apply QuietExt_ite_r
              · exact QuietExt_log_r _ (QuietExt_prepare_r _ f1) (by rfl)
              · exact QuietExt_prepare_r _ f1

theorem clk_core_disable_quiet (fuel : Nat) (s s' : State) (m : Option Nat)
    (h : clk_core_disable fuel s m = some s') : QuietExt s s' := by
  induction fuel generalizing s s' m with
  | zero =>
    cases m with
    | none => simp [clk_core_disable] at h; subst h; exact QuietExt_refl s
    | some c => simp [clk_core_disable] at h
  | succ fuel ih =>
    cases m with
    | none => simp [clk_core_disable] at h; subst h; exact QuietExt_refl s
    | some c =>
      unfold clk_core_disable at h
      simp only at h
      split at h
      · simp at h; subst h; exact QuietExt_refl s
      · split at h
        · simp at h; subst h; exact QuietExt_refl s
        · split at h
          · simp at h; subst h; exact QuietExt_enable _ _
          · refine QuietExt_trans ?_ (ih _ _ _ h)
            apply QuietExt_ite_r
            · exact QuietExt_log_r _ (QuietExt_enable _ _) (by rfl)
            · exact QuietExt_enable _ _

theorem clk_core_enable_quiet (hw : Hw) (fuel : Nat) (s s' : State) (m : Option Nat) (ret : Int)
    (h : clk_core_enable hw fuel s m = some (ret, s')) : QuietExt s s' := by
  induction fuel generalizing s s' m ret with
  | zero =>
    cases m with
    | none => simp [clk_core_enable] at h; rw [← h.2]; exact QuietExt_refl s
    | some c => simp [clk_core_enable] at h
  | succ fuel ih =>
    cases m with
    | none => simp [clk_core_enable] at h; rw [← h.2]; exact QuietExt_refl s
    | some c =>
      unfold clk_core_enable at h
      by_cases h1 : s.prepare_count c = 0
      · simp [h1] at h; rw [← h.2]; exact QuietExt_refl s
      · by_cases h2 : s.enable_count c = 0
        · simp only [h1, h2, if_true, if_false] at h
          cases hp : clk_core_enable hw fuel s (s.parent c) with
          | none => simp [hp] at h
          | some r =>
            obtain ⟨r1, s1⟩ := r
            have f1 := ih _ _ _ _ hp
            simp only [hp] at h
            by_cases h3 : r1 = 0
            · have fe : QuietExt s (if (s1.ops c).enable = true then s1.log (.op_enable c)
                  else s1) := QuietExt_ite_r _ (QuietExt_log_r _ f1 (by rfl)) f1
              by_cases h4 : (if (s1.ops c).enable = true then hw.enable s1 c else 0) = 0
              · simp only [h3, h4, ne_eq, not_true_eq_false, if_false] at h
                simp at h; rw [← h.2]
                exact QuietExt_enable_r _ fe
              · simp only [h3, h4, ne_eq, not_true_eq_false, not_false_eq_true, if_true,
                  if_false] at h
                cases hd : clk_core_disable fuel
                    (if (s1.ops c).enable = true then s1.log (.op_enable c) else s1)
                    ((if (s1.ops c).enable = true then s1.log (.op_enable c) else s1).parent c) with
                | none => simp [hd] at h
                | some s3 =>
                  simp [hd] at h; rw [← h.2]
                  exact QuietExt_trans fe (clk_core_disable_quiet _ _ _ _ hd)
            · simp [h3] at h; rw [← h.2]; exact f1
        · simp [h1, h2] at h; rw [← h.2]; exact QuietExt_enable _ _

theorem clk_core_prepare_quiet (hw : Hw) (fuel : Nat) (s s' : State) (m : Option Nat) (ret : Int)
    (h : clk_core_prepare hw fuel s m = some (ret, s')) : QuietExt s s' := by
  induction fuel generalizing s s' m ret with
  | zero =>
    cases m with
    | none => simp [clk_core_prepare] at h; rw [← h.2]; exact QuietExt_refl s
    | some c => simp [clk_core_prepare] at h
  | succ fuel ih =>
    cases m with
    | none => simp [clk_core_prepare] at h; rw [← h.2]; exact QuietExt_refl s
    | some c =>
      have fin : ∀ (a : State) (r : Int) (b : State), QuietExt s a →
          (let a1 : State := { a with prepare_count := Function.update a.prepare_count c (a.prepare_count c + 1) }
           (if (a1.flags c).CLK_SET_RATE_GATE then
              match clk_core_rate_protect (fuel + 1) a1 (some c) with
              | none => none
              | some s2 => some ((0 : Int), s2)
            else some (0, a1)) = some (r, b)) → QuietExt s b := by
        intro a r b fa hb
        simp only at hb
        split at hb
        · cases hq : clk_core_rate_protect (fuel + 1) { a with prepare_count := Function.update a.prepare_count c (a.prepare_count c + 1) } (some c) with
          | none => simp [hq] at hb
          | some s2 =>
            simp [hq] at hb; rw [← hb.2]
            exact QuietExt_trans (QuietExt_prepare_r _ fa)
              (clk_core_rate_protect_quiet _ _ _ _ hq)
        · simp at hb; rw [← hb.2]; exact QuietExt_prepare_r _ fa
      unfold clk_core_prepare at h
      by_cases h1 : s.prepare_count c = 0
      · simp only [h1, if_true] at h
        have fg := clk_pm_runtime_get_quiet hw s c
        by_cases h2 : (clk_pm_runtime_get hw s c).1 = 0
        · simp only [h2, ne_eq, not_true_eq_false, if_false] at h
          cases hp : clk_core_prepare hw fuel (clk_pm_runtime_get hw s c).2
              ((clk_pm_runtime_get hw s c).2.parent c) with
          | none => simp [hp] at h
          | some r =>
            obtain ⟨r1, s2⟩ := r
            have f2 := QuietExt_trans fg (ih _ _ _ _ hp)
            simp only [hp] at h
            by_cases h3 : r1 = 0
            · have fe : QuietExt s (if (s2.ops c).prepare = true then s2.log (.op_prepare c)
                  else s2) := QuietExt_ite_r _ (QuietExt_log_r _ f2 (by rfl)) f2
              by_cases h4 : (if (s2.ops c).prepare = true then hw.prepare s2 c else 0) = 0
              · simp only [h3, h4, ne_eq, not_true_eq_false, if_false] at h
                exact fin _ _ _ fe h
              · simp only [h3, h4, ne_eq, not_true_eq_false, not_false_eq_true, if_true,
                  if_false] at h
                cases hd : clk_core_unprepare fuel
                    (if (s2.ops c).prepare = true then s2.log (.op_prepare c) else s2)
                    ((if (s2.ops c).prepare = true then s2.log (.op_prepare c) else s2).parent c) with
                | none => simp [hd] at h
                | some s4 =>
                  simp [hd] at h; rw [← h.2]
                  exact QuietExt_pm_put_r _
                    (QuietExt_trans fe (clk_core_unprepare_quiet _ _ _ _ hd))
            · simp [h3] at h; rw [← h.2]; exact QuietExt_pm_put_r _ f2
        · simp [h2] at h; rw [h] at fg; exact fg
      · simp only [h1, if_false] at h
        exact fin _ _ _ (QuietExt_refl s) h

theorem clk_core_prepare_enable_quiet (hw : Hw) (fuel : Nat) (s s' : State) (m : Option Nat)
    (ret : Int) (h : clk_core_prepare_enable hw fuel s m = some (ret, s')) :
    QuietExt s s' := by
  unfold clk_core_prepare_enable at h
  cases hp : clk_core_prepare hw fuel s m with
  | none => simp [hp] at h
  | some r =>
    obtain ⟨r1, s1⟩ := r
    have f1 := clk_core_prepare_quiet _ _ _ _ _ _ hp
    simp only [hp] at h
    by_cases h1 : r1 = 0
    · simp only [h1, ne_eq, not_true_eq_false, if_false] at h
      cases he : clk_core_enable hw fuel s1 m with
      | none => simp [he] at h
      | some r =>
        obtain ⟨r2, s2⟩ := r
        have f2 := QuietExt_trans f1 (clk_core_enable_quiet _ _ _ _ _ _ he)
        simp only [he] at h
        by_cases h2 : r2 = 0
        · simp [h2] at h; rw [← h.2]; exact f2
        · simp only [h2, ne_eq, not_false_eq_true, if_true] at h
          cases hu : clk_core_unprepare fuel s2 m with
          | none => simp [hu] at h
          | some s3 =>
            simp [hu] at h; rw [← h.2]
            exact QuietExt_trans f2 (clk_core_unprepare_quiet _ _ _ _ hu)
    · simp [h1] at h; rw [← h.2]; exact f1

theorem clk_core_disable_unprepare_quiet (fuel : Nat) (s s' : State) (m : Option Nat)
    (h : clk_core_disable_unprepare fuel s m = some s') : QuietExt s s' := by
  unfold clk_core_disable_unprepare at h
  cases hd : clk_core_disable fuel s m with
  | none => simp [hd] at h
  | some s1 =>
    simp only [hd] at h
    exact QuietExt_trans (clk_core_disable_quiet _ _ _ _ hd)
      (clk_core_unprepare_quiet _ _ _ _ h)

theorem __clk_set_parent_after_quiet (fuel : Nat) (s s' : State) (c : Nat)
    (p o : Option Nat) (h : __clk_set_parent_after fuel s c p o = some s') :
    QuietExt s s' := by
  unfold __clk_set_parent_after at h
  have key : ∀ s2, QuietExt s s2 →
      (if (s2.flags c).CLK_OPS_PARENT_ENABLE then
        match clk_core_disable_unprepare fuel s2 p with
        | none => none
        | some s3 => clk_core_disable_unprepare fuel s3 o
      else some s2) = some s' → QuietExt s s' := by
    intro s2 f2 h
    split at h
    · cases hd : clk_core_disable_unprepare fuel s2 p with
      | none => simp [hd] at h
      | some s3 =>
        simp only [hd] at h
        exact QuietExt_trans f2 (QuietExt_trans
          (clk_core_disable_unprepare_quiet _ _ _ _ hd)
          (clk_core_disable_unprepare_quiet _ _ _ _ h))
    · simp at h; subst h; exact f2
  by_cases hp : s.prepare_count c = 0
  · simp only [hp, ne_eq, not_true_eq_false, if_false] at h
    exact key _ (QuietExt_refl s) h
  · simp only [hp, ne_eq, not_false_eq_true, if_true] at h
    cases hd : clk_core_disable fuel s (some c) with
    | none => simp [hd] at h
    | some s1 =>
      simp only [hd] at h
      cases hd2 : clk_core_disable_unprepare fuel s1 o with
      | none => simp [hd2] at h
      | some s2 =>
        simp only [hd2] at h
        exact key _ (QuietExt_trans (clk_core_disable_quiet _ _ _ _ hd)
          (clk_core_disable_unprepare_quiet _ _ _ _ hd2)) h

theorem __clk_set_parent_before_quiet (hw : Hw) (fuel : Nat) (s s5 : State) (c : Nat)
    (par o : Option Nat) (h : __clk_set_parent_before hw fuel s c par = some (o, s5)) :
    ∃ s4, CountFrame s s4 ∧ QuietExt s s4 ∧ clk_reparent fuel s4 c par = some s5 := by
  unfold __clk_set_parent_before at h
  simp only at h
  split at h
  · cases h
  · rename_i s2 heq2
    have f2 : CountFrame s s2 ∧ QuietExt s s2 := by
      split at heq2
      · split at heq2
        · cases heq2
        · rename_i r1 s1 hq1
          split at heq2
          · cases heq2
          · rename_i r2 s2a hq2
            simp only [Option.some.injEq] at heq2
            subst heq2
            exact ⟨CountFrame_trans (clk_core_prepare_enable_frame _ _ _ _ _ _ hq1)
              (clk_core_prepare_enable_frame _ _ _ _ _ _ hq2),
              QuietExt_trans (clk_core_prepare_enable_quiet _ _ _ _ _ _ hq1)
              (clk_core_prepare_enable_quiet _ _ _ _ _ _ hq2)⟩
      · simp only [Option.some.injEq] at heq2
        subst heq2
        exact ⟨CountFrame_refl s, QuietExt_refl s⟩
    split at h
    · cases h
    · rename_i s4 heq4
      have f4 : CountFrame s2 s4 ∧ QuietExt s2 s4 := by
        split at heq4
        · split at heq4
          · cases heq4
          · rename_i r3 s3 hq3
            split at heq4
            · cases heq4
            · rename_i r4 s4a hq4
              simp only [Option.some.injEq] at heq4
              subst heq4
              exact ⟨CountFrame_trans (clk_core_prepare_enable_frame _ _ _ _ _ _ hq3)
                (clk_core_enable_frame _ _ _ _ _ _ hq4),
                QuietExt_trans (clk_core_prepare_enable_quiet _ _ _ _ _ _ hq3)
                (clk_core_enable_quiet _ _ _ _ _ _ hq4)⟩
        · simp only [Option.some.injEq] at heq4
          subst heq4
          exact ⟨CountFrame_refl _, QuietExt_refl _⟩
      split at h
      · cases h
      · rename_i s5a hq5
        simp only [Option.some.injEq, Prod.mk.injEq] at h
        obtain ⟨h1, h2⟩ := h
        subst h2
        exact ⟨s4, CountFrame_trans f2.1 f4.1, QuietExt_trans f2.2 f4.2, hq5⟩

theorem TraceExt_refl (P : clk_event → Prop) (s : State) : TraceExt P s s :=
  ⟨rfl, [], by simp, by simp⟩

theorem TraceExt_trans {P : clk_event → Prop} {s s1 s2 : State} (h1 : TraceExt P s s1)
    (h2 : TraceExt P s1 s2) : TraceExt P s s2 := by
  obtain ⟨c1, e1, h1, q1⟩ := h1
  obtain ⟨c2, e2, h2, q2⟩ := h2
  refine ⟨c2.trans c1, e1 ++ e2, by rw [h2, h1, List.append_assoc], ?_⟩
  intro e he
  rcases List.mem_append.1 he with h | h
  · exact q1 e h
  · exact q2 e h

theorem TraceExt_mono {P Q : clk_event → Prop} {s s' : State} (hPQ : ∀ e, P e → Q e)
    (h : TraceExt P s s') : TraceExt Q s s' := by
  obtain ⟨c, ext, e, q⟩ := h
  exact ⟨c, ext, e, fun x hx => hPQ x (q x hx)⟩

theorem TraceExt_of_eq (P : clk_event → Prop) {s s' : State} (hc : s'.clk_core = s.clk_core)
    (ht : s'.trace = s.trace) : TraceExt P s s' :=
  ⟨hc, [], by simp [ht], by simp⟩

theorem TraceExt_log (P : clk_event → Prop) (s : State) (e : clk_event) (he : P e) :
    TraceExt P s (s.log e) :=
  ⟨rfl, [e], rfl, by simpa using he⟩

theorem TraceExt_of_count {P : clk_event → Prop} {s s' : State}
    (hP : ∀ e, clk_event.is_quiet e = true → P e) (hc : CountFrame s s')
    (hq : QuietExt s s') : TraceExt P s s' := by
  obtain ⟨e, p, r, tr, rfl⟩ := hc
  obtain ⟨ext, he, q⟩ := hq
  exact ⟨rfl, ext, he, fun x hx => hP x (q x hx)⟩

theorem TraceExt_of_plan {P : clk_event → Prop} {s s' : State}
    (hP : ∀ e, clk_event.is_quiet e = true → P e) (h : PlanFrame s s') : TraceExt P s s' := by
  obtain ⟨-, -, c, ext, e, q⟩ := PlanFrame_facts h
  exact ⟨c, ext, e, fun x hx => hP x (is_quiet_of_is_pm x (q x hx))⟩

theorem TraceExt_recalc {P : clk_event → Prop} (hP : ∀ e, clk_event.is_quiet e = true → P e)
    (hw : Hw) (s6 s7 : State) (core pr : Nat) (rc : Nat × State) (h7 : TraceExt P s6 s7)
    (hrc : clk_recalc hw s7 core pr = rc) :
    TraceExt P s6 { rc.2 with rate := Function.update rc.2.rate core rc.1 } := by
  have h := TraceExt_of_plan hP (clk_recalc_plan hw s7 core pr)
  rw [hrc] at h
  exact TraceExt_trans h7 (TraceExt_trans h (TraceExt_of_eq P rfl rfl))

theorem Commits_mk {owner : Nat → Nat} {core : Nat} {t : List clk_event}
    (own posts mid tail : List clk_event) (kids : List (Nat × List clk_event))
    (h1 : ∀ e ∈ own, clk_event.is_quiet e = true ∨ clk_event.commits core e = true)
    (h2 : ∀ e ∈ posts, ∃ cn o n, e = clk_event.notify cn POST_RATE_CHANGE o n ∧ owner cn = core)
    (h3 : ∀ e ∈ mid, clk_event.is_quiet e = true)
    (h4 : ∀ k ∈ kids, Commits owner k.1 k.2)
    (h5 : ∀ e ∈ tail, clk_event.is_quiet e = true)
    (ht : t = own ++ posts ++ mid ++ kids.foldr (fun k acc => k.2 ++ acc) [] ++ tail) :
    Commits owner core t := by
  subst ht
  exact Commits.block core own posts mid tail kids h1 h2 h3 h4 h5

theorem foldr_append_kids (k1 k2 : List (Nat × List clk_event)) :
    (k1 ++ k2).foldr (fun k acc => k.2 ++ acc) []
      = k1.foldr (fun k acc => k.2 ++ acc) [] ++ k2.foldr (fun k acc => k.2 ++ acc) [] := by
  induction k1 with
  | nil => rfl
  | cons k k1 ih => simp only [List.cons_append, List.foldr_cons, ih, List.append_assoc]

theorem clk_change_rate_commits (hw : Hw) (fuel : Nat) :
    (∀ s core s', clk_change_rate hw fuel s core = some s' →
      s'.clk_core = s.clk_core ∧
      ∃ ext, s'.trace = s.trace ++ ext ∧ Commits s.clk_core core ext) ∧
    (∀ s core pos s', clk_change_rate.children hw fuel s core pos = some s' →
      s'.clk_core = s.clk_core ∧
      ∃ kids : List (Nat × List clk_event),
        s'.trace = s.trace ++ kids.foldr (fun k acc => k.2 ++ acc) [] ∧
        ∀ k ∈ kids, Commits s.clk_core k.1 k.2) := by
  induction fuel with
  | zero =>
    constructor
    · intro s core s' h
      simp [clk_change_rate] at h
    · intro s core pos s' h
      cases pos with
      | none =>
        simp [clk_change_rate.children] at h
        subst h
        exact ⟨rfl, [], by simp, by simp⟩
      | some c => simp [clk_change_rate.children] at h
  | succ fuel ih =>
    obtain ⟨ih1, ih2⟩ := ih
    constructor
    · intro s core s' h
      have hP : ∀ e, clk_event.is_quiet e = true →
          (clk_event.is_quiet e = true ∨ clk_event.commits core e = true) :=
        fun e he => Or.inl he
      unfold clk_change_rate at h
      generalize (if (s.new_parent core).isSome = true then s.new_parent core
        else s.parent core) = parent at h
      have f1 : TraceExt (fun e => clk_event.is_quiet e = true ∨
          clk_event.commits core e = true) s (clk_pm_runtime_get hw s core).2 :=
        TraceExt_of_plan hP (clk_pm_runtime_get_plan hw s core)
      generalize clk_pm_runtime_get hw s core = q at h f1
      obtain ⟨r1, s1⟩ := q
      simp only at h f1
      split at h
      · simp only [Option.some.injEq] at h
        subst h
        obtain ⟨c1, own, e1, q1⟩ := f1
        exact ⟨c1, own, e1, Commits_mk own [] [] [] [] q1 (by simp) (by simp) (by simp)
          (by simp) (by simp)⟩
      · split at h
        · cases h
        · rename_i s3 h3
          have f3 : TraceExt (fun e => clk_event.is_quiet e = true ∨
              clk_event.commits core e = true) s s3 := by
            split at h3
            · split at h3
              · cases h3
              · rename_i r2 s2 hp
                split at h3
                · cases h3
                · rename_i r3 s3a he
                  simp only [Option.some.injEq] at h3
                  subst h3
                  exact TraceExt_trans f1 (TraceExt_trans
                    (TraceExt_of_count hP (clk_core_prepare_frame _ _ _ _ _ _ hp)
                      (clk_core_prepare_quiet _ _ _ _ _ _ hp))
                    (TraceExt_of_count hP (clk_core_enable_frame _ _ _ _ _ _ he)
                      (clk_core_enable_quiet _ _ _ _ _ _ he)))
            · simp only [Option.some.injEq] at h3
              subst h3
              exact f1
          clear h3
          split at h
          · cases h
          · rename_i skip s5 h5
            have f5 : TraceExt (fun e => clk_event.is_quiet e = true ∨
                clk_event.commits core e = true) s3 s5 := by
              split at h5
              · split at h5
                · cases h5
                · rename_i old s4 hb
                  split at h5
                  · cases h5
                  · rename_i s5a ha
                    simp only [Option.some.injEq, Prod.mk.injEq] at h5
                    obtain ⟨-, rfl⟩ := h5
                    obtain ⟨s4p, g1, g1q, g2⟩ := __clk_set_parent_before_quiet _ _ _ _ _ _ _ hb
                    obtain ⟨o1, rl1, ol1, nc1, e1⟩ := clk_reparent_spec _ _ _ _ _ g2
                    have g3 : TraceExt (fun e => clk_event.is_quiet e = true ∨
                        clk_event.commits core e = true) s4p s4 :=
                      TraceExt_of_eq _ (by rw [e1]) (by rw [e1])
                    refine TraceExt_trans (TraceExt_of_count hP g1 g1q) (TraceExt_trans g3 ?_)
                    refine TraceExt_trans ?_
                      (TraceExt_of_count hP (__clk_set_parent_after_frame _ _ _ _ _ _ ha)
                        (__clk_set_parent_after_quiet _ _ _ _ _ _ ha))
                    split
                    · exact TraceExt_log _ _ _ (Or.inr (by simp [clk_event.commits]))
                    · split
                      · exact TraceExt_log _ _ _ (Or.inr (by simp [clk_event.commits]))
                      · exact TraceExt_refl _ _
              · simp only [Option.some.injEq, Prod.mk.injEq] at h5
                rw [← h5.2]
                exact TraceExt_refl _ _
            clear h5
            split at h
            · cases h
            · rename_i s6 h6
              have f6 : TraceExt (fun e => clk_event.is_quiet e = true ∨
                  clk_event.commits core e = true) s5 s6 := by
                split at h6
                · split at h6
                  · cases h6
                  · rename_i r6 s6a hpe
                    simp only [Option.some.injEq] at h6
                    subst h6
                    exact TraceExt_of_count hP (clk_core_prepare_enable_frame _ _ _ _ _ _ hpe)
                      (clk_core_prepare_enable_quiet _ _ _ _ _ _ hpe)
                · simp only [Option.some.injEq] at h6
                  subst h6
                  exact TraceExt_refl _ _
              clear h6
              have f06 := TraceExt_trans f3 (TraceExt_trans f5 f6)
              clear f1 f3 f5 f6
              generalize hrc : clk_recalc hw _ core _ = rc at h
              have f9 : TraceExt (fun e => clk_event.is_quiet e = true ∨
                  clk_event.commits core e = true) s6
                  { rc.2 with rate := Function.update rc.2.rate core rc.1 } :=
                TraceExt_recalc hP hw s6 _ core _ rc
                  (by
                    split
                    · exact TraceExt_log _ _ _ (Or.inr (by simp [clk_event.commits]))
                    · exact TraceExt_refl _ _) hrc
              clear hrc
              split at h
              · cases h
              · rename_i s10 h10
                have f10 : TraceExt (fun e => clk_event.is_quiet e = true ∨
                    clk_event.commits core e = true) s6 s10 := by
                  split at h10
                  · split at h10
                    · cases h10
                    · rename_i s10a hd
                      exact TraceExt_trans f9
                        (TraceExt_trans
                          (TraceExt_of_count hP (clk_core_disable_frame _ _ _ _ hd)
                            (clk_core_disable_quiet _ _ _ _ hd))
                          (TraceExt_of_count hP (clk_core_unprepare_frame _ _ _ _ h10)
                            (clk_core_unprepare_quiet _ _ _ _ h10)))
                  · simp only [Option.some.injEq] at h10
                    subst h10
                    exact f9
                clear h10 f9
                split at h
                · cases h
                · rename_i s11 h11
                  have f11 : TraceExt (fun e => clk_event.is_quiet e = true ∨
                      clk_event.commits core e = true) s10 s11 := by
                    split at h11
                    · exact TraceExt_of_count hP
                        (clk_core_disable_unprepare_frame _ _ _ _ h11)
                        (clk_core_disable_unprepare_quiet _ _ _ _ h11)
                    · simp only [Option.some.injEq] at h11
                      subst h11
                      exact TraceExt_refl _ _
                  clear h11
                  have f011 := TraceExt_trans f06 (TraceExt_trans f10 f11)
                  clear f06 f10 f11
                  generalize hs12 : (if (decide (s11.notifier_count core ≠ 0) &&
                      decide (s.rate core ≠ s11.rate core)) = true then
                    (__clk_notify hw s11 core POST_RATE_CHANGE (s.rate core) (s11.rate core)).2
                    else s11) = s12 at h
                  have f12 : TraceExt (fun e => ∃ cn o n,
                      e = clk_event.notify cn POST_RATE_CHANGE o n ∧ s.clk_core cn = core)
                      s11 s12 := by
                    rw [← hs12]
                    split
                    · obtain ⟨ext, e, q, -⟩ := __clk_notify_walk_spec hw core POST_RATE_CHANGE
                        (s.rate core) (s11.rate core) s11.clk_notifier_list NOTIFY_DONE s11
                      unfold __clk_notify
                      rw [e]
                      refine ⟨rfl, ext, rfl, ?_⟩
                      intro x hx
                      obtain ⟨cn, hcn, -, hk⟩ := q x hx
                      exact ⟨cn, _, _, hcn, by rw [← f011.1]; exact hk⟩
                    · exact TraceExt_refl _ _
                  clear hs12
                  split at h
                  · cases h
                  · rename_i s13 h13
                    have f13 : TraceExt (fun e => clk_event.is_quiet e = true) s12 s13 := by
                      split at h13
                      · split at h13
                        · cases h13
                        · rename_i top s13a hc
                          simp only [Option.some.injEq] at h13
                          subst h13
                          exact TraceExt_of_plan (fun e he => he)
                            (clk_calc_new_rates_plan _ _ _ _ _ _ _ hc)
                      · simp only [Option.some.injEq] at h13
                        subst h13
                        exact TraceExt_refl _ _
                    clear h13
                    obtain ⟨cA, own, eA, qA⟩ := f011
                    obtain ⟨cB, posts, eB, qB⟩ := f12
                    obtain ⟨cC, mid, eC, qC⟩ := f13
                    have c13 : s13.clk_core = s.clk_core := cC.trans (cB.trans cA)
                    split at h
                    · cases h
                    · rename_i s14 h14
                      obtain ⟨cD, kids, eD, qD⟩ := ih2 _ _ _ _ h14
                      rw [c13] at qD
                      have c14 : s14.clk_core = s.clk_core := cD.trans c13
                      have fput : ∀ a : State, (clk_pm_runtime_put a core).clk_core = a.clk_core ∧
                          ∃ tail, (clk_pm_runtime_put a core).trace = a.trace ++ tail ∧
                            ∀ e ∈ tail, clk_event.is_quiet e = true :=
                        fun a => TraceExt_of_plan (fun e he => he) (clk_pm_runtime_put_plan a core)
                      split at h
                      · split at h
                        · cases h
                        · rename_i nc hnc x15 s15 h15
                          simp only [Option.some.injEq] at h
                          subst h
                          obtain ⟨cE, extE, eE, qE⟩ := ih1 _ _ _ h15
                          rw [c14] at qE
                          obtain ⟨cF, tail, eF, qF⟩ := fput s15
                          refine ⟨cF.trans (cE.trans c14),
                            own ++ posts ++ mid
                              ++ (kids ++ [(nc, extE)]).foldr (fun k acc => k.2 ++ acc) []
                              ++ tail, ?_, ?_⟩
                          · rw [eF, eE, eD, eC, eB, eA, foldr_append_kids]
                            simp only [List.foldr_cons, List.foldr_nil, List.append_nil,
                              List.append_assoc]
                          · refine Commits_mk own posts mid tail (kids ++ [(nc, extE)]) qA qB qC
                              ?_ qF rfl
                            intro k hk
                            rcases List.mem_append.1 hk with hk | hk
                            · exact qD k hk
                            · simp only [List.mem_singleton] at hk
                              subst hk
                              exact qE
                      · simp only [Option.some.injEq] at h
                        subst h
                        obtain ⟨cF, tail, eF, qF⟩ := fput s14
                        refine ⟨cF.trans c14,
                          own ++ posts ++ mid ++ kids.foldr (fun k acc => k.2 ++ acc) []
                            ++ tail, ?_, ?_⟩
                        · rw [eF, eD, eC, eB, eA]
                          simp only [List.append_assoc]
                        · exact Commits_mk own posts mid tail kids qA qB qC qD qF rfl
    · intro s core pos s' h
      cases pos with
      | none =>
        simp [clk_change_rate.children] at h
        subst h
        exact ⟨rfl, [], by simp, by simp⟩
      | some child =>
        unfold clk_change_rate.children at h
        simp only at h
        split at h
        · cases h
        · rename_i s1 h1
          obtain ⟨c2, kids, e2, q2⟩ := ih2 _ _ _ _ h
          split at h1
          · simp only [Option.some.injEq] at h1
            subst h1
            exact ⟨c2, kids, e2, q2⟩
          · obtain ⟨c1, ext, e1, q1⟩ := ih1 _ _ _ h1
            rw [c1] at q2
            refine ⟨c2.trans c1, (child, ext) :: kids, ?_, ?_⟩
            · rw [e2, e1]
              simp only [List.foldr_cons, List.append_assoc]
            · intro k hk
              rcases List.mem_cons.1 hk with hk | hk
              · subst hk
                exact q1
              · exact q2 k hk

theorem TraceExt_pm_of_plan {s s' : State} (h : PlanFrame s s') :
    TraceExt (fun e => clk_event.is_pm e = true) s s' := by
  obtain ⟨-, -, c, ext, e, q⟩ := PlanFrame_facts h
  exact ⟨c, ext, e, q⟩

theorem clk_propagate_rate_change_trace (hw : Hw) (fuel : Nat) (s s' : State) (core ev : Nat)
    (f : Option Nat) (h : clk_propagate_rate_change hw fuel s core ev = some (f, s')) :
    TraceExt (fun e => ∃ cn o n, e = clk_event.notify cn ev o n) s s' := by
  obtain ⟨-, -, -, ext, -, d1, -, d2, -, -⟩ := clk_propagate_rate_change_paired hw
    ev ev fuel _ _ core _ _ (SameButTrace_refl _) h
  rw [d1]
  exact ⟨rfl, ext, rfl, d2⟩

theorem mem_foldr_kids (kids : List (Nat × List clk_event)) (e : clk_event)
    (h : e ∈ kids.foldr (fun k acc => k.2 ++ acc) []) : ∃ k ∈ kids, e ∈ k.2 := by
  induction kids with
  | nil => simp at h
  | cons k kids ih =>
    simp only [List.foldr_cons, List.mem_append] at h
    rcases h with h | h
    · exact ⟨k, List.mem_cons_self _ _, h⟩
    · obtain ⟨k2, hk2, he⟩ := ih h
      exact ⟨k2, List.mem_cons_of_mem _ hk2, he⟩

theorem Commits_no_pre (owner : Nat → Nat) (core : Nat) (t : List clk_event)
    (h : Commits owner core t) :
    ∀ e ∈ t, ∀ cn o n, e ≠ clk_event.notify cn PRE_RATE_CHANGE o n := by
  induction h with
  | block core own posts mid tail kids h1 h2 h3 h4 h5 ih =>
    have hq : ∀ e : clk_event, clk_event.is_quiet e = true →
        ∀ cn o n, e ≠ clk_event.notify cn PRE_RATE_CHANGE o n := by
      intro e he cn o n hc
      subst hc
      simp [clk_event.is_quiet, clk_event.is_notify] at he
    intro e he cn o n hc
    simp only [List.mem_append] at he
    rcases he with (((he | he) | he) | he) | he
    · rcases h1 e he with hq1 | hc1
      · exact hq e hq1 cn o n hc
      · subst hc
        simp [clk_event.commits] at hc1
    · obtain ⟨cn2, o2, n2, e2, -⟩ := h2 e he
      rw [e2] at hc
      simp only [clk_event.notify.injEq] at hc
      exact absurd hc.2.1 (by decide)
    · exact hq e (h3 e he) cn o n hc
    · obtain ⟨k, hk, hek⟩ := mem_foldr_kids kids e he
      exact ih k hk e hek cn o n hc
    · exact hq e (h5 e he) cn o n hc

theorem clk_core_set_rate_nolock_shape (hw : Hw) (fuel : Nat) (s s' : State) (c r : Nat) (ret : Int)
    (h : clk_core_set_rate_nolock hw fuel s (some c) r = some (ret, s')) :
    ∃ plan pre rest, s'.trace = s.trace ++ (plan ++ pre ++ rest) ∧
      (∀ e ∈ plan, clk_event.is_pm e = true) ∧
      AllNotify PRE_RATE_CHANGE pre ∧
      ((ret = 0 ∧ ∃ top commit tail, rest = commit ++ tail ∧
          Commits s.clk_core top commit ∧
          ∀ e ∈ tail, clk_event.is_pm e = true) ∨
       (ret ≠ 0 ∧ ∀ e ∈ rest, clk_event.is_pm e = true ∨
          ∃ cn o n, e = clk_event.notify cn ABORT_RATE_CHANGE o n)) := by
  have hnil : Commits s.clk_core c [] :=
    Commits_mk [] [] [] [] [] (by simp) (by simp) (by simp) (by simp) (by simp) (by simp)
  unfold clk_core_set_rate_nolock at h
  simp only at h
  split at h
  · cases h
  · rename_i rate s1 h1
    obtain ⟨pc, e1⟩ := clk_core_req_round_rate_nolock_frame _ _ _ _ _ _ _ h1
    have f1 : TraceExt (fun e => clk_event.is_pm e = true) s s1 :=
      TraceExt_of_eq _ (by rw [e1]) (by rw [e1])
    clear h1 e1
    split at h
    · simp only [Option.some.injEq, Prod.mk.injEq] at h
      obtain ⟨hr, hs⟩ := h
      subst hr hs
      obtain ⟨-, plan, e, q⟩ := f1
      exact ⟨plan, [], [], by simp [e], q, by simp [AllNotify],
        Or.inl ⟨rfl, c, [], [], rfl, hnil, by simp⟩⟩
    · split at h
      · simp only [Option.some.injEq, Prod.mk.injEq] at h
        obtain ⟨hr, hs⟩ := h
        subst hr hs
        obtain ⟨-, plan, e, q⟩ := f1
        exact ⟨plan, [], [], by simp [e], q, by simp [AllNotify],
          Or.inr ⟨by decide, by simp⟩⟩
      · split at h
        · cases h
        · rename_i s2 h2
          simp only [Option.some.injEq, Prod.mk.injEq] at h
          obtain ⟨hr, hs⟩ := h
          subst hr hs
          obtain ⟨-, plan, e, q⟩ := TraceExt_trans f1
            (TraceExt_pm_of_plan (clk_calc_new_rates_plan _ _ _ _ _ _ _ h2))
          exact ⟨plan, [], [], by simp [e], q, by simp [AllNotify],
            Or.inr ⟨by decide, by simp⟩⟩
        · rename_i top s2 h2
          have f2 := TraceExt_trans f1
            (TraceExt_pm_of_plan (clk_calc_new_rates_plan _ _ _ _ _ _ _ h2))
          clear h2 f1
          have f3 := TraceExt_trans f2 (TraceExt_pm_of_plan (clk_pm_runtime_get_plan hw s2 c))
          generalize clk_pm_runtime_get hw s2 c = q at h f3
          obtain ⟨r3, s3⟩ := q
          simp only at h f3
          obtain ⟨c3, plan, e3, q3⟩ := f3
          split at h
          · rename_i hr3
            simp only [Option.some.injEq, Prod.mk.injEq] at h
            obtain ⟨hr, hs⟩ := h
            subst hr hs
            exact ⟨plan, [], [], by simp [e3], q3, by simp [AllNotify],
              Or.inr ⟨hr3, by simp⟩⟩
          · have fput : ∀ a : State, TraceExt (fun e => clk_event.is_pm e = true) a
                (clk_pm_runtime_put a c) :=
              fun a => TraceExt_pm_of_plan (clk_pm_runtime_put_plan a c)
            split at h
            · cases h
            · rename_i fc s4 h4
              obtain ⟨c4, pre, e4, q4⟩ := clk_propagate_rate_change_trace _ _ _ _ _ _ _ h4
              split at h
              · cases h
              · rename_i fc5 s5 h5
                simp only [Option.some.injEq, Prod.mk.injEq] at h
                obtain ⟨hr, hs⟩ := h
                subst hr hs
                obtain ⟨c5, ab, e5, q5⟩ := clk_propagate_rate_change_trace _ _ _ _ _ _ _ h5
                obtain ⟨c6, tail, e6, q6⟩ := fput s5
                refine ⟨plan, pre, ab ++ tail, ?_, q3, q4, Or.inr ⟨by decide, ?_⟩⟩
                · rw [e6, e5, e4, e3]
                  simp only [List.append_assoc]
                · intro e he
                  rcases List.mem_append.1 he with he | he
                  · exact Or.inr (q5 e he)
                  · exact Or.inl (q6 e he)
            · rename_i s4 h4
              obtain ⟨c4, pre, e4, q4⟩ := clk_propagate_rate_change_trace _ _ _ _ _ _ _ h4
              split at h
              · cases h
              · rename_i s5 h5
                simp only [Option.some.injEq, Prod.mk.injEq] at h
                obtain ⟨hr, hs⟩ := h
                subst hr hs
                obtain ⟨c5, commit, e5, q5⟩ := (clk_change_rate_commits hw fuel).1 _ _ _ h5
                rw [c4, c3] at q5
                obtain ⟨c6, tail, e6, q6⟩ :=
                  fput { s5 with req_rate := Function.update s5.req_rate c r }
                refine ⟨plan, pre, commit ++ tail, ?_, q3, q4,
                  Or.inl ⟨rfl, top, commit, tail, rfl, q5, q6⟩⟩
                rw [e6]
                show s5.trace ++ tail = _
                rw [e5, e4, e3]
                simp only [List.append_assoc]

/-- The shape of the trace of one `clk_core_set_rate_nolock` call. The trace the call
appends is `plan ++ pre ++ rest`: `plan` holds runtime-PM calls only, `pre` holds exactly the
`PRE_RATE_CHANGE` deliveries, and, when the call returns 0, `rest` is the trace of
`clk_change_rate(top)` followed by runtime-PM calls. So every `PRE_RATE_CHANGE` delivery
precedes every `set_parent`, `set_rate` and `set_rate_and_parent` op and every
`POST_RATE_CHANGE` delivery of the call. The trace of `clk_change_rate` has the shape
`Commits`: for each node committed, its own ops come first, the `POST_RATE_CHANGE` deliveries
to its handles follow, and only then come, one after the other, the commits of the nodes below
it (the children on its list, then its new child), each of the same shape. When the call does
not return 0, `rest` holds no op at all, only `ABORT_RATE_CHANGE` deliveries and runtime-PM
calls. -/
theorem clk_core_set_rate_nolock_order (hw : Hw) (fuel : Nat) (s s' : State) (c r : Nat) (ret : Int)
    (h : clk_core_set_rate_nolock hw fuel s (some c) r = some (ret, s')) :
    ∃ plan pre rest, s'.trace = s.trace ++ (plan ++ pre ++ rest) ∧
      (∀ e ∈ plan, clk_event.is_pm e = true) ∧
      AllNotify PRE_RATE_CHANGE pre ∧
      ((ret = 0 ∧ ∃ top commit tail, rest = commit ++ tail ∧
          Commits s.clk_core top commit ∧
          (∀ e ∈ commit, ∀ cn o n, e ≠ clk_event.notify cn PRE_RATE_CHANGE o n) ∧
          ∀ e ∈ tail, clk_event.is_pm e = true) ∨
       (ret ≠ 0 ∧ ∀ e ∈ rest, clk_event.is_pm e = true ∨
          ∃ cn o n, e = clk_event.notify cn ABORT_RATE_CHANGE o n)) := by
  obtain ⟨plan, pre, rest, e, hplan, hpre, hrest⟩ :=
    clk_core_set_rate_nolock_shape hw fuel s s' c r ret h
  refine ⟨plan, pre, rest, e, hplan, hpre, ?_⟩
  rcases hrest with ⟨hr, top, commit, tail, e2, hc, ht⟩ | hfail
  · exact Or.inl ⟨hr, top, commit, tail, e2, hc, Commits_no_pre _ _ _ hc, ht⟩
  · exact Or.inr hfail

/-- A run of `clk_core_set_rate_nolock_order` on `notified_pair`. -/
theorem clk_core_set_rate_nolock_order_run :
    (clk_core_set_rate_nolock Hw.doubling 4 notified_pair (some 1) 150).map
        (fun x => (x.1, x.2.trace)) =
      some (0, [.notify 0 PRE_RATE_CHANGE 100 300, .notify 1 PRE_RATE_CHANGE 100 150,
                .op_set_rate 0 300 0, .notify 0 POST_RATE_CHANGE 100 300,
                .op_set_rate 1 150 300, .notify 1 POST_RATE_CHANGE 100 150]) ∧
    ∃ s' plan pre rest,
      clk_core_set_rate_nolock Hw.doubling 4 notified_pair (some 1) 150 = some (0, s') ∧
      s'.trace = notified_pair.trace ++ (plan ++ pre ++ rest) ∧
      (∀ e ∈ plan, clk_event.is_pm e = true) ∧
      AllNotify PRE_RATE_CHANGE pre ∧
      (((0 : Int) = 0 ∧ ∃ top commit tail, rest = commit ++ tail ∧
          Commits notified_pair.clk_core top commit ∧
          (∀ e ∈ commit, ∀ cn o n, e ≠ clk_event.notify cn PRE_RATE_CHANGE o n) ∧
          ∀ e ∈ tail, clk_event.is_pm e = true) ∨
       ((0 : Int) ≠ 0 ∧ ∀ e ∈ rest, clk_event.is_pm e = true ∨
          ∃ cn o n, e = clk_event.notify cn ABORT_RATE_CHANGE o n)) := by
  refine ⟨by decide, ?_⟩
  have h := eq_some_of_map_fst
    (clk_core_set_rate_nolock Hw.doubling 4 notified_pair (some 1) 150) 0 (0, notified_pair)
    (by decide)
  obtain ⟨plan, pre, rest, e⟩ := clk_core_set_rate_nolock_order Hw.doubling 4 notified_pair _ 1 150 0 h
  exact ⟨_, plan, pre, rest, h, e⟩

theorem __clk_lookup_subtree_trace (fuel : Nat) (s : State) (tr : List clk_event)
    (name : String) (core : Nat) :
    __clk_lookup_subtree fuel { s with trace := tr } name core
      = __clk_lookup_subtree fuel s name core := by
  induction fuel generalizing core with
  | zero => rfl
  | succ n ih =>
    simp only [__clk_lookup_subtree]
    have : (fun (ret : Option Nat) child =>
        if ret.isSome then some ret else __clk_lookup_subtree n { s with trace := tr } name child)
        = (fun (ret : Option Nat) child =>
        if ret.isSome then some ret else __clk_lookup_subtree n s name child) := by
      funext ret child; rw [ih]
    rw [this]

theorem clk_core_lookup_trace (fuel : Nat) (s : State) (tr : List clk_event)
    (name : Option String) :
    clk_core_lookup fuel { s with trace := tr } name = clk_core_lookup fuel s name := by
  cases name with
  | none => rfl
  | some nm =>
    simp only [clk_core_lookup]
    have : (fun (ret : Option Nat) root_clk =>
        if ret.isSome then some ret
        else __clk_lookup_subtree fuel { s with trace := tr } nm root_clk)
        = (fun (ret : Option Nat) root_clk =>
        if ret.isSome then some ret else __clk_lookup_subtree fuel s nm root_clk) := by
      funext ret child; rw [__clk_lookup_subtree_trace]
    rw [this]

/-- Claim C26, amended: when the runtime-PM resume of the node does not fail and the name is
fresh, `__clk_core_init` returns `-EINVAL` as soon as one of the four rules on the operation
table is broken (`set_rate` needs a rounding op and `recalc_rate`; `set_parent` needs
`get_parent`; several parents need `get_parent`; `set_rate_and_parent` needs `set_parent` and
`set_rate`), and when the four rules hold its result is the result of the part of the function
after the tests, in which the operation table is not examined for validity any more. -/
theorem ops_table_validation (hw : Hw) (fuel : Nat) (s : State) (c : Nat)
    (hpm : (clk_pm_runtime_get hw s c).1 = 0)
    (hfresh : clk_core_lookup fuel s (some (s.name c)) = some none) :
    (¬ (((s.ops c).set_rate = true →
          ((s.ops c).round_rate = true ∨ (s.ops c).determine_rate = true) ∧
            (s.ops c).recalc_rate = true) ∧
        ((s.ops c).set_parent = true → (s.ops c).get_parent = true) ∧
        (s.num_parents c > 1 → (s.ops c).get_parent = true) ∧
        ((s.ops c).set_rate_and_parent = true →
          (s.ops c).set_parent = true ∧ (s.ops c).set_rate = true)) →
      ∃ s', __clk_core_init hw fuel s (some c) = some (-EINVAL, s')) ∧
    ((((s.ops c).set_rate = true →
          ((s.ops c).round_rate = true ∨ (s.ops c).determine_rate = true) ∧
            (s.ops c).recalc_rate = true) ∧
        ((s.ops c).set_parent = true → (s.ops c).get_parent = true) ∧
        (s.num_parents c > 1 → (s.ops c).get_parent = true) ∧
        ((s.ops c).set_rate_and_parent = true →
          (s.ops c).set_parent = true ∧ (s.ops c).set_rate = true)) →
      __clk_core_init hw fuel s (some c)
        = (__clk_core_init.body hw fuel (clk_pm_runtime_get hw s c).2 c).map
            (fun r => (r.1, if r.1 ≠ 0 then hlist_del_child_node (clk_pm_runtime_put r.2 c) c
                            else clk_pm_runtime_put r.2 c))) := by
  obtain ⟨tr, htr⟩ := clk_pm_runtime_get_same hw s c
  have hpair : clk_pm_runtime_get hw s c = (0, { s with trace := tr }) := by
    rw [← htr, ← hpm]
  have hlk : clk_core_lookup fuel { s with trace := tr } (some (s.name c)) = some none := by
    rw [clk_core_lookup_trace]; exact hfresh
  simp only [__clk_core_init, hpair, hlk, ne_eq, not_true_eq_false, if_false,
    Option.isSome_none, Bool.false_eq_true]
  constructor
  · intro hbad
    by_cases h1 : ((s.ops c).set_rate && !(((s.ops c).round_rate || (s.ops c).determine_rate)
                    && (s.ops c).recalc_rate)) = true
    · rw [if_pos h1]; exact ⟨_, rfl⟩
    rw [if_neg h1]
    by_cases h2 : ((s.ops c).set_parent && !(s.ops c).get_parent) = true
    · rw [if_pos h2]; exact ⟨_, rfl⟩
    rw [if_neg h2]
    by_cases h3 : (decide (s.num_parents c > 1) && !(s.ops c).get_parent) = true
    · rw [if_pos h3]; exact ⟨_, rfl⟩
    rw [if_neg h3]
    by_cases h4 : ((s.ops c).set_rate_and_parent
                    && !((s.ops c).set_parent && (s.ops c).set_rate)) = true
    · rw [if_pos h4]; exact ⟨_, rfl⟩
    exfalso
    apply hbad
    revert h1 h2 h3 h4
    cases (s.ops c).set_rate <;> cases (s.ops c).round_rate <;>
      cases (s.ops c).determine_rate <;> cases (s.ops c).recalc_rate <;>
      cases (s.ops c).set_parent <;> cases (s.ops c).get_parent <;>
      cases (s.ops c).set_rate_and_parent <;> simp
  · intro hok
    obtain ⟨a1, a2, a3, a4⟩ := hok
    have h1 : ¬ ((s.ops c).set_rate && !(((s.ops c).round_rate || (s.ops c).determine_rate)
                    && (s.ops c).recalc_rate)) = true := by
      revert a1
      cases (s.ops c).set_rate <;> cases (s.ops c).round_rate <;>
        cases (s.ops c).determine_rate <;> cases (s.ops c).recalc_rate <;> simp
    have h2 : ¬ ((s.ops c).set_parent && !(s.ops c).get_parent) = true := by
      revert a2
      cases (s.ops c).set_parent <;> cases (s.ops c).get_parent <;> simp
    have h3 : ¬ (decide (s.num_parents c > 1) && !(s.ops c).get_parent) = true := by
      revert a3
      cases (s.ops c).get_parent <;> simp
    have h4 : ¬ ((s.ops c).set_rate_and_parent
                    && !((s.ops c).set_parent && (s.ops c).set_rate)) = true := by
      revert a4
      cases (s.ops c).set_rate_and_parent <;> cases (s.ops c).set_parent <;>
        cases (s.ops c).set_rate <;> simp
    rw [if_neg h1, if_neg h2, if_neg h3, if_neg h4]
    cases __clk_core_init.body hw fuel { s with trace := tr } c with
    | none => rfl
    | some r => rfl

/-- A run of `ops_table_validation`: registering, with hardware that never fails, the node of
`unsound_ops` without runtime PM is refused with `-EINVAL`. -/
theorem ops_table_validation_witness :
    ∃ s', __clk_core_init Hw.quiet 5 { unsound_ops with rpm_enabled := fun _ => false } (some 0)
      = some (-EINVAL, s') :=
  (ops_table_validation Hw.quiet 5 { unsound_ops with rpm_enabled := fun _ => false } 0
    (by decide) (by decide)).1 (by decide)

/-- Claim C26 as stated fails: the node of `unsound_ops` has a fresh name and breaks the first
rule, but its runtime-PM resume fails first and `__clk_core_init` returns that error
(`-EACCES`), not `-EINVAL`. -/
theorem ops_table_validation_counterexample :
    (clk_core_lookup 5 unsound_ops (some (unsound_ops.name 0)) = some none) ∧
    (unsound_ops.ops 0).set_rate = true ∧ (unsound_ops.ops 0).recalc_rate = false ∧
    (__clk_core_init Hw.asleep 5 unsound_ops (some 0)).map Prod.fst = some (-13) := by
  decide

theorem Closed_ite {hw : Hw} {R : State → State → Prop} (_hR : Closed hw R) {s a b : State}
    (c : Prop) [Decidable c] (ha : R s a) (hb : R s b) : R s (if c then a else b) := by
  split
  · exact ha
  · exact hb

theorem Closed_log {hw : Hw} {R : State → State → Prop} (hR : Closed hw R) (s : State)
    (e : clk_event) : R s (s.log e) := hR.trace s _

theorem Closed_prepare_enable {hw : Hw} {R : State → State → Prop} (hR : Closed hw R)
    {fuel : Nat} {s s' : State} {m : Option Nat} {ret : Int}
    (h : clk_core_prepare_enable hw fuel s m = some (ret, s')) : R s s' := by
  unfold clk_core_prepare_enable at h
  split at h
  · cases h
  · rename_i r1 s1 h1
    have f1 := hR.prepare h1
    split at h
    · simp only [Option.some.injEq, Prod.mk.injEq] at h
      rw [← h.2]; exact f1
    · split at h
      · cases h
      · rename_i r2 s2 h2
        have f2 := hR.trans f1 (hR.enable h2)
        split at h
        · split at h
          · cases h
          · rename_i s3 h3
            simp only [Option.some.injEq, Prod.mk.injEq] at h
            rw [← h.2]; exact hR.trans f2 (hR.unprepare h3)
        · simp only [Option.some.injEq, Prod.mk.injEq] at h
          rw [← h.2]; exact f2

theorem Closed_disable_unprepare {hw : Hw} {R : State → State → Prop} (hR : Closed hw R)
    {fuel : Nat} {s s' : State} {m : Option Nat}
    (h : clk_core_disable_unprepare fuel s m = some s') : R s s' := by
  unfold clk_core_disable_unprepare at h
  split at h
  · cases h
  · rename_i s1 h1
    exact hR.trans (hR.disable h1) (hR.unprepare h)

theorem Closed_before {hw : Hw} {R : State → State → Prop} (hR : Closed hw R)
    {fuel : Nat} {s s5 : State} {c : Nat} {par o : Option Nat}
    (h : __clk_set_parent_before hw fuel s c par = some (o, s5)) : R s s5 := by
  unfold __clk_set_parent_before at h
  simp only at h
  split at h
  · cases h
  · rename_i s2 h2
    have f2 : R s s2 := by
      split at h2
      · split at h2
        · cases h2
        · rename_i r1 s1 h1
          split at h2
          · cases h2
          · rename_i r2 s2a h2a
            simp only [Option.some.injEq] at h2
            subst h2
            exact hR.trans ((Closed_prepare_enable hR) h1) ((Closed_prepare_enable hR) h2a)
      · simp only [Option.some.injEq] at h2
        subst h2
        exact hR.refl _
    clear h2
    split at h
    · cases h
    · rename_i s4 h4
      have f4 : R s2 s4 := by
        split at h4
        · split at h4
          · cases h4
          · rename_i r3 s3 h3
            split at h4
            · cases h4
            · rename_i r4 s4a h4a
              simp only [Option.some.injEq] at h4
              subst h4
              exact hR.trans ((Closed_prepare_enable hR) h3) (hR.enable h4a)
        · simp only [Option.some.injEq] at h4
          subst h4
          exact hR.refl _
      clear h4
      split at h
      · cases h
      · rename_i s5a h5
        simp only [Option.some.injEq, Prod.mk.injEq] at h
        rw [← h.2]
        exact hR.trans f2 (hR.trans f4 (hR.reparent h5))

theorem Closed_after {hw : Hw} {R : State → State → Prop} (hR : Closed hw R)
    {fuel : Nat} {s s' : State} {c : Nat} {p o : Option Nat}
    (h : __clk_set_parent_after fuel s c p o = some s') : R s s' := by
  unfold __clk_set_parent_after at h
  simp only at h
  split at h
  · cases h
  · rename_i s2 h2
    have f2 : R s s2 := by
      split at h2
      · split at h2
        · cases h2
        · rename_i s1 h1
          exact hR.trans (hR.disable h1) ((Closed_disable_unprepare hR) h2)
      · simp only [Option.some.injEq] at h2
        subst h2
        exact hR.refl _
    clear h2
    split at h
    · split at h
      · cases h
      · rename_i s3 h3
        exact hR.trans f2 (hR.trans ((Closed_disable_unprepare hR) h3) ((Closed_disable_unprepare hR) h))
    · simp only [Option.some.injEq] at h
      subst h
      exact f2

theorem Closed_notify {hw : Hw} {R : State → State → Prop} (hR : Closed hw R)
    (s : State) (core msg o n : Nat) : R s (__clk_notify hw s core msg o n).2 := by
  obtain ⟨tr, e⟩ := __clk_notify_walk_frame hw core msg o n s.clk_notifier_list NOTIFY_DONE s
  unfold __clk_notify
  rw [e]
  exact hR.trace s tr

theorem Closed_recalc {hw : Hw} {R : State → State → Prop} (hR : Closed hw R)
    (s : State) (core pr : Nat) : R s (clk_recalc hw s core pr).2 :=
  hR.plan (clk_recalc_plan hw s core pr)

theorem Closed_recalc_rate {hw : Hw} {R : State → State → Prop} (hR : Closed hw R)
    (s6 s7 : State) (core pr : Nat) (rc : Nat × State) (h7 : R s6 s7)
    (hrc : clk_recalc hw s7 core pr = rc) :
    R s6 { rc.2 with rate := Function.update rc.2.rate core rc.1 } := by
  rw [← hrc]
  exact hR.trans h7 (hR.trans ((Closed_recalc hR) _ _ _) (hR.rate _ _))

/-- Every step of `clk_change_rate` is one of the steps a closed relation respects. -/
theorem clk_change_rate_closed (hw : Hw) (R : State → State → Prop) (hR : Closed hw R)
    (fuel : Nat) :
    (∀ s core s', clk_change_rate hw fuel s core = some s' → R s s') ∧
    (∀ s core pos s', clk_change_rate.children hw fuel s core pos = some s' → R s s') := by
  induction fuel with
  | zero =>
    constructor
    · intro s core s' h
      simp [clk_change_rate] at h
    · intro s core pos s' h
      cases pos with
      | none => simp [clk_change_rate.children] at h; subst h; exact hR.refl s
      | some c => simp [clk_change_rate.children] at h
  | succ fuel ih =>
    obtain ⟨ih1, ih2⟩ := ih
    constructor
    · intro s core s' h
      unfold clk_change_rate at h
      generalize (if (s.new_parent core).isSome = true then s.new_parent core
        else s.parent core) = parent at h
      have f1 : R s (clk_pm_runtime_get hw s core).2 :=
        hR.plan (clk_pm_runtime_get_plan hw s core)
      generalize clk_pm_runtime_get hw s core = q at h f1
      obtain ⟨r1, s1⟩ := q
      simp only at h f1
      split at h
      · simp only [Option.some.injEq] at h
        subst h
        exact f1
      · split at h
        · cases h
        · rename_i s3 h3
          have f3 : R s s3 := by
            split at h3
            · split at h3
              · cases h3
              · rename_i r2 s2 hp
                split at h3
                · cases h3
                · rename_i r3 s3a he
                  simp only [Option.some.injEq] at h3
                  subst h3
                  exact hR.trans f1 (hR.trans (hR.prepare hp) (hR.enable he))
            · simp only [Option.some.injEq] at h3
              subst h3
              exact f1
          clear h3
          split at h
          · cases h
          · rename_i skip s5 h5
            have f5 : R s3 s5 := by
              split at h5
              · split at h5
                · cases h5
                · rename_i old s4 hb
                  split at h5
                  · cases h5
                  · rename_i s5a ha
                    simp only [Option.some.injEq, Prod.mk.injEq] at h5
                    obtain ⟨-, rfl⟩ := h5
                    refine hR.trans ((Closed_before hR) hb) (hR.trans ?_ ((Closed_after hR) ha))
                    split
                    · exact (Closed_log hR) _ _
                    · split
                      · exact (Closed_log hR) _ _
                      · exact hR.refl _
              · simp only [Option.some.injEq, Prod.mk.injEq] at h5
                rw [← h5.2]
                exact hR.refl _
            clear h5
            split at h
            · cases h
            · rename_i s6 h6
              have f6 : R s5 s6 := by
                split at h6
                · split at h6
                  · cases h6
                  · rename_i r6 s6a hpe
                    simp only [Option.some.injEq] at h6
                    subst h6
                    exact (Closed_prepare_enable hR) hpe
                · simp only [Option.some.injEq] at h6
                  subst h6
                  exact hR.refl _
              clear h6
              have f06 := hR.trans f3 (hR.trans f5 f6)
              clear f1 f3 f5 f6
              generalize hrc : clk_recalc hw _ core _ = rc at h
              have f9 : R s6 { rc.2 with rate := Function.update rc.2.rate core rc.1 } :=
                (Closed_recalc_rate hR) s6 _ core _ rc
                  (by split
                      · exact (Closed_log hR) _ _
                      · exact hR.refl _) hrc
              clear hrc
              split at h
              · cases h
              · rename_i s10 h10
                have f10 : R s6 s10 := by
                  split at h10
                  · split at h10
                    · cases h10
                    · rename_i s10a hd
                      exact hR.trans f9 (hR.trans (hR.disable hd) (hR.unprepare h10))
                  · simp only [Option.some.injEq] at h10
                    subst h10
                    exact f9
                clear h10 f9
                split at h
                · cases h
                · rename_i s11 h11
                  have f11 : R s10 s11 := by
                    split at h11
                    · exact (Closed_disable_unprepare hR) h11
                    · simp only [Option.some.injEq] at h11
                      subst h11
                      exact hR.refl _
                  clear h11
                  have f011 := hR.trans f06 (hR.trans f10 f11)
                  clear f06 f10 f11
                  generalize hs12 : (if (decide (s11.notifier_count core ≠ 0) &&
                      decide (s.rate core ≠ s11.rate core)) = true then
                    (__clk_notify hw s11 core POST_RATE_CHANGE (s.rate core) (s11.rate core)).2
                    else s11) = s12 at h
                  have f12 : R s11 s12 := by
                    rw [← hs12]
                    split
                    · exact (Closed_notify hR) _ _ _ _ _
                    · exact hR.refl _
                  clear hs12
                  split at h
                  · cases h
                  · rename_i s13 h13
                    have f13 : R s12 s13 := by
                      split at h13
                      · split at h13
                        · cases h13
                        · rename_i top s13a hc
                          simp only [Option.some.injEq] at h13
                          subst h13
                          exact hR.plan (clk_calc_new_rates_plan _ _ _ _ _ _ _ hc)
                      · simp only [Option.some.injEq] at h13
                        subst h13
                        exact hR.refl _
                    clear h13
                    have f013 := hR.trans f011 (hR.trans f12 f13)
                    clear f011 f12 f13
                    split at h
                    · cases h
                    · rename_i s14 h14
                      have f14 := ih2 _ _ _ _ h14
                      have fput : ∀ a, R a (clk_pm_runtime_put a core) :=
                        fun a => hR.plan (clk_pm_runtime_put_plan a core)
                      split at h
                      · split at h
                        · cases h
                        · rename_i nc hnc s15 h15
                          simp only [Option.some.injEq] at h
                          subst h
                          exact hR.trans f013 (hR.trans f14
                            (hR.trans (ih1 _ _ _ h15) (fput _)))
                      · simp only [Option.some.injEq] at h
                        subst h
                        exact hR.trans f013 (hR.trans f14 (fput _))
    · intro s core pos s' h
      cases pos with
      | none => simp [clk_change_rate.children] at h; subst h; exact hR.refl s
      | some child =>
        unfold clk_change_rate.children at h
        simp only at h
        split at h
        · cases h
        · rename_i s1 h1
          have f1 : R s s1 := by
            split at h1
            · simp only [Option.some.injEq] at h1
              subst h1
              exact hR.refl s
            · exact ih1 _ _ _ h1
          exact hR.trans f1 (ih2 _ _ _ _ h)

theorem clk_propagate_rate_change_same (hw : Hw) (fuel : Nat) (s s' : State) (core ev : Nat)
    (f : Option Nat) (h : clk_propagate_rate_change hw fuel s core ev = some (f, s')) :
    ∃ tr, s' = { s with trace := tr } := by
  obtain ⟨-, -, -, ext, -, d1, -, -, -, -⟩ := clk_propagate_rate_change_paired hw
    ev ev fuel _ _ core _ _ (SameButTrace_refl _) h
  exact ⟨_, d1⟩

/-- Every step of `clk_core_set_rate_nolock` is respected by a closed relation that also allows
the requested rates to change and relates the state to the one after the rounding. -/
theorem clk_core_set_rate_nolock_closed (hw : Hw) (R : State → State → Prop) (hR : Closed hw R)
    (hreq : ∀ s r, R s { s with req_rate := r })
    (fuel : Nat) (s s' : State)
    (m : Option Nat) (r : Nat) (ret : Int)
    (hround : ∀ c rate s1, m = some c →
      clk_core_req_round_rate_nolock hw fuel s (some c) r = some (rate, s1) → R s s1)
    (h : clk_core_set_rate_nolock hw fuel s m r = some (ret, s')) : R s s' := by
  cases m with
  | none =>
    simp only [clk_core_set_rate_nolock, Option.some.injEq, Prod.mk.injEq] at h
    rw [← h.2]
    exact hR.refl s
  | some c =>
    unfold clk_core_set_rate_nolock at h
    simp only at h
    split at h
    · cases h
    · rename_i rate s1 h1
      have f1 : R s s1 := hround c rate s1 rfl h1
      clear h1
      split at h
      · simp only [Option.some.injEq, Prod.mk.injEq] at h
        rw [← h.2]; exact f1
      · split at h
        · simp only [Option.some.injEq, Prod.mk.injEq] at h
          rw [← h.2]; exact f1
        · split at h
          · cases h
          · rename_i s2 h2
            simp only [Option.some.injEq, Prod.mk.injEq] at h
            rw [← h.2]
            exact hR.trans f1 (hR.plan (clk_calc_new_rates_plan _ _ _ _ _ _ _ h2))
          · rename_i top s2 h2
            have f2 := hR.trans f1 (hR.plan (clk_calc_new_rates_plan _ _ _ _ _ _ _ h2))
            clear h2 f1
            have f3 := hR.trans f2 (hR.plan (clk_pm_runtime_get_plan hw s2 c))
            generalize clk_pm_runtime_get hw s2 c = q at h f3
            obtain ⟨r3, s3⟩ := q
            simp only at h f3
            split at h
            · simp only [Option.some.injEq, Prod.mk.injEq] at h
              rw [← h.2]; exact f3
            · have fput : ∀ a, R a (clk_pm_runtime_put a c) :=
                fun a => hR.plan (clk_pm_runtime_put_plan a c)
              have fprop : ∀ a b top ev f, clk_propagate_rate_change hw fuel a top ev
                  = some (f, b) → R a b := by
                intro a b top ev f hp
                obtain ⟨tr, e⟩ := clk_propagate_rate_change_same _ _ _ _ _ _ _ hp
                rw [e]; exact hR.trace a tr
              split at h
              · cases h
              · rename_i fc s4 h4
                have f4 : R s3 s4 := fprop _ _ _ _ _ h4
                split at h
                · cases h
                · rename_i fc5 s5 h5
                  simp only [Option.some.injEq, Prod.mk.injEq] at h
                  rw [← h.2]
                  exact hR.trans f3 (hR.trans f4 (hR.trans (fprop _ _ _ _ _ h5) (fput _)))
              · rename_i s4 h4
                have f4 : R s3 s4 := fprop _ _ _ _ _ h4
                split at h
                · cases h
                · rename_i s5 h5
                  simp only [Option.some.injEq, Prod.mk.injEq] at h
                  rw [← h.2]
                  exact hR.trans f3 (hR.trans f4 (hR.trans
                    ((clk_change_rate_closed hw R hR fuel).1 _ _ _ h5)
                    (hR.trans (hreq _ _) (fput _))))

theorem StaticFrame_same (s : State) : StaticFrame s s := by
  constructor <;> rfl

theorem StaticFrame_comp {a b c : State} (h1 : StaticFrame a b) (h2 : StaticFrame b c) :
    StaticFrame a c :=
  ⟨h2.name.trans h1.name, h2.ops.trans h1.ops, h2.num_parents.trans h1.num_parents,
   h2.flags.trans h1.flags, h2.rpm_enabled.trans h1.rpm_enabled, h2.min_rate.trans h1.min_rate,
   h2.max_rate.trans h1.max_rate, h2.phase.trans h1.phase, h2.duty_num.trans h1.duty_num,
   h2.duty_den.trans h1.duty_den, h2.ref.trans h1.ref, h2.clks.trans h1.clks,
   h2.notifier_count.trans h1.notifier_count, h2.hw_clk.trans h1.hw_clk,
   h2.hw_core.trans h1.hw_core, h2.clk_core.trans h1.clk_core,
   h2.clk_min_rate.trans h1.clk_min_rate, h2.clk_max_rate.trans h1.clk_max_rate,
   h2.exclusive_count.trans h1.exclusive_count,
   h2.clk_notifier_list.trans h1.clk_notifier_list⟩

theorem StaticFrame_of_count {s s' : State} (h : CountFrame s s') : StaticFrame s s' := by
  obtain ⟨e, p, r, tr, rfl⟩ := h
  constructor <;> rfl

theorem StaticFrame_of_plan {s s' : State} (h : PlanFrame s s') : StaticFrame s s' := by
  obtain ⟨a1, a2, a3, a4, a5, ext, -, rfl⟩ := h
  constructor <;> rfl

theorem StaticFrame_of_attr {s s' : State} (h : AttrFrame s s') : StaticFrame s s' := by
  obtain ⟨a1, a2, a3, a4, a5, a6, a7, rfl⟩ := h
  constructor <;> rfl

theorem StaticFrame_of_recalc {s s' : State} (h : RecalcFrame s s') : StaticFrame s s' := by
  obtain ⟨a1, a2, a3, a4, rfl⟩ := h
  constructor <;> rfl

theorem StaticFrame_of_reparent {fuel : Nat} {s s' : State} {c : Nat} {np : Option Nat}
    (h : clk_reparent fuel s c np = some s') : StaticFrame s s' := by
  obtain ⟨o, rl, ol, nc, e⟩ := clk_reparent_spec _ _ _ _ _ h
  rw [e]
  constructor <;> rfl

theorem StaticFrame_closed (hw : Hw) : Closed hw StaticFrame where
  refl := StaticFrame_same
  trans := StaticFrame_comp
  plan := StaticFrame_of_plan
  trace := fun s tr => by constructor <;> rfl
  rate := fun s r => by constructor <;> rfl
  prepare := fun h => StaticFrame_of_count (clk_core_prepare_frame _ _ _ _ _ _ h)
  unprepare := fun h => StaticFrame_of_count (clk_core_unprepare_frame _ _ _ _ h)
  enable := fun h => StaticFrame_of_count (clk_core_enable_frame _ _ _ _ _ _ h)
  disable := fun h => StaticFrame_of_count (clk_core_disable_frame _ _ _ _ h)
  reparent := StaticFrame_of_reparent

theorem clk_core_set_rate_nolock_static (hw : Hw) (fuel : Nat) (s s' : State)
    (m : Option Nat) (r : Nat) (ret : Int)
    (h : clk_core_set_rate_nolock hw fuel s m r = some (ret, s')) : StaticFrame s s' :=
  clk_core_set_rate_nolock_closed hw StaticFrame (StaticFrame_closed hw)
    (fun s r => by constructor <;> rfl) fuel s s' m r ret
    (fun c rate s1 _ h1 => by
      obtain ⟨pc, e1⟩ := clk_core_req_round_rate_nolock_frame _ _ _ _ _ _ _ h1
      rw [e1]; constructor <;> rfl) h

/-- Claim C30, amended: `__clk_put` takes the handle off the consumer list of its node and lowers
`core->ref` last; in between it calls `clk_core_set_rate_nolock(core, core->req_rate)` exactly
when `req_rate` lies outside the window `[min_rate, max_rate]` of the handle being released
(the windows of the remaining consumers and the limits of the node are not looked at).  The
state `s3` is the one after the unlinking, in which a handle that still held exclusive
references has been stripped of them. -/
theorem put_replans_on_own_window (hw : Hw) (fuel : Nat) (s s' : State) (k : Nat)
    (h : __clk_put hw fuel s (some k) = some s') :
    s'.clks (s.clk_core k) = (s.clks (s.clk_core k)).erase k ∧
    s'.ref (s.clk_core k) = s.ref (s.clk_core k) - 1 ∧
    ∃ pc, (s.exclusive_count k = 0 → pc = s.protect_count) ∧
      ((s.clk_min_rate k ≤ s.req_rate (s.clk_core k) ∧
          s.req_rate (s.clk_core k) ≤ s.clk_max_rate k) →
        s' = { s with protect_count := pc, exclusive_count := Function.update s.exclusive_count k 0, clks := Function.update s.clks (s.clk_core k) ((s.clks (s.clk_core k)).erase k), ref := Function.update s.ref (s.clk_core k) (s.ref (s.clk_core k) - 1) }) ∧
      (¬ (s.clk_min_rate k ≤ s.req_rate (s.clk_core k) ∧
          s.req_rate (s.clk_core k) ≤ s.clk_max_rate k) →
        ∃ ret s4, clk_core_set_rate_nolock hw fuel { s with protect_count := pc, exclusive_count := Function.update s.exclusive_count k 0, clks := Function.update s.clks (s.clk_core k) ((s.clks (s.clk_core k)).erase k) } (some (s.clk_core k)) (s.req_rate (s.clk_core k)) = some (ret, s4) ∧
          s' = { s4 with ref := Function.update s4.ref (s.clk_core k) (s4.ref (s.clk_core k) - 1) }) := by
  unfold __clk_put at h
  simp only at h
  split at h
  · cases h
  · rename_i s2 h2
    have e2 : ∃ pc, (s.exclusive_count k = 0 → pc = s.protect_count) ∧
        s2 = { s with protect_count := pc, exclusive_count := Function.update s.exclusive_count k 0 } := by
      split at h2
      · rename_i hex
        split at h2
        · cases h2
        · rename_i s2a hu
          obtain ⟨pc, e⟩ := clk_core_rate_unprotect_frame _ _ _ _ hu
          simp only [Option.some.injEq] at h2
          subst h2
          exact ⟨pc, fun h0 => absurd h0 hex, by rw [e]⟩
      · rename_i hex
        simp only [ne_eq, not_not] at hex
        simp only [Option.some.injEq] at h2
        subst h2
        refine ⟨s.protect_count, fun _ => rfl, ?_⟩
        have : Function.update s.exclusive_count k 0 = s.exclusive_count := by
          rw [← hex]; exact Function.update_eq_self k s.exclusive_count
        rw [this]
    clear h2
    obtain ⟨pc, hpc, rfl⟩ := e2
    simp only at h
    split at h
    · cases h
    · rename_i s4 h4
      simp only [Option.some.injEq] at h
      subst h
      by_cases hin : s.clk_min_rate k ≤ s.req_rate (s.clk_core k) ∧
          s.req_rate (s.clk_core k) ≤ s.clk_max_rate k
      · have hc : ¬ ((decide (s.clk_min_rate k > s.req_rate (s.clk_core k)) ||
            decide (s.clk_max_rate k < s.req_rate (s.clk_core k))) = true) := by
          simp only [Bool.or_eq_true, decide_eq_true_eq, not_or, not_lt, gt_iff_lt]
          exact hin
        rw [if_neg hc] at h4
        simp only [Option.some.injEq] at h4
        subst h4
        refine ⟨by simp, by simp, pc, hpc, fun _ => rfl, fun hn => absurd hin hn⟩
      · have hc : (decide (s.clk_min_rate k > s.req_rate (s.clk_core k)) ||
            decide (s.clk_max_rate k < s.req_rate (s.clk_core k))) = true := by
          simp only [Bool.or_eq_true, decide_eq_true_eq, gt_iff_lt]
          by_contra hcon
          simp only [not_or, not_lt] at hcon
          exact hin hcon
        rw [if_pos hc] at h4
        split at h4
        · cases h4
        · rename_i ret s4a hs
          simp only [Option.some.injEq] at h4
          subst h4
          have hst := clk_core_set_rate_nolock_static _ _ _ _ _ _ _ hs
          refine ⟨?_, ?_, pc, hpc, fun hy => absurd hy hin, fun _ => ⟨ret, s4a, hs, rfl⟩⟩
          · simp [hst.clks]
          · simp [hst.ref]

/-- A run of `put_replans_on_own_window`: releasing handle 1 of the plain `tunable1`, whose
window is the whole range. -/
theorem put_replans_on_own_window_witness :
    (((__clk_put Hw.quiet 5 tunable1 (some 1)).getD tunable1).clks (tunable1.clk_core 1)
      = (tunable1.clks (tunable1.clk_core 1)).erase 1) :=
  (put_replans_on_own_window Hw.quiet 5 tunable1 ((__clk_put Hw.quiet 5 tunable1 (some 1)).getD tunable1) 1 rfl).1

/-- Claim C30 as stated fails in both directions on `clamped1`, where `req_rate` is 100.
Releasing handle 1 (window `[200, 300]`) leaves handle 0 and the node limits, a window that
contains 100, and the rate is re-planned all the same (the node moves from 200 to 100).
Releasing handle 0 leaves the window `[200, 300]` of handle 1, which does not contain 100, and
nothing is re-planned (the trace stays empty). -/
theorem put_replans_on_own_window_counterexample :
    clamped1.req_rate 0 = 100 ∧ clamped1.rate 0 = 200 ∧
    clk_core_get_boundaries { clamped1 with clks := fun n => if n = 0 then [0] else [] } 0
      = (0, ULONG_MAX) ∧
    (__clk_put Hw.tracking 5 clamped1 (some 1)).map (fun s' => (s'.clks 0, s'.rate 0))
      = some ([0], 100) ∧
    clk_core_get_boundaries { clamped1 with clks := fun n => if n = 0 then [1] else [] } 0
      = (200, 300) ∧
    (__clk_put Hw.tracking 5 clamped1 (some 0)).map (fun s' => (s'.clks 0, s'.rate 0, s'.trace))
      = some ([1], 200, []) := by
  decide

theorem ref_put_frame {par : Nat → Option Nat} {N : Nat} {dep : Nat → Nat}
    (hd : IsDepth par N dep) (crit : Nat → Bool) (fuel : Nat) (c c' : Nat → Nat) (m : Nat)
    (h : ref_put par crit fuel c (some m) = some c') :
    ∀ x, dep m < dep x → c' x = c x := by
  induction fuel generalizing c c' m with
  | zero => simp [ref_put] at h
  | succ fuel ih =>
    intro x hx
    have hxm : x ≠ m := by rintro rfl; omega
    unfold ref_put at h
    split at h
    · cases h; rfl
    · split at h
      · cases h; rfl
      · split at h
        · cases h; simp [Function.update_apply, hxm]
        · cases hp : par m with
          | none =>
            rw [hp] at h
            simp only [ref_put, Option.some.injEq] at h
            rw [← h]; simp [Function.update_apply, hxm]
          | some p =>
            rw [hp] at h
            have := ih _ _ p h x (by have := (hd m p hp).2.1; omega)
            rw [this]; simp [Function.update_apply, hxm]

/-- Taking back the reference just dropped undoes the walk, when the counts along the chain
were consistent: every positive count at or above the node sits under a positive count. -/
theorem ref_get_put {par : Nat → Option Nat} {N : Nat} {dep : Nat → Nat}
    (hd : IsDepth par N dep) (crit : Nat → Bool) (hcrit : ∀ x, crit x = false) (fuel : Nat)
    (c c' : Nat → Nat) (m : Option Nat)
    (hpos : ∀ d, m = some d → 0 < c d)
    (hanc : ∀ d, m = some d → ∀ n q, par n = some q → dep n ≤ dep d → 0 < c n → 0 < c q)
    (h : ref_put par crit fuel c m = some c') : ref_get par fuel c' m = some c := by
  induction fuel generalizing c c' m with
  | zero =>
    cases m with
    | none => simp [ref_put] at h; simp [ref_get, h]
    | some m => simp [ref_put] at h
  | succ fuel ih =>
    cases m with
    | none => simp [ref_put] at h; simp [ref_get, h]
    | some d =>
      have hp0 := hpos d rfl
      have hne : c d ≠ 0 := by omega
      unfold ref_put at h
      simp only [hne, if_false, hcrit, Bool.and_false, Bool.false_eq_true] at h
      by_cases h1 : c d - 1 > 0
      · simp only [h1, if_true, Option.some.injEq] at h
        subst h
        unfold ref_get
        have : ¬ (c d - 1 = 0) := by omega
        simp only [Function.update_same, this, if_false, Function.update_idem]
        have e : c d - 1 + 1 = c d := by omega
        rw [e, Function.update_eq_self]
      · simp only [h1, if_false] at h
        have hc1 : c d = 1 := by omega
        have hih := ih (Function.update c d 0) c' (par d)
          (by
            intro p hp
            have hdp := (hd d p hp).2.1
            have hpd : p ≠ d := by rintro rfl; omega
            simp only [Function.update_apply, hpd, if_false]
            exact hanc d rfl d p hp (le_refl _) hp0)
          (by
            intro p hp n q hnq hle hn
            have hdp := (hd d p hp).2.1
            have hnd : n ≠ d := by rintro rfl; omega
            have hqd : q ≠ d := by
              rintro rfl
              have := (hd n q hnq).2.1
              omega
            simp only [Function.update_apply, hnd, if_false] at hn
            simp only [Function.update_apply, hqd, if_false]
            exact hanc d rfl n q hnq (by omega) hn)
          (by rw [hc1] at h; exact h)
        have hcd : c' d = 0 := by
          rw [hc1] at h
          cases hp : par d with
          | none =>
            rw [hp] at h
            simp only [ref_put, Option.some.injEq] at h
            rw [← h]; simp
          | some p =>
            rw [hp] at h
            rw [ref_put_frame hd crit fuel _ _ p h d (hd d p hp).2.1]
            simp
        unfold ref_get
        simp only [hcd, if_true, hih, Function.update_same, Function.update_idem]
        have e : (0 : Nat) + 1 = c d := by omega
        rw [e, Function.update_eq_self]

/-- With consistent protect counts, the temporary removal of the protection in
`clk_core_req_round_rate_nolock` leaves the state as it was. -/
theorem clk_core_req_round_rate_nolock_same {N : Nat} {dep : Nat → Nat} (hw : Hw)
    (fuel : Nat) (s s' : State) (c : Nat) (req_rate rate : Nat)
    (hd : IsDepth s.parent N dep)
    (hanc : s.protect_count c = 0 ∨ Ancestry s.parent s.protect_count)
    (h : clk_core_req_round_rate_nolock hw fuel s (some c) req_rate = some (rate, s')) :
    s' = s := by
  unfold clk_core_req_round_rate_nolock clk_core_rate_nuke_protect at h
  simp only at h
  by_cases h0 : s.protect_count c = 0
  · simp only [h0, if_true] at h
    simp only [lt_self_iff_false, if_false, clk_core_rate_restore_protect, if_true] at h
    split at h
    · cases h
    · simp only [Option.some.injEq, Prod.mk.injEq] at h
      exact h.2.symm
  · have hanc' : Ancestry s.parent s.protect_count := by
      rcases hanc with h1 | h1
      · exact absurd h1 h0
      · exact h1
    simp only [h0, if_false] at h
    rw [clk_core_rate_unprotect_eq] at h
    cases hu : ref_put s.parent (fun _ => false) fuel (Function.update s.protect_count c 1)
        (some c) with
    | none => simp [hu] at h
    | some c2 =>
      simp only [hu, Option.map_some'] at h
      have hcnt : ¬ ((s.protect_count c : Int) < 0) := by omega
      have hcnt0 : ((s.protect_count c : Int) ≠ 0) := by omega
      simp only [hcnt, if_false] at h
      split at h
      · cases h
      · rename_i ret req hrr
        simp only [clk_core_rate_restore_protect, hcnt0, if_false] at h
        rw [clk_core_rate_protect_eq] at h
        have hg := ref_get_put hd (fun _ => false) (fun _ => rfl) fuel
          (Function.update s.protect_count c 1) c2 (some c)
          (by intro d hdd; cases hdd; simp)
          (by
            intro d hdd n q hnq _ hn
            cases hdd
            have hn' : 0 < s.protect_count n := by
              by_cases hnc : n = c
              · subst hnc; omega
              · simpa [Function.update_apply, hnc] using hn
            have := hanc' n q hnq hn'
            by_cases hqc : q = c
            · subst hqc; simp
            · simpa [Function.update_apply, hqc] using this)
          hu
        simp only [hg, Option.map_some', Option.some.injEq, Prod.mk.injEq] at h
        rw [← h.2]
        simp only [Int.toNat_ofNat, Function.update_idem, Function.update_eq_self]

theorem Ungated_refl (s : State) : Ungated s s := ⟨rfl, rfl⟩

theorem Ungated_trans {s s1 s2 : State} (h1 : Ungated s s1) (h2 : Ungated s1 s2) :
    Ungated s s2 := ⟨h2.1.trans h1.1, h2.2.trans h1.2⟩

theorem GateFree_of_ungated {s s' : State} (h : Ungated s s') (hng : GateFree s) :
    GateFree s' := fun x => by rw [h.2]; exact hng x

theorem Ungated_of_plan {s s' : State} (h : PlanFrame s s') : Ungated s s' := by
  obtain ⟨a1, a2, a3, a4, a5, ext, -, rfl⟩ := h
  exact ⟨rfl, rfl⟩

theorem Ungated_pm_put (s : State) (c : Nat) : Ungated s (clk_pm_runtime_put s c) :=
  Ungated_of_plan (clk_pm_runtime_put_plan s c)

theorem Ungated_pm_get (hw : Hw) (s : State) (c : Nat) :
    Ungated s (clk_pm_runtime_get hw s c).2 :=
  Ungated_of_plan (clk_pm_runtime_get_plan hw s c)

theorem clk_core_unprepare_ungated (fuel : Nat) (s s' : State) (m : Option Nat)
    (hng : GateFree s) (h : clk_core_unprepare fuel s m = some s') : Ungated s s' := by
  induction fuel generalizing s s' m with
  | zero =>
    cases m with
    | none => simp [clk_core_unprepare] at h; subst h; exact Ungated_refl s
    | some c => simp [clk_core_unprepare] at h
  | succ fuel ih =>
    cases m with
    | none => simp [clk_core_unprepare] at h; subst h; exact Ungated_refl s
    | some c =>
      unfold clk_core_unprepare at h
      simp only at h
      split at h
      · simp at h; subst h; exact Ungated_refl s
      · split at h
        · simp at h; subst h; exact Ungated_refl s
        · have hfl : (s.flags c).CLK_SET_RATE_GATE = false := hng c
          simp only [hfl, Bool.false_eq_true, if_false] at h
          split at h
          · simp at h; subst h; exact ⟨rfl, rfl⟩
          · have f1 : Ungated s (clk_pm_runtime_put
                (if ({ s with prepare_count := Function.update s.prepare_count c (s.prepare_count c - 1) }.ops c).unprepare = true then
                  ({ s with prepare_count := Function.update s.prepare_count c (s.prepare_count c - 1) } : State).log (.op_unprepare c)
                 else { s with prepare_count := Function.update s.prepare_count c (s.prepare_count c - 1) }) c) := by
              refine Ungated_trans ?_ (Ungated_pm_put _ _)
              split
              · exact ⟨rfl, rfl⟩
              · exact ⟨rfl, rfl⟩
            exact Ungated_trans f1 (ih _ _ _ (GateFree_of_ungated f1 hng) h)

theorem clk_core_disable_ungated (fuel : Nat) (s s' : State) (m : Option Nat)
    (h : clk_core_disable fuel s m = some s') : Ungated s s' := by
  induction fuel generalizing s s' m with
  | zero =>
    cases m with
    | none => simp [clk_core_disable] at h; subst h; exact Ungated_refl s
    | some c => simp [clk_core_disable] at h
  | succ fuel ih =>
    cases m with
    | none => simp [clk_core_disable] at h; subst h; exact Ungated_refl s
    | some c =>
      unfold clk_core_disable at h
      simp only at h
      split at h
      · simp at h; subst h; exact Ungated_refl s
      · split at h
        · simp at h; subst h; exact Ungated_refl s
        · split at h
          · simp at h; subst h; exact ⟨rfl, rfl⟩
          · refine Ungated_trans ?_ (ih _ _ _ h)
            split
            · exact ⟨rfl, rfl⟩
            · exact ⟨rfl, rfl⟩

theorem clk_core_enable_ungated (hw : Hw) (fuel : Nat) (s s' : State) (m : Option Nat)
    (ret : Int) (h : clk_core_enable hw fuel s m = some (ret, s')) : Ungated s s' := by
  induction fuel generalizing s s' m ret with
  | zero =>
    cases m with
    | none => simp [clk_core_enable] at h; rw [← h.2]; exact Ungated_refl s
    | some c => simp [clk_core_enable] at h
  | succ fuel ih =>
    cases m with
    | none => simp [clk_core_enable] at h; rw [← h.2]; exact Ungated_refl s
    | some c =>
      unfold clk_core_enable at h
      by_cases h1 : s.prepare_count c = 0
      · simp [h1] at h; rw [← h.2]; exact Ungated_refl s
      · by_cases h2 : s.enable_count c = 0
        · simp only [h1, h2, if_true, if_false] at h
          cases hp : clk_core_enable hw fuel s (s.parent c) with
          | none => simp [hp] at h
          | some r =>
            obtain ⟨r1, s1⟩ := r
            have f1 := ih _ _ _ _ hp
            simp only [hp] at h
            by_cases h3 : r1 = 0
            · have fe : Ungated s (if (s1.ops c).enable = true then s1.log (.op_enable c)
                  else s1) := by
                split
                · exact f1
                · exact f1
              by_cases h4 : (if (s1.ops c).enable = true then hw.enable s1 c else 0) = 0
              · simp only [h3, h4, ne_eq, not_true_eq_false, if_false] at h
                simp at h; rw [← h.2]
                exact fe
              · simp only [h3, h4, ne_eq, not_true_eq_false, not_false_eq_true, if_true,
                  if_false] at h
                cases hd : clk_core_disable fuel
                    (if (s1.ops c).enable = true then s1.log (.op_enable c) else s1)
                    ((if (s1.ops c).enable = true then s1.log (.op_enable c) else s1).parent c) with
                | none => simp [hd] at h
                | some s3 =>
                  simp [hd] at h; rw [← h.2]
                  exact Ungated_trans fe (clk_core_disable_ungated _ _ _ _ hd)
            · simp [h3] at h; rw [← h.2]; exact f1
        · simp [h1, h2] at h; rw [← h.2]; exact ⟨rfl, rfl⟩

theorem clk_core_prepare_ungated (hw : Hw) (fuel : Nat) (s s' : State) (m : Option Nat)
    (ret : Int) (hng : GateFree s) (h : clk_core_prepare hw fuel s m = some (ret, s')) :
    Ungated s s' := by
  induction fuel generalizing s s' m ret with
  | zero =>
    cases m with
    | none => simp [clk_core_prepare] at h; rw [← h.2]; exact Ungated_refl s
    | some c => simp [clk_core_prepare] at h
  | succ fuel ih =>
    cases m with
    | none => simp [clk_core_prepare] at h; rw [← h.2]; exact Ungated_refl s
    | some c =>
      have fin : ∀ (a : State) (r : Int) (b : State), Ungated s a →
          (let a1 : State := { a with prepare_count := Function.update a.prepare_count c (a.prepare_count c + 1) }
           (if (a1.flags c).CLK_SET_RATE_GATE then
              match clk_core_rate_protect (fuel + 1) a1 (some c) with
              | none => none
              | some s2 => some ((0 : Int), s2)
            else some (0, a1)) = some (r, b)) → Ungated s b := by
        intro a r b fa hb
        have hfl : (a.flags c).CLK_SET_RATE_GATE = false := GateFree_of_ungated fa hng c
        simp only [hfl, Bool.false_eq_true, if_false, Option.some.injEq, Prod.mk.injEq] at hb
        rw [← hb.2]; exact fa
      unfold clk_core_prepare at h
      by_cases h1 : s.prepare_count c = 0
      · simp only [h1, if_true] at h
        have fg := Ungated_pm_get hw s c
        by_cases h2 : (clk_pm_runtime_get hw s c).1 = 0
        · simp only [h2, ne_eq, not_true_eq_false, if_false] at h
          cases hp : clk_core_prepare hw fuel (clk_pm_runtime_get hw s c).2
              ((clk_pm_runtime_get hw s c).2.parent c) with
          | none => simp [hp] at h
          | some r =>
            obtain ⟨r1, s2⟩ := r
            have f2 := Ungated_trans fg (ih _ _ _ _ (GateFree_of_ungated fg hng) hp)
            simp only [hp] at h
            by_cases h3 : r1 = 0
            · have fe : Ungated s (if (s2.ops c).prepare = true then s2.log (.op_prepare c)
                  else s2) := by
                split
                · exact f2
                · exact f2
              by_cases h4 : (if (s2.ops c).prepare = true then hw.prepare s2 c else 0) = 0
              · simp only [h3, h4, ne_eq, not_true_eq_false, if_false] at h
                exact fin _ _ _ fe h
              · simp only [h3, h4, ne_eq, not_true_eq_false, not_false_eq_true, if_true,
                  if_false] at h
                cases hd : clk_core_unprepare fuel
                    (if (s2.ops c).prepare = true then s2.log (.op_prepare c) else s2)
                    ((if (s2.ops c).prepare = true then s2.log (.op_prepare c) else s2).parent c) with
                | none => simp [hd] at h
                | some s4 =>
                  simp [hd] at h; rw [← h.2]
                  exact Ungated_trans (Ungated_trans fe
                    (clk_core_unprepare_ungated _ _ _ _ (GateFree_of_ungated fe hng) hd))
                    (Ungated_pm_put _ _)
            · simp [h3] at h; rw [← h.2]; exact Ungated_trans f2 (Ungated_pm_put _ _)
        · simp [h2] at h; rw [h] at fg; exact fg
      · simp only [h1, if_false] at h
        exact fin _ _ _ (Ungated_refl s) h

theorem Ungated_closed (hw : Hw) : Closed hw (fun s s' => GateFree s → Ungated s s') where
  refl := fun s _ => Ungated_refl s
  trans := fun h1 h2 hng => Ungated_trans (h1 hng) (h2 (GateFree_of_ungated (h1 hng) hng))
  plan := fun h _ => Ungated_of_plan h
  trace := fun s tr _ => ⟨rfl, rfl⟩
  rate := fun s r _ => ⟨rfl, rfl⟩
  prepare := fun h hng => clk_core_prepare_ungated _ _ _ _ _ _ hng h
  unprepare := fun h hng => clk_core_unprepare_ungated _ _ _ _ hng h
  enable := fun h _ => clk_core_enable_ungated _ _ _ _ _ _ h
  disable := fun h _ => clk_core_disable_ungated _ _ _ _ h
  reparent := fun h _ => by
    obtain ⟨o, rl, ol, nc, e⟩ := clk_reparent_spec _ _ _ _ _ h
    rw [e]
    exact ⟨rfl, rfl⟩

/-- Without `CLK_SET_RATE_GATE` in the tree and with consistent protect counts,
`clk_core_set_rate_nolock` leaves every protect count as it was. -/
theorem clk_core_set_rate_nolock_ungated {N : Nat} {dep : Nat → Nat} (hw : Hw) (fuel : Nat)
    (s s' : State) (c r : Nat) (ret : Int) (hd : IsDepth s.parent N dep)
    (hanc : s.protect_count c = 0 ∨ Ancestry s.parent s.protect_count) (hng : GateFree s)
    (h : clk_core_set_rate_nolock hw fuel s (some c) r = some (ret, s')) :
    s'.protect_count = s.protect_count :=
  (clk_core_set_rate_nolock_closed hw (fun s s' => GateFree s → Ungated s s')
    (Ungated_closed hw) (fun s r _ => ⟨rfl, rfl⟩) fuel s s' (some c) r ret
    (fun c1 rate s1 hc h1 => by
      cases hc
      intro _
      rw [clk_core_req_round_rate_nolock_same hw fuel s s1 c r rate hd hanc h1]
      exact Ungated_refl s) h hng).1

/-- A failed `clk_core_set_rate_nolock` leaves the protect counts as the rounding left them. -/
theorem clk_core_set_rate_nolock_failed (hw : Hw) (fuel : Nat) (s s' : State) (c r : Nat)
    (ret : Int) (hret : ret ≠ 0)
    (h : clk_core_set_rate_nolock hw fuel s (some c) r = some (ret, s')) :
    ∃ rate s1, clk_core_req_round_rate_nolock hw fuel s (some c) r = some (rate, s1) ∧
      s'.protect_count = s1.protect_count := by
  unfold clk_core_set_rate_nolock at h
  simp only at h
  split at h
  · cases h
  · rename_i rate s1 h1
    refine ⟨rate, s1, h1, ?_⟩
    clear h1
    split at h
    · simp only [Option.some.injEq, Prod.mk.injEq] at h
      exact absurd h.1.symm hret
    · split at h
      · simp only [Option.some.injEq, Prod.mk.injEq] at h
        rw [← h.2]
      · split at h
        · cases h
        · rename_i s2 h2
          simp only [Option.some.injEq, Prod.mk.injEq] at h
          rw [← h.2]
          exact (Ungated_of_plan (clk_calc_new_rates_plan _ _ _ _ _ _ _ h2)).1
        · rename_i top s2 h2
          have f2 := (Ungated_of_plan (clk_calc_new_rates_plan _ _ _ _ _ _ _ h2)).1
          clear h2
          have f3 := (Ungated_pm_get hw s2 c).1.trans f2
          generalize clk_pm_runtime_get hw s2 c = q at h f3
          obtain ⟨r3, s3⟩ := q
          simp only at h f3
          split at h
          · simp only [Option.some.injEq, Prod.mk.injEq] at h
            rw [← h.2]; exact f3
          · split at h
            · cases h
            · rename_i fc s4 h4
              obtain ⟨tr4, e4⟩ := clk_propagate_rate_change_same _ _ _ _ _ _ _ h4
              split at h
              · cases h
              · rename_i fc5 s5 h5
                obtain ⟨tr5, e5⟩ := clk_propagate_rate_change_same _ _ _ _ _ _ _ h5
                simp only [Option.some.injEq, Prod.mk.injEq] at h
                rw [← h.2, (Ungated_pm_put s5 c).1, e5, e4]
                exact f3
            · rename_i s4 h4
              split at h
              · cases h
              · rename_i s5 h5
                simp only [Option.some.injEq, Prod.mk.injEq] at h
                exact absurd h.1.symm hret

/-- Claim C21, amended: in a forest, `clk_rate_exclusive_get` returns 0 and
`clk_rate_exclusive_put` after it gives back the state from before the pair (so the handle's
`exclusive_count` and every `protect_count` are restored); between the two calls the node is
protected, and every ancestor is protected provided the protect counts were consistent before
(a protected node sits under a protected parent). -/
theorem exclusive_get_put_round_trip {N : Nat} {dep : Nat → Nat} (fuel : Nat) (s : State)
    (k : Nat) (hd : IsDepth s.parent N dep) (hf : dep (s.clk_core k) < fuel) :
    ∃ s1, clk_rate_exclusive_get fuel s (some k) = some (0, s1) ∧
      clk_rate_exclusive_put fuel s1 (some k) = some s ∧
      0 < s1.protect_count (s.clk_core k) ∧
      (Ancestry s.parent s.protect_count →
        ∀ a, Relation.ReflTransGen (fun x y => s.parent x = some y) (s.clk_core k) a →
          0 < s1.protect_count a) := by
  obtain ⟨c1, hc1⟩ := ref_get_total hd fuel s.protect_count (s.clk_core k) hf
  have hself := ref_get_self hd fuel _ _ _ hc1
  refine ⟨{ s with protect_count := c1, exclusive_count := Function.update s.exclusive_count k (s.exclusive_count k + 1) }, ?_, ?_, ?_, ?_⟩
  · simp only [clk_rate_exclusive_get, clk_core_rate_protect_eq, hc1, Option.map_some']
  · have hput := ref_put_get hd (fun _ => false) (fun _ => rfl) fuel _ _ _ hc1
    simp only [clk_rate_exclusive_put, clk_core_rate_unprotect_eq, Function.update_same,
      Nat.add_one_ne_zero, if_false, hput, Option.map_some', Function.update_idem,
      Nat.add_sub_cancel, Function.update_eq_self]
  · show 0 < c1 (s.clk_core k)
    omega
  · intro hanc a ha
    show 0 < c1 a
    have hanc1 := ref_get_ancestry hd fuel _ _ _ hanc hc1
    induction ha with
    | refl => omega
    | tail _ hbc ih => exact hanc1 _ _ hbc ih

/-- A run of `exclusive_get_put_round_trip` on the lower node of the two-node chain. -/
theorem exclusive_get_put_round_trip_witness :
    ∃ s1, clk_rate_exclusive_get 2 { chain2 with clk_core := fun _ => 1 } (some 0) = some (0, s1) ∧
      clk_rate_exclusive_put 2 s1 (some 0) = some { chain2 with clk_core := fun _ => 1 } ∧
      0 < s1.protect_count 1 ∧
      (Ancestry chain2.parent chain2.protect_count →
        ∀ a, Relation.ReflTransGen (fun x y => chain2.parent x = some y) 1 a →
          0 < s1.protect_count a) :=
  exclusive_get_put_round_trip 2 { chain2 with clk_core := fun _ => 1 } 0 IsDepth_chain2
    (by decide)

/-- Claim C21 as stated fails: the orphan of `protected_orphan` is adopted by node 0 with its
protect reference, which the adoption does not carry to the new parent; after
`clk_rate_exclusive_get` on its handle the node has two protect references and its parent, an
ancestor, has none. -/
theorem exclusive_get_put_round_trip_counterexample :
    ((clk_core_reparent_orphans_nolock Hw.quiet 5 protected_orphan).bind
        (fun s => clk_rate_exclusive_get 5 s (some 1))).map
      (fun r => (r.1, r.2.parent 1, r.2.protect_count 1, r.2.protect_count 0))
      = some (0, some 0, 2, 0) := by
  decide

/-- Claim C22, amended: with consistent protect counts (the node is unprotected, or every
protected node sits under a protected parent), a failing `clk_set_rate_exclusive` leaves every
`exclusive_count` and every `protect_count` as it was; a successful one raises the handle's
`exclusive_count` by one and takes one protect reference on the state `s2` that the rate change
left, whose protect counts are those from before the call when no node carries
`CLK_SET_RATE_GATE`. -/
theorem set_rate_exclusive_protect {N N' : Nat} {dep dep' : Nat → Nat} (hw : Hw) (fuel : Nat)
    (s s' : State) (k r : Nat) (ret : Int) (hd : IsDepth s.parent N dep)
    (hanc : s.protect_count (s.clk_core k) = 0 ∨ Ancestry s.parent s.protect_count)
    (h : clk_set_rate_exclusive hw fuel s (some k) r = some (ret, s')) :
    (ret ≠ 0 → s'.exclusive_count = s.exclusive_count ∧ s'.protect_count = s.protect_count) ∧
    (ret = 0 → s'.exclusive_count k = s.exclusive_count k + 1 ∧
      ∃ s2, clk_core_set_rate_nolock hw fuel s (some (s.clk_core k)) r = some (0, s2) ∧
        (IsDepth s'.parent N' dep' →
          s'.protect_count (s.clk_core k) = s2.protect_count (s.clk_core k) + 1) ∧
        (GateFree s → s2.protect_count = s.protect_count)) := by
  unfold clk_set_rate_exclusive at h
  simp only at h
  split at h
  · cases h
  · rename_i ret1 s1 h1
    have hst := clk_core_set_rate_nolock_static _ _ _ _ _ _ _ h1
    by_cases hr : ret1 = 0
    · subst hr
      simp only [if_true] at h
      rw [clk_core_rate_protect_eq] at h
      cases hg : ref_get s1.parent fuel s1.protect_count (some (s1.clk_core k)) with
      | none => simp [hg] at h
      | some c2 =>
        simp only [hg, Option.map_some', Option.some.injEq, Prod.mk.injEq] at h
        obtain ⟨hret, hs'⟩ := h
        subst hret
        refine ⟨fun hne => absurd rfl hne, fun _ => ⟨?_, s1, h1, ?_, ?_⟩⟩
        · rw [← hs']
          simp [hst.exclusive_count]
        · intro hd'
          rw [← hs'] at hd' ⊢
          rw [hst.clk_core] at hg
          exact ref_get_self hd' fuel _ _ _ hg
        · intro hng
          exact clk_core_set_rate_nolock_ungated hw fuel s s1 _ r 0 hd hanc hng h1
    · simp only [hr, if_false, Option.some.injEq, Prod.mk.injEq] at h
      obtain ⟨hret, hs'⟩ := h
      subst hret hs'
      refine ⟨fun _ => ⟨hst.exclusive_count, ?_⟩, fun h0 => absurd h0 hr⟩
      obtain ⟨rate, s0, h0, e0⟩ := clk_core_set_rate_nolock_failed hw fuel s s1 _ r ret1 hr h1
      rw [e0, clk_core_req_round_rate_nolock_same hw fuel s s0 _ r rate hd hanc h0]

/-- A run of `set_rate_exclusive_protect`: the single tunable node is set to 150 through
handle 0, which then holds one exclusive reference. -/
theorem set_rate_exclusive_protect_witness :
    ((clk_set_rate_exclusive Hw.tracking 5 tunable1 (some 0) 150).getD (0, tunable1)).2.exclusive_count 0
      = tunable1.exclusive_count 0 + 1 :=
  ((@set_rate_exclusive_protect 0 0 (fun _ => 0) (fun _ => 0) Hw.tracking 5 tunable1 _ 0 150 0
    (IsDepth_of_no_parent tunable1 (fun _ => rfl)) (Or.inl (by decide))
    (eq_some_of_map_fst _ 0 (0, tunable1) (by decide))).2 rfl).1

/-- Claim C22 as stated fails: after the adoption of the protected orphan of
`protected_orphan`, `clk_set_rate_exclusive` on its handle fails with `-EBUSY`, and the
protect count of the new parent, 0 before the call, is 1 after it. -/
theorem set_rate_exclusive_protect_counterexample :
    (clk_core_reparent_orphans_nolock Hw.quiet 5 protected_orphan).map
      (fun s => (s.parent 1, s.protect_count 0)) = some (some 0, 0) ∧
    ((clk_core_reparent_orphans_nolock Hw.quiet 5 protected_orphan).bind
        (fun s => clk_set_rate_exclusive Hw.quiet 5 s (some 1) 50)).map
      (fun r => (r.1, r.2.protect_count 0)) = some (-EBUSY, 1) := by
  decide

theorem __clk_recalc_accuracies_rel (hw : Hw) (R : State → State → Prop)
    (hrefl : ∀ s, R s s) (htrans : ∀ a b c, R a b → R b c → R a c)
    (hacc : ∀ s a, R s { s with accuracy := a })
    (fuel : Nat) (s s' : State) (core : Nat)
    (h : __clk_recalc_accuracies hw fuel s core = some s') : R s s' := by
  induction fuel generalizing s s' core with
  | zero => simp [__clk_recalc_accuracies] at h
  | succ fuel ih =>
    unfold __clk_recalc_accuracies at h
    refine htrans _ _ _ ?_ (foldlM_rel id R hrefl htrans _ _
      (fun b x b' _ hb => ih _ _ _ hb) _ _ h)
    exact hacc _ _

theorem __clk_recalc_rates_rel (hw : Hw) (R : State → State → Prop)
    (hrefl : ∀ s, R s s) (htrans : ∀ a b c, R a b → R b c → R a c)
    (hrecalc : ∀ s core pr, R s (clk_recalc hw s core pr).2)
    (hrate : ∀ s r, R s { s with rate := r }) (msg : Nat)
    (hnotify : msg ≠ 0 → ∀ s core o n, R s (__clk_notify hw s core msg o n).2)
    (fuel : Nat) (s s' : State) (core : Nat)
    (h : __clk_recalc_rates hw fuel s core msg = some s') : R s s' := by
  induction fuel generalizing s s' core with
  | zero => simp [__clk_recalc_rates] at h
  | succ fuel ih =>
    unfold __clk_recalc_rates at h
    simp only at h
    have key : ∀ s3, R s s3 →
        (s3.children core).foldlM (fun st child => __clk_recalc_rates hw fuel st child msg) s3
          = some s' → R s s' :=
      fun s3 f3 hf => htrans _ _ _ f3 (foldlM_rel id R hrefl htrans _ _
        (fun b x b' _ hb => ih _ _ _ hb) _ _ hf)
    generalize hrc : clk_recalc hw s core _ = rc at h
    have f1 : R s rc.2 := by rw [← hrc]; exact hrecalc _ _ _
    obtain ⟨rate, s1⟩ := rc
    simp only at h f1
    refine key _ ?_ h
    have f2 : R s { s1 with rate := Function.update s1.rate core rate } :=
      htrans _ _ _ f1 (hrate _ _)
    split
    · rename_i hc
      have hm : msg ≠ 0 := by
        simp only [Bool.and_eq_true, decide_eq_true_eq] at hc
        exact hc.2
      exact htrans _ _ _ f2 (hnotify hm _ _ _ _)
    · exact f2

theorem __clk_speculate_rates_rel (hw : Hw) (R : State → State → Prop)
    (hrefl : ∀ s, R s s) (htrans : ∀ a b c, R a b → R b c → R a c)
    (hrecalc : ∀ s core pr, R s (clk_recalc hw s core pr).2)
    (hnotify : ∀ s core msg o n, R s (__clk_notify hw s core msg o n).2)
    (fuel : Nat) (s s' : State) (core pr ret : Nat)
    (h : __clk_speculate_rates hw fuel s core pr = some (ret, s')) : R s s' := by
  induction fuel generalizing s s' core pr ret with
  | zero => simp [__clk_speculate_rates] at h
  | succ fuel ih =>
    unfold __clk_speculate_rates at h
    have f1 := hrecalc s core pr
    cases hrc : clk_recalc hw s core pr with
    | mk nr s1 =>
      rw [hrc] at f1
      simp only [hrc] at h
      cases hq : (if s1.notifier_count core ≠ 0 then
          __clk_notify hw s1 core PRE_RATE_CHANGE (s1.rate core) nr
          else (NOTIFY_DONE, s1)) with
      | mk r2 s2 =>
        have f2 : R s s2 := by
          split at hq
          · have := hnotify s1 core PRE_RATE_CHANGE (s1.rate core) nr
            rw [hq] at this
            exact htrans _ _ _ f1 this
          · simp at hq; rw [← hq.2]; exact f1
        simp only [hq] at h
        by_cases h3 : r2 &&& NOTIFY_STOP_MASK = 0
        · simp only [h3, ne_eq, not_true_eq_false, if_false] at h
          refine htrans _ _ _ f2 (foldlM_rel (fun a => a.2) R hrefl htrans _ _ ?_ _ (ret, s') h)
          intro b x b' _ hb
          split at hb
          · simp at hb; subst hb; exact hrefl _
          · exact ih _ _ _ _ _ hb
        · simp [h3] at h; rw [← h.2]; exact f2

theorem __clk_init_parent_frame (hw : Hw) (fuel : Nat) (s s1 : State) (core : Nat)
    (p : Option Nat) (h : __clk_init_parent hw fuel s core = some (p, s1)) :
    ∃ pm, s1 = { s with parents := pm } := by
  unfold __clk_init_parent at h
  exact clk_core_get_parent_by_index_frame hw fuel s s1 _ _ _ h

theorem clk_core_reparent_orphans_nolock_walk_quiet (hw : Hw) (fuel : Nat) (s s' : State)
    (pos : Option Nat) (h : clk_core_reparent_orphans_nolock.walk hw fuel s pos = some s') :
    QuietExt s s' := by
  induction fuel generalizing s s' pos with
  | zero =>
    cases pos with
    | none =>
      simp [clk_core_reparent_orphans_nolock.walk] at h; subst h; exact QuietExt_refl s
    | some c => simp [clk_core_reparent_orphans_nolock.walk] at h
  | succ fuel ih =>
    cases pos with
    | none =>
      simp [clk_core_reparent_orphans_nolock.walk] at h; subst h; exact QuietExt_refl s
    | some orphan =>
      unfold clk_core_reparent_orphans_nolock.walk at h
      simp only at h
      split at h
      · cases h
      · rename_i parent s1 h1
        obtain ⟨pm, e1⟩ := __clk_init_parent_frame _ _ _ _ _ _ h1
        have f1 : QuietExt s s1 := QuietExt_of_trace (by rw [e1])
        clear h1 e1
        split at h
        · cases h
        · rename_i s5 h5
          refine QuietExt_trans (QuietExt_trans f1 ?_) (ih _ _ _ h)
          split at h5
          · split at h5
            · cases h5
            · rename_i o s2 h2
              obtain ⟨s4, -, g2, g3⟩ := __clk_set_parent_before_quiet _ _ _ _ _ _ _ h2
              obtain ⟨o1, rl1, ol1, nc1, e3⟩ := clk_reparent_spec _ _ _ _ _ g3
              have f2 : QuietExt s1 s2 := QuietExt_trans g2 (QuietExt_of_trace (by rw [e3]))
              split at h5
              · cases h5
              · rename_i s3 h3
                have f3 := QuietExt_trans f2 (__clk_set_parent_after_quiet _ _ _ _ _ _ h3)
                split at h5
                · cases h5
                · rename_i s4a h4
                  have f4 := __clk_recalc_accuracies_rel hw QuietExt QuietExt_refl
                    (fun _ _ _ => QuietExt_trans) (fun _ _ => QuietExt_of_trace rfl) _ _ _ _ h4
                  have f5 := __clk_recalc_rates_rel hw QuietExt QuietExt_refl
                    (fun _ _ _ => QuietExt_trans)
                    (fun a c pr => QuietExt_of_plan (clk_recalc_plan hw a c pr))
                    (fun _ _ => QuietExt_of_trace rfl) 0 (fun h0 => absurd rfl h0) _ _ _ _ h5
                  exact QuietExt_trans f3 (QuietExt_trans f4 f5)
          · simp only [Option.some.injEq] at h5
            subst h5
            exact QuietExt_refl _

/-- Claim C28, amended: the adoption of orphans calls `__clk_recalc_rates` with the message 0,
so that no notifier is called while orphans are adopted, whether or not a rate changes: the
events it appends to the trace contain no notifier delivery. -/
theorem adoption_is_silent (hw : Hw) (fuel : Nat) (s s' : State)
    (h : clk_core_reparent_orphans_nolock hw fuel s = some s') :
    ∃ ext, s'.trace = s.trace ++ ext ∧ ∀ e ∈ ext, clk_event.is_notify e = false := by
  obtain ⟨ext, e, hq⟩ := clk_core_reparent_orphans_nolock_walk_quiet hw fuel s s' _ h
  refine ⟨ext, e, fun ev hev => ?_⟩
  have := hq ev hev
  simp only [clk_event.is_quiet, Bool.and_eq_true, Bool.not_eq_true'] at this
  exact this.2

/-- A run of `adoption_is_silent`: the adoption of X in `adoptable_pair`. -/
theorem adoption_is_silent_witness :
    ∃ ext, ((clk_core_reparent_orphans_nolock (Hw.fixed 12000000) 5 adoptable_pair).getD
        adoptable_pair).trace = adoptable_pair.trace ++ ext ∧
      ∀ e ∈ ext, clk_event.is_notify e = false :=
  adoption_is_silent (Hw.fixed 12000000) 5 adoptable_pair _ rfl

/-- Claim C28 as stated fails: X has a subscriber and is adopted by Y, its rate changes from 0
to 12 MHz, and nothing is delivered: the trace is empty after the adoption, and it is empty
after the two registrations that lead to the adoption. -/
theorem adoption_is_silent_counterexample :
    adoptable_pair.notifier_count 1 = 1 ∧ adoptable_pair.rate 1 = 0 ∧
    (clk_core_reparent_orphans_nolock (Hw.fixed 12000000) 5 adoptable_pair).map
        (fun s' => (s'.parent 1, s'.rate 1, s'.trace)) = some (some 0, 12000000, []) ∧
    (__clk_core_init (Hw.fixed 12000000) 5 subscribed_pair (some 1)).map
        (fun r => (r.1, r.2.rate 1)) = some (0, 0) ∧
    ((__clk_core_init (Hw.fixed 12000000) 5 subscribed_pair (some 1)).bind
        (fun r => __clk_core_init (Hw.fixed 12000000) 5 r.2 (some 0))).map
        (fun r => (r.1, r.2.parent 1, r.2.rate 1, r.2.trace))
      = some (0, some 0, 12000000, []) := by
  decide

theorem Desc_refl (ch : Nat → List Nat) (a : Nat) : Desc ch a a := Relation.ReflTransGen.refl

theorem Desc_step {ch : Nat → List Nat} {a p c : Nat} (h : Desc ch a p) (hc : c ∈ ch p) :
    Desc ch a c := Relation.ReflTransGen.tail h hc

theorem Desc_head {ch : Nat → List Nat} {a x d : Nat} (hx : x ∈ ch a) (h : Desc ch x d) :
    Desc ch a d := Relation.ReflTransGen.head hx h

theorem Desc_cases_head {ch : Nat → List Nat} {a d : Nat} (h : Desc ch a d) :
    a = d ∨ ∃ x ∈ ch a, Desc ch x d := by
  rcases Relation.ReflTransGen.cases_head h with h1 | ⟨x, hx, hd⟩
  · exact Or.inl h1
  · exact Or.inr ⟨x, hx, hd⟩

theorem Desc_cases_tail {ch : Nat → List Nat} {a d : Nat} (h : Desc ch a d) :
    d = a ∨ ∃ y, Desc ch a y ∧ d ∈ ch y := by
  rcases Relation.ReflTransGen.cases_tail h with h1 | ⟨y, hy, hd⟩
  · exact Or.inl h1
  · exact Or.inr ⟨y, hy, hd⟩

/-- What the loop of `clk_core_update_orphan_status` over a list of children does. -/
theorem clk_core_update_orphan_status_fold (fuel : Nat) (b : Bool) (ch : Nat → List Nat)
    (ih : ∀ (s s' : State) (core : Nat), s.children = ch →
      clk_core_update_orphan_status fuel s core b = some s' →
      s' = { s with orphan := s'.orphan } ∧ (∀ d, Desc ch core d → s'.orphan d = b) ∧
        (∀ d, ¬ Desc ch core d → s'.orphan d = s.orphan d))
    (l : List Nat) (st s' : State) (hst : st.children = ch)
    (h : l.foldlM (fun st child => clk_core_update_orphan_status fuel st child b) st = some s') :
    s' = { st with orphan := s'.orphan } ∧
      (∀ d, (∃ x ∈ l, Desc ch x d) → s'.orphan d = b) ∧
      (∀ d, (¬ ∃ x ∈ l, Desc ch x d) → s'.orphan d = st.orphan d) := by
  induction l generalizing st with
  | nil =>
    simp only [List.foldlM_nil, Option.pure_def, Option.some.injEq] at h
    subst h
    exact ⟨rfl, fun d hd => by simp at hd, fun d _ => rfl⟩
  | cons x l ihl =>
    simp only [List.foldlM_cons, Option.bind_eq_bind] at h
    cases h1 : clk_core_update_orphan_status fuel st x b with
    | none => simp [h1] at h
    | some st1 =>
      simp only [h1, Option.some_bind] at h
      obtain ⟨e1, a1, b1⟩ := ih st st1 x hst h1
      have hst1 : st1.children = ch := by rw [e1]; exact hst
      obtain ⟨e2, a2, b2⟩ := ihl st1 hst1 h
      refine ⟨?_, ?_, ?_⟩
      · rw [e2, e1]
      · intro d hd
        by_cases hl : ∃ y ∈ l, Desc ch y d
        · exact a2 d hl
        · rw [b2 d hl]
          obtain ⟨y, hy, hyd⟩ := hd
          rcases List.mem_cons.mp hy with rfl | hy'
          · exact a1 d hyd
          · exact absurd ⟨y, hy', hyd⟩ hl
      · intro d hd
        have hl : ¬ ∃ y ∈ l, Desc ch y d := fun ⟨y, hy, hyd⟩ =>
          hd ⟨y, List.mem_cons_of_mem _ hy, hyd⟩
        rw [b2 d hl]
        exact b1 d (fun hxd => hd ⟨x, List.mem_cons_self _ _, hxd⟩)

/-- `clk_core_update_orphan_status(core, b)` sets the orphan bit of `core` and of its descendants
to `b` and changes nothing else. -/
theorem clk_core_update_orphan_status_spec (fuel : Nat) (s s' : State) (core : Nat) (b : Bool)
    (h : clk_core_update_orphan_status fuel s core b = some s') :
    s' = { s with orphan := s'.orphan } ∧ (∀ d, Desc s.children core d → s'.orphan d = b) ∧
      (∀ d, ¬ Desc s.children core d → s'.orphan d = s.orphan d) := by
  suffices H : ∀ ch (s s' : State) (core : Nat), s.children = ch →
      clk_core_update_orphan_status fuel s core b = some s' →
      s' = { s with orphan := s'.orphan } ∧ (∀ d, Desc ch core d → s'.orphan d = b) ∧
        (∀ d, ¬ Desc ch core d → s'.orphan d = s.orphan d) from H _ s s' core rfl h
  clear h
  intro ch
  induction fuel with
  | zero =>
    intro s s' core _ h
    simp [clk_core_update_orphan_status] at h
  | succ fuel ih =>
    intro s s' core hch h
    unfold clk_core_update_orphan_status at h
    simp only at h
    obtain ⟨e, a, b1⟩ := clk_core_update_orphan_status_fold fuel b ch ih (s.children core)
      { s with orphan := Function.update s.orphan core b } s' hch h
    refine ⟨?_, ?_, ?_⟩
    · rw [e]
    · intro d hd
      by_cases hl : ∃ x ∈ s.children core, Desc ch x d
      · exact a d hl
      · rw [b1 d hl]
        rcases Desc_cases_head hd with rfl | ⟨x, hx, hxd⟩
        · exact Function.update_same _ _ _
        · rw [← hch] at hx
          exact absurd ⟨x, hx, hxd⟩ hl
    · intro d hd
      have hl : ¬ ∃ x ∈ s.children core, Desc ch x d := fun ⟨x, hx, hxd⟩ =>
        hd (Desc_head (by rw [← hch]; exact hx) hxd)
      rw [b1 d hl]
      have hne : d ≠ core := fun e => hd (e ▸ Desc_refl _ _)
      exact Function.update_noteq hne _ _

theorem hlist_del_child_node_eq (s : State) (c : Nat) :
    hlist_del_child_node s c = { s with clk_root_list := s.clk_root_list.erase c, clk_orphan_list := s.clk_orphan_list.erase c, children := (hlist_del_child_node s c).children } := by
  unfold hlist_del_child_node
  cases s.parent c with
  | none => rfl
  | some p => rfl

theorem clk_reparent_eq (fuel : Nat) (s : State) (c : Nat) (np : Option Nat) :
    clk_reparent fuel s c np =
      (match np with
        | some p =>
          if (s.orphan c != s.orphan p) = true then
            clk_core_update_orphan_status fuel { s with clk_root_list := s.clk_root_list.erase c, clk_orphan_list := s.clk_orphan_list.erase c, children := Function.update (hlist_del_child_node s c).children p (c :: (hlist_del_child_node s c).children p), new_child := if s.new_child p = some c then Function.update s.new_child p none else s.new_child } c (s.orphan p)
          else some { s with clk_root_list := s.clk_root_list.erase c, clk_orphan_list := s.clk_orphan_list.erase c, children := Function.update (hlist_del_child_node s c).children p (c :: (hlist_del_child_node s c).children p), new_child := if s.new_child p = some c then Function.update s.new_child p none else s.new_child }
        | none =>
          if (!s.orphan c) = true then
            clk_core_update_orphan_status fuel { s with clk_root_list := s.clk_root_list.erase c, clk_orphan_list := c :: s.clk_orphan_list.erase c, children := (hlist_del_child_node s c).children } c true
          else some { s with clk_root_list := s.clk_root_list.erase c, clk_orphan_list := c :: s.clk_orphan_list.erase c, children := (hlist_del_child_node s c).children }).map
        (fun (s4 : State) => { s4 with parent := Function.update s4.parent c np }) := by
  unfold clk_reparent
  rw [hlist_del_child_node_eq]
  generalize (hlist_del_child_node s c).children = D
  cases np with
  | some p =>
    by_cases h1 : s.new_child p = some c
    · by_cases h2 : (s.orphan c != s.orphan p) = true
      · simp only [h1, h2, if_true]
        cases clk_core_update_orphan_status fuel _ c (s.orphan p) <;> rfl
      · simp only [h1, h2, if_true, if_false]
        rfl
    · by_cases h2 : (s.orphan c != s.orphan p) = true
      · simp only [h1, h2, if_true, if_false]
        cases clk_core_update_orphan_status fuel _ c (s.orphan p) <;> rfl
      · simp only [h1, h2, if_false]
        rfl
  | none =>
    by_cases h2 : (!s.orphan c) = true
    · simp only [h2, if_true]
      cases clk_core_update_orphan_status fuel _ c true <;> rfl
    · simp only [h2, if_false]
      rfl

/-- The exact effect of `clk_reparent` on the forest. -/
theorem clk_reparent_exact (fuel : Nat) (s s' : State) (c : Nat) (np : Option Nat)
    (h : clk_reparent fuel s c np = some s') :
    s'.parent = Function.update s.parent c np ∧
    s'.clk_root_list = s.clk_root_list.erase c ∧
    s'.clk_orphan_list = clk_reparent.orphans s c np ∧
    s'.children = clk_reparent.children s c np ∧
    (s.orphan c = clk_reparent.orphan_bit s np → s'.orphan = s.orphan) ∧
    (s.orphan c ≠ clk_reparent.orphan_bit s np →
      (∀ d, Desc s'.children c d → s'.orphan d = clk_reparent.orphan_bit s np) ∧
      (∀ d, ¬ Desc s'.children c d → s'.orphan d = s.orphan d)) := by
  rw [clk_reparent_eq] at h
  cases np with
  | some p =>
    simp only at h
    by_cases h2 : (s.orphan c != s.orphan p) = true
    · have hne' : s.orphan c ≠ s.orphan p := by simpa using h2
      simp only [h2, if_true] at h
      cases h4 : clk_core_update_orphan_status fuel { s with clk_root_list := s.clk_root_list.erase c, clk_orphan_list := s.clk_orphan_list.erase c, children := Function.update (hlist_del_child_node s c).children p (c :: (hlist_del_child_node s c).children p), new_child := if s.new_child p = some c then Function.update s.new_child p none else s.new_child } c (s.orphan p) with
      | none => simp [h4] at h
      | some s4 =>
        rw [h4] at h
        simp only [Option.map_some', Option.some.injEq] at h
        obtain ⟨-, a, b⟩ := clk_core_update_orphan_status_spec _ _ _ _ _ h4
        obtain ⟨o, e⟩ := clk_core_update_orphan_status_frame _ _ _ _ _ h4
        subst e
        subst h
        exact ⟨rfl, rfl, rfl, rfl, fun heq' => absurd heq' hne', fun _ => ⟨a, b⟩⟩
    · have heq' : s.orphan c = s.orphan p := by simpa using h2
      rw [if_neg h2] at h
      simp only [Option.map_some', Option.some.injEq] at h
      subst h
      exact ⟨rfl, rfl, rfl, rfl, fun _ => rfl, fun hne => absurd heq' hne⟩
  | none =>
    simp only at h
    by_cases h2 : (!s.orphan c) = true
    · have hne' : s.orphan c ≠ true := by simpa using h2
      simp only [h2, if_true] at h
      cases h4 : clk_core_update_orphan_status fuel { s with clk_root_list := s.clk_root_list.erase c, clk_orphan_list := c :: s.clk_orphan_list.erase c, children := (hlist_del_child_node s c).children } c true with
      | none => simp [h4] at h
      | some s4 =>
        rw [h4] at h
        simp only [Option.map_some', Option.some.injEq] at h
        obtain ⟨-, a, b⟩ := clk_core_update_orphan_status_spec _ _ _ _ _ h4
        obtain ⟨o, e⟩ := clk_core_update_orphan_status_frame _ _ _ _ _ h4
        subst e
        subst h
        exact ⟨rfl, rfl, rfl, rfl, fun heq' => absurd heq' hne', fun _ => ⟨a, b⟩⟩
    · have heq' : s.orphan c = true := by simpa using h2
      rw [if_neg h2] at h
      simp only [Option.map_some', Option.some.injEq] at h
      subst h
      exact ⟨rfl, rfl, rfl, rfl, fun _ => rfl, fun hne => absurd heq' hne⟩

theorem del_children_mem {s : State} (hwf : WellFormed s) (c q x : Nat) :
    x ∈ (hlist_del_child_node s c).children q ↔ x ∈ s.children q ∧ x ≠ c := by
  rw [hlist_del_child_node_children]
  cases hp : s.parent c with
  | none =>
    simp only
    constructor
    · intro hx
      refine ⟨hx, ?_⟩
      rintro rfl
      have := hwf.child_parent _ _ hx
      rw [hp] at this
      cases this
    · exact fun h => h.1
  | some o =>
    simp only
    by_cases hq : q = o
    · subst hq
      simp only [Function.update_same]
      rw [(hwf.children_nodup q).mem_erase_iff]
      exact and_comm
    · simp only [Function.update_apply, hq, if_false]
      constructor
      · intro hx
        refine ⟨hx, ?_⟩
        rintro rfl
        have := hwf.child_parent _ _ hx
        rw [hp] at this
        exact hq (Option.some.inj this).symm
      · exact fun h => h.1

theorem del_children_nodup {s : State} (hwf : WellFormed s) (c q : Nat) :
    ((hlist_del_child_node s c).children q).Nodup := by
  rw [hlist_del_child_node_children]
  cases s.parent c with
  | none => exact hwf.children_nodup q
  | some o =>
    simp only
    by_cases hq : q = o
    · subst hq
      simp only [Function.update_same]
      exact (hwf.children_nodup q).erase c
    · simp only [Function.update_apply, hq, if_false]
      exact hwf.children_nodup q

/-- The child lists after `clk_reparent(c, np)`: `c` is on the list of `np` only, every other
membership is as before. -/
theorem clk_reparent_children_mem {s s' : State} (hwf : WellFormed s) {fuel c : Nat}
    {np : Option Nat} (h : clk_reparent fuel s c np = some s') (q x : Nat) :
    x ∈ s'.children q ↔ (x = c ∧ np = some q) ∨ (x ≠ c ∧ x ∈ s.children q) := by
  obtain ⟨-, -, -, hch, -, -⟩ := clk_reparent_exact _ _ _ _ _ h
  rw [hch]
  unfold clk_reparent.children
  cases np with
  | none =>
    simp only [del_children_mem hwf]
    constructor
    · exact fun hx => Or.inr ⟨hx.2, hx.1⟩
    · rintro (⟨-, h0⟩ | hx)
      · cases h0
      · exact ⟨hx.2, hx.1⟩
  | some p =>
    simp only
    by_cases hq : q = p
    · subst hq
      simp only [Function.update_same, List.mem_cons, del_children_mem hwf]
      constructor
      · rintro (rfl | hx)
        · exact Or.inl ⟨rfl, trivial⟩
        · exact Or.inr ⟨hx.2, hx.1⟩
      · rintro (⟨rfl, -⟩ | hx)
        · exact Or.inl rfl
        · exact Or.inr ⟨hx.2, hx.1⟩
    · simp only [Function.update_apply, hq, if_false, del_children_mem hwf]
      constructor
      · exact fun hx => Or.inr ⟨hx.2, hx.1⟩
      · rintro (⟨-, h0⟩ | hx)
        · exact absurd (Option.some.inj h0).symm hq
        · exact ⟨hx.2, hx.1⟩

/-- `clk_reparent` keeps the forest well-formed, whatever the new parent. -/
theorem clk_reparent_wf {s s' : State} (hwf : WellFormed s) {fuel c : Nat} {np : Option Nat}
    (h : clk_reparent fuel s c np = some s') : WellFormed s' := by
  have hmem := clk_reparent_children_mem hwf h
  obtain ⟨hpar, hrl, hol, hch, -, -⟩ := clk_reparent_exact _ _ _ _ _ h
  have hro : ∀ x, x ∈ s.clk_orphan_list.erase c → x ≠ c ∧ s.parent x = none := by
    intro x hx
    rw [hwf.orphans_nodup.mem_erase_iff] at hx
    exact ⟨hx.1, hwf.orphan_parent x hx.2⟩
  refine ⟨?_, ?_, ?_, ?_, ?_, ?_, ?_⟩
  · intro x q hx
    rw [hpar]
    rcases (hmem q x).mp hx with ⟨rfl, rfl⟩ | ⟨hne, hx'⟩
    · simp
    · simp only [Function.update_apply, hne, if_false]
      exact hwf.child_parent _ _ hx'
  · intro q
    rw [hch]
    unfold clk_reparent.children
    cases np with
    | none => exact del_children_nodup hwf c q
    | some p =>
      simp only
      by_cases hq : q = p
      · subst hq
        simp only [Function.update_same]
        refine List.nodup_cons.mpr ⟨?_, del_children_nodup hwf c q⟩
        intro hc
        exact ((del_children_mem hwf c q c).mp hc).2 rfl
      · simp only [Function.update_apply, hq, if_false]
        exact del_children_nodup hwf c q
  · rw [hrl]; exact hwf.roots_nodup.erase c
  · rw [hol]
    unfold clk_reparent.orphans
    cases np with
    | none =>
      simp only
      refine List.nodup_cons.mpr ⟨?_, hwf.orphans_nodup.erase c⟩
      intro hc
      exact (hro c hc).1 rfl
    | some p => exact hwf.orphans_nodup.erase c
  · intro x hx
    rw [hrl, hwf.roots_nodup.mem_erase_iff] at hx
    rw [hpar]
    simp only [Function.update_apply, hx.1, if_false]
    exact hwf.root_parent x hx.2
  · intro x hx
    rw [hol] at hx
    rw [hpar]
    unfold clk_reparent.orphans at hx
    cases np with
    | none =>
      simp only [List.mem_cons] at hx
      rcases hx with rfl | hx
      · simp
      · simp only [Function.update_apply, (hro x hx).1, if_false]
        exact (hro x hx).2
    | some p =>
      simp only [Function.update_apply, (hro x hx).1, if_false]
      exact (hro x hx).2
  · intro x hx
    rw [hrl, hwf.roots_nodup.mem_erase_iff] at hx
    rw [hol]
    unfold clk_reparent.orphans
    have hno : x ∉ s.clk_orphan_list.erase c := fun hc =>
      hwf.root_orphan x hx.2 (List.mem_of_mem_erase hc)
    cases np with
    | none =>
      simp only [List.mem_cons, not_or]
      exact ⟨hx.1, hno⟩
    | some p => exact hno

/-- `clk_reparent` keeps the orphan bits equal along the child lists, and the subtree of the
moved node carries the orphan bit of the new parent (`true` without a new parent). -/
theorem clk_reparent_orphan_edges {s s' : State} (hwf : WellFormed s) (hoe : OrphanEdges s)
    {fuel c : Nat} {np : Option Nat} (h : clk_reparent fuel s c np = some s') :
    OrphanEdges s' ∧ ∀ d, Desc s'.children c d → s'.orphan d = clk_reparent.orphan_bit s np := by
  have hmem := clk_reparent_children_mem hwf h
  have hwf' := clk_reparent_wf hwf h
  obtain ⟨hpar, -, -, -, hsame, hupd⟩ := clk_reparent_exact _ _ _ _ _ h
  have hedges : OrphanEdges s' := by
    by_cases hb : s.orphan c = clk_reparent.orphan_bit s np
    · have ho := hsame hb
      intro q x hx
      rw [ho]
      rcases (hmem q x).mp hx with ⟨rfl, rfl⟩ | ⟨hne, hx'⟩
      · exact hb
      · exact hoe q x hx'
    · obtain ⟨hin, hout⟩ := hupd hb
      intro q x hx
      by_cases hq : Desc s'.children c q
      · rw [hin q hq, hin x (Desc_step hq hx)]
      · by_cases hxd : Desc s'.children c x
        · rcases Desc_cases_tail hxd with rfl | ⟨y, hy, hxy⟩
          · rcases (hmem q x).mp hx with ⟨-, hnp⟩ | ⟨hne, -⟩
            · subst hnp
              rw [hin x hxd, hout q hq]
              rfl
            · exact absurd rfl hne
          · have e1 := hwf'.child_parent _ _ hxy
            have e2 := hwf'.child_parent _ _ hx
            rw [e1] at e2
            cases e2
            exact absurd hy hq
        · rw [hout q hq, hout x hxd]
          rcases (hmem q x).mp hx with ⟨rfl, -⟩ | ⟨-, hx'⟩
          · exact absurd (Desc_refl _ _) hxd
          · exact hoe q x hx'
  refine ⟨hedges, ?_⟩
  have hc : s'.orphan c = clk_reparent.orphan_bit s np := by
    by_cases hb : s.orphan c = clk_reparent.orphan_bit s np
    · rw [hsame hb]; exact hb
    · exact (hupd hb).1 c (Desc_refl _ _)
  intro d hd
  induction hd with
  | refl => exact hc
  | tail _ hyx ih => rw [hedges _ _ hyx]; exact ih

/-- `clk_reparent` below a node of smaller rank keeps the ranking. -/
theorem clk_reparent_ranked {hw : Hw} {rank : Nat → Nat} {s s' : State}
    (hr : Ranked hw rank s) {fuel c : Nat} {np : Option Nat}
    (hnp : ∀ p, np = some p → rank p < rank c)
    (h : clk_reparent fuel s c np = some s') : Ranked hw rank s' := by
  obtain ⟨hpar, -, -, -, -, -⟩ := clk_reparent_exact _ _ _ _ _ h
  obtain ⟨o, rl, ol, nc, e⟩ := clk_reparent_spec _ _ _ _ _ h
  refine ⟨?_, ?_⟩
  · intro n p hn
    rw [hpar] at hn
    by_cases hnc : n = c
    · subst hnc
      simp only [Function.update_same] at hn
      exact hnp p hn
    · simp only [Function.update_apply, hnc, if_false] at hn
      exact hr.1 n p hn
  · intro x i p hres
    apply hr.2 x i p
    rw [e] at hres
    exact hres

/-- `clk_reparent` of a node of the forest brings no node into the forest. -/
theorem clk_reparent_in_forest {s s' : State} (hwf : WellFormed s) {fuel c : Nat}
    {np : Option Nat} (hc : InForest s c) (h : clk_reparent fuel s c np = some s') (x : Nat)
    (hx : InForest s' x) : InForest s x := by
  have hmem := clk_reparent_children_mem hwf h
  obtain ⟨-, hrl, hol, -, -, -⟩ := clk_reparent_exact _ _ _ _ _ h
  obtain ⟨r, hr, hd⟩ := hx
  have hroot : InForest s r := by
    rw [hrl, List.mem_append] at hr
    rcases hr with hr | hr
    · exact ⟨r, List.mem_append_left _ (List.mem_of_mem_erase hr), Desc_refl _ _⟩
    · rw [hol] at hr
      unfold clk_reparent.orphans at hr
      cases np with
      | none =>
        simp only [List.mem_cons] at hr
        rcases hr with rfl | hr
        · exact hc
        · exact ⟨r, List.mem_append_right _ (List.mem_of_mem_erase hr), Desc_refl _ _⟩
      | some p =>
        exact ⟨r, List.mem_append_right _ (List.mem_of_mem_erase hr), Desc_refl _ _⟩
  induction hd with
  | refl => exact hroot
  | tail _ hyx ih =>
    rcases (hmem _ _).mp hyx with ⟨rfl, -⟩ | ⟨-, hx'⟩
    · exact hc
    · obtain ⟨r0, hr0, hd0⟩ := ih
      exact ⟨r0, hr0, Desc_step hd0 hx'⟩

theorem Calm_refl (hw : Hw) (s : State) : Calm hw s s :=
  ⟨rfl, rfl, rfl, rfl, rfl, rfl, rfl, rfl, fun _ _ _ h => h⟩

theorem Calm_trans {hw : Hw} {a b c : State} (h1 : Calm hw a b) (h2 : Calm hw b c) :
    Calm hw a c :=
  ⟨h2.parent.trans h1.parent, h2.children.trans h1.children,
   h2.clk_root_list.trans h1.clk_root_list, h2.clk_orphan_list.trans h1.clk_orphan_list,
   h2.orphan.trans h1.orphan, h2.name.trans h1.name, h2.hw_core.trans h1.hw_core,
   h2.num_parents.trans h1.num_parents, fun o i p h => h1.slots o i p (h2.slots o i p h)⟩

/-- A step that keeps the forest, the names, the `hw->core` pointers and the slots is calm. -/
theorem Calm_of_fields {hw : Hw} {s s' : State} (h1 : s'.parent = s.parent)
    (h2 : s'.children = s.children) (h3 : s'.clk_root_list = s.clk_root_list)
    (h4 : s'.clk_orphan_list = s.clk_orphan_list) (h5 : s'.orphan = s.orphan)
    (h6 : s'.name = s.name) (h7 : s'.hw_core = s.hw_core)
    (h8 : s'.num_parents = s.num_parents) (h9 : s'.parents = s.parents) : Calm hw s s' :=
  ⟨h1, h2, h3, h4, h5, h6, h7, h8, fun o i p h => by
    unfold Resolves at h ⊢
    rw [h9, h6, h7] at h
    exact h⟩

theorem Calm_of_count {hw : Hw} {s s' : State} (h : CountFrame s s') : Calm hw s s' := by
  obtain ⟨e, p, r, tr, rfl⟩ := h
  exact Calm_of_fields rfl rfl rfl rfl rfl rfl rfl rfl rfl

theorem Calm_of_same {hw : Hw} {s s' : State} (h : SameButTrace s s') : Calm hw s s' := by
  obtain ⟨tr, rfl⟩ := h
  exact Calm_of_fields rfl rfl rfl rfl rfl rfl rfl rfl rfl

theorem Calm_pm_get (hw : Hw) (s : State) (c : Nat) :
    Calm hw s (clk_pm_runtime_get hw s c).2 := Calm_of_same (clk_pm_runtime_get_same hw s c)

theorem Calm_pm_put (hw : Hw) (s : State) (c : Nat) :
    Calm hw s (clk_pm_runtime_put s c) := Calm_of_same (clk_pm_runtime_put_same s c)

theorem Calm_notify (hw : Hw) (s : State) (core msg o n : Nat) :
    Calm hw s (__clk_notify hw s core msg o n).2 := by
  obtain ⟨tr, e⟩ := __clk_notify_walk_frame hw core msg o n s.clk_notifier_list NOTIFY_DONE s
  unfold __clk_notify
  rw [e]
  exact Calm_of_fields rfl rfl rfl rfl rfl rfl rfl rfl rfl

theorem Calm_recalc (hw : Hw) (s : State) (core pr : Nat) :
    Calm hw s (clk_recalc hw s core pr).2 := Calm_of_count (clk_recalc_frame hw s core pr)

theorem Calm_recalc_rates {hw : Hw} {fuel : Nat} {s s' : State} {core msg : Nat}
    (h : __clk_recalc_rates hw fuel s core msg = some s') : Calm hw s s' :=
  __clk_recalc_rates_rel hw (Calm hw) (Calm_refl hw) (fun _ _ _ => Calm_trans)
    (Calm_recalc hw) (fun _ _ => Calm_of_fields rfl rfl rfl rfl rfl rfl rfl rfl rfl) msg
    (fun _ a c o n => Calm_notify hw a c msg o n) _ _ _ _ h

theorem Calm_recalc_accuracies {hw : Hw} {fuel : Nat} {s s' : State} {core : Nat}
    (h : __clk_recalc_accuracies hw fuel s core = some s') : Calm hw s s' :=
  __clk_recalc_accuracies_rel hw (Calm hw) (Calm_refl hw) (fun _ _ _ => Calm_trans)
    (fun _ _ => Calm_of_fields rfl rfl rfl rfl rfl rfl rfl rfl rfl) _ _ _ _ h

theorem Calm_speculate {hw : Hw} {fuel : Nat} {s s' : State} {core pr ret : Nat}
    (h : __clk_speculate_rates hw fuel s core pr = some (ret, s')) : Calm hw s s' :=
  __clk_speculate_rates_rel hw (Calm hw) (Calm_refl hw) (fun _ _ _ => Calm_trans)
    (Calm_recalc hw) (Calm_notify hw) _ _ _ _ _ _ h

theorem getD_set_slot (l : List clk_parent_map) (i j : Nat) (x : clk_parent_map) :
    (l.set i x).getD j {} = if i = j ∧ i < l.length then x else l.getD j {} := by
  simp only [List.getD_eq_getElem?_getD, List.getElem?_set]
  by_cases hij : i = j
  · subst hij
    by_cases hl : i < l.length
    · simp [hl]
    · simp [hl]
      have : l[i]? = none := List.getElem?_eq_none (by omega)
      simp [this]
  · simp [hij]

/-- Writing into the cache of slot `i` of `c` a node the slot resolves to, or `NULL`, is calm. -/
theorem Calm_cache {hw : Hw} (s : State) (c i : Nat) (v : Option Nat)
    (hv : ∀ p, v = some p → Resolves hw s c i p) :
    Calm hw s { s with parents := Function.update s.parents c ((s.parents c).set i { (s.parents c).getD i {} with core := v }) } := by
  refine ⟨rfl, rfl, rfl, rfl, rfl, rfl, rfl, rfl, ?_⟩
  intro o j p h
  unfold Resolves at h ⊢
  simp only at h
  by_cases ho : o = c
  · subst ho
    simp only [Function.update_same, getD_set_slot] at h
    by_cases hij : i = j ∧ i < (s.parents o).length
    · rw [if_pos hij] at h
      obtain ⟨rfl, -⟩ := hij
      rcases h with h | h | h | h | h
      · exact hv p h
      · exact Or.inr (Or.inl h)
      · exact Or.inr (Or.inr (Or.inl h))
      · exact Or.inr (Or.inr (Or.inr (Or.inl h)))
      · exact Or.inr (Or.inr (Or.inr (Or.inr h)))
    · rw [if_neg hij] at h
      exact h
  · simp only [Function.update_apply, ho, if_false] at h
    exact h

theorem __clk_lookup_subtree_name (fuel : Nat) (s : State) (name : String) (core p : Nat)
    (h : __clk_lookup_subtree fuel s name core = some (some p)) : s.name p = name := by
  induction fuel generalizing core p with
  | zero => simp [__clk_lookup_subtree] at h
  | succ fuel ih =>
    unfold __clk_lookup_subtree at h
    split at h
    · rename_i hn
      simp only [Option.some.injEq] at h
      subst h
      exact hn
    · have key : ∀ (l : List Nat) (acc : Option Nat),
          (∀ q, acc = some q → s.name q = name) →
          l.foldlM (fun (ret : Option Nat) child =>
            if ret.isSome then some ret else __clk_lookup_subtree fuel s name child) acc
            = some (some p) → s.name p = name := by
        intro l
        induction l with
        | nil =>
          intro acc hacc hf
          simp only [List.foldlM_nil, Option.pure_def, Option.some.injEq] at hf
          exact hacc p hf
        | cons x l ihl =>
          intro acc hacc hf
          simp only [List.foldlM_cons, Option.bind_eq_bind] at hf
          cases hstep : (if acc.isSome then some acc
              else __clk_lookup_subtree fuel s name x) with
          | none => simp [hstep] at hf
          | some acc1 =>
            simp only [hstep, Option.some_bind] at hf
            refine ihl acc1 ?_ hf
            intro q hq
            subst hq
            split at hstep
            · simp only [Option.some.injEq] at hstep
              exact hacc q hstep
            · exact ih _ _ hstep
      exact key _ none (fun q hq => by cases hq) h

theorem clk_core_lookup_name (fuel : Nat) (s : State) (name : String) (p : Nat)
    (h : clk_core_lookup fuel s (some name) = some (some p)) : s.name p = name := by
  unfold clk_core_lookup at h
  simp only at h
  have key : ∀ (l : List Nat) (acc : Option Nat),
      (∀ q, acc = some q → s.name q = name) →
      l.foldlM (fun (ret : Option Nat) root_clk =>
        if ret.isSome then some ret else __clk_lookup_subtree fuel s name root_clk) acc
        = some (some p) → s.name p = name := by
    intro l
    induction l with
    | nil =>
      intro acc hacc hf
      simp only [List.foldlM_nil, Option.pure_def, Option.some.injEq] at hf
      exact hacc p hf
    | cons x l ihl =>
      intro acc hacc hf
      simp only [List.foldlM_cons, Option.bind_eq_bind] at hf
      cases hstep : (if acc.isSome then some acc
          else __clk_lookup_subtree fuel s name x) with
      | none => simp [hstep] at hf
      | some acc1 =>
        simp only [hstep, Option.some_bind] at hf
        refine ihl acc1 ?_ hf
        intro q hq
        subst hq
        split at hstep
        · simp only [Option.some.injEq] at hstep
          exact hacc q hstep
        · exact __clk_lookup_subtree_name _ _ _ _ _ hstep
  exact key _ none (fun q hq => by cases hq) h

theorem clk_core_fill_parent_index_calm {hw : Hw} {fuel : Nat} {s s1 : State} {core index : Nat}
    (h : clk_core_fill_parent_index hw fuel s core index = some s1) : Calm hw s s1 := by
  unfold clk_core_fill_parent_index at h
  simp only at h
  split at h
  · cases h
  · simp only [Option.some.injEq] at h
    subst h
    exact Calm_refl hw s
  · simp only [Option.some.injEq] at h
    subst h
    exact Calm_cache s core index none (fun p hp => by cases hp)
  · rename_i p heq
    simp only [Option.some.injEq] at h
    subst h
    refine Calm_cache s core index (some p) (fun q hq => ?_)
    cases hq
    split at heq
    · rename_i hh hhw
      split at heq
      · rename_i p' hcore
        simp only [Option.some.injEq, clk_ptr.core.injEq] at heq
        subst heq
        exact Or.inr (Or.inr (Or.inl ⟨hh, hhw, hcore⟩))
      · cases heq
    · rename_i hhw
      split at heq
      · rename_i hcond
        split at heq
        · cases heq
        · cases heq
        · rename_i p' hl
          simp only [Option.some.injEq, clk_ptr.core.injEq] at heq
          subst heq
          cases hnm : ((s.parents core).getD index {}).name with
          | none =>
            rw [hnm] at hl
            simp [clk_core_lookup] at hl
          | some nm =>
            rw [hnm] at hl
            have := clk_core_lookup_name _ _ _ _ hl
            refine Or.inr (Or.inr (Or.inr (Or.inr ?_)))
            rw [this]
            exact hnm
      · simp only [Option.some.injEq] at heq
        exact Or.inr (Or.inr (Or.inr (Or.inl ⟨s, heq⟩)))

theorem clk_core_get_parent_by_index_calm {hw : Hw} {fuel : Nat} {s s1 : State} {c index : Nat}
    {p : Option Nat} (h : clk_core_get_parent_by_index hw fuel s (some c) index = some (p, s1)) :
    Calm hw s s1 ∧ ∀ q, p = some q → Resolves hw s1 c index q := by
  unfold clk_core_get_parent_by_index at h
  simp only at h
  split at h
  · simp only [Option.some.injEq, Prod.mk.injEq] at h
    obtain ⟨rfl, rfl⟩ := h
    exact ⟨Calm_refl hw s, fun q hq => by cases hq⟩
  · split at h
    · cases h
    · rename_i s2 h2
      simp only [Option.some.injEq, Prod.mk.injEq] at h
      obtain ⟨rfl, rfl⟩ := h
      refine ⟨?_, fun q hq => Or.inl hq⟩
      split at h2
      · exact clk_core_fill_parent_index_calm h2
      · simp only [Option.some.injEq] at h2
        subst h2
        exact Calm_refl hw s

theorem __clk_init_parent_calm {hw : Hw} {fuel : Nat} {s s1 : State} {c : Nat}
    {p : Option Nat} (h : __clk_init_parent hw fuel s c = some (p, s1)) :
    Calm hw s s1 ∧ ∀ q, p = some q → ∃ i, Resolves hw s1 c i q := by
  unfold __clk_init_parent at h
  obtain ⟨h1, h2⟩ := clk_core_get_parent_by_index_calm h
  exact ⟨h1, fun q hq => ⟨_, h2 q hq⟩⟩

theorem clk_fetch_parent_index_calm {hw : Hw} {s s1 : State} {c : Nat} {par : Option Nat}
    {idx : Int} (h : clk_fetch_parent_index hw s c par = (idx, s1)) :
    Calm hw s s1 ∧ (0 ≤ idx → ∀ p, par = some p → ∃ i, Resolves hw s c i p) := by
  unfold clk_fetch_parent_index at h
  cases par with
  | none =>
    simp only [Prod.mk.injEq] at h
    obtain ⟨rfl, rfl⟩ := h
    exact ⟨Calm_refl hw s, fun h0 => absurd h0 (by decide)⟩
  | some p =>
    simp only at h
    split at h
    · simp only [Prod.mk.injEq] at h
      obtain ⟨rfl, rfl⟩ := h
      exact ⟨Calm_refl hw s, fun h0 => absurd h0 (by decide)⟩
    · rename_i i hfind
      simp only [Prod.mk.injEq] at h
      obtain ⟨rfl, rfl⟩ := h
      have hhit := List.find?_some hfind
      have hres : Resolves hw s c i p := by
        unfold clk_fetch_parent_index.hit at hhit
        simp only at hhit
        split at hhit
        · rename_i h1
          exact Or.inl h1
        · split at hhit
          · cases hhit
          · split at hhit
            · exact Or.inr (Or.inl (by simpa using hhit))
            · split at hhit
              · rename_i h4
                exact Or.inr (Or.inr (Or.inr (Or.inl ⟨s, h4⟩)))
              · exact Or.inr (Or.inr (Or.inr (Or.inr (by simpa using hhit))))
      refine ⟨Calm_cache s c i (some p) (fun q hq => ?_), fun _ q hq => ?_⟩
      · cases hq
        exact hres
      · cases hq
        exact ⟨i, hres⟩

theorem Moves_trans {hw : Hw} {G : State → Nat → Option Nat → Prop} {a b c : State}
    (h1 : Moves hw G a b) (h2 : Moves hw G b c) : Moves hw G a c := by
  induction h1 with
  | refl => exact h2
  | calm hc _ ih => exact Moves.calm hc (ih h2)
  | move fuel x np hg hr _ ih => exact Moves.move fuel x np hg hr (ih h2)

theorem Moves_of_calm {hw : Hw} {G : State → Nat → Option Nat → Prop} {a b : State}
    (h : Calm hw a b) : Moves hw G a b := Moves.calm h (Moves.refl b)

theorem Moves_of_move {hw : Hw} {G : State → Nat → Option Nat → Prop} {a b : State}
    {fuel c : Nat} {np : Option Nat} (hg : G a c np) (h : clk_reparent fuel a c np = some b) :
    Moves hw G a b := Moves.move fuel c np hg h (Moves.refl b)

theorem Moves_mono {hw : Hw} {G G' : State → Nat → Option Nat → Prop} {a b : State}
    (hG : ∀ x c np, G x c np → G' x c np) (h : Moves hw G a b) : Moves hw G' a b := by
  induction h with
  | refl => exact Moves.refl _
  | calm hc _ ih => exact Moves.calm hc ih
  | move fuel x np hg hr _ ih => exact Moves.move fuel x np (hG _ _ _ hg) hr ih

/-- An invariant kept by calm steps and by guarded `clk_reparent` calls is kept by a run. -/
theorem Moves_inv {hw : Hw} {G : State → Nat → Option Nat → Prop} (I : State → Prop)
    (hcalm : ∀ a b, Calm hw a b → I a → I b)
    (hmove : ∀ a b fuel c np, I a → G a c np → clk_reparent fuel a c np = some b → I b)
    {s s' : State} (h : Moves hw G s s') (hi : I s) : I s' := by
  induction h with
  | refl => exact hi
  | calm hc _ ih => exact ih (hcalm _ _ hc hi)
  | move fuel x np hg hr _ ih => exact ih (hmove _ _ fuel x np hi hg hr)

theorem clk_reparent_calm_fields {hw : Hw} {fuel : Nat} {s s' : State} {c : Nat}
    {np : Option Nat} (h : clk_reparent fuel s c np = some s') :
    s'.name = s.name ∧ s'.hw_core = s.hw_core ∧ s'.num_parents = s.num_parents ∧
      ∀ o i p, Resolves hw s' o i p → Resolves hw s o i p := by
  obtain ⟨o, rl, ol, nc, e⟩ := clk_reparent_spec _ _ _ _ _ h
  rw [e]
  exact ⟨rfl, rfl, rfl, fun _ _ _ hr => hr⟩

/-- A run keeps the names, the `hw->core` pointers and the numbers of slots, and no slot
resolves to anything new. -/
theorem Moves_static {hw : Hw} {G : State → Nat → Option Nat → Prop} {s s' : State}
    (h : Moves hw G s s') :
    s'.name = s.name ∧ s'.hw_core = s.hw_core ∧ s'.num_parents = s.num_parents ∧
      ∀ o i p, Resolves hw s' o i p → Resolves hw s o i p :=
  Moves_inv (fun a => a.name = s.name ∧ a.hw_core = s.hw_core ∧
      a.num_parents = s.num_parents ∧ ∀ o i p, Resolves hw a o i p → Resolves hw s o i p)
    (fun a b hc hi => ⟨hc.name.trans hi.1, hc.hw_core.trans hi.2.1,
      hc.num_parents.trans hi.2.2.1, fun o i p hr => hi.2.2.2 o i p (hc.slots o i p hr)⟩)
    (fun a b fuel c np hi _ hr => by
      obtain ⟨h1, h2, h3, h4⟩ := @clk_reparent_calm_fields hw _ _ _ _ _ hr
      exact ⟨h1.trans hi.1, h2.trans hi.2.1, h3.trans hi.2.2.1,
        fun o i p hres => hi.2.2.2 o i p (h4 o i p hres)⟩)
    h ⟨rfl, rfl, rfl, fun _ _ _ hr => hr⟩

theorem Calm_wf {hw : Hw} {a b : State} (hc : Calm hw a b) (h : WellFormed a) :
    WellFormed b := by
  obtain ⟨h1, h2, h3, h4, h5, h6, h7⟩ := h
  refine ⟨?_, ?_, ?_, ?_, ?_, ?_, ?_⟩
  · rw [hc.children, hc.parent]; exact h1
  · rw [hc.children]; exact h2
  · rw [hc.clk_root_list]; exact h3
  · rw [hc.clk_orphan_list]; exact h4
  · rw [hc.clk_root_list, hc.parent]; exact h5
  · rw [hc.clk_orphan_list, hc.parent]; exact h6
  · rw [hc.clk_root_list, hc.clk_orphan_list]; exact h7

theorem Calm_orphan_edges {hw : Hw} {a b : State} (hc : Calm hw a b) (h : OrphanEdges a) :
    OrphanEdges b := by
  unfold OrphanEdges
  rw [hc.children, hc.orphan]
  exact h

theorem Calm_ranked {hw : Hw} {rank : Nat → Nat} {a b : State} (hc : Calm hw a b)
    (h : Ranked hw rank a) : Ranked hw rank b :=
  ⟨by rw [hc.parent]; exact h.1, fun o i p hr => h.2 o i p (hc.slots o i p hr)⟩

theorem Calm_in_forest {hw : Hw} {a b : State} (hc : Calm hw a b) (x : Nat) :
    InForest b x ↔ InForest a x := by
  unfold InForest
  rw [hc.children, hc.clk_root_list, hc.clk_orphan_list]

/-- Runs keep the forest well-formed. -/
theorem Moves_wf {hw : Hw} {G : State → Nat → Option Nat → Prop} {s s' : State}
    (h : Moves hw G s s') (hwf : WellFormed s) : WellFormed s' :=
  Moves_inv WellFormed (fun _ _ hc hi => Calm_wf hc hi)
    (fun _ _ _ _ _ hi _ hr => clk_reparent_wf hi hr) h hwf

/-- Runs keep the orphan bits equal along the child lists. -/
theorem Moves_orphan_edges {hw : Hw} {G : State → Nat → Option Nat → Prop} {s s' : State}
    (h : Moves hw G s s') (hwf : WellFormed s) (hoe : OrphanEdges s) : OrphanEdges s' :=
  (Moves_inv (fun a => WellFormed a ∧ OrphanEdges a)
    (fun _ _ hc hi => ⟨Calm_wf hc hi.1, Calm_orphan_edges hc hi.2⟩)
    (fun _ _ _ _ _ hi _ hr => ⟨clk_reparent_wf hi.1 hr, (clk_reparent_orphan_edges hi.1 hi.2 hr).1⟩)
    h ⟨hwf, hoe⟩).2

/-- Runs whose moves go below nodes of smaller rank keep the ranking. -/
theorem Moves_ranked {hw : Hw} {G : State → Nat → Option Nat → Prop} {rank : Nat → Nat}
    {s s' : State} (hG : ∀ a c np, G a c np → ∀ p, np = some p → rank p < rank c)
    (h : Moves hw G s s') (hr : Ranked hw rank s) : Ranked hw rank s' :=
  Moves_inv (Ranked hw rank) (fun _ _ hc hi => Calm_ranked hc hi)
    (fun _ _ _ _ _ hi hg hre => clk_reparent_ranked hi (hG _ _ _ hg) hre) h hr

/-- Runs that move nodes of the forest bring no node into the forest. -/
theorem Moves_in_forest {hw : Hw} {G : State → Nat → Option Nat → Prop} {s s' : State}
    (hG : ∀ a c np, G a c np → InForest a c)
    (h : Moves hw G s s') (hwf : WellFormed s) (x : Nat) (hx : InForest s' x) :
    InForest s x :=
  (Moves_inv (fun a => WellFormed a ∧ ∀ x, InForest a x → InForest s x)
    (fun _ _ hc hi => ⟨Calm_wf hc hi.1, fun x hx => hi.2 x ((Calm_in_forest hc x).mp hx)⟩)
    (fun _ _ _ _ _ hi hg hr => ⟨clk_reparent_wf hi.1 hr,
      fun x hx => hi.2 x (clk_reparent_in_forest hi.1 (hG _ _ _ hg) hr x hx)⟩)
    h ⟨hwf, fun _ hx => hx⟩).2 x hx

/-- The steps of `__clk_set_parent`: calm steps, the move below the new parent, and either calm
steps (success) or, when the `set_parent` op failed, the move back below the old parent. -/
theorem __clk_set_parent_steps (hw : Hw) (fuel : Nat) (s s' : State) (c : Nat)
    (par : Option Nat) (idx : Nat) (ret : Int)
    (h : __clk_set_parent hw fuel s c par idx = some (ret, s')) :
    ∃ a b, Calm hw s a ∧ clk_reparent fuel a c par = some b ∧
      ((ret = 0 ∧ Calm hw b s') ∨
       (ret ≠ 0 ∧ par.isSome = true ∧ ∃ b' d, Calm hw b b' ∧
          clk_reparent fuel b' c (s.parent c) = some d ∧ Calm hw d s')) := by
  unfold __clk_set_parent at h
  split at h
  · cases h
  · rename_i o s1 hb
    obtain ⟨ho, s4, f4, hr⟩ := __clk_set_parent_before_spec _ _ _ _ _ _ _ hb
    subst ho
    refine ⟨s4, s1, Calm_of_count f4, hr, ?_⟩
    simp only at h
    have flog : Calm hw s1 (if (par.isSome && (s1.ops c).set_parent) = true then
        s1.log (.op_set_parent c idx) else s1) := by
      split
      · exact Calm_of_fields rfl rfl rfl rfl rfl rfl rfl rfl rfl
      · exact Calm_refl hw s1
    by_cases hret : (if (par.isSome && (s1.ops c).set_parent) = true then hw.set_parent s1 c idx
        else 0) = 0
    · simp only [hret, ne_eq, not_true_eq_false, if_false] at h
      split at h
      · cases h
      · rename_i s3 ha
        simp only [Option.some.injEq, Prod.mk.injEq] at h
        obtain ⟨h1, h2⟩ := h
        subst h1 h2
        exact Or.inl ⟨rfl, Calm_trans flog
          (Calm_of_count (__clk_set_parent_after_frame _ _ _ _ _ _ ha))⟩
    · have hsome : par.isSome = true := by
        by_contra hn
        apply hret
        simp [hn]
      simp only [hret, ne_eq, not_false_eq_true, if_true] at h
      split at h
      · cases h
      · rename_i s3 h3
        split at h
        · cases h
        · rename_i s4a ha
          simp only [Option.some.injEq, Prod.mk.injEq] at h
          obtain ⟨h1, h2⟩ := h
          subst h2
          refine Or.inr ⟨by rw [← h1]; exact hret, hsome, _, s3, flog, h3,
            Calm_of_count (__clk_set_parent_after_frame _ _ _ _ _ _ ha)⟩

/-- The steps of `clk_core_set_parent_nolock(c, par)`: either the forest is left alone (and a
return value 0 means that `par` was the parent already), or `c` is moved below `par`, which
when it is a node is a node that a slot of `c` resolves to, and the move is undone exactly when
the return value is not 0. -/
theorem clk_core_set_parent_nolock_steps (hw : Hw) (fuel : Nat) (s s' : State) (c : Nat)
    (par : Option Nat) (ret : Int)
    (h : clk_core_set_parent_nolock hw fuel s (some c) par = some (ret, s')) :
    (Calm hw s s' ∧ (ret = 0 → s.parent c = par)) ∨
    (s.parent c ≠ par ∧ (∀ p, par = some p → ∃ i, Resolves hw s c i p) ∧
      ∃ a b, Calm hw s a ∧ clk_reparent fuel a c par = some b ∧
        ((ret = 0 ∧ Calm hw b s') ∨
         (ret ≠ 0 ∧ par.isSome = true ∧ ∃ b' d, Calm hw b b' ∧
            clk_reparent fuel b' c (s.parent c) = some d ∧ Calm hw d s'))) := by
  unfold clk_core_set_parent_nolock at h
  simp only at h
  split at h
  · rename_i hsame
    simp only [Option.some.injEq, Prod.mk.injEq] at h
    rw [← h.2]; exact Or.inl ⟨Calm_refl hw s, fun _ => hsame⟩
  · rename_i hdiff
    have hE1 : (-EPERM : Int) ≠ 0 := by decide
    have hE2 : (-EBUSY : Int) ≠ 0 := by decide
    split at h
    · simp only [Option.some.injEq, Prod.mk.injEq] at h
      rw [← h.2, ← h.1]; exact Or.inl ⟨Calm_refl hw s, fun h0 => absurd h0 hE1⟩
    · split at h
      · simp only [Option.some.injEq, Prod.mk.injEq] at h
        rw [← h.2, ← h.1]; exact Or.inl ⟨Calm_refl hw s, fun h0 => absurd h0 hE2⟩
      · split at h
        · simp only [Option.some.injEq, Prod.mk.injEq] at h
          rw [← h.2, ← h.1]; exact Or.inl ⟨Calm_refl hw s, fun h0 => absurd h0 hE2⟩
        · have f1 : Calm hw s (if par.isSome = true then clk_fetch_parent_index hw s c par
              else (0, s)).2 ∧
              (0 ≤ (if par.isSome = true then clk_fetch_parent_index hw s c par
                else (0, s)).1 → ∀ p, par = some p → ∃ i, Resolves hw s c i p) := by
            split
            · exact clk_fetch_parent_index_calm rfl
            · rename_i hn
              refine ⟨Calm_refl hw s, fun _ p hp => ?_⟩
              rw [hp] at hn
              simp at hn
          generalize (if par.isSome = true then clk_fetch_parent_index hw s c par
              else (0, s)) = q at h f1
          obtain ⟨pi, s1⟩ := q
          obtain ⟨f1, hres⟩ := f1
          simp only at h f1 hres
          split at h
          · rename_i hneg
            simp only [Option.some.injEq, Prod.mk.injEq] at h
            rw [← h.2, ← h.1]; exact Or.inl ⟨f1, fun h0 => by omega⟩
          · rename_i hnn
            have hres' := hres (by omega)
            have f2 := Calm_trans f1 (Calm_pm_get hw s1 c)
            generalize clk_pm_runtime_get hw s1 c = q at h f2
            obtain ⟨r2, s2⟩ := q
            simp only at h f2
            split at h
            · rename_i hr2
              simp only [Option.some.injEq, Prod.mk.injEq] at h
              rw [← h.2, ← h.1]; exact Or.inl ⟨f2, fun h0 => absurd h0 hr2⟩
            · split at h
              · cases h
              · rename_i nret s3 hsp
                have f3 := Calm_trans f2 (Calm_speculate hsp)
                split at h
                · rename_i hstop
                  simp only [Option.some.injEq, Prod.mk.injEq] at h
                  rw [← h.2, ← h.1]
                  refine Or.inl ⟨Calm_trans f3 (Calm_pm_put _ _ _), fun h0 => ?_⟩
                  have : nret = 0 := by exact_mod_cast h0
                  rw [this] at hstop
                  exact absurd rfl hstop
                · cases hsp4 : __clk_set_parent hw fuel s3 c par pi.toNat with
                  | none => simp [hsp4] at h
                  | some q =>
                    obtain ⟨ret4, s4⟩ := q
                    simp only [hsp4] at h
                    obtain ⟨a, b, fa, hre, hcase⟩ := __clk_set_parent_steps _ _ _ _ _ _ _ _ hsp4
                    have hpar3 : s3.parent c = s.parent c := f3.parent ▸ rfl
                    right
                    refine ⟨hdiff, hres', a, b, Calm_trans f3 fa, hre, ?_⟩
                    by_cases hret : ret4 = 0
                    · subst hret
                      simp only [ne_eq, not_true_eq_false, if_false] at h
                      cases hr5 : __clk_recalc_rates hw fuel s4 c POST_RATE_CHANGE with
                      | none => simp [hr5] at h
                      | some s5 =>
                        simp only [hr5] at h
                        cases hr6 : __clk_recalc_accuracies hw fuel s5 c with
                        | none => simp [hr6] at h
                        | some s6 =>
                          simp only [hr6, Option.some.injEq, Prod.mk.injEq] at h
                          obtain ⟨h1, h2⟩ := h
                          subst h1 h2
                          rcases hcase with ⟨-, fb⟩ | ⟨hne, -⟩
                          · exact Or.inl ⟨rfl, Calm_trans fb (Calm_trans (Calm_recalc_rates hr5)
                              (Calm_trans (Calm_recalc_accuracies hr6) (Calm_pm_put _ _ _)))⟩
                          · exact absurd rfl hne
                    · simp only [hret, ne_eq, not_false_eq_true, if_true] at h
                      cases hr5 : __clk_recalc_rates hw fuel s4 c ABORT_RATE_CHANGE with
                      | none => simp [hr5] at h
                      | some s5 =>
                        simp only [hr5, Option.some.injEq, Prod.mk.injEq] at h
                        obtain ⟨h1, h2⟩ := h
                        subst h1 h2
                        rcases hcase with ⟨h0, -⟩ | ⟨hne, hsome, b', d, fb, hre2, fd⟩
                        · exact absurd h0 hret
                        · rw [hpar3] at hre2
                          exact Or.inr ⟨hne, hsome, b', d, fb, hre2,
                            Calm_trans fd (Calm_trans (Calm_recalc_rates hr5)
                              (Calm_pm_put _ _ _))⟩

/-- `clk_core_set_parent_nolock` is a run of guarded moves. -/
theorem clk_core_set_parent_nolock_moves (hw : Hw) (fuel : Nat) (s s' : State) (c : Nat)
    (par : Option Nat) (ret : Int)
    (h : clk_core_set_parent_nolock hw fuel s (some c) par = some (ret, s')) :
    Moves hw (Settable hw s c) s s' := by
  rcases clk_core_set_parent_nolock_steps _ _ _ _ _ _ _ h with
    ⟨hc, -⟩ | ⟨-, hres, a, b, fa, hre, hcase⟩
  · exact Moves_of_calm hc
  · refine Moves_trans (Moves_of_calm fa) (Moves_trans
      (Moves_of_move ⟨rfl, Or.inr hres⟩ hre) ?_)
    rcases hcase with ⟨-, fb⟩ | ⟨-, -, b', d, fb, hre2, fd⟩
    · exact Moves_of_calm fb
    · exact Moves_trans (Moves_of_calm fb) (Moves_trans
        (Moves_of_move ⟨rfl, Or.inl rfl⟩ hre2) (Moves_of_calm fd))

theorem hlist_next_in_mem (l : List Nat) (x y : Nat) (h : hlist_next_in l x = some y) :
    y ∈ l ∧ (l.Nodup → y ≠ x) := by
  induction l with
  | nil => simp [hlist_next_in] at h
  | cons a l ih =>
    cases l with
    | nil => simp [hlist_next_in] at h
    | cons b rest =>
      unfold hlist_next_in at h
      split at h
      · rename_i hax
        simp only [Option.some.injEq] at h
        subst h hax
        refine ⟨by simp, fun hnd => ?_⟩
        intro e
        subst e
        simp at hnd
      · obtain ⟨h1, h2⟩ := ih h
        exact ⟨List.mem_cons_of_mem _ h1, fun hnd => h2 (List.nodup_cons.mp hnd).2⟩

theorem hlist_next_orphan {s : State} (hwf : WellFormed s) {o : Nat}
    (ho : o ∈ s.clk_orphan_list) :
    hlist_next s o = hlist_next_in s.clk_orphan_list o := by
  unfold hlist_next
  rw [hwf.orphan_parent o ho]
  simp only
  have : o ∉ s.clk_root_list := fun hr => hwf.root_orphan o hr ho
  simp [this]

/-- The adoption of orphans is a run of guarded moves, in a well-formed forest. -/
theorem clk_core_reparent_orphans_nolock_walk_moves (hw : Hw) (fuel : Nat) (s s' : State)
    (pos : Option Nat) (hwf : WellFormed s) (hpos : ∀ o, pos = some o → o ∈ s.clk_orphan_list)
    (h : clk_core_reparent_orphans_nolock.walk hw fuel s pos = some s') :
    Moves hw (Adoptable hw s) s s' := by
  induction fuel generalizing s s' pos with
  | zero =>
    cases pos with
    | none =>
      simp [clk_core_reparent_orphans_nolock.walk] at h; subst h; exact Moves.refl s
    | some c => simp [clk_core_reparent_orphans_nolock.walk] at h
  | succ fuel ih =>
    cases pos with
    | none =>
      simp [clk_core_reparent_orphans_nolock.walk] at h; subst h; exact Moves.refl s
    | some orphan =>
      have ho := hpos orphan rfl
      unfold clk_core_reparent_orphans_nolock.walk at h
      simp only at h
      rw [hlist_next_orphan hwf ho] at h
      split at h
      · cases h
      · rename_i parent s1 h1
        obtain ⟨f1, hres⟩ := __clk_init_parent_calm h1
        clear h1
        split at h
        · cases h
        · rename_i s5 h5
          have key : Moves hw (Adoptable hw s) s s5 ∧
              (s5.clk_orphan_list = s.clk_orphan_list ∨
               s5.clk_orphan_list = s.clk_orphan_list.erase orphan) := by
            split at h5
            · rename_i hsome
              split at h5
              · cases h5
              · rename_i o s2 h2
                obtain ⟨-, s4, g1, g3⟩ := __clk_set_parent_before_spec _ _ _ _ _ _ _ h2
                have f4 : Calm hw s s4 := Calm_trans f1 (Calm_of_count g1)
                split at h5
                · cases h5
                · rename_i s3 h3
                  split at h5
                  · cases h5
                  · rename_i s4a h4
                    obtain ⟨p, rfl⟩ := Option.isSome_iff_exists.mp hsome
                    obtain ⟨i, hi⟩ := hres p rfl
                    have hg : Adoptable hw s s4 orphan (some p) :=
                      ⟨by rw [f4.clk_orphan_list]; exact ho, p, i, rfl, f1.slots _ _ _ hi⟩
                    have ftail : Calm hw s2 s5 :=
                      Calm_trans (Calm_of_count (__clk_set_parent_after_frame _ _ _ _ _ _ h3))
                        (Calm_trans (Calm_recalc_accuracies h4) (Calm_recalc_rates h5))
                    refine ⟨Moves_trans (Moves_of_calm f4) (Moves_trans (Moves_of_move hg g3)
                      (Moves_of_calm ftail)), Or.inr ?_⟩
                    obtain ⟨-, -, hol, -, -, -⟩ := clk_reparent_exact _ _ _ _ _ g3
                    rw [ftail.clk_orphan_list, hol]
                    show s4.clk_orphan_list.erase orphan = _
                    rw [f4.clk_orphan_list]
            · simp only [Option.some.injEq] at h5
              subst h5
              exact ⟨Moves_of_calm f1, Or.inl f1.clk_orphan_list⟩
          obtain ⟨hm, hol⟩ := key
          have hwf5 := Moves_wf hm hwf
          have hpos5 : ∀ y, hlist_next_in s.clk_orphan_list orphan = some y →
              y ∈ s5.clk_orphan_list := by
            intro y hy
            obtain ⟨hy1, hy2⟩ := hlist_next_in_mem _ _ _ hy
            rcases hol with e | e
            · rw [e]; exact hy1
            · rw [e, hwf.orphans_nodup.mem_erase_iff]
              exact ⟨hy2 hwf.orphans_nodup, hy1⟩
          have hrest := ih s5 s' _ hwf5 hpos5 h
          have hst := Moves_static hm
          refine Moves_trans hm (Moves_mono ?_ hrest)
          rintro a c np ⟨hc, p, i, hnp, hr⟩
          exact ⟨hc, p, i, hnp, hst.2.2.2 _ _ _ hr⟩

theorem clk_core_reparent_orphans_nolock_moves (hw : Hw) (fuel : Nat) (s s' : State)
    (hwf : WellFormed s) (h : clk_core_reparent_orphans_nolock hw fuel s = some s') :
    Moves hw (Adoptable hw s) s s' := by
  unfold clk_core_reparent_orphans_nolock at h
  refine clk_core_reparent_orphans_nolock_walk_moves hw fuel s s' _ hwf ?_ h
  intro o ho
  exact List.mem_of_mem_head? ho

theorem Calm_fresh {hw : Hw} {a b : State} (hc : Calm hw a b) {c : Nat} (h : Fresh a c) :
    Fresh b c := by
  unfold Fresh
  rw [hc.clk_root_list, hc.clk_orphan_list, hc.children]
  exact h

theorem clk_core_update_duty_cycle_nolock_calm {hw : Hw} {fuel : Nat} {s s' : State}
    {core : Nat} {ret : Int}
    (h : clk_core_update_duty_cycle_nolock hw fuel s core = some (ret, s')) : Calm hw s s' := by
  induction fuel generalizing s s' core ret with
  | zero => simp [clk_core_update_duty_cycle_nolock] at h
  | succ fuel ih =>
    unfold clk_core_update_duty_cycle_nolock at h
    have hreset : ∀ a : State, Calm hw a (clk_core_reset_duty_cycle_nolock a core) :=
      fun a => Calm_of_fields rfl rfl rfl rfl rfl rfl rfl rfl rfl
    by_cases hop : (!(s.ops core).get_duty_cycle) = true
    · simp only [hop, if_true] at h
      cases hp : s.parent core with
      | none =>
        simp only [hp, Option.some.injEq, Prod.mk.injEq] at h
        rw [← h.2]; exact hreset s
      | some p =>
        simp only [hp] at h
        by_cases hf : (s.flags core).CLK_DUTY_CYCLE_PARENT = true
        · simp only [hf, if_true] at h
          cases h1 : clk_core_update_duty_cycle_nolock hw fuel s p with
          | none => simp [h1] at h
          | some r =>
            obtain ⟨r1, s1⟩ := r
            simp only [h1, Option.some.injEq, Prod.mk.injEq] at h
            rw [← h.2]
            exact Calm_trans (ih h1) (Calm_of_fields rfl rfl rfl rfl rfl rfl rfl rfl rfl)
        · simp only [hf, if_false, Bool.false_eq_true, Option.some.injEq, Prod.mk.injEq] at h
          rw [← h.2]; exact hreset s
    · simp only [hop, if_false, Bool.false_eq_true] at h
      generalize hw.get_duty_cycle s core = q at h
      obtain ⟨r, num, den⟩ := q
      split at h
      · simp only [Option.some.injEq, Prod.mk.injEq] at h
        rw [← h.2]
        exact Calm_of_fields rfl rfl rfl rfl rfl rfl rfl rfl rfl
      · split at h
        · simp only [Option.some.injEq, Prod.mk.injEq] at h
          rw [← h.2]
          exact Calm_of_fields rfl rfl rfl rfl rfl rfl rfl rfl rfl
        · simp only [Option.some.injEq, Prod.mk.injEq] at h
          rw [← h.2]
          exact Calm_of_fields rfl rfl rfl rfl rfl rfl rfl rfl rfl

theorem clk_core_get_phase_calm (hw : Hw) (s : State) (core : Nat) :
    Calm hw s (clk_core_get_phase hw s core).2 := by
  unfold clk_core_get_phase
  split
  · exact Calm_refl hw s
  · simp only
    split
    · exact Calm_of_fields rfl rfl rfl rfl rfl rfl rfl rfl rfl
    · exact Calm_refl hw s

theorem clk_core_get_phase_calm_from {hw : Hw} {z a : State} {c : Nat} (h : Calm hw z a) :
    Calm hw z (clk_core_get_phase hw a c).2 :=
  Calm_trans h (clk_core_get_phase_calm hw a c)

/-- The steps of the part of `__clk_core_init` after the tests, when it succeeds: calm steps,
the placement of the node below a parent that one of its slots resolves to, calm steps, the
adoption of orphans, and a calm step. -/
theorem __clk_core_init_body_steps (hw : Hw) (fuel : Nat) (s s' : State) (c : Nat)
    (h : __clk_core_init.body hw fuel s c = some (0, s')) :
    ∃ s1 par s3 s4, Calm hw s s1 ∧ (∀ q, par = some q → ∃ i, Resolves hw s1 c i q) ∧
      Calm hw (__clk_core_init.link s1 c par) s3 ∧
      clk_core_reparent_orphans_nolock hw fuel s3 = some s4 ∧ Calm hw s4 s' := by
  unfold __clk_core_init.body at h
  simp only at h
  generalize (if (s.ops c).init = true then hw.init s c else 0) = ret0 at h
  split at h
  · rename_i hinit
    simp only [Option.some.injEq, Prod.mk.injEq] at h
    exact absurd h.1 hinit
  · split at h
    · cases h
    · rename_i parent s1 h1
      obtain ⟨f1, hres⟩ := __clk_init_parent_calm h1
      clear h1
      refine ⟨s1, parent, ?_⟩
      generalize hq : clk_core_get_phase hw _ c = q at h
      have f4 : Calm hw (__clk_core_init.link s1 c parent) q.2 := by
        rw [← hq]
        exact clk_core_get_phase_calm_from (Calm_of_fields rfl rfl rfl rfl rfl rfl rfl rfl rfl)
      clear hq
      obtain ⟨phase, s4⟩ := q
      simp only at h f4
      split at h
      · rename_i hneg
        simp only [Option.some.injEq, Prod.mk.injEq] at h
        omega
      · split at h
        · cases h
        · rename_i r5 s5 h5
          have f5 := Calm_trans f4 (clk_core_update_duty_cycle_nolock_calm h5)
          clear h5
          split at h
          · cases h
          · rename_i ret8 s8 h8
            have f8 : Calm hw s5 s8 ∧ True := by
              split at h8
              · split at h8
                · cases h8
                · rename_i r7 s7 hp
                  have fp0 : Calm hw _ s7 :=
                    Calm_of_count (clk_core_prepare_frame _ _ _ _ _ _ hp)
                  have fp : Calm hw s5 s7 := by
                    refine Calm_trans ?_ fp0
                    exact Calm_of_fields rfl rfl rfl rfl rfl rfl rfl rfl rfl
                  split at h8
                  · simp only [Option.some.injEq, Prod.mk.injEq] at h8
                    rw [← h8.2]; exact ⟨fp, trivial⟩
                  · split at h8
                    · cases h8
                    · rename_i r8 s8a he
                      have fe := Calm_trans fp
                        (Calm_of_count (clk_core_enable_frame _ _ _ _ _ _ he))
                      split at h8
                      · split at h8
                        · cases h8
                        · rename_i s9 hu
                          simp only [Option.some.injEq, Prod.mk.injEq] at h8
                          rw [← h8.2]
                          exact ⟨Calm_trans fe
                            (Calm_of_count (clk_core_unprepare_frame _ _ _ _ hu)), trivial⟩
                      · simp only [Option.some.injEq, Prod.mk.injEq] at h8
                        rw [← h8.2]; exact ⟨fe, trivial⟩
              · simp only [Option.some.injEq, Prod.mk.injEq] at h8
                rw [← h8.2]
                exact ⟨Calm_of_fields rfl rfl rfl rfl rfl rfl rfl rfl rfl, trivial⟩
            clear h8
            split at h
            · rename_i hne
              simp only [Option.some.injEq, Prod.mk.injEq] at h
              exact absurd h.1 hne
            · split at h
              · cases h
              · rename_i s9 h9
                simp only [Option.some.injEq, Prod.mk.injEq, true_and] at h
                subst h
                exact ⟨s8, s9, f1, hres, Calm_trans f5 f8.1, h9,
                  Calm_of_fields rfl rfl rfl rfl rfl rfl rfl rfl rfl⟩

/-- The steps of a successful `__clk_core_init`: the name is fresh, and the run is made of calm
steps, the placement of the node, calm steps, the adoption of orphans and calm steps. -/
theorem __clk_core_init_steps (hw : Hw) (fuel : Nat) (s s' : State) (c : Nat)
    (h : __clk_core_init hw fuel s (some c) = some (0, s')) :
    clk_core_lookup fuel s (some (s.name c)) = some none ∧
    ∃ s1 par s3 s4, Calm hw s s1 ∧ (∀ q, par = some q → ∃ i, Resolves hw s1 c i q) ∧
      Calm hw (__clk_core_init.link s1 c par) s3 ∧
      clk_core_reparent_orphans_nolock hw fuel s3 = some s4 ∧ Calm hw s4 s' := by
  unfold __clk_core_init at h
  simp only at h
  have f0 := Calm_pm_get hw s c
  obtain ⟨tr, htr⟩ := clk_pm_runtime_get_same hw s c
  generalize clk_pm_runtime_get hw s c = q at h f0 htr
  obtain ⟨r0, s0⟩ := q
  simp only at h f0 htr
  subst htr
  split at h
  · rename_i hne
    simp only [Option.some.injEq, Prod.mk.injEq] at h
    exact absurd h.1 hne
  · rw [clk_core_lookup_trace] at h
    split at h
    · cases h
    · rename_i found hl
      split at h
      · cases h
      · rename_i ret s2 hout
        simp only [Option.some.injEq, Prod.mk.injEq] at h
        obtain ⟨hret, hs'⟩ := h
        subst hret
        simp only [ne_eq, not_true_eq_false, if_false] at hs'
        subst hs'
        have hE1 : ¬ ((-EEXIST : Int) = 0) := by decide
        have hE2 : ¬ ((-EINVAL : Int) = 0) := by decide
        split at hout
        · simp only [Option.some.injEq, Prod.mk.injEq] at hout
          exact absurd hout.1 hE1
        · rename_i hnf
          have hfound : found = none := by
            cases found with
            | none => rfl
            | some x => simp at hnf
          subst hfound
          split at hout
          · simp only [Option.some.injEq, Prod.mk.injEq] at hout
            exact absurd hout.1 hE2
          · split at hout
            · simp only [Option.some.injEq, Prod.mk.injEq] at hout
              exact absurd hout.1 hE2
            · split at hout
              · simp only [Option.some.injEq, Prod.mk.injEq] at hout
                exact absurd hout.1 hE2
              · split at hout
                · simp only [Option.some.injEq, Prod.mk.injEq] at hout
                  exact absurd hout.1 hE2
                · obtain ⟨s1, par, s3, s4, g1, g2, g3, g4, g5⟩ :=
                    __clk_core_init_body_steps _ _ _ _ _ hout
                  exact ⟨hl, s1, par, s3, s4, Calm_trans f0 g1, g2, g3, g4,
                    Calm_trans g5 (Calm_pm_put _ _ _)⟩

theorem link_eq (s : State) (c : Nat) (par : Option Nat) :
    (__clk_core_init.link s c par).parent = Function.update s.parent c par ∧
    (__clk_core_init.link s c par).name = s.name ∧
    (__clk_core_init.link s c par).parents = s.parents ∧
    (__clk_core_init.link s c par).hw_core = s.hw_core ∧
    (__clk_core_init.link s c par).num_parents = s.num_parents := by
  unfold __clk_core_init.link
  cases par with
  | some p => exact ⟨rfl, rfl, rfl, rfl, rfl⟩
  | none =>
    simp only
    split <;> exact ⟨rfl, rfl, rfl, rfl, rfl⟩

theorem link_children (s : State) (c : Nat) (par : Option Nat) (q x : Nat) :
    x ∈ (__clk_core_init.link s c par).children q ↔
      (x = c ∧ par = some q) ∨ x ∈ s.children q := by
  unfold __clk_core_init.link
  cases par with
  | some p =>
    simp only
    by_cases hq : q = p
    · subst hq
      simp [Function.update_same]
    · simp only [Function.update_apply, hq, if_false]
      constructor
      · exact fun h => Or.inr h
      · rintro (⟨-, h0⟩ | h)
        · exact absurd (Option.some.inj h0).symm hq
        · exact h
  | none =>
    simp only
    split <;> simp

theorem link_lists (s : State) (c : Nat) (par : Option Nat) (x : Nat) :
    (x ∈ (__clk_core_init.link s c par).clk_root_list ↔
      (x = c ∧ par = none ∧ s.num_parents c = 0) ∨ x ∈ s.clk_root_list) ∧
    (x ∈ (__clk_core_init.link s c par).clk_orphan_list ↔
      (x = c ∧ par = none ∧ s.num_parents c ≠ 0) ∨ x ∈ s.clk_orphan_list) := by
  unfold __clk_core_init.link
  cases par with
  | some p => simp
  | none =>
    simp only
    split
    · rename_i h0
      simp [h0]
    · rename_i h0
      simp [h0]

/-- Placing a fresh node keeps the forest well-formed. -/
theorem link_wf {s : State} (hwf : WellFormed s) {c : Nat} (hf : Fresh s c)
    (par : Option Nat) : WellFormed (__clk_core_init.link s c par) := by
  obtain ⟨hf1, hf2, hf3, -⟩ := hf
  obtain ⟨hpar, -, -, -, -⟩ := link_eq s c par
  refine ⟨?_, ?_, ?_, ?_, ?_, ?_, ?_⟩
  · intro x q hx
    rw [hpar]
    rcases (link_children s c par q x).mp hx with ⟨rfl, rfl⟩ | hx'
    · simp
    · have hne : x ≠ c := by rintro rfl; exact hf3 q hx'
      simp only [Function.update_apply, hne, if_false]
      exact hwf.child_parent _ _ hx'
  · intro q
    unfold __clk_core_init.link
    cases par with
    | some p =>
      simp only
      by_cases hq : q = p
      · subst hq
        simp only [Function.update_same]
        exact List.nodup_cons.mpr ⟨hf3 q, hwf.children_nodup q⟩
      · simp only [Function.update_apply, hq, if_false]
        exact hwf.children_nodup q
    | none =>
      simp only
      split <;> exact hwf.children_nodup q
  · unfold __clk_core_init.link
    cases par with
    | some p => exact hwf.roots_nodup
    | none =>
      simp only
      split
      · exact List.nodup_cons.mpr ⟨hf1, hwf.roots_nodup⟩
      · exact hwf.roots_nodup
  · unfold __clk_core_init.link
    cases par with
    | some p => exact hwf.orphans_nodup
    | none =>
      simp only
      split
      · exact hwf.orphans_nodup
      · exact List.nodup_cons.mpr ⟨hf2, hwf.orphans_nodup⟩
  · intro x hx
    rw [hpar]
    rcases ((link_lists s c par x).1.mp hx) with ⟨rfl, rfl, -⟩ | hx'
    · simp
    · have hne : x ≠ c := by rintro rfl; exact hf1 hx'
      simp only [Function.update_apply, hne, if_false]
      exact hwf.root_parent _ hx'
  · intro x hx
    rw [hpar]
    rcases ((link_lists s c par x).2.mp hx) with ⟨rfl, rfl, -⟩ | hx'
    · simp
    · have hne : x ≠ c := by rintro rfl; exact hf2 hx'
      simp only [Function.update_apply, hne, if_false]
      exact hwf.orphan_parent _ hx'
  · intro x hx ho
    rcases ((link_lists s c par x).1.mp hx) with ⟨rfl, -, h0⟩ | hx'
    · rcases ((link_lists s x par x).2.mp ho) with ⟨-, -, h1⟩ | ho'
      · exact h1 h0
      · exact hf2 ho'
    · rcases ((link_lists s c par x).2.mp ho) with ⟨rfl, -, -⟩ | ho'
      · exact hf1 hx'
      · exact hwf.root_orphan _ hx' ho'

/-- Placing a fresh node keeps the orphan bits equal along the child lists. -/
theorem link_orphan_edges {s : State} (hoe : OrphanEdges s) {c : Nat} (hf : Fresh s c)
    (par : Option Nat) : OrphanEdges (__clk_core_init.link s c par) := by
  obtain ⟨-, -, hf3, hf4⟩ := hf
  intro q x hx
  have hx0 := (link_children s c par q x).mp hx
  have hqc : ∀ y, y ∈ s.children q → q ≠ c := by
    intro y hy e
    rw [e, hf4] at hy
    cases hy
  unfold __clk_core_init.link
  cases par with
  | some p =>
    simp only
    rcases hx0 with ⟨rfl, hp⟩ | hx'
    · cases hp
      by_cases hpx : q = x
      · rw [hpx]
      · simp [Function.update_apply, hpx]
    · have hne : x ≠ c := by rintro rfl; exact hf3 q hx'
      have hqne := hqc x hx'
      simp only [Function.update_apply, hne, hqne, if_false]
      exact hoe q x hx'
  | none =>
    rcases hx0 with ⟨-, hp⟩ | hx'
    · cases hp
    · have hne : x ≠ c := by rintro rfl; exact hf3 q hx'
      have hqne := hqc x hx'
      simp only
      split
      · simp only [Function.update_apply, hne, hqne, if_false]
        exact hoe q x hx'
      · simp only [Function.update_apply, hne, hqne, if_false]
        exact hoe q x hx'

/-- Placing a node below a node of smaller rank keeps the ranking. -/
theorem link_ranked {hw : Hw} {rank : Nat → Nat} {s : State} (hr : Ranked hw rank s)
    {c : Nat} {par : Option Nat} (hpar : ∀ q, par = some q → ∃ i, Resolves hw s c i q) :
    Ranked hw rank (__clk_core_init.link s c par) := by
  obtain ⟨h1, h2, h3, h4, -⟩ := link_eq s c par
  refine ⟨?_, ?_⟩
  · intro n p hn
    rw [h1] at hn
    by_cases hnc : n = c
    · subst hnc
      simp only [Function.update_same] at hn
      obtain ⟨i, hi⟩ := hpar p hn
      exact hr.2 _ _ _ hi
    · simp only [Function.update_apply, hnc, if_false] at hn
      exact hr.1 n p hn
  · intro o i p hres
    apply hr.2 o i p
    unfold Resolves at hres ⊢
    rw [h2, h3, h4] at hres
    exact hres

/-- Placing a fresh node brings only that node into the forest. -/
theorem link_in_forest {s : State} {c : Nat} (hf : Fresh s c) (par : Option Nat) (x : Nat)
    (hx : InForest (__clk_core_init.link s c par) x) : x = c ∨ InForest s x := by
  obtain ⟨-, -, -, hf4⟩ := hf
  obtain ⟨r, hr, hd⟩ := hx
  have hroot : r = c ∨ InForest s r := by
    rw [List.mem_append] at hr
    rcases hr with hr | hr
    · rcases (link_lists s c par r).1.mp hr with ⟨e, -, -⟩ | hr'
      · exact Or.inl e
      · exact Or.inr ⟨r, List.mem_append_left _ hr', Desc_refl _ _⟩
    · rcases (link_lists s c par r).2.mp hr with ⟨e, -, -⟩ | hr'
      · exact Or.inl e
      · exact Or.inr ⟨r, List.mem_append_right _ hr', Desc_refl _ _⟩
  induction hd with
  | refl => exact hroot
  | tail _ hyx ih =>
    rcases (link_children s c par _ _).mp hyx with ⟨e, -⟩ | hz
    · exact Or.inl e
    · rcases ih with e | ⟨r0, hr0, hd0⟩
      · rw [e, hf4] at hz
        cases hz
      · exact Or.inr ⟨r0, hr0, Desc_step hd0 hz⟩

theorem OrphanEdges_propagation {s : State} (h : OrphanEdges s) : OrphanPropagation s := by
  intro n hn c hd
  induction hd with
  | refl => exact hn
  | tail _ hyx ih => rw [h _ _ hyx]; exact ih

theorem WellFormed_one_list {s : State} (h : WellFormed s) : OnOneList s := by
  intro n
  refine ⟨fun hr => ⟨h.root_orphan n hr, fun p hp => ?_⟩,
    fun ho => ⟨fun hr => h.root_orphan n hr ho, fun p hp => ?_⟩,
    fun p hp => ⟨h.child_parent n p hp, fun hr => ?_, fun ho => ?_, fun q hq => ?_⟩⟩
  · have := h.child_parent n p hp
    rw [h.root_parent n hr] at this
    cases this
  · have := h.child_parent n p hp
    rw [h.orphan_parent n ho] at this
    cases this
  · have := h.child_parent n p hp
    rw [h.root_parent n hr] at this
    cases this
  · have := h.child_parent n p hp
    rw [h.orphan_parent n ho] at this
    cases this
  · have h1 := h.child_parent n p hp
    have h2 := h.child_parent n q hq
    rw [h1] at h2
    exact (Option.some.inj h2).symm

theorem Ranked_no_cycle {hw : Hw} {rank : Nat → Nat} {s : State} (h : Ranked hw rank s) :
    NoCycle s := by
  have key : ∀ a b, Relation.TransGen (fun a b => s.parent a = some b) a b →
      rank b < rank a := by
    intro a b hab
    induction hab with
    | single h1 => exact h.1 _ _ h1
    | tail _ h1 ih => exact lt_trans (h.1 _ _ h1) ih
  intro n hn
  exact lt_irrefl _ (key n n hn)

theorem __clk_lookup_subtree_none (fuel : Nat) (s : State) (name : String) (core : Nat)
    (h : __clk_lookup_subtree fuel s name core = some none) :
    ∀ x, Desc s.children core x → s.name x ≠ name := by
  induction fuel generalizing core with
  | zero => simp [__clk_lookup_subtree] at h
  | succ fuel ih =>
    unfold __clk_lookup_subtree at h
    split at h
    · cases h
    · rename_i hne
      have key : ∀ (l : List Nat) (acc : Option Nat),
          l.foldlM (fun (ret : Option Nat) child =>
            if ret.isSome then some ret else __clk_lookup_subtree fuel s name child) acc
            = some none →
          acc = none ∧ ∀ y ∈ l, __clk_lookup_subtree fuel s name y = some none := by
        intro l
        induction l with
        | nil =>
          intro acc hf
          simp only [List.foldlM_nil, Option.pure_def, Option.some.injEq] at hf
          exact ⟨hf, fun y hy => by cases hy⟩
        | cons x l ihl =>
          intro acc hf
          simp only [List.foldlM_cons, Option.bind_eq_bind] at hf
          cases hstep : (if acc.isSome then some acc
              else __clk_lookup_subtree fuel s name x) with
          | none => simp [hstep] at hf
          | some acc1 =>
            simp only [hstep, Option.some_bind] at hf
            obtain ⟨h1, h2⟩ := ihl acc1 hf
            subst h1
            split at hstep
            · rename_i hs
              simp only [Option.some.injEq] at hstep
              rw [hstep] at hs
              simp at hs
            · rename_i hs
              have hacc : acc = none := by
                cases acc with
                | none => rfl
                | some v => simp at hs
              refine ⟨hacc, fun y hy => ?_⟩
              rcases List.mem_cons.mp hy with rfl | hy'
              · exact hstep
              · exact h2 y hy'
      obtain ⟨-, hall⟩ := key _ _ h
      intro x hx
      rcases Desc_cases_head hx with rfl | ⟨y, hy, hyx⟩
      · exact hne
      · exact ih y (hall y hy) x hyx

/-- When `clk_core_lookup` finds nothing, no node of the two forests carries the name. -/
theorem clk_core_lookup_none (fuel : Nat) (s : State) (name : String)
    (h : clk_core_lookup fuel s (some name) = some none) :
    ∀ x, InForest s x → s.name x ≠ name := by
  unfold clk_core_lookup at h
  simp only at h
  have key : ∀ (l : List Nat) (acc : Option Nat),
      l.foldlM (fun (ret : Option Nat) root_clk =>
        if ret.isSome then some ret else __clk_lookup_subtree fuel s name root_clk) acc
        = some none →
      acc = none ∧ ∀ y ∈ l, __clk_lookup_subtree fuel s name y = some none := by
    intro l
    induction l with
    | nil =>
      intro acc hf
      simp only [List.foldlM_nil, Option.pure_def, Option.some.injEq] at hf
      exact ⟨hf, fun y hy => by cases hy⟩
    | cons x l ihl =>
      intro acc hf
      simp only [List.foldlM_cons, Option.bind_eq_bind] at hf
      cases hstep : (if acc.isSome then some acc
          else __clk_lookup_subtree fuel s name x) with
      | none => simp [hstep] at hf
      | some acc1 =>
        simp only [hstep, Option.some_bind] at hf
        obtain ⟨h1, h2⟩ := ihl acc1 hf
        subst h1
        split at hstep
        · rename_i hs
          simp only [Option.some.injEq] at hstep
          rw [hstep] at hs
          simp at hs
        · rename_i hs
          have hacc : acc = none := by
            cases acc with
            | none => rfl
            | some v => simp at hs
          refine ⟨hacc, fun y hy => ?_⟩
          rcases List.mem_cons.mp hy with rfl | hy'
          · exact hstep
          · exact h2 y hy'
  obtain ⟨-, hall⟩ := key _ _ h
  rintro x ⟨r, hr, hd⟩
  exact __clk_lookup_subtree_none fuel s name r (hall r hr) x hd

theorem Adoptable_in_forest {hw : Hw} {s0 a : State} {c : Nat} {np : Option Nat}
    (h : Adoptable hw s0 a c np) : InForest a c :=
  ⟨c, List.mem_append_right _ h.1, Desc_refl _ _⟩

/-- The invariants of the forest through a successful `__clk_core_init` of a fresh node. -/
theorem __clk_core_init_forest (hw : Hw) (fuel : Nat) (s s' : State) (c : Nat)
    (hwf : WellFormed s) (hf : Fresh s c)
    (h : __clk_core_init hw fuel s (some c) = some (0, s')) :
    WellFormed s' ∧ (OrphanEdges s → OrphanEdges s') ∧
      (∀ rank, Ranked hw rank s → Ranked hw rank s') ∧
      s'.name = s.name ∧ (∀ x, InForest s' x → x = c ∨ InForest s x) ∧
      clk_core_lookup fuel s (some (s.name c)) = some none := by
  obtain ⟨hl, s1, par, s3, s4, g1, g2, g3, g4, g5⟩ := __clk_core_init_steps _ _ _ _ _ h
  have w1 := Calm_wf g1 hwf
  have fr1 := Calm_fresh g1 hf
  have w2 := link_wf w1 fr1 par
  have w3 := Calm_wf g3 w2
  have hm := clk_core_reparent_orphans_nolock_moves hw fuel s3 s4 w3 g4
  have w4 := Moves_wf hm w3
  have hst := Moves_static hm
  refine ⟨Calm_wf g5 w4, ?_, ?_, ?_, ?_, hl⟩
  · intro hoe
    exact Calm_orphan_edges g5 (Moves_orphan_edges hm w3
      (Calm_orphan_edges g3 (link_orphan_edges (Calm_orphan_edges g1 hoe) fr1 par)))
  · intro rank hr
    have r3 := Calm_ranked g3 (link_ranked (Calm_ranked g1 hr) g2)
    refine Calm_ranked g5 (Moves_ranked ?_ hm r3)
    rintro a x np ⟨-, p, i, hnp, hres⟩ q hq
    rw [hnp] at hq
    cases hq
    exact r3.2 _ _ _ hres
  · rw [g5.name, hst.1, g3.name, (link_eq s1 c par).2.1, g1.name]
  · intro x hx
    have h4 := (Calm_in_forest g5 x).mp hx
    have h3 := Moves_in_forest (fun _ _ _ hg => Adoptable_in_forest hg) hm w3 x h4
    have h2 := (Calm_in_forest g3 x).mp h3
    rcases link_in_forest fr1 par x h2 with e | h1
    · exact Or.inl e
    · exact Or.inr ((Calm_in_forest g1 x).mp h1)

theorem no_cycle_of_rank {s : State} (rank : Nat → Nat)
    (h : ∀ n p, s.parent n = some p → rank p < rank n) : NoCycle s := by
  have key : ∀ a b, Relation.TransGen (fun a b => s.parent a = some b) a b →
      rank b < rank a := by
    intro a b hab
    induction hab with
    | single h1 => exact h _ _ h1
    | tail _ h1 ih => exact lt_trans (h _ _ h1) ih
  intro n hn
  exact lt_irrefl _ (key n n hn)

theorem Calm_linked {hw : Hw} {a b : State} (hc : Calm hw a b) (h : ParentLinked a) :
    ParentLinked b := by
  unfold ParentLinked
  rw [hc.parent, hc.children]
  exact h

theorem clk_reparent_linked {s s' : State} (hwf : WellFormed s) (hl : ParentLinked s)
    {fuel c : Nat} {np : Option Nat} (h : clk_reparent fuel s c np = some s') :
    ParentLinked s' := by
  have hmem := clk_reparent_children_mem hwf h
  obtain ⟨hpar, -, -, -, -, -⟩ := clk_reparent_exact _ _ _ _ _ h
  intro n p hn
  rw [hpar] at hn
  rw [hmem]
  by_cases hnc : n = c
  · subst hnc
    rw [Function.update_same] at hn
    exact Or.inl ⟨rfl, hn⟩
  · rw [Function.update_noteq hnc] at hn
    exact Or.inr ⟨hnc, hl n p hn⟩

theorem link_linked {s : State} (hl : ParentLinked s) (c : Nat) (par : Option Nat) :
    ParentLinked (__clk_core_init.link s c par) := by
  obtain ⟨hpar, -, -, -, -⟩ := link_eq s c par
  intro n p hn
  rw [hpar] at hn
  rw [link_children]
  by_cases hnc : n = c
  · subst hnc
    rw [Function.update_same] at hn
    exact Or.inl ⟨rfl, hn⟩
  · rw [Function.update_noteq hnc] at hn
    exact Or.inr (hl n p hn)

theorem Moves_linked {hw : Hw} {G : State → Nat → Option Nat → Prop} {s s' : State}
    (h : Moves hw G s s') (hwf : WellFormed s) (hl : ParentLinked s) : ParentLinked s' :=
  (Moves_inv (fun a => WellFormed a ∧ ParentLinked a)
    (fun _ _ hc hi => ⟨Calm_wf hc hi.1, Calm_linked hc hi.2⟩)
    (fun _ _ _ _ _ hi _ hr => ⟨clk_reparent_wf hi.1 hr, clk_reparent_linked hi.1 hi.2 hr⟩)
    h ⟨hwf, hl⟩).2

theorem __clk_core_init_linked (hw : Hw) (fuel : Nat) (s s' : State) (c : Nat)
    (hwf : WellFormed s) (hf : Fresh s c) (hl : ParentLinked s)
    (h : __clk_core_init hw fuel s (some c) = some (0, s')) : ParentLinked s' := by
  obtain ⟨-, s1, par, s3, s4, g1, -, g3, g4, g5⟩ := __clk_core_init_steps _ _ _ _ _ h
  have w3 := Calm_wf g3 (link_wf (Calm_wf g1 hwf) (Calm_fresh g1 hf) par)
  have hm := clk_core_reparent_orphans_nolock_moves hw fuel s3 s4 w3 g4
  exact Calm_linked g5 (Moves_linked hm w3 (Calm_linked g3 (link_linked (Calm_linked g1 hl) c par)))

theorem Settable_rank {hw : Hw} {rank : Nat → Nat} {s : State} (hr : Ranked hw rank s)
    {c : Nat} (a : State) (x : Nat) (np : Option Nat) (hg : Settable hw s c a x np) :
    ∀ p, np = some p → rank p < rank x := by
  obtain ⟨rfl, hcase⟩ := hg
  intro p hp
  rcases hcase with e | hres
  · rw [hp] at e
    exact hr.1 _ _ e.symm
  · obtain ⟨i, hi⟩ := hres p hp
    exact hr.2 _ _ _ hi

theorem Adoptable_rank {hw : Hw} {rank : Nat → Nat} {s : State} (hr : Ranked hw rank s)
    (a : State) (x : Nat) (np : Option Nat) (hg : Adoptable hw s a x np) :
    ∀ p, np = some p → rank p < rank x := by
  obtain ⟨-, p, i, hnp, hres⟩ := hg
  intro q hq
  rw [hnp] at hq
  cases hq
  exact hr.2 _ _ _ hres

/-- A failed `__clk_core_init` of a duplicate name. -/
theorem __clk_core_init_duplicate (hw : Hw) (fuel : Nat) (s : State) (c p : Nat)
    (hf : Fresh s c) (hl : clk_core_lookup fuel s (some (s.name c)) = some (some p)) :
    ∃ ret s', __clk_core_init hw fuel s (some c) = some (ret, s') ∧ ret ≠ 0 ∧
      ((clk_pm_runtime_get hw s c).1 = 0 → ret = -EEXIST) ∧
      s'.clk_root_list = s.clk_root_list ∧ s'.clk_orphan_list = s.clk_orphan_list ∧
      s'.children = s.children ∧ s'.parent = s.parent ∧ s'.name = s.name := by
  have hdel : ∀ a : State, Calm hw s a →
      (hlist_del_child_node a c).clk_root_list = s.clk_root_list ∧
      (hlist_del_child_node a c).clk_orphan_list = s.clk_orphan_list ∧
      (hlist_del_child_node a c).children = s.children ∧
      (hlist_del_child_node a c).parent = s.parent ∧
      (hlist_del_child_node a c).name = s.name := by
    intro a ha
    obtain ⟨f1, f2, f3, f4⟩ := Calm_fresh ha hf
    unfold hlist_del_child_node
    cases hp : a.parent c with
    | none =>
      simp only
      exact ⟨by rw [List.erase_of_not_mem f1, ha.clk_root_list],
        by rw [List.erase_of_not_mem f2, ha.clk_orphan_list], ha.children, ha.parent, ha.name⟩
    | some q =>
      simp only
      refine ⟨by rw [List.erase_of_not_mem f1, ha.clk_root_list],
        by rw [List.erase_of_not_mem f2, ha.clk_orphan_list], ?_, ha.parent, ha.name⟩
      rw [List.erase_of_not_mem (f3 q), Function.update_eq_self, ha.children]
  have f0 := Calm_pm_get hw s c
  obtain ⟨tr, htr⟩ := clk_pm_runtime_get_same hw s c
  unfold __clk_core_init
  simp only
  generalize clk_pm_runtime_get hw s c = q at f0 htr
  obtain ⟨r0, s0⟩ := q
  simp only at f0 htr ⊢
  subst htr
  by_cases hr0 : r0 = 0
  · subst hr0
    simp only [ne_eq, not_true_eq_false, if_false, clk_core_lookup_trace, hl,
      Option.isSome_some, if_true]
    have hE : ¬ ((-EEXIST : Int) = 0) := by decide
    rw [if_pos hE]
    exact ⟨_, _, rfl, hE, fun _ => rfl, hdel _ (Calm_trans f0 (Calm_pm_put hw _ c))⟩
  · simp only [ne_eq, hr0, not_false_eq_true, if_true]
    exact ⟨_, _, rfl, hr0, fun h0 => h0.elim, hdel _ f0⟩

theorem WellFormed_unlisted (s : State) (h1 : s.children = fun _ => [])
    (h2 : s.parent = fun _ => none) (h3 : s.clk_root_list.Nodup) (h4 : s.clk_orphan_list.Nodup)
    (h5 : ∀ c, c ∈ s.clk_root_list → c ∉ s.clk_orphan_list) : WellFormed s := by
  refine ⟨?_, ?_, h3, h4, ?_, ?_, h5⟩
  · intro c p hc
    rw [h1] at hc
    cases hc
  · intro p
    rw [h1]
    exact List.nodup_nil
  · intro c _
    rw [h2]
  · intro c _
    rw [h2]

theorem adoptable_pair_wf : WellFormed adoptable_pair :=
  WellFormed_unlisted _ rfl rfl (by decide) (by decide) (by decide)

theorem adoptable_pair_edges : OrphanEdges adoptable_pair := by
  intro p c hc
  cases hc

theorem adoptable_pair_linked : ParentLinked adoptable_pair := by
  intro n p hn
  cases hn

/-- The ranking of the nodes of `adoptable_pair`: X above Y. -/
theorem adoptable_pair_ranked (R : Nat) :
    Ranked (Hw.fixed R) (fun n => if n = 1 then 1 else 0) adoptable_pair := by
  refine ⟨fun n p hn => (by cases hn), ?_⟩
  intro o i p hres
  have hslot : ∀ m : clk_parent_map, m = (adoptable_pair.parents o).getD i {} →
      m = {} ∨ (o = 1 ∧ m = { name := some "Y" }) := by
    intro m hm
    by_cases ho : o = 1
    · subst ho
      cases i with
      | zero => exact Or.inr ⟨rfl, hm⟩
      | succ j => exact Or.inl hm
    · left
      rw [hm]
      show (List.getD (if o = 1 then [({ name := some "Y" } : clk_parent_map)] else []) i
        ({} : clk_parent_map)) = ({} : clk_parent_map)
      rw [if_neg ho]
      rfl
  unfold Resolves at hres
  generalize hm : (adoptable_pair.parents o).getD i {} = m at hres
  have hnm : ∀ q, adoptable_pair.name q = "Y" → q = 0 := by
    intro q hq
    by_contra h0
    have : adoptable_pair.name q = if q = 1 then "X" else "" := by
      show (if q = 0 then "Y" else if q = 1 then "X" else "") = _
      rw [if_neg h0]
    rw [this] at hq
    split at hq <;> exact absurd hq (by decide)
  rcases hslot m hm.symm with e | ⟨ho, e⟩
  · subst e
    rcases hres with h | h | ⟨_, h, -⟩ | ⟨_, h⟩ | h
    · cases h
    · cases h
    · cases h
    · cases h
    · cases h
  · subst e
    subst ho
    rcases hres with h | h | ⟨_, h, -⟩ | ⟨_, h⟩ | h
    · cases h
    · cases h
    · cases h
    · cases h
    · simp only [Option.some.injEq] at h
      rw [hnm p h.symm]
      decide

theorem adoptable_pair_forest (x : Nat) (h : InForest adoptable_pair x) : x = 0 ∨ x = 1 := by
  obtain ⟨r, hr, hd⟩ := h
  have hx : x = r := by
    rcases Desc_cases_tail hd with e | ⟨y, -, hy⟩
    · exact e
    · cases hy
  subst hx
  have : x ∈ [0, 1] := hr
  simpa using this

theorem adoptable_pair_names : NamesDistinct adoptable_pair := by
  intro a b ha hb hab
  rcases adoptable_pair_forest a ha with rfl | rfl <;>
    rcases adoptable_pair_forest b hb with rfl | rfl
  · rfl
  · exact absurd hab (by decide)
  · exact absurd hab (by decide)
  · rfl

theorem adoptable_pair_fresh : Fresh adoptable_pair 2 :=
  ⟨by decide, by decide, fun p h => (by cases h), rfl⟩

theorem OrphanPropagation_iff_step (s : State) : OrphanPropagation s ↔ OrphanStep s := by
  constructor
  · intro h p x hx hp
    exact h p hp x (Desc_step (Desc_refl _ _) hx)
  · intro h n hn c hd
    induction hd with
    | refl => exact hn
    | tail _ hyx ih => exact h _ _ hyx ih

theorem Calm_step {hw : Hw} {a b : State} (hc : Calm hw a b) (h : OrphanStep a) :
    OrphanStep b := by
  unfold OrphanStep
  rw [hc.children, hc.orphan]
  exact h

/-- The call `clk_reparent` keeps the orphan propagation of a well-formed forest. -/
theorem clk_reparent_step {s s' : State} (hwf : WellFormed s) (hs : OrphanStep s)
    {fuel c : Nat} {np : Option Nat} (h : clk_reparent fuel s c np = some s') :
    OrphanStep s' := by
  have hmem := clk_reparent_children_mem hwf h
  have hwf' := clk_reparent_wf hwf h
  obtain ⟨-, -, -, -, hsame, hupd⟩ := clk_reparent_exact _ _ _ _ _ h
  intro y d hd hy
  by_cases hb : s.orphan c = clk_reparent.orphan_bit s np
  · have ho := hsame hb
    rw [ho] at hy ⊢
    rcases (hmem y d).mp hd with ⟨rfl, hnp⟩ | ⟨-, hd'⟩
    · rw [hb, hnp]
      exact hy
    · exact hs y d hd' hy
  · obtain ⟨hin, hout⟩ := hupd hb
    by_cases hdsub : Desc s'.children c d
    · rw [hin d hdsub]
      by_cases hysub : Desc s'.children c y
      · rw [hin y hysub] at hy
        exact hy
      · rw [hout y hysub] at hy
        rcases (hmem y d).mp hd with ⟨-, hnp⟩ | ⟨hdc, -⟩
        · rw [hnp]
          exact hy
        · exfalso
          rcases Desc_cases_tail hdsub with e | ⟨y', hy', hdy'⟩
          · exact hdc e
          · have h1 := hwf'.child_parent d y' hdy'
            have h2 := hwf'.child_parent d y hd
            rw [h1] at h2
            cases h2
            exact hysub hy'
    · rw [hout d hdsub]
      have hysub : ¬ Desc s'.children c y := fun hy' => hdsub (Desc_step hy' hd)
      rw [hout y hysub] at hy
      rcases (hmem y d).mp hd with ⟨e, -⟩ | ⟨-, hd'⟩
      · exfalso
        rw [e] at hdsub
        exact hdsub (Desc_refl _ _)
      · exact hs y d hd' hy

theorem link_step {s : State} (hs : OrphanStep s) {c : Nat} (hf : Fresh s c)
    (par : Option Nat) : OrphanStep (__clk_core_init.link s c par) := by
  obtain ⟨-, -, hf3, hf4⟩ := hf
  intro q x hx hq
  have hx0 := (link_children s c par q x).mp hx
  have hqc : ∀ y, y ∈ s.children q → q ≠ c := by
    intro y hy e
    rw [e, hf4] at hy
    cases hy
  revert hq
  unfold __clk_core_init.link
  cases par with
  | some p =>
    simp only
    rcases hx0 with ⟨rfl, hp⟩ | hx'
    · cases hp
      by_cases hpx : q = x
      · rw [hpx]
        exact fun h => h
      · simp [Function.update_apply, hpx]
    · have hne : x ≠ c := by rintro rfl; exact hf3 q hx'
      have hqne := hqc x hx'
      simp only [Function.update_apply, hne, hqne, if_false]
      exact hs q x hx'
  | none =>
    rcases hx0 with ⟨-, hp⟩ | hx'
    · cases hp
    · have hne : x ≠ c := by rintro rfl; exact hf3 q hx'
      have hqne := hqc x hx'
      simp only
      split
      · simp only [Function.update_apply, hne, hqne, if_false]
        exact hs q x hx'
      · simp only [Function.update_apply, hne, hqne, if_false]
        exact hs q x hx'

theorem Moves_step {hw : Hw} {G : State → Nat → Option Nat → Prop} {s s' : State}
    (h : Moves hw G s s') (hwf : WellFormed s) (hs : OrphanStep s) : OrphanStep s' :=
  (Moves_inv (fun a => WellFormed a ∧ OrphanStep a)
    (fun _ _ hc hi => ⟨Calm_wf hc hi.1, Calm_step hc hi.2⟩)
    (fun _ _ _ _ _ hi _ hr => ⟨clk_reparent_wf hi.1 hr, clk_reparent_step hi.1 hi.2 hr⟩)
    h ⟨hwf, hs⟩).2

/-- A successful `__clk_core_init` of a new node keeps the orphan propagation. -/
theorem __clk_core_init_step (hw : Hw) (fuel : Nat) (s s' : State) (c : Nat)
    (hwf : WellFormed s) (hf : Fresh s c) (hs : OrphanStep s)
    (h : __clk_core_init hw fuel s (some c) = some (0, s')) : OrphanStep s' := by
  obtain ⟨-, s1, par, s3, s4, g1, -, g3, g4, g5⟩ := __clk_core_init_steps _ _ _ _ _ h
  have fr1 := Calm_fresh g1 hf
  have w3 := Calm_wf g3 (link_wf (Calm_wf g1 hwf) fr1 par)
  have hm := clk_core_reparent_orphans_nolock_moves hw fuel s3 s4 w3 g4
  exact Calm_step g5 (Moves_step hm w3 (Calm_step g3 (link_step (Calm_step g1 hs) fr1 par)))

theorem stray_bit_wf : WellFormed stray_bit := by
  refine ⟨?_, ?_, by decide, by decide, ?_, ?_, ?_⟩
  · intro c p hc
    have h : c ∈ (if p = 0 then [1] else []) := hc
    split at h
    · rename_i hp
      subst hp
      rw [List.mem_singleton] at h
      subst h
      rfl
    · cases h
  · intro p
    show (if p = 0 then [1] else []).Nodup
    split
    · exact List.nodup_singleton _
    · exact List.nodup_nil
  · intro c hc
    have h : c ∈ [0, 2] := hc
    show (if c = 1 then some 0 else none) = none
    rw [if_neg]
    rintro rfl
    revert h
    decide
  · intro c hc
    cases hc
  · intro c _ hc
    cases hc

theorem stray_bit_propagation : OrphanPropagation stray_bit := by
  intro n hn c hd
  have h1 : n = 1 := by
    have : decide (n = 1) = true := hn
    exact of_decide_eq_true this
  subst h1
  rcases Desc_cases_head hd with e | ⟨x, hx, -⟩
  · rw [← e]; rfl
  · cases hx

theorem rooted_pair_wf : WellFormed rooted_pair := by
  refine ⟨?_, ?_, by decide, by decide, ?_, ?_, ?_⟩
  · intro c p hc
    have h : c ∈ (if p = 0 then [1] else []) := hc
    split at h
    · rename_i hp
      subst hp
      rw [List.mem_singleton] at h
      subst h
      rfl
    · cases h
  · intro p
    show (if p = 0 then [1] else []).Nodup
    split
    · exact List.nodup_singleton _
    · exact List.nodup_nil
  · intro c hc
    have h : c ∈ [0] := hc
    rw [List.mem_singleton] at h
    subst h
    rfl
  · intro c hc
    cases hc
  · intro c _ hc
    cases hc

theorem rooted_pair_linked : ParentLinked rooted_pair := by
  intro n p hn
  have h : (if n = 1 then some 0 else none) = some p := hn
  split at h
  · rename_i h1
    subst h1
    cases h
    exact List.mem_singleton.mpr rfl
  · cases h

theorem rooted_pair_no_cycle : NoCycle rooted_pair := by
  refine no_cycle_of_rank (fun n => if n = 1 then 1 else 0) ?_
  intro n p hn
  have h : (if n = 1 then some 0 else none) = some p := hn
  split at h
  · rename_i h1
    subst h1
    cases h
    decide
  · cases h

theorem name_clash_fresh : Fresh name_clash 2 :=
  ⟨by decide, by decide, fun p h => (by cases h), rfl⟩

/-- Claim C23 (amended).  In a well-formed forest, orphan propagation (every descendant of a
node with the orphan bit set has the bit set) is kept by `clk_reparent(c, np)` (`np` possibly
`NULL`) and by a successful `__clk_core_init` of a new node.  That every node of the subtree of
the moved node carries the orphan bit of `np` (`true` when `np` is `NULL`) holds when, before the
call, every node on a child list carries the orphan bit of the owner of the list; this is the
form of the invariant that the code maintains, and both operations keep it as well. -/
theorem orphan_propagation (hw : Hw) (fuel : Nat) (s : State) (hwf : WellFormed s)
    (hop : OrphanPropagation s) :
    (∀ c np s', clk_reparent fuel s c np = some s' →
      OrphanPropagation s' ∧
      (OrphanEdges s → OrphanEdges s' ∧
        ∀ d, Desc s'.children c d → s'.orphan d = clk_reparent.orphan_bit s np)) ∧
    (∀ c s', Fresh s c → __clk_core_init hw fuel s (some c) = some (0, s') →
      OrphanPropagation s' ∧ (OrphanEdges s → OrphanEdges s')) := by
  have hs := (OrphanPropagation_iff_step s).mp hop
  constructor
  · intro c np s' h
    exact ⟨(OrphanPropagation_iff_step s').mpr (clk_reparent_step hwf hs h),
      fun hoe => clk_reparent_orphan_edges hwf hoe h⟩
  · intro c s' hf h
    exact ⟨(OrphanPropagation_iff_step s').mpr (__clk_core_init_step hw fuel s s' c hwf hf hs h),
      (__clk_core_init_forest hw fuel s s' c hwf hf h).2.1⟩

/-- A run of `orphan_propagation`: in `adoptable_pair`, the orphan X is moved below the root Y,
and a third node is registered, which lets Y adopt X. -/
theorem orphan_propagation_witness :
    WellFormed adoptable_pair ∧ OrphanPropagation adoptable_pair ∧
    (OrphanPropagation ((clk_reparent 5 adoptable_pair 1 (some 0)).getD adoptable_pair) ∧
      ∀ d, Desc ((clk_reparent 5 adoptable_pair 1 (some 0)).getD adoptable_pair).children 1 d →
        ((clk_reparent 5 adoptable_pair 1 (some 0)).getD adoptable_pair).orphan d
          = clk_reparent.orphan_bit adoptable_pair (some 0)) ∧
    OrphanPropagation
      ((__clk_core_init (Hw.fixed 12000000) 5 adoptable_pair (some 2)).getD
        (0, adoptable_pair)).2 :=
  ⟨adoptable_pair_wf, OrphanEdges_propagation adoptable_pair_edges,
    ⟨((orphan_propagation (Hw.fixed 12000000) 5 adoptable_pair adoptable_pair_wf
        (OrphanEdges_propagation adoptable_pair_edges)).1 1 (some 0) _ rfl).1,
      (((orphan_propagation (Hw.fixed 12000000) 5 adoptable_pair adoptable_pair_wf
        (OrphanEdges_propagation adoptable_pair_edges)).1 1 (some 0) _ rfl).2
          adoptable_pair_edges).2⟩,
    ((orphan_propagation (Hw.fixed 12000000) 5 adoptable_pair adoptable_pair_wf
      (OrphanEdges_propagation adoptable_pair_edges)).2 2 _ adoptable_pair_fresh rfl).1⟩

/-- Claim C23 as stated fails: in `stray_bit` every descendant of a node with the orphan bit set
has the bit set and the forest is well formed, but after `clk_reparent(0, 2)` the child 1 of the
moved node 0 has the orphan bit set while the new parent 2 has it clear: the bits of node 0 and
of node 2 agree, so the subtree is not rewritten. -/
theorem orphan_propagation_counterexample :
    OrphanPropagation stray_bit ∧ WellFormed stray_bit ∧
    (clk_reparent 5 stray_bit 0 (some 2)).map
        (fun s' => (s'.parent 0, s'.children 0, s'.children 2, s'.orphan 2, s'.orphan 0,
          s'.orphan 1))
      = some (some 2, [1], [0], false, false, true) :=
  ⟨stray_bit_propagation, stray_bit_wf, rfl⟩

/-- Claim C24 (amended).  Let the forest be well formed, every parent pointer be backed by the
parent's child list, and `rank` decrease from each node to its parent and to every node one of
its parent slots can resolve to (the declared parents have no cycle).  Then `clk_reparent(c, np)`
with `np` of smaller rank than `c`, every returning `clk_core_set_parent_nolock`, the orphan
adoption, and a successful `__clk_core_init` of a new node keep all of this; so afterwards every
node on a list is on exactly one of the root list, the orphan list and the child list of the node
its parent pointer names, and following parent pointers never revisits a node. -/
theorem forest_well_formed (hw : Hw) (rank : Nat → Nat) (fuel : Nat) (s : State)
    (hs : Sound hw rank s) :
    (∀ c np s', (∀ p, np = some p → rank p < rank c) → clk_reparent fuel s c np = some s' →
      Sound hw rank s' ∧ OnOneList s' ∧ NoCycle s') ∧
    (∀ c par ret s', clk_core_set_parent_nolock hw fuel s (some c) par = some (ret, s') →
      Sound hw rank s' ∧ OnOneList s' ∧ NoCycle s') ∧
    (∀ s', clk_core_reparent_orphans_nolock hw fuel s = some s' →
      Sound hw rank s' ∧ OnOneList s' ∧ NoCycle s') ∧
    (∀ c s', Fresh s c → __clk_core_init hw fuel s (some c) = some (0, s') →
      Sound hw rank s' ∧ OnOneList s' ∧ NoCycle s') := by
  obtain ⟨hwf, hl, hr⟩ := hs
  have fin : ∀ s', WellFormed s' → ParentLinked s' → Ranked hw rank s' →
      Sound hw rank s' ∧ OnOneList s' ∧ NoCycle s' :=
    fun s' a b c => ⟨⟨a, b, c⟩, WellFormed_one_list a, Ranked_no_cycle c⟩
  refine ⟨?_, ?_, ?_, ?_⟩
  · intro c np s' hnp h
    exact fin _ (clk_reparent_wf hwf h) (clk_reparent_linked hwf hl h)
      (clk_reparent_ranked hr hnp h)
  · intro c par ret s' h
    have hm := clk_core_set_parent_nolock_moves hw fuel s s' c par ret h
    exact fin _ (Moves_wf hm hwf) (Moves_linked hm hwf hl)
      (Moves_ranked (Settable_rank hr) hm hr)
  · intro s' h
    have hm := clk_core_reparent_orphans_nolock_moves hw fuel s s' hwf h
    exact fin _ (Moves_wf hm hwf) (Moves_linked hm hwf hl)
      (Moves_ranked (Adoptable_rank hr) hm hr)
  · intro c s' hf h
    obtain ⟨h1, -, h3, -⟩ := __clk_core_init_forest hw fuel s s' c hwf hf h
    exact fin _ h1 (__clk_core_init_linked hw fuel s s' c hwf hf hl h) (h3 rank hr)

/-- A run of `forest_well_formed` on `adoptable_pair`: X is moved below Y by `clk_reparent`, by
`clk_core_set_parent_nolock` and by the orphan adoption, and a third node is registered. -/
theorem forest_well_formed_witness :
    Sound (Hw.fixed 12000000) (fun n => if n = 1 then 1 else 0) adoptable_pair ∧
    NoCycle ((clk_reparent 5 adoptable_pair 1 (some 0)).getD adoptable_pair) ∧
    NoCycle ((clk_core_set_parent_nolock (Hw.fixed 12000000) 5 adoptable_pair (some 1)
      (some 0)).getD (0, adoptable_pair)).2 ∧
    NoCycle ((clk_core_reparent_orphans_nolock (Hw.fixed 12000000) 5 adoptable_pair).getD
      adoptable_pair) ∧
    OnOneList ((__clk_core_init (Hw.fixed 12000000) 5 adoptable_pair (some 2)).getD
      (0, adoptable_pair)).2 :=
  ⟨⟨adoptable_pair_wf, adoptable_pair_linked, adoptable_pair_ranked 12000000⟩,
    ((forest_well_formed (Hw.fixed 12000000) (fun n => if n = 1 then 1 else 0) 5 adoptable_pair
      ⟨adoptable_pair_wf, adoptable_pair_linked, adoptable_pair_ranked 12000000⟩).1
        1 (some 0) _ (fun p hp => by cases hp; decide) rfl).2.2,
    ((forest_well_formed (Hw.fixed 12000000) (fun n => if n = 1 then 1 else 0) 5 adoptable_pair
      ⟨adoptable_pair_wf, adoptable_pair_linked, adoptable_pair_ranked 12000000⟩).2.1
        1 (some 0) 0 _ rfl).2.2,
    ((forest_well_formed (Hw.fixed 12000000) (fun n => if n = 1 then 1 else 0) 5 adoptable_pair
      ⟨adoptable_pair_wf, adoptable_pair_linked, adoptable_pair_ranked 12000000⟩).2.2.1
        _ rfl).2.2,
    ((forest_well_formed (Hw.fixed 12000000) (fun n => if n = 1 then 1 else 0) 5 adoptable_pair
      ⟨adoptable_pair_wf, adoptable_pair_linked, adoptable_pair_ranked 12000000⟩).2.2.2
        2 _ adoptable_pair_fresh rfl).2.1⟩

/-- Claim C24 as stated fails: `rooted_pair` is well formed, every parent pointer is backed by a
child list and the parent pointers have no cycle, but `clk_reparent(0, 1)`, which moves the root
below its own child, returns a state where node 0 has parent 1 and node 1 has parent 0: the
parent pointers form a cycle, and neither node is reachable from the root list or the orphan
list, which are both empty.  The registration of `self_parent`, a new node whose parent slot
points at its own `clk_hw`, returns 0 and leaves the node as its own parent, on its own child
list and on neither the root list nor the orphan list. -/
theorem forest_well_formed_counterexample :
    WellFormed rooted_pair ∧ ParentLinked rooted_pair ∧ NoCycle rooted_pair ∧
    (clk_reparent 5 rooted_pair 0 (some 1)).map
        (fun s' => (s'.parent 0, s'.parent 1, s'.children 0, s'.children 1, s'.clk_root_list,
          s'.clk_orphan_list))
      = some (some 1, some 0, [1], [0], [], []) ∧
    (∃ s', clk_reparent 5 rooted_pair 0 (some 1) = some s' ∧ ¬ NoCycle s') ∧
    (__clk_core_init Hw.quiet 5 self_parent (some 0)).map
        (fun r => (r.1, r.2.parent 0, r.2.children 0, r.2.clk_root_list, r.2.clk_orphan_list))
      = some (0, some 0, [0], [], []) :=
  ⟨rooted_pair_wf, rooted_pair_linked, rooted_pair_no_cycle, rfl, ⟨_, rfl,
    fun h => h 0 (Relation.TransGen.tail (Relation.TransGen.single rfl) rfl)⟩, rfl⟩

/-- Claim C25.  Registration rejects duplicate names.  For a new node `c` (on no list, without
children): when `clk_core_lookup` finds a node with the name of `c`, `__clk_core_init` returns an
error (`-EEXIST` unless the runtime-PM resume failed first) and the root list, the orphan list,
every child list, the parent pointers and the names are as before; a successful `__clk_core_init`
means that no node of the two forests carried the name of `c`; and when the names of the nodes of
the two forests are pairwise distinct before a successful `__clk_core_init`, they are pairwise
distinct after it. -/
theorem duplicate_name_rejected (hw : Hw) (fuel : Nat) (s : State) (c : Nat)
    (hf : Fresh s c) :
    (∀ p, clk_core_lookup fuel s (some (s.name c)) = some (some p) →
      ∃ ret s', __clk_core_init hw fuel s (some c) = some (ret, s') ∧ ret ≠ 0 ∧
        ((clk_pm_runtime_get hw s c).1 = 0 → ret = -EEXIST) ∧
        s'.clk_root_list = s.clk_root_list ∧ s'.clk_orphan_list = s.clk_orphan_list ∧
        s'.children = s.children ∧ s'.parent = s.parent ∧ s'.name = s.name) ∧
    (∀ s', __clk_core_init hw fuel s (some c) = some (0, s') →
      ∀ x, InForest s x → s.name x ≠ s.name c) ∧
    (∀ s', WellFormed s → NamesDistinct s →
      __clk_core_init hw fuel s (some c) = some (0, s') → NamesDistinct s') := by
  refine ⟨fun p hl => __clk_core_init_duplicate hw fuel s c p hf hl, ?_, ?_⟩
  · intro s' h
    exact clk_core_lookup_none fuel s _ (__clk_core_init_steps _ _ _ _ _ h).1
  · intro s' hwf hnd h
    obtain ⟨-, -, -, hname, hfor, hlk⟩ := __clk_core_init_forest hw fuel s s' c hwf hf h
    have hno := clk_core_lookup_none fuel s _ hlk
    intro a b ha hb hab
    rw [hname] at hab
    rcases hfor a ha with rfl | ha' <;> rcases hfor b hb with rfl | hb'
    · rfl
    · exact absurd hab.symm (hno b hb')
    · exact absurd hab (hno a ha')
    · exact hnd a b ha' hb' hab

/-- A run of `duplicate_name_rejected`: in `name_clash` the new node 2 carries the name of the
root, and its registration fails with `-EEXIST`; in `adoptable_pair` the new node 2 has a name of
its own, and after its registration the names are still pairwise distinct. -/
theorem duplicate_name_rejected_witness :
    (∃ ret s', __clk_core_init (Hw.fixed 12000000) 5 name_clash (some 2) = some (ret, s') ∧
      ret ≠ 0 ∧
      ((clk_pm_runtime_get (Hw.fixed 12000000) name_clash 2).1 = 0 → ret = -EEXIST) ∧
      s'.clk_root_list = name_clash.clk_root_list ∧
      s'.clk_orphan_list = name_clash.clk_orphan_list ∧
      s'.children = name_clash.children ∧ s'.parent = name_clash.parent ∧
      s'.name = name_clash.name) ∧
    NamesDistinct ((__clk_core_init (Hw.fixed 12000000) 5 adoptable_pair (some 2)).getD
      (0, adoptable_pair)).2 :=
  ⟨(duplicate_name_rejected (Hw.fixed 12000000) 5 name_clash 2 name_clash_fresh).1 0 rfl,
    (duplicate_name_rejected (Hw.fixed 12000000) 5 adoptable_pair 2 adoptable_pair_fresh).2.2 _
      adoptable_pair_wf adoptable_pair_names rfl⟩

/-- Claim C29 at a failing input.  In `readonly_mux` the registered root P has the child M, a mux
without `set_parent` op; `clk_core_set_parent_nolock(M, NULL)` returns `-EPERM`, `clk_unregister`
does not look at that, and after `clk_unregister(P)` the child M still has P as its parent, is
still on the child list of P, is not on the orphan list and has the orphan bit clear, while P has
left the root list.  In `plain_child`, where the call succeeds, `clk_unregister(P)` does what the
claim says: M has no parent, is on the orphan list with the orphan bit set, the child list of P
is empty and the slot of M caches nothing. -/
theorem unregister_orphans_children :
    (readonly_mux.children 0 = [1] ∧ readonly_mux.ops 0 ≠ clk_nodrv_ops ∧
      (clk_core_set_parent_nolock Hw.quiet 5 readonly_mux (some 1) none).map Prod.fst
        = some (-EPERM) ∧
      (clk_unregister Hw.quiet 5 readonly_mux (some 7)).map
          (fun s' => (s'.ops 0, s'.parent 1, s'.children 0, s'.clk_root_list,
            s'.clk_orphan_list, s'.orphan 1))
        = some (clk_nodrv_ops, some 0, [1], [], [], false)) ∧
    (plain_child.children 0 = [1] ∧
      (clk_unregister Hw.quiet 5 plain_child (some 7)).map
          (fun s' => (s'.ops 0, s'.parent 1, s'.children 0, s'.clk_root_list,
            s'.clk_orphan_list, s'.orphan 1, (s'.parents 1).map (fun m => m.core)))
        = some (clk_nodrv_ops, none, [], [], [1], true, [none])) :=
  ⟨⟨rfl, by decide, rfl, rfl⟩, rfl, rfl⟩

/-- The sanity check of `clk_set_phase` computes the remainder of the floor division by 360. -/
theorem clk_set_phase_degrees_spec (degrees : Int) :
    0 ≤ clk_set_phase.degrees degrees ∧ clk_set_phase.degrees degrees ≤ 359 ∧
      clk_set_phase.degrees degrees = degrees % 360 := by
  unfold clk_set_phase.degrees
  simp only
  have key : Int.tmod degrees 360
      = if 0 ≤ degrees then degrees % 360 else -((-degrees) % 360) := by
    split
    · rename_i h
      exact Int.tmod_eq_emod h (by decide)
    · rename_i h
      have h1 : Int.tmod (-degrees) 360 = (-degrees) % 360 :=
        Int.tmod_eq_emod (by omega) (by decide)
      rw [Int.tmod_def, Int.neg_tdiv] at h1
      rw [Int.tmod_def]
      omega
  rw [key]
  split <;> split <;> omega

/-- Claim C37.  For every `degrees`, the value `d` that `clk_set_phase` works with lies in
`0 .. 359`, is congruent to `degrees` modulo 360, and is the only such value.  When
`clk_set_phase` returns, the `set_phase` op was called exactly when the node provides it and is
not protected once the caller's own exclusivity is lifted; the op was called with `d` (the
return value is the answer of the op at `d`), and `core->phase` is `d` when that answer is 0 and
is unchanged otherwise.  With enough fuel for the parent chain the function returns. -/
theorem phase_normalisation (hw : Hw) (fuel : Nat) (s : State) (k : Nat) (degrees : Int) :
    (0 ≤ clk_set_phase.degrees degrees ∧ clk_set_phase.degrees degrees ≤ 359 ∧
      (360 : Int) ∣ clk_set_phase.degrees degrees - degrees ∧
      ∀ d : Int, 0 ≤ d → d ≤ 359 → (360 : Int) ∣ d - degrees →
        d = clk_set_phase.degrees degrees) ∧
    (∀ ret s', clk_set_phase hw fuel s (some k) degrees = some (ret, s') →
      ∃ s1, (if s.exclusive_count k ≠ 0 then
            clk_core_rate_unprotect fuel s (some (s.clk_core k)) else some s) = some s1 ∧
        (ret, s'.phase) =
          if clk_core_rate_is_protected s1 (s.clk_core k) then (-EBUSY, s.phase)
          else if (s.ops (s.clk_core k)).set_phase then
            (hw.set_phase s1 (s.clk_core k) (clk_set_phase.degrees degrees),
              if hw.set_phase s1 (s.clk_core k) (clk_set_phase.degrees degrees) = 0 then
                Function.update s.phase (s.clk_core k) (clk_set_phase.degrees degrees)
              else s.phase)
          else (-EINVAL, s.phase)) ∧
    (∀ N dep, IsDepth s.parent N dep → dep (s.clk_core k) < fuel →
      ∃ r, clk_set_phase hw fuel s (some k) degrees = some r) := by
  obtain ⟨h0, h359, hmod⟩ := clk_set_phase_degrees_spec degrees
  refine ⟨⟨h0, h359, ?_, ?_⟩, ?_, ?_⟩
  · rw [hmod]
    exact ⟨-(degrees / 360), by omega⟩
  · rintro d hd0 hd359 ⟨q, hq⟩
    rw [hmod]
    omega
  · intro ret s' h
    unfold clk_set_phase at h
    simp only at h
    generalize hs1 : (if s.exclusive_count k ≠ 0 then
      clk_core_rate_unprotect fuel s (some (s.clk_core k)) else some s) = s1? at h
    cases s1? with
    | none => cases h
    | some s1 =>
      simp only at h
      have hfr : ∃ pc, s1 = { s with protect_count := pc } := by
        split at hs1
        · exact clk_core_rate_unprotect_frame _ _ _ _ hs1
        · cases hs1
          exact ⟨_, rfl⟩
      obtain ⟨pc, rfl⟩ := hfr
      refine ⟨_, rfl, ?_⟩
      have hph : ∀ (q : Int × State) (t : State),
          (if q.2.exclusive_count k ≠ 0 then
              clk_core_rate_protect fuel q.2 (some (q.2.clk_core k)) else some q.2) = some t →
          t.phase = q.2.phase := by
        intro q t ht
        split at ht
        · obtain ⟨pc2, e⟩ := clk_core_rate_protect_frame _ _ _ _ ht
          rw [e]
        · cases ht
          rfl
      generalize hq : clk_core_set_phase_nolock hw { s with protect_count := pc }
        (some (s.clk_core k)) (clk_set_phase.degrees degrees) = q at h
      obtain ⟨r2, s2⟩ := q
      simp only at h
      generalize hs3 : (if s2.exclusive_count k ≠ 0 then
        clk_core_rate_protect fuel s2 (some (s2.clk_core k)) else some s2) = s3? at h
      cases s3? with
      | none => cases h
      | some s3 =>
        simp only [Option.some.injEq, Prod.mk.injEq] at h
        obtain ⟨rfl, rfl⟩ := h
        have e3 := hph (r2, s2) s3 hs3
        simp only at e3
        rw [e3]
        unfold clk_core_set_phase_nolock at hq
        simp only at hq
        split at hq
        · rename_i hp
          rw [if_pos hp]
          cases hq
          rfl
        · rename_i hp
          rw [if_neg hp]
          split at hq
          · rename_i ho
            rw [if_pos ho]
            cases hq
            split <;> rfl
          · rename_i ho
            rw [if_neg ho]
            cases hq
            rfl
  · intro N dep hd hf
    unfold clk_set_phase
    simp only
    have h1 : ∃ pc, (if s.exclusive_count k ≠ 0 then
        clk_core_rate_unprotect fuel s (some (s.clk_core k)) else some s)
        = some { s with protect_count := pc } := by
      split
      · exact clk_core_rate_unprotect_some fuel s _ hd hf
      · exact ⟨_, rfl⟩
    obtain ⟨pc, e1⟩ := h1
    rw [e1]
    simp only
    generalize hq : clk_core_set_phase_nolock hw { s with protect_count := pc }
      (some (s.clk_core k)) (clk_set_phase.degrees degrees) = q
    obtain ⟨r2, s2⟩ := q
    simp only
    have hs2 : s2.parent = s.parent ∧ s2.clk_core = s.clk_core := by
      unfold clk_core_set_phase_nolock at hq
      simp only at hq
      split at hq
      · cases hq; exact ⟨rfl, rfl⟩
      · split at hq
        · cases hq
          split <;> exact ⟨rfl, rfl⟩
        · cases hq; exact ⟨rfl, rfl⟩
    have h3 : ∃ t, (if s2.exclusive_count k ≠ 0 then
        clk_core_rate_protect fuel s2 (some (s2.clk_core k)) else some s2) = some t := by
      split
      · have hd2 : IsDepth s2.parent N dep := by rw [hs2.1]; exact hd
        obtain ⟨r, hr⟩ := clk_core_rate_protect_some fuel s2 (s2.clk_core k) hd2
          (by rw [hs2.2]; exact hf)
        exact ⟨_, hr⟩
      · exact ⟨_, rfl⟩
    obtain ⟨t, e3⟩ := h3
    rw [e3]
    exact ⟨_, rfl⟩

/-- Claim C37 on `phased1`: a request of -90 degrees is normalised to 270, the op answers 0 and
`core->phase` becomes 270. -/
theorem phase_normalisation_witness :
    clk_set_phase.degrees (-90) = 270 ∧
    (clk_set_phase Hw.quiet 3 phased1 (some 0) (-90)).map (fun x => (x.1, x.2.phase 0))
      = some (0, 270) ∧
    ∀ d : Int, 0 ≤ d → d ≤ 359 → (360 : Int) ∣ d - (-90) → d = clk_set_phase.degrees (-90) :=
  ⟨by decide, by decide, (phase_normalisation Hw.quiet 3 phased1 0 (-90)).1.2.2.2⟩

/-- The duty cycle that `clk_core_update_duty_cycle_nolock` leaves in `core->duty` is a valid
ratio. -/
theorem clk_core_update_duty_cycle_nolock_valid (hw : Hw) (fuel : Nat) (s s' : State)
    (core : Nat) (ret : Int)
    (h : clk_core_update_duty_cycle_nolock hw fuel s core = some (ret, s')) :
    s'.duty_den core ≠ 0 ∧ s'.duty_num core ≤ s'.duty_den core := by
  induction fuel generalizing s s' core ret with
  | zero => simp [clk_core_update_duty_cycle_nolock] at h
  | succ fuel ih =>
    unfold clk_core_update_duty_cycle_nolock at h
    split at h
    · split at h
      · rename_i p hp
        split at h
        · split at h
          · cases h
          · rename_i r1 s1 h1
            simp only [Option.some.injEq, Prod.mk.injEq] at h
            obtain ⟨-, rfl⟩ := h
            simp only [Function.update_same]
            exact ih s s1 p r1 h1
        · simp only [Option.some.injEq, Prod.mk.injEq] at h
          obtain ⟨-, rfl⟩ := h
          simp [clk_core_reset_duty_cycle_nolock]
      · simp only [Option.some.injEq, Prod.mk.injEq] at h
        obtain ⟨-, rfl⟩ := h
        simp [clk_core_reset_duty_cycle_nolock]
    · simp only at h
      split at h
      · simp only [Option.some.injEq, Prod.mk.injEq] at h
        obtain ⟨-, rfl⟩ := h
        simp [clk_core_reset_duty_cycle_nolock]
      · split at h
        · simp only [Option.some.injEq, Prod.mk.injEq] at h
          obtain ⟨-, rfl⟩ := h
          simp [clk_core_reset_duty_cycle_nolock]
        · rename_i hv
          simp only [Option.some.injEq, Prod.mk.injEq] at h
          obtain ⟨-, rfl⟩ := h
          simp only [Function.update_same, Bool.or_eq_true, beq_iff_eq, decide_eq_true_eq,
            not_or, not_lt] at hv ⊢
          exact hv

/-- With enough fuel for the parent chain `clk_core_update_duty_cycle_nolock` returns. -/
theorem clk_core_update_duty_cycle_nolock_total {N : Nat} {dep : Nat → Nat} (hw : Hw)
    (fuel : Nat) (s : State) (core : Nat) (hd : IsDepth s.parent N dep) (hf : dep core < fuel) :
    ∃ r, clk_core_update_duty_cycle_nolock hw fuel s core = some r := by
  induction fuel generalizing core with
  | zero => omega
  | succ fuel ih =>
    unfold clk_core_update_duty_cycle_nolock
    split
    · split
      · rename_i p hp
        split
        · obtain ⟨r, hr⟩ := ih p (by have := hd core p hp; omega)
          rw [hr]
          exact ⟨_, rfl⟩
        · exact ⟨_, rfl⟩
      · exact ⟨_, rfl⟩
    · simp only
      split
      · exact ⟨_, rfl⟩
      · split <;> exact ⟨_, rfl⟩

/-- Claim C38.  After `clk_core_update_duty_cycle_nolock(core)`, whatever the `get_duty_cycle`
ops along the parent chain answer, `core->duty` has `den != 0` and `num <= den`; it is 1/2 when
the node's own op fails or reports `den == 0` or `num > den`, and when the node has no op and
does not inherit (no parent, or `CLK_DUTY_CYCLE_PARENT` clear).  Hence `mult_frac` in
`clk_core_get_scaled_duty_cycle` never divides by zero, and with enough fuel for the parent chain
that function returns a value.  `clk_set_duty_cycle(clk, num, den)` returns `-EINVAL` and leaves
the state alone when `den == 0` or `num > den`. -/
theorem duty_cycle_valid (hw : Hw) (fuel : Nat) (s : State) (core : Nat) :
    (∀ ret s', clk_core_update_duty_cycle_nolock hw fuel s core = some (ret, s') →
      (s'.duty_den core ≠ 0 ∧ s'.duty_num core ≤ s'.duty_den core) ∧
      (((s.ops core).get_duty_cycle = true ∧
          ((hw.get_duty_cycle s core).1 ≠ 0 ∨ (hw.get_duty_cycle s core).2.2 % 2 ^ 32 = 0 ∨
            (hw.get_duty_cycle s core).2.1 % 2 ^ 32 > (hw.get_duty_cycle s core).2.2 % 2 ^ 32)) ∨
        ((s.ops core).get_duty_cycle = false ∧
          (s.parent core = none ∨ (s.flags core).CLK_DUTY_CYCLE_PARENT = false)) →
        s'.duty_num core = 1 ∧ s'.duty_den core = 2)) ∧
    (∀ scale r s', clk_core_get_scaled_duty_cycle hw fuel s core scale = some (r, s') →
      r.isSome = true) ∧
    (∀ k num den, den = 0 ∨ num > den →
      clk_set_duty_cycle hw fuel s (some k) num den = some (-EINVAL, s)) ∧
    (∀ N dep, IsDepth s.parent N dep → dep core < fuel →
      ∀ scale, ∃ r s', clk_core_get_scaled_duty_cycle hw fuel s core scale
        = some (some r, s')) := by
  have hscaled : ∀ scale r s', clk_core_get_scaled_duty_cycle hw fuel s core scale
      = some (r, s') → r.isSome = true := by
    intro scale r s' h
    unfold clk_core_get_scaled_duty_cycle at h
    split at h
    · cases h
    · rename_i r1 s1 h1
      have hv := (clk_core_update_duty_cycle_nolock_valid hw fuel s s1 core r1 h1).1
      split at h
      · simp only [Option.some.injEq, Prod.mk.injEq] at h
        obtain ⟨rfl, -⟩ := h
        simp [mult_frac, hv]
      · simp only [Option.some.injEq, Prod.mk.injEq] at h
        obtain ⟨rfl, -⟩ := h
        rfl
  refine ⟨?_, hscaled, ?_, ?_⟩
  · intro ret s' h
    refine ⟨clk_core_update_duty_cycle_nolock_valid hw fuel s s' core ret h, ?_⟩
    cases fuel with
    | zero => simp [clk_core_update_duty_cycle_nolock] at h
    | succ fuel =>
      unfold clk_core_update_duty_cycle_nolock at h
      rintro (⟨hop, hbad⟩ | ⟨hop, hno⟩)
      · simp only [hop, Bool.not_true, Bool.false_eq_true, if_false] at h
        by_cases hr : (hw.get_duty_cycle s core).1 = 0
        · have hbad2 : (hw.get_duty_cycle s core).2.2 % 2 ^ 32 = 0 ∨
              (hw.get_duty_cycle s core).2.1 % 2 ^ 32 > (hw.get_duty_cycle s core).2.2 % 2 ^ 32 := by
            rcases hbad with h1 | h1
            · exact absurd hr h1
            · exact h1
          have hcond : (decide ((hw.get_duty_cycle s core).2.2 % 2 ^ 32 = 0) ||
              decide ((hw.get_duty_cycle s core).2.1 % 2 ^ 32
                > (hw.get_duty_cycle s core).2.2 % 2 ^ 32)) = true := by
            simpa using hbad2
          simp only [hr, ne_eq, not_true_eq_false, if_false, Function.update_same, beq_iff_eq]
            at h
          simp only [Bool.or_eq_true, beq_iff_eq, decide_eq_true_eq] at hcond
          rw [if_pos (by simpa using hcond)] at h
          simp only [Option.some.injEq, Prod.mk.injEq] at h
          obtain ⟨-, rfl⟩ := h
          simp [clk_core_reset_duty_cycle_nolock]
        · simp only [hr, ne_eq, not_false_eq_true, if_true, Option.some.injEq,
            Prod.mk.injEq] at h
          obtain ⟨-, rfl⟩ := h
          simp [clk_core_reset_duty_cycle_nolock]
      · simp only [hop, Bool.not_false, if_true] at h
        rcases hno with hp | hfl
        · simp only [hp, Option.some.injEq, Prod.mk.injEq] at h
          obtain ⟨-, rfl⟩ := h
          simp [clk_core_reset_duty_cycle_nolock]
        · cases hp : s.parent core with
          | none =>
            simp only [hp, Option.some.injEq, Prod.mk.injEq] at h
            obtain ⟨-, rfl⟩ := h
            simp [clk_core_reset_duty_cycle_nolock]
          | some p =>
            simp only [hp, hfl, Bool.false_eq_true, if_false, Option.some.injEq,
              Prod.mk.injEq] at h
            obtain ⟨-, rfl⟩ := h
            simp [clk_core_reset_duty_cycle_nolock]
  · intro k num den hbad
    unfold clk_set_duty_cycle
    have : (decide (den = 0) || decide (num > den)) = true := by simpa using hbad
    simp only [this, if_true]
  · intro N dep hd hf scale
    obtain ⟨⟨r1, s1⟩, h1⟩ := clk_core_update_duty_cycle_nolock_total hw fuel s core hd hf
    have hv := (clk_core_update_duty_cycle_nolock_valid hw fuel s s1 core r1 h1).1
    unfold clk_core_get_scaled_duty_cycle
    rw [h1]
    simp only
    split
    · simp only [mult_frac, hv, if_false, Option.map_some']
      exact ⟨_, _, rfl⟩
    · exact ⟨_, _, rfl⟩

/-- Claim C38 on `cycled1` with the hardware `Hw.skewed`: the ratio 3/2 read from the hardware is
refused with `-EINVAL`, the stored ratio is 1/2, and `clk_set_duty_cycle` refuses 3/2 the same
way without touching the state. -/
theorem duty_cycle_valid_witness :
    (clk_core_update_duty_cycle_nolock Hw.skewed 3 cycled1 0).map
      (fun x => (x.1, x.2.duty_num 0, x.2.duty_den 0)) = some (-EINVAL, 1, 2) ∧
    (∀ ret s', clk_core_update_duty_cycle_nolock Hw.skewed 3 cycled1 0 = some (ret, s') →
      s'.duty_den 0 ≠ 0 ∧ s'.duty_num 0 ≤ s'.duty_den 0) ∧
    clk_set_duty_cycle Hw.skewed 3 cycled1 (some 0) 3 2 = some (-EINVAL, cycled1) :=
  ⟨by decide,
    fun ret s' h => ((duty_cycle_valid Hw.skewed 3 cycled1 0).1 ret s' h).1,
    (duty_cycle_valid Hw.skewed 3 cycled1 0).2.2.1 0 3 2 (Or.inr (by decide))⟩

theorem prepare_lock_run_spec (current : Nat) (calls : List lock_call) (d d' : Nat)
    (h : lock_depth d calls = some d') :
    prepare_lock_run current (lock_at true current d) calls
      = some (lock_at true current d') := by
  induction calls generalizing d with
  | nil =>
    simp only [lock_depth, Option.some.injEq] at h
    subst h
    rfl
  | cons a rest ih =>
    cases a with
    | acquire =>
      simp only [lock_depth] at h
      have hstep : clk_prepare_lock (lock_at true current d) current
          = some (lock_at true current (d + 1)) := by
        unfold clk_prepare_lock lock_at
        by_cases hd : d = 0
        · subst hd
          simp
        · simp [hd]
      simp only [prepare_lock_run, hstep]
      exact ih (d + 1) h
    | release =>
      cases d with
      | zero => simp [lock_depth] at h
      | succ d =>
        simp only [lock_depth] at h
        have hstep : clk_prepare_unlock (lock_at true current (d + 1))
            = lock_at true current d := by
          unfold clk_prepare_unlock lock_at
          by_cases hd : d = 0
          · subst hd
            simp
          · have : ((d : Int) + 1 - 1 ≠ 0) := by omega
            simp [hd, this]
        simp only [prepare_lock_run, hstep]
        exact ih d h

theorem enable_lock_run_spec (smp : Bool) (current : Nat) (calls : List lock_call) (d d' : Nat)
    (h : lock_depth d calls = some d') :
    enable_lock_run smp current (lock_at smp current d) calls
      = some (lock_at smp current d') := by
  induction calls generalizing d with
  | nil =>
    simp only [lock_depth, Option.some.injEq] at h
    subst h
    rfl
  | cons a rest ih =>
    cases a with
    | acquire =>
      simp only [lock_depth] at h
      have hstep : clk_enable_lock smp (lock_at smp current d) current
          = some (lock_at smp current (d + 1)) := by
        unfold clk_enable_lock lock_at
        by_cases hd : d = 0
        · subst hd
          cases smp <;> simp
        · cases smp <;> simp [hd]
      simp only [enable_lock_run, hstep]
      exact ih (d + 1) h
    | release =>
      cases d with
      | zero => simp [lock_depth] at h
      | succ d =>
        simp only [lock_depth] at h
        have hstep : clk_enable_unlock (lock_at smp current (d + 1))
            = lock_at smp current d := by
          unfold clk_enable_unlock lock_at
          by_cases hd : d = 0
          · subst hd
            simp
          · have : ((d : Int) + 1 - 1 ≠ 0) := by omega
            simp [hd, this]
        simp only [enable_lock_run, hstep]
        exact ih d h

theorem lock_at_owner (hard : Bool) (current d : Nat) :
    ((lock_at hard current d).owner = none ↔ (lock_at hard current d).refcnt = 0) ∧
      (lock_at hard current d).refcnt = d := by
  unfold lock_at
  by_cases hd : d = 0
  · subst hd
    simp
  · simp [hd]

theorem lock_depth_count (calls : List lock_call) (d d' : Nat)
    (h : lock_depth d calls = some d') :
    d + calls.count lock_call.acquire = calls.count lock_call.release + d' := by
  induction calls generalizing d with
  | nil =>
    simp only [lock_depth, Option.some.injEq] at h
    subst h
    simp
  | cons a rest ih =>
    cases a with
    | acquire =>
      simp only [lock_depth] at h
      have := ih (d + 1) h
      simp only [List.count_cons, beq_self_eq_true, if_true, (by decide : (lock_call.acquire == lock_call.release) = false), Bool.false_eq_true, if_false] at this ⊢
      omega
    | release =>
      cases d with
      | zero => simp [lock_depth] at h
      | succ d =>
        simp only [lock_depth] at h
        have := ih d h
        simp only [List.count_cons, beq_self_eq_true, if_true, (by decide : (lock_call.release == lock_call.acquire) = false), Bool.false_eq_true, if_false] at this ⊢
        omega

/-- Claim C36.  For `clk_prepare_lock` / `clk_prepare_unlock` and for `clk_enable_lock` /
`clk_enable_unlock` with a single actor: the first acquisition from the free state sets `owner`
to the actor and `refcnt` to 1; a nested acquisition by the owner raises `refcnt` by one and
keeps `owner`; a release lowers `refcnt` by one and resets `owner` exactly when `refcnt` reaches
0.  The reachable states are those after a sequence of calls in which every release matches an
earlier acquisition (`lock_depth` is defined): the four functions are static, and every function
of the file that releases a lock has acquired it before.  In every such state `refcnt` is the
number of acquisitions minus the number of releases, `owner` is the actor when that number is
positive, the lock is free when it is 0 (so after `k` acquisitions and `k` releases), and
`owner = none` iff `refcnt = 0`. -/
theorem reentrant_lock (smp : Bool) (current : Nat) :
    (clk_prepare_lock {} current = some { locked := true, owner := some current, refcnt := 1 } ∧
      clk_enable_lock smp {} current
        = some { locked := smp, owner := some current, refcnt := 1 }) ∧
    (∀ l : clk_lock, l.owner = some current →
      (l.locked = true →
        clk_prepare_lock l current = some { l with refcnt := l.refcnt + 1 }) ∧
      ((smp = true → l.locked = true) →
        clk_enable_lock smp l current = some { l with refcnt := l.refcnt + 1 })) ∧
    (∀ l : clk_lock,
      (clk_prepare_unlock l).refcnt = l.refcnt - 1 ∧
      (clk_prepare_unlock l).owner = (if l.refcnt - 1 = 0 then none else l.owner) ∧
      (clk_enable_unlock l).refcnt = l.refcnt - 1 ∧
      (clk_enable_unlock l).owner = (if l.refcnt - 1 = 0 then none else l.owner)) ∧
    (∀ calls d, lock_depth 0 calls = some d →
      calls.count lock_call.acquire = calls.count lock_call.release + d ∧
      ∃ lp le, prepare_lock_run current {} calls = some lp ∧
        enable_lock_run smp current {} calls = some le ∧
        lp.refcnt = d ∧ le.refcnt = d ∧
        (lp.owner = none ↔ lp.refcnt = 0) ∧ (le.owner = none ↔ le.refcnt = 0) ∧
        (d = 0 → lp = {} ∧ le = {}) ∧
        (d ≠ 0 → lp.owner = some current ∧ le.owner = some current)) := by
  refine ⟨⟨rfl, ?_⟩, ?_, ?_, ?_⟩
  · cases smp <;> rfl
  · intro l ho
    constructor
    · intro hl
      simp [clk_prepare_lock, hl, ho]
    · intro hl
      cases smp with
      | false => simp [clk_enable_lock, ho]
      | true => simp [clk_enable_lock, hl rfl, ho]
  · intro l
    unfold clk_prepare_unlock clk_enable_unlock
    by_cases h : l.refcnt - 1 = 0
    · simp [h]
    · simp [h]
  · intro calls d h
    have hc := lock_depth_count calls 0 d h
    have hp := prepare_lock_run_spec current calls 0 d h
    have he := enable_lock_run_spec smp current calls 0 d h
    have e0 : ∀ hard, lock_at hard current 0 = {} := fun _ => rfl
    rw [e0] at hp he
    refine ⟨by omega, _, _, hp, he, (lock_at_owner _ _ _).2, (lock_at_owner _ _ _).2,
      (lock_at_owner _ _ _).1, (lock_at_owner _ _ _).1, ?_, ?_⟩
    · rintro rfl
      exact ⟨rfl, rfl⟩
    · intro hd
      unfold lock_at
      simp [hd]

/-- A run of `reentrant_lock`: two nested acquisitions and two releases of task 7 leave both
locks free. -/
theorem reentrant_lock_witness :
    prepare_lock_run 7 {} [.acquire, .acquire, .release, .release] = some {} ∧
    enable_lock_run true 7 {} [.acquire, .acquire, .release, .release] = some {} := by
  obtain ⟨-, lp, le, h1, h2, -, -, -, -, h3, -⟩ :=
    (reentrant_lock true 7).2.2.2 [.acquire, .acquire, .release, .release] 0 rfl
  obtain ⟨e1, e2⟩ := h3 rfl
  rw [h1, h2, e1, e2]
  exact ⟨rfl, rfl⟩

/-- What `clk_set_rate_range` does to the windows of the handles: nothing when it fails, and the
window of its handle is `[min, max]` with `min ≤ max` when it returns 0. -/
theorem clk_set_rate_range_window (hw : Hw) (fuel : Nat) (s s' : State) (k min max : Nat)
    (ret : Int) (h : clk_set_rate_range hw fuel s (some k) min max = some (ret, s')) :
    (ret ≠ 0 → s'.clk_min_rate = s.clk_min_rate ∧ s'.clk_max_rate = s.clk_max_rate) ∧
    (ret = 0 → min ≤ max ∧ s'.clk_min_rate = Function.update s.clk_min_rate k min ∧
      s'.clk_max_rate = Function.update s.clk_max_rate k max) := by
  unfold clk_set_rate_range at h
  simp only at h
  split at h
  · simp only [Option.some.injEq, Prod.mk.injEq] at h
    obtain ⟨rfl, rfl⟩ := h
    exact ⟨fun _ => ⟨rfl, rfl⟩, fun h0 => absurd h0 (by decide)⟩
  · rename_i hmm
    have hle : min ≤ max := by omega
    generalize hs1 : (if s.exclusive_count k ≠ 0 then
      clk_core_rate_unprotect fuel s (some (s.clk_core k)) else some s) = s1? at h
    cases s1? with
    | none => cases h
    | some s1 =>
      have hfr : ∃ pc, s1 = { s with protect_count := pc } := by
        split at hs1
        · exact clk_core_rate_unprotect_frame _ _ _ _ hs1
        · cases hs1
          exact ⟨_, rfl⟩
      obtain ⟨pc, rfl⟩ := hfr
      simp only at h
      have hprot : ∀ (q t : State), (if q.exclusive_count k ≠ 0 then
            clk_core_rate_protect fuel q (some (q.clk_core k)) else some q) = some t →
          t.clk_min_rate = q.clk_min_rate ∧ t.clk_max_rate = q.clk_max_rate := by
        intro q t ht
        split at ht
        · obtain ⟨pc2, e⟩ := clk_core_rate_protect_frame _ _ _ _ ht
          rw [e]
          exact ⟨rfl, rfl⟩
        · cases ht
          exact ⟨rfl, rfl⟩
      split at h
      · cases h
      · rename_i r4 s4 h4
        split at h
        · cases h
        · rename_i s5 h5
          simp only [Option.some.injEq, Prod.mk.injEq] at h
          obtain ⟨rfl, rfl⟩ := h
          obtain ⟨e1, e2⟩ := hprot s4 s5 h5
          rw [e1, e2]
          split at h4
          · split at h4
            · cases h4
            · rename_i r3 s3 h3
              have hst := clk_core_set_rate_nolock_static hw fuel _ _ _ _ _ h3
              split at h4
              · rename_i hr3
                simp only [Option.some.injEq, Prod.mk.injEq] at h4
                obtain ⟨rfl, rfl⟩ := h4
                refine ⟨fun _ => ?_, fun h0 => absurd h0 hr3⟩
                simp only [hst.clk_min_rate, hst.clk_max_rate, Function.update_idem,
                  Function.update_eq_self, and_self]
              · rename_i hr3
                simp only [Option.some.injEq, Prod.mk.injEq] at h4
                obtain ⟨rfl, rfl⟩ := h4
                refine ⟨fun h0 => absurd h0 hr3, fun _ => ⟨hle, ?_, ?_⟩⟩
                · rw [hst.clk_min_rate]
                · rw [hst.clk_max_rate]
          · simp only [Option.some.injEq, Prod.mk.injEq] at h4
            obtain ⟨rfl, rfl⟩ := h4
            exact ⟨fun h0 => absurd rfl h0, fun _ => ⟨hle, rfl, rfl⟩⟩

/-- Each of the three calls keeps `min_rate ≤ max_rate` on every handle. -/
theorem range_step_window (hw : Hw) (fuel : Nat) (s s' : State) (call : range_call) (ret : Int)
    (hinv : ∀ k, s.clk_min_rate k ≤ s.clk_max_rate k)
    (h : range_step hw fuel s call = some (ret, s')) :
    ∀ k, s'.clk_min_rate k ≤ s'.clk_max_rate k := by
  have key : ∀ k min max, clk_set_rate_range hw fuel s (some k) min max = some (ret, s') →
      ∀ x, s'.clk_min_rate x ≤ s'.clk_max_rate x := by
    intro k min max h1 x
    obtain ⟨hne, h0⟩ := clk_set_rate_range_window hw fuel s s' k min max ret h1
    by_cases hr : ret = 0
    · obtain ⟨hle, e1, e2⟩ := h0 hr
      rw [e1, e2]
      by_cases hx : x = k
      · subst hx
        simpa using hle
      · simpa [Function.update_noteq hx] using hinv x
    · obtain ⟨e1, e2⟩ := hne hr
      rw [e1, e2]
      exact hinv x
  cases call with
  | set_rate_range k min max => exact key k min max h
  | set_min_rate k rate => exact key k rate _ h
  | set_max_rate k rate => exact key k _ rate h

theorem range_run_window (hw : Hw) (fuel : Nat) (calls : List range_call) (s s' : State)
    (hinv : ∀ k, s.clk_min_rate k ≤ s.clk_max_rate k)
    (h : range_run hw fuel s calls = some s') :
    ∀ k, s'.clk_min_rate k ≤ s'.clk_max_rate k := by
  induction calls generalizing s with
  | nil =>
    simp only [range_run, Option.some.injEq] at h
    subst h
    exact hinv
  | cons call rest ih =>
    unfold range_run at h
    split at h
    · cases h
    · rename_i ret s1 h1
      exact ih s1 (range_step_window hw fuel s s1 call ret hinv h1) h

/-- Claim C35.  Whenever `clk_set_rate_range(clk, min, max)` returns non-zero, the window of
every handle, the one of `clk` included, is what it was before the call.  `alloc_clk` starts a
handle with the window `[0, ULONG_MAX]`, and after any sequence of calls to `clk_set_rate_range`,
`clk_set_min_rate` and `clk_set_max_rate`, from a state where every handle has
`min_rate ≤ max_rate`, every handle has `min_rate ≤ max_rate`. -/
theorem set_rate_range_atomic (hw : Hw) (fuel : Nat) (s : State) :
    (∀ k min max ret s', clk_set_rate_range hw fuel s (some k) min max = some (ret, s') →
      ret ≠ 0 → s'.clk_min_rate = s.clk_min_rate ∧ s'.clk_max_rate = s.clk_max_rate) ∧
    (∀ core k, (alloc_clk s core k).clk_min_rate k = 0 ∧
      (alloc_clk s core k).clk_max_rate k = ULONG_MAX ∧
      ((∀ x, s.clk_min_rate x ≤ s.clk_max_rate x) →
        ∀ x, (alloc_clk s core k).clk_min_rate x ≤ (alloc_clk s core k).clk_max_rate x)) ∧
    (∀ calls s', (∀ k, s.clk_min_rate k ≤ s.clk_max_rate k) →
      range_run hw fuel s calls = some s' → ∀ k, s'.clk_min_rate k ≤ s'.clk_max_rate k) := by
  refine ⟨?_, ?_, ?_⟩
  · intro k min max ret s' h hret
    exact (clk_set_rate_range_window hw fuel s s' k min max ret h).1 hret
  · intro core k
    refine ⟨by simp [alloc_clk], by simp [alloc_clk], ?_⟩
    intro hinv x
    unfold alloc_clk
    by_cases hx : x = k
    · subst hx
      simp
    · simpa [Function.update_noteq hx] using hinv x
  · intro calls s' hinv h
    exact range_run_window hw fuel calls s s' hinv h

/-- A run of `set_rate_range_atomic` on `tunable1`: the window `[200, 300]` is set, a minimum of
400 is refused, the maximum 250 is accepted, and the window is `[200, 250]`. -/
theorem set_rate_range_atomic_witness :
    (range_run Hw.tracking 5 tunable1
      [.set_rate_range 0 200 300, .set_min_rate 0 400, .set_max_rate 0 250]).map
        (fun s' => (s'.clk_min_rate 0, s'.clk_max_rate 0)) = some (200, 250) ∧
    ∀ k, ((range_run Hw.tracking 5 tunable1
      [.set_rate_range 0 200 300, .set_min_rate 0 400, .set_max_rate 0 250]).getD
        tunable1).clk_min_rate k ≤
      ((range_run Hw.tracking 5 tunable1
        [.set_rate_range 0 200 300, .set_min_rate 0 400, .set_max_rate 0 250]).getD
          tunable1).clk_max_rate k :=
  ⟨rfl, (set_rate_range_atomic Hw.tracking 5 tunable1).2.2
    [.set_rate_range 0 200 300, .set_min_rate 0 400, .set_max_rate 0 250] _
    (fun _ => Nat.zero_le _) rfl⟩

/-- Claim C39 (amended).  After a `clk_set_rate_range(clk, min, max)` that returns 0 the window
of the handle is `[min, max]`.  If the rate that `clk_core_get_rate_nolock` reports lay within
`[min, max]` before the call, no rate and no parent is touched and it still does.  If it did
not, `clk_core_set_rate_nolock(core, b)` ran with the nearest boundary `b` and returned 0: when
`b` rounded to the rate the node runs at, no rate and no parent was changed, so that the rate
still lies outside `[min, max]`; otherwise a change was committed, and what is known to lie
within the effective window is the rate planned by a node that can round. -/
theorem set_rate_range_rate (hw : Hw) (fuel : Nat) (s s' : State) (k min max : Nat)
    (h : clk_set_rate_range hw fuel s (some k) min max = some (0, s')) :
    min ≤ max ∧ s'.clk_min_rate k = min ∧ s'.clk_max_rate k = max ∧
    ((min ≤ clk_core_get_rate_nolock s (some (s.clk_core k)) ∧
        clk_core_get_rate_nolock s (some (s.clk_core k)) ≤ max) →
      s'.rate = s.rate ∧ s'.parent = s.parent ∧
      min ≤ clk_core_get_rate_nolock s' (some (s.clk_core k)) ∧
      clk_core_get_rate_nolock s' (some (s.clk_core k)) ≤ max) ∧
    (¬ (min ≤ clk_core_get_rate_nolock s (some (s.clk_core k)) ∧
        clk_core_get_rate_nolock s (some (s.clk_core k)) ≤ max) →
      ∃ pc rate s3,
        clk_core_req_round_rate_nolock hw fuel { s with protect_count := pc, clk_min_rate := Function.update s.clk_min_rate k min, clk_max_rate := Function.update s.clk_max_rate k max } (some (s.clk_core k)) (if clk_core_get_rate_nolock s (some (s.clk_core k)) < min then min else max) = some (rate, s3) ∧
        ((rate = clk_core_get_rate_nolock s (some (s.clk_core k)) ∧
            s'.rate = s.rate ∧ s'.parent = s.parent ∧
            ¬ (min ≤ clk_core_get_rate_nolock s' (some (s.clk_core k)) ∧
              clk_core_get_rate_nolock s' (some (s.clk_core k)) ≤ max)) ∨
          (rate ≠ clk_core_get_rate_nolock s (some (s.clk_core k)) ∧
            (clk_core_can_round s (s.clk_core k) = true →
              (clk_core_get_boundaries { s with clk_min_rate := Function.update s.clk_min_rate k min, clk_max_rate := Function.update s.clk_max_rate k max } (s.clk_core k)).1
                ≤ planned_rate hw s3 (s.clk_core k) (if clk_core_get_rate_nolock s (some (s.clk_core k)) < min then min else max) ∧
              planned_rate hw s3 (s.clk_core k) (if clk_core_get_rate_nolock s (some (s.clk_core k)) < min then min else max)
                ≤ (clk_core_get_boundaries { s with clk_min_rate := Function.update s.clk_min_rate k min, clk_max_rate := Function.update s.clk_max_rate k max } (s.clk_core k)).2)))) := by
  obtain ⟨hle, e1, e2⟩ := (clk_set_rate_range_window hw fuel s s' k min max 0 h).2 rfl
  refine ⟨hle, by rw [e1]; simp, by rw [e2]; simp, ?_, ?_⟩
  all_goals
    unfold clk_set_rate_range at h
    simp only at h
    rw [if_neg (by omega)] at h
    generalize hs1 : (if s.exclusive_count k ≠ 0 then
      clk_core_rate_unprotect fuel s (some (s.clk_core k)) else some s) = s1? at h
    cases s1? with
    | none => cases h
    | some s1 =>
      have hfr : ∃ pc, s1 = { s with protect_count := pc } := by
        split at hs1
        · exact clk_core_rate_unprotect_frame _ _ _ _ hs1
        · cases hs1
          exact ⟨_, rfl⟩
      obtain ⟨pc, rfl⟩ := hfr
      simp only at h
      have hprot : ∀ (q t : State), (if q.exclusive_count k ≠ 0 then
            clk_core_rate_protect fuel q (some (q.clk_core k)) else some q) = some t →
          ∃ pc2, t = { q with protect_count := pc2 } := by
        intro q t ht
        split at ht
        · exact clk_core_rate_protect_frame _ _ _ _ ht
        · cases ht
          exact ⟨_, rfl⟩
      have hget : clk_core_get_rate_nolock { s with protect_count := pc, clk_min_rate := Function.update s.clk_min_rate k min, clk_max_rate := Function.update s.clk_max_rate k max } (some (s.clk_core k)) = clk_core_get_rate_nolock s (some (s.clk_core k)) := rfl
      simp only [hget] at h
      intro hin
      split at h
      · cases h
      · rename_i r4 s4 h4
        split at h
        · cases h
        · rename_i s5 h5
          simp only [Option.some.injEq, Prod.mk.injEq] at h
          obtain ⟨rfl, rfl⟩ := h
          obtain ⟨pc5, rfl⟩ := hprot s4 s5 h5
          first
          | (have hno : ¬ ((decide (clk_core_get_rate_nolock s (some (s.clk_core k)) < min) ||
                decide (clk_core_get_rate_nolock s (some (s.clk_core k)) > max)) = true) := by
              simp only [Bool.or_eq_true, decide_eq_true_eq, not_or, not_lt]
              omega
             rw [if_neg hno] at h4
             simp only [Option.some.injEq, Prod.mk.injEq] at h4
             obtain ⟨-, rfl⟩ := h4
             exact ⟨rfl, rfl, hin.1, hin.2⟩)
          | (have hyes : (decide (clk_core_get_rate_nolock s (some (s.clk_core k)) < min) ||
                decide (clk_core_get_rate_nolock s (some (s.clk_core k)) > max)) = true := by
              simp only [Bool.or_eq_true, decide_eq_true_eq]
              omega
             rw [if_pos hyes] at h4
             split at h4
             · cases h4
             · rename_i r3 s3 h3
               have hr3 : r3 = 0 := by
                 split at h4
                 · simp only [Option.some.injEq, Prod.mk.injEq] at h4
                   rename_i hne
                   exact absurd h4.1 hne
                 · rename_i hne
                   exact not_not.mp hne
               subst hr3
               simp only [ne_eq, not_true_eq_false, if_false, Option.some.injEq,
                 Prod.mk.injEq, true_and] at h4
               subst h4
               obtain ⟨rate, s1, g1, g2⟩ := clk_core_set_rate_nolock_req_rate hw fuel _ _ _ _ h3
               refine ⟨pc, rate, s1, g1, ?_⟩
               rcases g2 with ⟨ga, gb⟩ | ⟨ga, -, gc⟩
               · left
                 obtain ⟨pc1, rfl⟩ := clk_core_req_round_rate_nolock_frame _ _ _ _ _ _ _ g1
                 subst gb
                 exact ⟨ga, rfl, rfl, hin⟩
               · right
                 exact ⟨ga, gc⟩)

/-- A run of `set_rate_range_rate`: the window `[200, 300]` on `tunable1`, running at 100,
moves the rate to 200. -/
theorem set_rate_range_rate_witness :
    ((clk_set_rate_range Hw.tracking 5 tunable1 (some 0) 200 300).getD
      (0, tunable1)).2.clk_min_rate 0 = 200 ∧
    (clk_set_rate_range Hw.tracking 5 tunable1 (some 0) 200 300).map
      (fun r => (r.1, clk_core_get_rate_nolock r.2 (some 0))) = some (0, 200) :=
  ⟨(set_rate_range_rate Hw.tracking 5 tunable1 _ 0 200 300 rfl).2.1, rfl⟩

/-- Claim C39 as stated fails: `fixed1` is a fixed-rate root running at 100; the boundary 200
rounds to the rate it runs at, `clk_core_set_rate_nolock` finds nothing to do and returns 0, and
`clk_set_rate_range(clk, 200, 300)` returns 0 with the window set and the rate still 100. -/
theorem set_rate_range_rate_counterexample :
    (clk_set_rate_range Hw.quiet 5 fixed1 (some 0) 200 300).map
      (fun r => (r.1, clk_core_get_rate_nolock r.2 (some 0), r.2.clk_min_rate 0,
        r.2.clk_max_rate 0)) = some (0, 100, 200, 300) := by
  decide

/-- What a release walk without critical nodes does to the counters: each counter is lowered by
at most one, the start is lowered when it is positive, a parent is lowered exactly when its child
on the walk was lowered to 0 (and the parent is positive). -/
theorem ref_put_chain {par : Nat → Option Nat} {N : Nat} {dep : Nat → Nat}
    (hd : IsDepth par N dep) (fuel : Nat) (c c' : Nat → Nat) (m : Nat)
    (h : ref_put par (fun _ => false) fuel c (some m) = some c') :
    (∀ x, c' x ≤ c x ∧ c x ≤ c' x + 1) ∧
    (c' m = c m - 1) ∧
    (∀ p, c' p < c p → p = m ∨ ∃ n, par n = some p ∧ c' n < c n ∧ c' n = 0) ∧
    (∀ n p, par n = some p → c' n < c n → c' n = 0 → 0 < c p → c' p = c p - 1) := by
  induction fuel generalizing c c' m with
  | zero => simp [ref_put] at h
  | succ fuel ih =>
    unfold ref_put at h
    by_cases h0 : c m = 0
    · simp only [h0, if_true, Option.some.injEq] at h
      subst h
      refine ⟨fun x => ⟨le_refl _, by omega⟩, by omega, fun p hp => by omega,
        fun n p _ hn => by omega⟩
    · simp only [h0, if_false, Bool.and_false, Bool.false_eq_true] at h
      by_cases h1 : c m - 1 > 0
      · simp only [h1, if_true, Option.some.injEq] at h
        subst h
        refine ⟨?_, by simp, ?_, ?_⟩
        · intro x
          by_cases hx : x = m
          · subst hx
            simp
            omega
          · simp [Function.update_noteq hx]
        · intro p hp
          by_cases hx : p = m
          · exact Or.inl hx
          · simp [Function.update_noteq hx] at hp
        · intro n p _ hn hn0
          by_cases hx : n = m
          · subst hx
            simp at hn0
            omega
          · simp [Function.update_noteq hx] at hn
      · simp only [h1, if_false] at h
        have hm1 : c m = 1 := by omega
        cases hp : par m with
        | none =>
          rw [hp] at h
          have : ref_put par (fun _ => false) fuel (Function.update c m (c m - 1)) none
              = some (Function.update c m (c m - 1)) := by
            cases fuel <;> rfl
          rw [this] at h
          simp only [Option.some.injEq] at h
          subst h
          refine ⟨?_, by simp, ?_, ?_⟩
          · intro x
            by_cases hx : x = m
            · subst hx
              simp
              omega
            · simp [Function.update_noteq hx]
          · intro p hp2
            by_cases hx : p = m
            · exact Or.inl hx
            · simp [Function.update_noteq hx] at hp2
          · intro n p hnp hn hn0
            by_cases hx : n = m
            · subst hx
              rw [hp] at hnp
              cases hnp
            · simp [Function.update_noteq hx] at hn
        | some q =>
          rw [hp] at h
          obtain ⟨i1, i2, i3, i4⟩ := ih _ _ q h
          have hdm := hd m q hp
          have hfr := ref_put_frame hd (fun _ => false) fuel _ _ q h
          have hmq : m ≠ q := by rintro rfl; omega
          have hcm : c' m = 0 := by
            rw [hfr m hdm.2.1]
            simp
            omega
          have hlow : ∀ x, c' x < Function.update c m (c m - 1) x → dep x ≤ dep q := by
            intro x hx
            by_contra hcon
            have := hfr x (by omega)
            omega
          refine ⟨?_, by omega, ?_, ?_⟩
          · intro x
            by_cases hx : x = m
            · subst hx
              omega
            · have := i1 x
              simpa [Function.update_noteq hx] using this
          · intro p hp2
            by_cases hx : p = m
            · exact Or.inl hx
            · right
              have hp3 : c' p < Function.update c m (c m - 1) p := by
                simpa [Function.update_noteq hx] using hp2
              rcases i3 p hp3 with rfl | ⟨n, hn1, hn2, hn3⟩
              · exact ⟨m, hp, by omega, hcm⟩
              · have hnm : n ≠ m := by
                  rintro rfl
                  have := hlow n hn2
                  omega
                exact ⟨n, hn1, by simpa [Function.update_noteq hnm] using hn2, hn3⟩
          · intro n p hnp hn hn0 hpos
            by_cases hx : n = m
            · subst hx
              rw [hp] at hnp
              cases hnp
              have := i2
              simp only [Function.update_noteq (Ne.symm hmq)] at this
              exact this
            · have hn2 : c' n < Function.update c m (c m - 1) n := by
                simpa [Function.update_noteq hx] using hn
              have hdn := hd n p hnp
              have hpm : p ≠ m := by
                rintro rfl
                have := hlow n hn2
                omega
              have := i4 n p hnp hn2 hn0 (by simpa [Function.update_noteq hpm] using hpos)
              simpa [Function.update_noteq hpm] using this

/-- A release walk stops at its start when the counter stays positive. -/
theorem ref_put_stop (par : Nat → Option Nat) (fuel : Nat) (c c' : Nat → Nat) (m : Nat)
    (hpos : 1 < c m) (h : ref_put par (fun _ => false) fuel c (some m) = some c') :
    c' = Function.update c m (c m - 1) := by
  cases fuel with
  | zero => simp [ref_put] at h
  | succ fuel =>
    unfold ref_put at h
    have h0 : c m ≠ 0 := by omega
    have h1 : c m - 1 > 0 := by omega
    simp only [h0, h1, if_true, if_false, Bool.and_false, Bool.false_eq_true,
      Option.some.injEq] at h
    exact h.symm

/-- Claim C40 (amended).  For a handle with `exclusive_count = k > 0` on a node whose
`protect_count` is at least `k`, `__clk_put` sets the handle's `exclusive_count` to 0 and
releases the protection by the walk of `clk_core_rate_unprotect` from the node after `k - 1`
references were taken off: that walk gives the counts `pc`, in which the node's `protect_count`
is lowered by exactly `k`; every other count is lowered by at most one, and never below 0; a
node other than the released one is lowered only when a child of it was lowered to 0, and the
parent of a node that was lowered to 0 is lowered by one when it is positive.  When the
handle's window contains `req_rate` nothing else follows and `pc` are the protect counts that
`__clk_put` returns.  Otherwise `clk_core_set_rate_nolock(core, req_rate)` runs on the counts
`pc`, and the protect counts returned are those it leaves: they are `pc` again when no node
carries `CLK_SET_RATE_GATE` and the node is left unprotected or the counts (before the call,
or `pc`) respect ancestry. -/
theorem put_exclusive_handle {N : Nat} {dep : Nat → Nat} (hw : Hw) (fuel : Nat) (s s' : State)
    (k : Nat) (hd : IsDepth s.parent N dep) (hex : 0 < s.exclusive_count k)
    (hpc : s.exclusive_count k ≤ s.protect_count (s.clk_core k))
    (h32 : s.protect_count (s.clk_core k) < 2 ^ 32)
    (h : __clk_put hw fuel s (some k) = some s') :
    s'.exclusive_count k = 0 ∧
    ∃ pc, ref_put s.parent (fun _ => false) fuel
        (Function.update s.protect_count (s.clk_core k)
          (s.protect_count (s.clk_core k) - (s.exclusive_count k - 1)))
        (some (s.clk_core k)) = some pc ∧
      pc (s.clk_core k) = s.protect_count (s.clk_core k) - s.exclusive_count k ∧
      (∀ x, x ≠ s.clk_core k → pc x ≤ s.protect_count x ∧ s.protect_count x ≤ pc x + 1) ∧
      (∀ p, p ≠ s.clk_core k → pc p < s.protect_count p →
        ∃ n, s.parent n = some p ∧ pc n < s.protect_count n ∧ pc n = 0) ∧
      (∀ n p, s.parent n = some p → pc n < s.protect_count n → pc n = 0 →
        0 < s.protect_count p → pc p = s.protect_count p - 1) ∧
      (((s.clk_min_rate k ≤ s.req_rate (s.clk_core k) ∧
          s.req_rate (s.clk_core k) ≤ s.clk_max_rate k) ∨
        (GateFree s ∧ (Ancestry s.parent s.protect_count ∨ pc (s.clk_core k) = 0 ∨
          Ancestry s.parent pc))) →
        s'.protect_count = pc) ∧
      (¬ (s.clk_min_rate k ≤ s.req_rate (s.clk_core k) ∧
          s.req_rate (s.clk_core k) ≤ s.clk_max_rate k) →
        ∃ ret s4, clk_core_set_rate_nolock hw fuel { s with protect_count := pc, exclusive_count := Function.update s.exclusive_count k 0, clks := Function.update s.clks (s.clk_core k) ((s.clks (s.clk_core k)).erase k) } (some (s.clk_core k)) (s.req_rate (s.clk_core k)) = some (ret, s4) ∧
          s'.protect_count = s4.protect_count) := by
  have hcount : (s.protect_count (s.clk_core k) + 2 ^ 32
      - (s.exclusive_count k - 1) % 2 ^ 32) % 2 ^ 32
      = s.protect_count (s.clk_core k) - (s.exclusive_count k - 1) := by
    have h1 : (s.exclusive_count k - 1) % 2 ^ 32 = s.exclusive_count k - 1 :=
      Nat.mod_eq_of_lt (by omega)
    rw [h1]
    have h2 : s.protect_count (s.clk_core k) + 2 ^ 32 - (s.exclusive_count k - 1)
        = (s.protect_count (s.clk_core k) - (s.exclusive_count k - 1)) + 2 ^ 32 := by omega
    rw [h2, Nat.add_mod_right]
    exact Nat.mod_eq_of_lt (by omega)
  unfold __clk_put at h
  simp only at h
  rw [if_pos (by omega), hcount] at h
  rw [clk_core_rate_unprotect_eq] at h
  simp only at h
  generalize hc0 : Function.update s.protect_count (s.clk_core k)
    (s.protect_count (s.clk_core k) - (s.exclusive_count k - 1)) = c0 at h
  cases hput : ref_put s.parent (fun _ => false) fuel c0 (some (s.clk_core k)) with
  | none => simp [hput] at h
  | some pc =>
    simp only [hput, Option.map_some'] at h
    obtain ⟨i1, i2, i3, i4⟩ := ref_put_chain hd fuel c0 pc _ hput
    have hfr := ref_put_frame hd (fun _ => false) fuel _ _ _ hput
    have hc0m : c0 (s.clk_core k)
        = s.protect_count (s.clk_core k) - (s.exclusive_count k - 1) := by
      rw [← hc0]; simp
    have hc0x : ∀ x, x ≠ s.clk_core k → c0 x = s.protect_count x := by
      intro x hx
      rw [← hc0]
      simp [Function.update_noteq hx]
    have hpcm : pc (s.clk_core k) = s.protect_count (s.clk_core k) - s.exclusive_count k := by
      rw [i2, hc0m]; omega
    have hlow : ∀ x, pc x < c0 x → dep x ≤ dep (s.clk_core k) := by
      intro x hx
      by_contra hcon
      have := hfr x (by omega)
      omega
    have hlt : ∀ n, pc n < s.protect_count n → pc n < c0 n := by
      intro n hn
      by_cases hx : n = s.clk_core k
      · subst hx
        rw [hc0m, hpcm]
        omega
      · rw [hc0x n hx]; exact hn
    have hfinal : ((((s.clk_min_rate k ≤ s.req_rate (s.clk_core k) ∧
          s.req_rate (s.clk_core k) ≤ s.clk_max_rate k) ∨
        (GateFree s ∧ (Ancestry s.parent s.protect_count ∨ pc (s.clk_core k) = 0 ∨
          Ancestry s.parent pc))) →
        s'.protect_count = pc) ∧
      (¬ (s.clk_min_rate k ≤ s.req_rate (s.clk_core k) ∧
          s.req_rate (s.clk_core k) ≤ s.clk_max_rate k) →
        ∃ ret s4, clk_core_set_rate_nolock hw fuel { s with protect_count := pc, exclusive_count := Function.update s.exclusive_count k 0, clks := Function.update s.clks (s.clk_core k) ((s.clks (s.clk_core k)).erase k) } (some (s.clk_core k)) (s.req_rate (s.clk_core k)) = some (ret, s4) ∧
          s'.protect_count = s4.protect_count)) ∧
        s'.exclusive_count k = 0 := by
      split at h
      · cases h
      · rename_i s4 h4
        simp only [Option.some.injEq] at h
        subst h
        by_cases hwin : (decide (s.clk_min_rate k > s.req_rate (s.clk_core k)) ||
            decide (s.clk_max_rate k < s.req_rate (s.clk_core k))) = true
        · rw [if_pos hwin] at h4
          split at h4
          · cases h4
          · rename_i r5 s5 h5
            simp only [Option.some.injEq] at h4
            subst h4
            have hst := clk_core_set_rate_nolock_static hw fuel _ _ _ _ _ h5
            refine ⟨⟨?_, ?_⟩, ?_⟩
            · rintro (hw1 | ⟨hgf, hanc3⟩)
              · exfalso
                simp only [Bool.or_eq_true, decide_eq_true_eq] at hwin
                omega
              · have hanc2 : pc (s.clk_core k) = 0 ∨ Ancestry s.parent pc := by
                  rcases hanc3 with hanc | hanc3
                  · by_cases hz : pc (s.clk_core k) = 0
                    · exact Or.inl hz
                    · right
                      have hstop := ref_put_stop s.parent fuel c0 pc _ (by omega) hput
                      intro n p hnp hn
                      have hcn : ∀ x, 0 < pc x ↔ 0 < s.protect_count x := by
                        intro x
                        by_cases hx : x = s.clk_core k
                        · subst hx
                          constructor <;> intro <;> omega
                        · rw [hstop, Function.update_noteq hx, hc0x x hx]
                      rw [hcn] at hn ⊢
                      exact hanc n p hnp hn
                  · exact hanc3
                refine @clk_core_set_rate_nolock_ungated N dep hw fuel _ _ _ _ _ ?_ ?_ ?_ h5
                · exact hd
                · exact hanc2
                · exact hgf
            · intro _
              exact ⟨r5, s5, h5, rfl⟩
            · show s5.exclusive_count k = 0
              rw [hst.exclusive_count]
              simp
        · rw [if_neg hwin] at h4
          simp only [Option.some.injEq] at h4
          subst h4
          refine ⟨⟨fun _ => rfl, ?_⟩, by simp⟩
          intro hout
          exfalso
          apply hout
          simp only [Bool.or_eq_true, decide_eq_true_eq, not_or, not_lt] at hwin
          exact ⟨by omega, by omega⟩
    refine ⟨hfinal.2, pc, rfl, hpcm, ?_, ?_, ?_, hfinal.1.1, hfinal.1.2⟩
    · intro x hx
      have := i1 x
      rw [hc0x x hx] at this
      exact this
    · intro p hp hlo
      rcases i3 p (hlt p hlo) with e | ⟨n, hn1, hn2, hn3⟩
      · exact absurd e hp
      · refine ⟨n, hn1, ?_, hn3⟩
        by_cases hx : n = s.clk_core k
        · subst hx
          rw [hpcm]; omega
        · rw [← hc0x n hx]; exact hn2
    · intro n p hnp hn hn0 hpos
      have hpm : p ≠ s.clk_core k := by
        rintro rfl
        have := hlow n (hlt n hn)
        have := hd n _ hnp
        omega
      have := i4 n p hnp (hlt n hn) hn0 (by rw [hc0x p hpm]; exact hpos)
      rw [hc0x p hpm] at this
      exact this

/-- A run of `put_exclusive_handle` on `held2`: releasing handle 0 with its two exclusive
references takes both off node 1 and, node 1 having reached 0, one off node 0. -/
theorem put_exclusive_handle_witness :
    ((__clk_put Hw.quiet 5 held2 (some 0)).getD held2).exclusive_count 0 = 0 ∧
    (__clk_put Hw.quiet 5 held2 (some 0)).map
      (fun s' => (s'.protect_count 1, s'.protect_count 0, s'.exclusive_count 0))
      = some (0, 0, 0) :=
  ⟨(@put_exclusive_handle 2 (fun n => if n = 1 then 1 else 0) Hw.quiet 5 held2 _ 0 IsDepth_chain2 (by decide)
    (by decide) (by decide) rfl).1, rfl⟩

/-- Counterexample to C40 as stated: node 1 of `shared_orphan` is adopted by node 0, which
leaves `protect_count` 2 on node 1 and 0 on its parent; `__clk_put` of handle 1 then clears the
handle's `exclusive_count` and lowers the node's `protect_count` to 1, and, `req_rate` being
outside the handle's window, plans the rate again, which raises the `protect_count` of the
parent from 0 to 1: a count that the release of the handle's references does not touch. -/
theorem put_exclusive_handle_counterexample :
    (clk_core_reparent_orphans_nolock Hw.quiet 5 shared_orphan).bind (fun s =>
      (__clk_put Hw.quiet 5 s (some 1)).map (fun s' =>
        (s.parent 1, s.exclusive_count 1, s.protect_count 1, s.protect_count 0,
          s'.exclusive_count 1, s'.protect_count 1, s'.protect_count 0))) =
      some (some 0, 1, 2, 0, 0, 1, 1) := by
  rfl

theorem Visits_trace (s : State) (tr : List clk_event) (t n : Nat)
    (h : Visits { s with trace := tr } t n) : Visits s t n := by
  induction h with
  | here t h1 => exact Visits.here t h1
  | child t c n h1 h2 h3 _ ih => exact Visits.child t c n h1 h2 h3 ih
  | new_child t c n h1 h2 _ ih => exact Visits.new_child t c n h1 h2 ih

theorem Visits_of_trace (s : State) (tr : List clk_event) (t n : Nat)
    (h : Visits s t n) : Visits { s with trace := tr } t n := by
  induction h with
  | here t h1 => exact Visits.here t h1
  | child t c n h1 h2 h3 _ ih => exact Visits.child t c n h1 h2 h3 ih
  | new_child t c n h1 h2 _ ih => exact Visits.new_child t c n h1 h2 ih

theorem Visits_cases {s : State} {t n : Nat} (h : Visits s t n) :
    s.rate t ≠ s.new_rate t ∧
    (n = t ∨
      (∃ c, c ∈ s.children t ∧
        ¬ ((s.new_parent c).isSome = true ∧ s.new_parent c ≠ some t) ∧ Visits s c n) ∨
      (∃ c, s.new_child t = some c ∧ Visits s c n)) := by
  cases h with
  | here _ h1 => exact ⟨h1, Or.inl rfl⟩
  | child _ c _ h1 h2 h3 h4 => exact ⟨h1, Or.inr (Or.inl ⟨c, h2, h3, h4⟩)⟩
  | new_child _ c _ h1 h2 h3 => exact ⟨h1, Or.inr (Or.inr ⟨c, h2, h3⟩)⟩

theorem Delivered_mono {s : State} {ev : Nat} {ext : List clk_event} {n : Nat}
    (a b : List clk_event) (h : Delivered s ev ext n) : Delivered s ev (a ++ ext ++ b) n := by
  obtain ⟨cn, h1, h2⟩ := h
  exact ⟨cn, by simp [h1], h2⟩

/-- A loop over a list of nodes whose body extends the trace and delivers the event below every
node it does not skip, extends the trace and delivers below every node of the list it does not
skip. -/
theorem foldlM_visits (s : State) (ev : Nat) (skip : Nat → Prop)
    (F : Option Nat × State → Nat → Option (Option Nat × State))
    (step : ∀ a x r E, a.2 = { s with trace := s.trace ++ E } → F a x = some r →
      ∃ E', r.2 = { s with trace := s.trace ++ E ++ E' } ∧
        (¬ skip x → ∀ n, Visits s x n → s.notifier_count n ≠ 0 →
          (∃ cn ∈ s.clk_notifier_list, s.clk_core cn = n) → Delivered s ev E' n))
    (l : List Nat) (a a' : Option Nat × State) (E : List clk_event)
    (ha : a.2 = { s with trace := s.trace ++ E }) (h : l.foldlM F a = some a') :
    ∃ E', a'.2 = { s with trace := s.trace ++ E ++ E' } ∧
      ∀ c ∈ l, ¬ skip c → ∀ n, Visits s c n → s.notifier_count n ≠ 0 →
        (∃ cn ∈ s.clk_notifier_list, s.clk_core cn = n) → Delivered s ev E' n := by
  induction l generalizing a E with
  | nil =>
    simp only [List.foldlM_nil, Option.pure_def, Option.some.injEq] at h
    subst h
    exact ⟨[], by rw [ha]; simp, fun c hc => by cases hc⟩
  | cons x xs ihl =>
    simp only [List.foldlM_cons, Option.bind_eq_bind] at h
    cases hs : F a x with
    | none => simp [hs] at h
    | some r =>
      rw [hs] at h
      simp only [Option.some_bind] at h
      obtain ⟨E1, e1, q1⟩ := step a x r E ha hs
      obtain ⟨E2, e2, q2⟩ := ihl r (E ++ E1) (by rw [e1]; simp) h
      refine ⟨E1 ++ E2, by rw [e2]; simp, ?_⟩
      intro c hc hns n hv hn hcn
      rcases List.mem_cons.mp hc with rfl | hc'
      · have := Delivered_mono [] E2 (q1 hns n hv hn hcn)
        simpa using this
      · have := Delivered_mono E1 [] (q2 c hc' hns n hv hn hcn)
        simpa using this

/-- The walk of `clk_propagate_rate_change` only extends the trace, and every node it reaches
that has a notifier on the list is sent the event. -/
theorem clk_propagate_rate_change_visits (hw : Hw) (ev : Nat) (fuel : Nat) (s s' : State)
    (core : Nat) (f : Option Nat)
    (h : clk_propagate_rate_change hw fuel s core ev = some (f, s')) :
    ∃ ext, s' = { s with trace := s.trace ++ ext } ∧
      ∀ n, Visits s core n → s.notifier_count n ≠ 0 →
        (∃ cn ∈ s.clk_notifier_list, s.clk_core cn = n) → Delivered s ev ext n := by
  induction fuel generalizing s s' core f with
  | zero => simp [clk_propagate_rate_change] at h
  | succ fuel ih =>
    unfold clk_propagate_rate_change at h
    by_cases hr : s.rate core = s.new_rate core
    · rw [if_pos hr] at h
      simp only [Option.some.injEq, Prod.mk.injEq] at h
      obtain ⟨-, rfl⟩ := h
      refine ⟨[], by simp, ?_⟩
      intro n hv
      exact absurd hr (Visits_cases hv).1
    · rw [if_neg hr] at h
      simp only at h
      generalize hX : (if s.notifier_count core ≠ 0 then
          ((if (__clk_notify hw s core ev (s.rate core) (s.new_rate core)).1
              &&& NOTIFY_STOP_MASK ≠ 0 then some core else none : Option Nat),
            (__clk_notify hw s core ev (s.rate core) (s.new_rate core)).2)
          else (none, s)) = X at h
      obtain ⟨ext0, e0, d0⟩ : ∃ ext0, X.2 = { s with trace := s.trace ++ ext0 } ∧
          (s.notifier_count core ≠ 0 → (∃ cn ∈ s.clk_notifier_list, s.clk_core cn = core) →
            Delivered s ev ext0 core) := by
        rw [← hX]
        by_cases hnc : s.notifier_count core = 0
        · simp only [hnc, ne_eq, not_true_eq_false, if_false]
          exact ⟨[], by simp, fun h0 => h0.elim⟩
        · simp only [hnc, ne_eq, not_false_eq_true, if_true]
          obtain ⟨ext0, e0, q0, q1⟩ := __clk_notify_walk_spec hw core ev (s.rate core)
            (s.new_rate core) s.clk_notifier_list NOTIFY_DONE s
          refine ⟨ext0, e0, ?_⟩
          intro _ hex
          obtain ⟨e, he⟩ := List.exists_mem_of_ne_nil _ (q1 hex)
          obtain ⟨cn, rfl, -, hcn⟩ := q0 e he
          exact ⟨cn, he, hcn⟩
      have hch : X.2.children = s.children := by rw [e0]
      rw [hch] at h
      split at h
      · cases h
      · rename_i fc2 s2 hF
        have hstep : ∀ (a : Option Nat × State) (x : Nat) (r : Option Nat × State)
            (E : List clk_event), a.2 = { s with trace := s.trace ++ E } →
            (if ((a.2.new_parent x).isSome && decide (a.2.new_parent x ≠ some core)) = true
              then some a
              else (clk_propagate_rate_change hw fuel a.2 x ev).bind
                (fun q => some (if q.1.isSome = true then q.1 else a.1, q.2))) = some r →
            ∃ E', r.2 = { s with trace := s.trace ++ E ++ E' } ∧
              (¬ ((s.new_parent x).isSome = true ∧ s.new_parent x ≠ some core) →
                ∀ n, Visits s x n → s.notifier_count n ≠ 0 →
                (∃ cn ∈ s.clk_notifier_list, s.clk_core cn = n) → Delivered s ev E' n) := by
          intro a x r E ha hs
          simp only at hs
          have hnp : a.2.new_parent = s.new_parent := by rw [ha]
          rw [hnp] at hs
          by_cases hc : ((s.new_parent x).isSome && decide (s.new_parent x ≠ some core)) = true
          · simp only [hc, if_true, Option.some.injEq] at hs
            subst hs
            refine ⟨[], by rw [ha]; simp, ?_⟩
            intro hns
            exfalso
            apply hns
            simpa using hc
          · simp only [hc, if_false, Bool.false_eq_true] at hs
            cases hp : clk_propagate_rate_change hw fuel a.2 x ev with
            | none => simp [hp] at hs
            | some q =>
              obtain ⟨tmp, st⟩ := q
              simp only [hp, Option.some_bind, Option.some.injEq] at hs
              subst hs
              obtain ⟨ex, e2, q2⟩ := ih _ _ _ _ hp
              refine ⟨ex, by rw [e2, ha], ?_⟩
              intro _ n hv hn hcn
              have hv2 : Visits a.2 x n := by
                rw [ha]
                exact Visits_of_trace s _ _ _ hv
              obtain ⟨cn, h1, h2⟩ := q2 n hv2 (by rw [ha]; exact hn) (by rw [ha]; exact hcn)
              rw [ha] at h1 h2
              exact ⟨cn, h1, h2⟩
        obtain ⟨E1, e1, q1⟩ := foldlM_visits s ev
          (fun c => (s.new_parent c).isSome = true ∧ s.new_parent c ≠ some core) _
          (fun a x r E ha hs => hstep a x r E ha (by
            rw [← hs]
            by_cases hc : ((a.2.new_parent x).isSome && decide (a.2.new_parent x ≠ some core)) = true
            · simp only [hc, if_true]
            · simp only [hc, if_false, Bool.false_eq_true]
              cases clk_propagate_rate_change hw fuel a.2 x ev with
              | none => rfl
              | some q => rfl))
          (s.children core) (X.1, X.2) (fc2, s2) ext0 e0 hF
        simp only at e1
        subst e1
        simp only at h
        cases hnc : s.new_child core with
        | none =>
          simp only [hnc, Option.some.injEq, Prod.mk.injEq] at h
          obtain ⟨-, rfl⟩ := h
          refine ⟨ext0 ++ E1, by simp, ?_⟩
          intro n hv hn hcn
          rcases (Visits_cases hv).2 with rfl | ⟨c, hc1, hc2, hc3⟩ | ⟨c, hc1, -⟩
          · simpa using Delivered_mono [] E1 (d0 hn hcn)
          · simpa using Delivered_mono ext0 [] (q1 c hc1 hc2 n hc3 hn hcn)
          · rw [hnc] at hc1
            cases hc1
        | some nc =>
          simp only [hnc] at h
          cases hx : clk_propagate_rate_change hw fuel
            { s with trace := s.trace ++ ext0 ++ E1 } nc ev with
          | none =>
            rw [hx] at h
            cases h
          | some r =>
            obtain ⟨tmp, st⟩ := r
            rw [hx] at h
            simp only [Option.some.injEq, Prod.mk.injEq] at h
            obtain ⟨-, rfl⟩ := h
            obtain ⟨ex, e2, q2⟩ := ih _ _ _ _ hx
            simp only at e2
            subst e2
            refine ⟨ext0 ++ E1 ++ ex, by simp, ?_⟩
            intro n hv hn hcn
            rcases (Visits_cases hv).2 with rfl | ⟨c, hc1, hc2, hc3⟩ | ⟨c, hc1, hc3⟩
            · simpa using Delivered_mono [] (E1 ++ ex) (d0 hn hcn)
            · simpa using Delivered_mono ext0 ex (q1 c hc1 hc2 n hc3 hn hcn)
            · rw [hnc] at hc1
              cases hc1
              obtain ⟨cn, h1, h2⟩ := q2 n (Visits_of_trace s _ _ _ hc3) hn hcn
              exact ⟨cn, by simp [h1], h2⟩

/-- C31: in `clk_core_set_rate_nolock`, once `clk_calc_new_rates` has returned `top`, the walk
`clk_propagate_rate_change(top, PRE_RATE_CHANGE)` appends only `PRE_RATE_CHANGE` deliveries to
the trace, and every node the walk reaches (`Visits`: the node is joined to `top` by a chain of
nodes whose planned `new_rate` differs from their rate), that has subscribers
(`notifier_count` not 0, with an entry on the notifier list), is delivered the event with its
rate and its planned rate; everything the call appends afterwards, the commit of
`clk_change_rate` included, comes after these deliveries and holds no `PRE_RATE_CHANGE`. -/
theorem pre_delivery_complete (hw : Hw) (fuel : Nat) (s s1 s2 s4 : State) (c r rate top : Nat)
    (f : Option Nat)
    (h1 : clk_core_req_round_rate_nolock hw fuel s (some c) r = some (rate, s1))
    (h2 : rate ≠ clk_core_get_rate_nolock s1 (some c))
    (h3 : clk_core_rate_is_protected s1 c = false)
    (h4 : clk_calc_new_rates hw fuel s1 (some c) r = some (some top, s2))
    (h5 : (clk_pm_runtime_get hw s2 c).1 = 0)
    (h6 : clk_propagate_rate_change hw fuel (clk_pm_runtime_get hw s2 c).2 top PRE_RATE_CHANGE
      = some (f, s4)) :
    ∃ plan pre, s4.trace = s.trace ++ plan ++ pre ∧
      (∀ e ∈ plan, clk_event.is_pm e = true) ∧ AllNotify PRE_RATE_CHANGE pre ∧
      (∀ n, Visits s2 top n → s2.notifier_count n ≠ 0 →
        (∃ cn ∈ s2.clk_notifier_list, s2.clk_core cn = n) →
        ∃ cn, clk_event.notify cn PRE_RATE_CHANGE (s2.rate n) (s2.new_rate n) ∈ pre ∧
          s2.clk_core cn = n) ∧
      ∀ ret s', clk_core_set_rate_nolock hw fuel s (some c) r = some (ret, s') →
        ∃ rest, s'.trace = s.trace ++ plan ++ pre ++ rest ∧
          ∀ e ∈ rest, ∀ cn o n, e ≠ clk_event.notify cn PRE_RATE_CHANGE o n := by
  obtain ⟨pc, e1⟩ := clk_core_req_round_rate_nolock_frame _ _ _ _ _ _ _ h1
  obtain ⟨-, -, -, extA, a4, a5⟩ := PlanFrame_facts (clk_calc_new_rates_plan _ _ _ _ _ _ _ h4)
  obtain ⟨-, -, -, extB, b4, b5⟩ := PlanFrame_facts (clk_pm_runtime_get_plan hw s2 c)
  obtain ⟨tr3, e3⟩ := clk_pm_runtime_get_same hw s2 c
  obtain ⟨pre, e4, q4⟩ := clk_propagate_rate_change_visits hw PRE_RATE_CHANGE fuel _ _ top _ h6
  obtain ⟨-, pre2, d1, d2⟩ := clk_propagate_rate_change_trace hw fuel _ _ top _ _ h6
  have hpre : pre2 = pre := by
    have := d1
    rw [e4] at this
    simpa using this.symm
  subst hpre
  have hs1 : s1.trace = s.trace := by rw [e1]
  have ht4 : s4.trace = s.trace ++ (extA ++ extB) ++ pre2 := by
    rw [d1, b4, a4, hs1]
    simp only [List.append_assoc]
  have hpm : ∀ e : clk_event, clk_event.is_pm e = true →
      ∀ cn o n, e ≠ clk_event.notify cn PRE_RATE_CHANGE o n := by
    intro e he cn o n hc
    subst hc
    simp [clk_event.is_pm] at he
  refine ⟨extA ++ extB, pre2, ht4, ?_, d2, ?_, ?_⟩
  · intro e he
    rcases List.mem_append.mp he with he | he
    · exact a5 e he
    · exact b5 e he
  · intro n hv hn hcn
    have hv3 : Visits (clk_pm_runtime_get hw s2 c).2 top n := by
      rw [e3]
      exact Visits_of_trace s2 _ _ _ hv
    obtain ⟨cn, m1, m2⟩ := q4 n hv3 (by rw [e3]; exact hn) (by rw [e3]; exact hcn)
    rw [e3] at m1 m2
    exact ⟨cn, m1, m2⟩
  · intro ret s' hrun
    unfold clk_core_set_rate_nolock at hrun
    simp only [h1, h2, h3, h4, h5, h6, if_false, ne_eq, not_true_eq_false,
      Bool.false_eq_true] at hrun
    cases f with
    | some fail =>
      simp only at hrun
      cases hab : clk_propagate_rate_change hw fuel s4 top ABORT_RATE_CHANGE with
      | none =>
        rw [hab] at hrun
        cases hrun
      | some x =>
        obtain ⟨fa, s5⟩ := x
        rw [hab] at hrun
        simp only [Option.some.injEq, Prod.mk.injEq] at hrun
        obtain ⟨-, rfl⟩ := hrun
        obtain ⟨-, extC, c1, c2⟩ := clk_propagate_rate_change_trace hw fuel _ _ top _ _ hab
        obtain ⟨-, -, -, extK, k4, k5⟩ := PlanFrame_facts (clk_pm_runtime_put_plan s5 c)
        refine ⟨extC ++ extK, by rw [k4, c1, ht4]; simp only [List.append_assoc], ?_⟩
        intro e he cn o n hc
        rcases List.mem_append.mp he with he | he
        · obtain ⟨cn2, o2, n2, e2⟩ := c2 e he
          rw [e2] at hc
          simp [PRE_RATE_CHANGE, ABORT_RATE_CHANGE] at hc
        · exact hpm e (k5 e he) cn o n hc
    | none =>
      simp only at hrun
      cases hcr : clk_change_rate hw fuel s4 top with
      | none =>
        rw [hcr] at hrun
        cases hrun
      | some s5 =>
        rw [hcr] at hrun
        simp only [Option.some.injEq, Prod.mk.injEq] at hrun
        obtain ⟨-, rfl⟩ := hrun
        obtain ⟨-, extC, c1, c2⟩ := (clk_change_rate_commits hw fuel).1 _ _ _ hcr
        obtain ⟨-, -, -, extK, k4, k5⟩ := PlanFrame_facts (clk_pm_runtime_put_plan
          { s5 with req_rate := Function.update s5.req_rate c r } c)
        refine ⟨extC ++ extK, ?_, ?_⟩
        · rw [k4]
          simp only
          rw [c1, ht4]
          simp only [List.append_assoc]
        · intro e he cn o n hc
          rcases List.mem_append.mp he with he | he
          · exact Commits_no_pre _ _ _ c2 e he cn o n hc
          · exact hpm e (k5 e he) cn o n hc

theorem pre_delivery_complete_witness :
    ∃ plan pre,
      ((clk_propagate_rate_change Hw.tracking 3 (clk_pm_runtime_get Hw.tracking
        ((clk_calc_new_rates Hw.tracking 3
          ((clk_core_req_round_rate_nolock Hw.tracking 3 notified_pair (some 1) 200).getD
            (0, notified_pair)).2 (some 1) 200).getD (none, notified_pair)).2 1).2 1
        PRE_RATE_CHANGE).getD (none, notified_pair)).2.trace = notified_pair.trace ++ plan ++ pre ∧
      (∀ e ∈ plan, clk_event.is_pm e = true) ∧ AllNotify PRE_RATE_CHANGE pre ∧
      (∀ n, Visits ((clk_calc_new_rates Hw.tracking 3
          ((clk_core_req_round_rate_nolock Hw.tracking 3 notified_pair (some 1) 200).getD
            (0, notified_pair)).2 (some 1) 200).getD (none, notified_pair)).2 1 n →
        ((clk_calc_new_rates Hw.tracking 3
          ((clk_core_req_round_rate_nolock Hw.tracking 3 notified_pair (some 1) 200).getD
            (0, notified_pair)).2 (some 1) 200).getD (none, notified_pair)).2.notifier_count n ≠ 0 →
        (∃ cn ∈ ((clk_calc_new_rates Hw.tracking 3
          ((clk_core_req_round_rate_nolock Hw.tracking 3 notified_pair (some 1) 200).getD
            (0, notified_pair)).2 (some 1) 200).getD (none, notified_pair)).2.clk_notifier_list,
          ((clk_calc_new_rates Hw.tracking 3
          ((clk_core_req_round_rate_nolock Hw.tracking 3 notified_pair (some 1) 200).getD
            (0, notified_pair)).2 (some 1) 200).getD (none, notified_pair)).2.clk_core cn = n) →
        ∃ cn, clk_event.notify cn PRE_RATE_CHANGE
            (((clk_calc_new_rates Hw.tracking 3
              ((clk_core_req_round_rate_nolock Hw.tracking 3 notified_pair (some 1) 200).getD
                (0, notified_pair)).2 (some 1) 200).getD (none, notified_pair)).2.rate n)
            (((clk_calc_new_rates Hw.tracking 3
              ((clk_core_req_round_rate_nolock Hw.tracking 3 notified_pair (some 1) 200).getD
                (0, notified_pair)).2 (some 1) 200).getD (none, notified_pair)).2.new_rate n) ∈ pre ∧
          ((clk_calc_new_rates Hw.tracking 3
          ((clk_core_req_round_rate_nolock Hw.tracking 3 notified_pair (some 1) 200).getD
            (0, notified_pair)).2 (some 1) 200).getD (none, notified_pair)).2.clk_core cn = n) ∧
      ∀ ret s', clk_core_set_rate_nolock Hw.tracking 3 notified_pair (some 1) 200 = some (ret, s') →
        ∃ rest, s'.trace = notified_pair.trace ++ plan ++ pre ++ rest ∧
          ∀ e ∈ rest, ∀ cn o n, e ≠ clk_event.notify cn PRE_RATE_CHANGE o n := by
  have h1 := eq_some_of_map_fst
    (clk_core_req_round_rate_nolock Hw.tracking 3 notified_pair (some 1) 200) 200
    (0, notified_pair) (by decide)
  have h4 := eq_some_of_map_fst
    (clk_calc_new_rates Hw.tracking 3
      ((clk_core_req_round_rate_nolock Hw.tracking 3 notified_pair (some 1) 200).getD
        (0, notified_pair)).2 (some 1) 200) (some 1) (none, notified_pair) (by decide)
  have h6 := eq_some_of_map_fst
    (clk_propagate_rate_change Hw.tracking 3 (clk_pm_runtime_get Hw.tracking
      ((clk_calc_new_rates Hw.tracking 3
        ((clk_core_req_round_rate_nolock Hw.tracking 3 notified_pair (some 1) 200).getD
          (0, notified_pair)).2 (some 1) 200).getD (none, notified_pair)).2 1).2 1
      PRE_RATE_CHANGE)
    none (none, notified_pair) (by decide)
  exact pre_delivery_complete Hw.tracking 3 notified_pair _ _ _ 1 200 200 1 none h1 (by decide)
    (by decide) h4 (by decide) h6

/-- The run on `watched_divider` with the hardware `Hw.rigid`: the divider (node 1, one
subscriber) is planned to go from 50 to 75 while the `top` that `clk_calc_new_rates` returns is
the source (node 0), planned to stay at 100; the call returns 0 and its trace holds the commit
ops and the `POST_RATE_CHANGE` delivery to the divider, but no `PRE_RATE_CHANGE` delivery. -/
theorem pre_delivery_complete_counterexample :
    (clk_calc_new_rates Hw.rigid 5 watched_divider (some 1) 75).map
      (fun x => (x.1, x.2.rate 1, x.2.new_rate 1, x.2.rate 0, x.2.new_rate 0,
        x.2.notifier_count 1, x.2.clk_notifier_list)) =
      some (some 0, 50, 75, 100, 100, 1, [1]) ∧
    (clk_core_set_rate_nolock Hw.rigid 5 watched_divider (some 1) 75).map
      (fun x => (x.1, x.2.rate 1, x.2.trace)) =
      some (0, 75, [clk_event.op_set_rate 0 100 0, clk_event.op_set_rate 1 75 100,
        clk_event.notify 1 POST_RATE_CHANGE 50 75]) := by
  exact ⟨rfl, by decide⟩

/-- Claim C32 at a failing input.  In `watched_mux` the mux (node 0, parent node 1, one
subscriber through handle 0) is asked to move to node 2.  With the hardware `Hw.vetoing`, whose
notifier answers `PRE_RATE_CHANGE` with the stop bit, `clk_core_set_parent_nolock` returns that
notifier value 32770, the mux keeps its parent and stays on the child list of node 1, and the
trace holds the `PRE_RATE_CHANGE` delivery alone: no `set_parent` op and no `ABORT_RATE_CHANGE`
delivery.  With the hardware `Hw.stuck`, where the `set_parent` op fails instead, the same call
on the same state does deliver `ABORT_RATE_CHANGE` to the subscriber after the op. -/
theorem set_parent_veto :
    (watched_mux.notifier_count 0 = 1 ∧ watched_mux.clk_notifier_list = [0] ∧
      Hw.vetoing.notifier_call_chain watched_mux 0 PRE_RATE_CHANGE 0 0 &&& NOTIFY_STOP_MASK ≠ 0 ∧
      (clk_core_set_parent_nolock Hw.vetoing 5 watched_mux (some 0) (some 2)).map
          (fun x => (x.1, x.2.parent 0, x.2.children 1, x.2.children 2, x.2.trace))
        = some (32770, some 1, [0], [], [clk_event.notify 0 PRE_RATE_CHANGE 0 0])) ∧
    (clk_core_set_parent_nolock Hw.stuck 5 watched_mux (some 0) (some 2)).map
        (fun x => (x.1, x.2.parent 0, x.2.trace))
      = some (-5, some 1, [clk_event.notify 0 PRE_RATE_CHANGE 0 0, clk_event.op_set_parent 0 1,
          clk_event.notify 0 ABORT_RATE_CHANGE 0 0]) :=
  ⟨⟨rfl, rfl, by decide, by decide⟩, by decide⟩

theorem on_chain_zero (par : Nat → Option Nat) (m : Option Nat) (x : Nat) :
    on_chain par 0 m x = false := by
  cases m <;> rfl

theorem on_chain_some (par : Nat → Option Nat) (fuel m x : Nat) :
    on_chain par (fuel + 1) (some m) x = (m == x || on_chain par fuel (par m) x) := rfl

theorem on_chain_none (par : Nat → Option Nat) (fuel x : Nat) :
    on_chain par fuel none x = false := by
  cases fuel <;> rfl

theorem on_chain_succ (par : Nat → Option Nat) (fuel : Nat) (m : Option Nat) (x : Nat)
    (h : on_chain par (fuel + 1) m x = false) : on_chain par fuel m x = false := by
  induction fuel generalizing m with
  | zero => exact on_chain_zero par m x
  | succ f ih =>
    cases m with
    | none => exact on_chain_none par _ x
    | some m =>
      rw [on_chain_some] at h ⊢
      rw [Bool.or_eq_false_iff] at h ⊢
      exact ⟨h.1, ih _ h.2⟩

theorem on_chain_cons (par : Nat → Option Nat) (fuel m q x : Nat) (hp : par m = some q)
    (hne : m ≠ x) (h : on_chain par fuel (some q) x = false) :
    on_chain par fuel (some m) x = false := by
  cases fuel with
  | zero => exact on_chain_zero par _ x
  | succ f =>
    rw [on_chain_some, Bool.or_eq_false_iff, hp]
    exact ⟨by simpa using hne, on_chain_succ par f _ x h⟩

theorem on_chain_dep {par : Nat → Option Nat} {N : Nat} {dep : Nat → Nat}
    (hd : IsDepth par N dep) (fuel m x : Nat) (h : on_chain par fuel (some m) x = true) :
    dep x ≤ dep m := by
  induction fuel generalizing m with
  | zero => rw [on_chain_zero] at h; cases h
  | succ f ih =>
    rw [on_chain_some, Bool.or_eq_true] at h
    rcases h with h | h
    · have : m = x := by simpa using h
      subst this
      exact le_refl _
    · cases hp : par m with
      | none => rw [hp, on_chain_none] at h; cases h
      | some q =>
        rw [hp] at h
        have := ih q h
        have := (hd m q hp).2.1
        omega

theorem on_chain_update (par : Nat → Option Nat) (c : Nat) (v : Option Nat) (fuel : Nat)
    (m : Option Nat) (x : Nat) (h : on_chain par fuel m c = false) :
    on_chain (Function.update par c v) fuel m x = on_chain par fuel m x := by
  induction fuel generalizing m with
  | zero => rw [on_chain_zero, on_chain_zero]
  | succ f ih =>
    cases m with
    | none => rw [on_chain_none, on_chain_none]
    | some m =>
      rw [on_chain_some, Bool.or_eq_false_iff] at h
      have hmc : m ≠ c := by simpa using h.1
      rw [on_chain_some, on_chain_some, Function.update_noteq hmc, ih _ h.2]

/-- A node does not lie on the chain above the parent it can be given without closing a
cycle. -/
theorem on_chain_acyclic {par : Nat → Option Nat} {N : Nat} {dep : Nat → Nat} (c p : Nat)
    (hd : IsDepth (Function.update par c (some p)) N dep) (fuel : Nat) :
    on_chain par fuel (some p) c = false := by
  have key : ∀ fuel m, on_chain par fuel (some m) c = true → dep c ≤ dep m := by
    intro fuel
    induction fuel with
    | zero => intro m h; rw [on_chain_zero] at h; cases h
    | succ f ih =>
      intro m h
      rw [on_chain_some, Bool.or_eq_true] at h
      by_cases hmc : m = c
      · subst hmc; exact le_refl _
      · rcases h with h | h
        · exact absurd (by simpa using h) hmc
        · cases hp : par m with
          | none => rw [hp, on_chain_none] at h; cases h
          | some q =>
            rw [hp] at h
            have h1 := ih q h
            have h2 := (hd m q (by rw [Function.update_noteq hmc]; exact hp)).2.1
            omega
  by_contra hc
  have h1 := key fuel p (by simpa using hc)
  have h2 := (hd c p (by simp)).2.1
  omega

/-- A walk that takes a reference leaves the nodes off its chain alone. -/
theorem ref_get_off (par : Nat → Option Nat) (fuel : Nat) (c c' : Nat → Nat) (m : Option Nat)
    (x : Nat) (h : ref_get par fuel c m = some c') (hx : on_chain par fuel m x = false) :
    c' x = c x := by
  induction fuel generalizing c c' m with
  | zero =>
    cases m with
    | none => simp [ref_get] at h; rw [h]
    | some m => simp [ref_get] at h
  | succ f ih =>
    cases m with
    | none => simp [ref_get] at h; rw [h]
    | some m =>
      rw [on_chain_some, Bool.or_eq_false_iff] at hx
      have hmx : x ≠ m := by
        have : m ≠ x := by simpa using hx.1
        exact fun e => this e.symm
      unfold ref_get at h
      by_cases h0 : c m = 0
      · simp only [h0, if_true] at h
        cases h1 : ref_get par f c (par m) with
        | none => simp [h1] at h
        | some c1 =>
          simp only [h1, Option.some.injEq] at h
          rw [← h, Function.update_noteq hmx]
          exact ih _ _ _ h1 hx.2
      · simp only [h0, if_false, Option.some.injEq] at h
        rw [← h, Function.update_noteq hmx]

/-- A walk that drops a reference leaves the nodes off its chain alone. -/
theorem ref_put_off (par : Nat → Option Nat) (crit : Nat → Bool) (fuel : Nat)
    (c c' : Nat → Nat) (m : Option Nat) (x : Nat)
    (h : ref_put par crit fuel c m = some c') (hx : on_chain par fuel m x = false) :
    c' x = c x := by
  induction fuel generalizing c c' m with
  | zero =>
    cases m with
    | none => simp [ref_put] at h; rw [h]
    | some m => simp [ref_put] at h
  | succ f ih =>
    cases m with
    | none => simp [ref_put] at h; rw [h]
    | some m =>
      rw [on_chain_some, Bool.or_eq_false_iff] at hx
      have hmx : x ≠ m := by
        have : m ≠ x := by simpa using hx.1
        exact fun e => this e.symm
      unfold ref_put at h
      split at h
      · cases h; rfl
      · split at h
        · cases h; rfl
        · split at h
          · cases h; rw [Function.update_noteq hmx]
          · rw [ih _ _ _ h hx.2, Function.update_noteq hmx]

/-- A walk that drops a reference on a node, and is not refused there, lowers that node by
one. -/
theorem ref_put_self {par : Nat → Option Nat} {N : Nat} {dep : Nat → Nat}
    (hd : IsDepth par N dep) (crit : Nat → Bool) (fuel : Nat) (c c' : Nat → Nat) (m : Nat)
    (h : ref_put par crit fuel c (some m) = some c') (hne : c m ≠ 0)
    (hnc : ¬ (c m = 1 ∧ crit m = true)) : c' m = c m - 1 := by
  cases fuel with
  | zero => simp [ref_put] at h
  | succ f =>
    unfold ref_put at h
    rw [if_neg hne, if_neg (by simpa using hnc)] at h
    split at h
    · cases h; simp
    · cases hp : par m with
      | none =>
        rw [hp] at h
        have : ref_put par crit f (Function.update c m (c m - 1)) none
            = some (Function.update c m (c m - 1)) := by cases f <;> rfl
        rw [this] at h
        cases h; simp
      | some q =>
        rw [hp] at h
        rw [ref_put_frame hd crit f _ _ q h m (hd m q hp).2.1]
        simp

/-- A walk that takes a reference on a node whose counter is 0 takes one on its parent. -/
theorem ref_get_parent {par : Nat → Option Nat} {N : Nat} {dep : Nat → Nat}
    (hd : IsDepth par N dep) (fuel : Nat) (c c' : Nat → Nat) (m q : Nat)
    (h : ref_get par fuel c (some m) = some c') (h0 : c m = 0) (hp : par m = some q) :
    c' q = c q + 1 := by
  cases fuel with
  | zero => simp [ref_get] at h
  | succ f =>
    unfold ref_get at h
    rw [if_pos h0, hp] at h
    cases h1 : ref_get par f c (some q) with
    | none => simp [h1] at h
    | some c1 =>
      simp only [h1, Option.some.injEq] at h
      have hqm : q ≠ m := by
        intro e
        have := (hd m q hp).2.1
        rw [e] at this
        omega
      rw [← h, Function.update_noteq hqm]
      exact ref_get_self hd f _ _ q h1

/-- A walk that drops the last reference of a node drops one on its parent, when it is not
refused there. -/
theorem ref_put_parent {par : Nat → Option Nat} {N : Nat} {dep : Nat → Nat}
    (hd : IsDepth par N dep) (crit : Nat → Bool) (fuel : Nat) (c c' : Nat → Nat) (m q : Nat)
    (h : ref_put par crit fuel c (some m) = some c') (h1 : c m = 1) (hcm : crit m = false)
    (hp : par m = some q) (hne : c q ≠ 0) (hnc : ¬ (c q = 1 ∧ crit q = true)) :
    c' q = c q - 1 := by
  cases fuel with
  | zero => simp [ref_put] at h
  | succ f =>
    have hqm : q ≠ m := by
      intro e
      have := (hd m q hp).2.1
      rw [e] at this
      omega
    unfold ref_put at h
    rw [if_neg (by omega), if_neg (by simp [hcm]), if_neg (by omega), hp] at h
    have := ref_put_self hd crit f _ _ q h (by rw [Function.update_noteq hqm]; exact hne)
      (by rw [Function.update_noteq hqm]; exact hnc)
    rw [this, Function.update_noteq hqm]

/-- Dropping a reference on the old parent `o` of `c`, in the tree where `c` hangs below `p`:
`o` is lowered by one, `p` and `c` are left alone, when `p` is not on the chain above `o`. -/
theorem ref_put_old_parent {par : Nat → Option Nat} {N N' : Nat} {dep dep' : Nat → Nat}
    (c p o : Nat) (hd : IsDepth par N dep)
    (hd' : IsDepth (Function.update par c (some p)) N' dep') (hpar : par c = some o)
    (crit : Nat → Bool) (fuel : Nat) (k k' : Nat → Nat)
    (h_op : on_chain par fuel (some o) p = false)
    (h : ref_put (Function.update par c (some p)) crit fuel k (some o) = some k')
    (hne : k o ≠ 0) (hnc : ¬ (k o = 1 ∧ crit o = true)) :
    k' o = k o - 1 ∧ k' p = k p ∧ k' c = k c := by
  have hoc : on_chain par fuel (some o) c = false := by
    by_contra hc
    have h1 := on_chain_dep hd fuel o c (by simpa using hc)
    have h2 := (hd c o hpar).2.1
    omega
  refine ⟨ref_put_self hd' crit fuel _ _ o h hne hnc, ?_, ?_⟩
  · exact ref_put_off _ crit fuel _ _ _ p h (by rw [on_chain_update _ _ _ _ _ _ hoc]; exact h_op)
  · exact ref_put_off _ crit fuel _ _ _ c h (by rw [on_chain_update _ _ _ _ _ _ hoc]; exact hoc)

/-- The prepare references of a reparent: one taken on the new parent `p` in the old tree, one
dropped on the old parent `o` in the new tree. -/
theorem migrate_prepare {par : Nat → Option Nat} {N N' : Nat} {dep dep' : Nat → Nat}
    (c p o : Nat) (hd : IsDepth par N dep)
    (hd' : IsDepth (Function.update par c (some p)) N' dep') (hpar : par c = some o)
    (crit : Nat → Bool) (fuel : Nat) (pc0 pcB pcF : Nat → Nat)
    (h_po : on_chain par fuel (some p) o = false) (h_op : on_chain par fuel (some o) p = false)
    (hg : ref_get par fuel pc0 (some p) = some pcB)
    (hp : ref_put (Function.update par c (some p)) crit fuel pcB (some o) = some pcF)
    (hne : pc0 o ≠ 0) (hnc : ¬ (pc0 o = 1 ∧ crit o = true)) :
    pcF p = pc0 p + 1 ∧ pcF o = pc0 o - 1 ∧ pcF c = pc0 c := by
  have h_pc := on_chain_acyclic c p hd' fuel
  have e1 : pcB p = pc0 p + 1 := ref_get_self hd fuel _ _ p hg
  have e2 : pcB o = pc0 o := ref_get_off par fuel _ _ _ o hg h_po
  have e3 : pcB c = pc0 c := ref_get_off par fuel _ _ _ c hg h_pc
  obtain ⟨f1, f2, f3⟩ := ref_put_old_parent c p o hd hd' hpar crit fuel pcB pcF h_op hp
    (by rw [e2]; exact hne) (by rw [e2]; exact hnc)
  exact ⟨by rw [f2, e1], by rw [f1, e2], by rw [f3, e3]⟩

/-- The enable references of a reparent of a prepared node: one taken on the new parent `p` and
one on the node `c` in the old tree, then one dropped on `c` and one on the old parent `o` in the
new tree.  A node that is enabled moves one reference from `o` to `p`; a node that is not leaves
both as they were. -/
theorem migrate_enable {par : Nat → Option Nat} {N N' : Nat} {dep dep' : Nat → Nat}
    (c p o : Nat) (hd : IsDepth par N dep)
    (hd' : IsDepth (Function.update par c (some p)) N' dep') (hpar : par c = some o)
    (crit : Nat → Bool) (fuel : Nat) (ec0 ec1 ecB ecA ecF : Nat → Nat)
    (h_po : on_chain par fuel (some p) o = false) (h_op : on_chain par fuel (some o) p = false)
    (hg1 : ref_get par fuel ec0 (some p) = some ec1)
    (hg2 : ref_get par fuel ec1 (some c) = some ecB)
    (hp1 : ref_put (Function.update par c (some p)) crit fuel ecB (some c) = some ecA)
    (hp2 : ref_put (Function.update par c (some p)) crit fuel ecA (some o) = some ecF)
    (hcrit : ∀ x, crit x = true → 0 < ec0 x)
    (hanc : 0 < ec0 c → 0 < ec0 o)
    (hnc : 0 < ec0 c → ¬ (ec0 o = 1 ∧ crit o = true)) :
    ecF c = ec0 c ∧
    (0 < ec0 c → ecF p = ec0 p + 1 ∧ ecF o = ec0 o - 1) ∧
    (ec0 c = 0 → ecF p = ec0 p ∧ ecF o = ec0 o) := by
  have h_pc := on_chain_acyclic c p hd' fuel
  have hpc' : (Function.update par c (some p)) c = some p := by simp
  have hcp : c ≠ p := by
    intro e
    have := (hd' c p hpc').2.1
    rw [e] at this
    omega
  have hco : c ≠ o := by
    intro e
    have := (hd c o hpar).2.1
    rw [e] at this
    omega
  have e1p : ec1 p = ec0 p + 1 := ref_get_self hd fuel _ _ p hg1
  have e1o : ec1 o = ec0 o := ref_get_off par fuel _ _ _ o hg1 h_po
  have e1c : ec1 c = ec0 c := ref_get_off par fuel _ _ _ c hg1 h_pc
  have eBc : ecB c = ec0 c + 1 := by rw [ref_get_self hd fuel _ _ c hg2, e1c]
  by_cases hc0 : ec0 c = 0
  · -- the node is not enabled: the walk from `c` climbs to `o`, and back down from `p`
    have hcc : crit c = false := by
      cases hq : crit c with
      | false => rfl
      | true => have := hcrit c hq; omega
    have eBo : ecB o = ec0 o + 1 := by
      rw [ref_get_parent hd fuel _ _ c o hg2 (by rw [e1c]; exact hc0) hpar, e1o]
    have eBp : ecB p = ec0 p + 1 := by
      rw [ref_get_off par fuel _ _ _ p hg2 (on_chain_cons par fuel c o p hpar hcp h_op), e1p]
    have eAc : ecA c = 0 := by
      rw [ref_put_self hd' crit fuel _ _ c hp1 (by omega) (by simp [hcc]), eBc, hc0]
    have hpcrit : ¬ (ecB p = 1 ∧ crit p = true) := by
      rintro ⟨h1, h2⟩
      have := hcrit p h2
      omega
    have eAp : ecA p = ec0 p := by
      rw [ref_put_parent hd' crit fuel _ _ c p hp1 (by omega) hcc hpc' (by omega) hpcrit, eBp]
      omega
    have eAo : ecA o = ec0 o + 1 := by
      rw [ref_put_off _ crit fuel _ _ _ o hp1 (on_chain_cons _ fuel c p o hpc' hco
        (by rw [on_chain_update _ _ _ _ _ _ h_pc]; exact h_po)), eBo]
    have hocrit : ¬ (ecA o = 1 ∧ crit o = true) := by
      rintro ⟨h1, h2⟩
      have := hcrit o h2
      omega
    obtain ⟨f1, f2, f3⟩ := ref_put_old_parent c p o hd hd' hpar crit fuel ecA ecF h_op hp2
      (by omega) hocrit
    refine ⟨by rw [f3, eAc, hc0], fun h => by omega, fun _ => ⟨by rw [f2, eAp], by rw [f1, eAo]; omega⟩⟩
  · -- the node is enabled: both walks on `c` stop at `c`
    have hB : ecB = Function.update ec1 c (ec1 c + 1) := by
      cases fuel with
      | zero => simp [ref_get] at hg2
      | succ f =>
        unfold ref_get at hg2
        rw [if_neg (by rw [e1c]; exact hc0)] at hg2
        simpa using hg2.symm
    have hA : ecA = Function.update ecB c (ecB c - 1) := by
      cases fuel with
      | zero => simp [ref_put] at hp1
      | succ f =>
        unfold ref_put at hp1
        rw [if_neg (by omega), if_neg (by simp; omega), if_pos (by omega)] at hp1
        simpa using hp1.symm
    have eAp : ecA p = ec0 p + 1 := by
      rw [hA, Function.update_noteq (Ne.symm hcp), hB, Function.update_noteq (Ne.symm hcp), e1p]
    have eAo : ecA o = ec0 o := by
      rw [hA, Function.update_noteq (Ne.symm hco), hB, Function.update_noteq (Ne.symm hco), e1o]
    have eAc : ecA c = ec0 c := by
      rw [hA, Function.update_same, eBc]
      omega
    have hpos : 0 < ec0 c := by omega
    obtain ⟨f1, f2, f3⟩ := ref_put_old_parent c p o hd hd' hpar crit fuel ecA ecF h_op hp2
      (by have := hanc hpos; omega) (by rw [eAo]; exact hnc hpos)
    exact ⟨by rw [f3, eAc], fun _ => ⟨by rw [f2, eAp], by rw [f1, eAo]⟩, fun h => absurd h hc0⟩

/-- The reference walks of a `__clk_set_parent` on a prepared node whose `set_parent` op
succeeds: the counts it returns are those of the walks of `__clk_set_parent_before` in the old
tree followed by the walks of `__clk_set_parent_after` in the new tree. -/
theorem __clk_set_parent_walks {N N' : Nat} {dep dep' : Nat → Nat} (hw : Hw)
    (hops : OpsSucceed hw) (fuel : Nat) (s s' : State) (c p idx : Nat) (ret : Int)
    (hd : IsDepth s.parent N dep) (hf : ∀ n, dep n < fuel)
    (hd' : IsDepth (Function.update s.parent c (some p)) N' dep') (hf' : ∀ n, dep' n < fuel)
    (hflag : (s.flags c).CLK_OPS_PARENT_ENABLE = false)
    (hanc : Ancestry s.parent s.prepare_count)
    (hpos : s.prepare_count c ≠ 0)
    (hset : ∀ t, hw.set_parent t c idx = 0)
    (h : __clk_set_parent hw fuel s c (some p) idx = some (ret, s')) :
    ret = 0 ∧ ∃ pcB ec1 ecB ecA,
      ref_get s.parent fuel s.prepare_count (some p) = some pcB ∧
      ref_put (Function.update s.parent c (some p)) (fun n => (s.flags n).CLK_IS_CRITICAL) fuel
        pcB (s.parent c) = some s'.prepare_count ∧
      ref_get s.parent fuel s.enable_count (some p) = some ec1 ∧
      ref_get s.parent fuel ec1 (some c) = some ecB ∧
      ref_put (Function.update s.parent c (some p)) (fun n => (s.flags n).CLK_IS_CRITICAL) fuel
        ecB (some c) = some ecA ∧
      ref_put (Function.update s.parent c (some p)) (fun n => (s.flags n).CLK_IS_CRITICAL) fuel
        ecA (s.parent c) = some s'.enable_count := by
  obtain ⟨pcB, ecB, rcB, trB, hB, -, hB1⟩ := __clk_set_parent_before_acquire hw hops fuel s c
    (some p) hd hf hflag hanc
  obtain ⟨hBc, gp, ec1, ge1, ge2⟩ := hB1 hpos
  unfold __clk_set_parent at h
  rw [hB] at h
  cases hr : clk_reparent fuel { s with prepare_count := pcB, enable_count := ecB, protect_count := rcB, trace := trB } c (some p) with
  | none => simp [hr] at h
  | some s5 =>
    obtain ⟨orph, rl, ol, nc, e5⟩ := clk_reparent_spec _ _ _ _ _ hr
    simp only [hr, Option.map_some'] at h
    have hret : (if ((some p).isSome && (s5.ops c).set_parent) = true then hw.set_parent s5 c idx
        else 0) = 0 := by
      split
      · exact hset _
      · rfl
    simp only [hret, ne_eq, not_true_eq_false, if_false] at h
    split at h
    · cases h
    · rename_i s3 ha
      simp only [Option.some.injEq, Prod.mk.injEq] at h
      obtain ⟨hr0, rfl⟩ := h
      refine ⟨hr0.symm, pcB, ec1, ecB, ?_⟩
      generalize hs2 : (if ((some p).isSome && (s5.ops c).set_parent) = true then
        s5.log (.op_set_parent c idx) else s5) = s2 at ha
      obtain ⟨tr2, e2⟩ : ∃ tr2, s2 = { s5 with trace := tr2 } := by
        rw [← hs2]
        split
        · exact ⟨_, rfl⟩
        · exact ⟨_, rfl⟩
      have q1 : s2.parent = Function.update s.parent c (some p) := by rw [e2, e5]
      have q2 : s2.flags = s.flags := by rw [e2, e5]
      have q3 : s2.prepare_count = pcB := by rw [e2, e5]
      have q4 : s2.enable_count = ecB := by rw [e2, e5]
      have hd2 : IsDepth s2.parent N' dep' := by rw [q1]; exact hd'
      obtain ⟨t1, d1, g1, e1⟩ := clk_core_disable_spec fuel s2 c hd2 (hf' c)
      obtain ⟨ecA, trA, eA⟩ : ∃ ecA trA, t1 = { s2 with enable_count := ecA, trace := trA } :=
        ⟨_, _, e1⟩
      have hdA : IsDepth t1.parent N' dep' := by rw [eA]; exact hd2
      obtain ⟨pc2, ec2, rc2, tr2', d2, g2, g3⟩ := clk_core_disable_unprepare_spec fuel t1
        (s.parent c) hdA hf'
      unfold __clk_set_parent_after at ha
      have hne2 : s2.prepare_count c ≠ 0 := by rw [q3]; exact hBc
      simp only [hne2, ne_eq, not_false_eq_true, if_true, d1, d2] at ha
      have hfl : ({ t1 with prepare_count := pc2, enable_count := ec2, protect_count := rc2, trace := tr2' } : State).flags = s.flags := by
        simp only [eA, q2]
      rw [hfl, hflag] at ha
      simp only [if_false, Bool.false_eq_true, Option.some.injEq] at ha
      subst ha
      simp only
      have pA : t1.parent = Function.update s.parent c (some p) := by rw [eA]; exact q1
      have fA : t1.flags = s.flags := by rw [eA]; exact q2
      have cA : t1.prepare_count = pcB := by rw [eA]; exact q3
      have eAe : t1.enable_count = ecA := by rw [eA]
      rw [q1, q2, q4, eAe] at g1
      rw [pA, fA, eAe] at g2
      rw [pA, fA, cA] at g3
      exact ⟨ecA, gp, g3, ge1, ge2, g1, g2⟩

theorem clk_reparent_some (fuel : Nat) (s : State) (c p : Nat)
    (ho : s.orphan c = s.orphan p) : ∃ s', clk_reparent fuel s c (some p) = some s' := by
  rw [clk_reparent_eq]
  simp only
  rw [if_neg (by simp [ho])]
  exact ⟨_, rfl⟩

/-- The release half of a reparent returns, on a node without `CLK_OPS_PARENT_ENABLE`, when the
walks have fuel for the depth of the tree. -/
theorem __clk_set_parent_after_some {N : Nat} {dep : Nat → Nat} (fuel : Nat) (s : State)
    (c : Nat) (par old : Option Nat) (hd : IsDepth s.parent N dep) (hf : ∀ n, dep n < fuel)
    (hflag : (s.flags c).CLK_OPS_PARENT_ENABLE = false) :
    ∃ s', __clk_set_parent_after fuel s c par old = some s' := by
  unfold __clk_set_parent_after
  by_cases hpc : s.prepare_count c ≠ 0
  · obtain ⟨t1, d1, -, e1⟩ := clk_core_disable_spec fuel s c hd (hf c)
    obtain ⟨ecA, trA, eA⟩ : ∃ ecA trA, t1 = { s with enable_count := ecA, trace := trA } :=
      ⟨_, _, e1⟩
    have hdA : IsDepth t1.parent N dep := by rw [eA]; exact hd
    obtain ⟨pc2, ec2, rc2, tr2, d2, -, -⟩ := clk_core_disable_unprepare_spec fuel t1 old hdA hf
    simp only [hpc, ne_eq, not_false_eq_true, if_true, d1, d2]
    have hfl : ({ t1 with prepare_count := pc2, enable_count := ec2, protect_count := rc2, trace := tr2 } : State).flags = s.flags := by
      simp only [eA]
    rw [hfl, hflag]
    exact ⟨_, rfl⟩
  · simp only [hpc, if_false, hflag, Bool.false_eq_true]
    exact ⟨_, rfl⟩

/-- A `__clk_set_parent` whose `set_parent` op succeeds returns 0, when the node and its new
parent agree on the orphan bit (no orphan status has to be pushed down the subtree). -/
theorem __clk_set_parent_returns {N N' : Nat} {dep dep' : Nat → Nat} (hw : Hw)
    (hops : OpsSucceed hw) (fuel : Nat) (s : State) (c p idx : Nat)
    (hd : IsDepth s.parent N dep) (hf : ∀ n, dep n < fuel)
    (hd' : IsDepth (Function.update s.parent c (some p)) N' dep') (hf' : ∀ n, dep' n < fuel)
    (hflag : (s.flags c).CLK_OPS_PARENT_ENABLE = false)
    (hanc : Ancestry s.parent s.prepare_count)
    (hset : ∀ t, hw.set_parent t c idx = 0)
    (ho : s.orphan c = s.orphan p) :
    ∃ s', __clk_set_parent hw fuel s c (some p) idx = some (0, s') := by
  obtain ⟨pcB, ecB, rcB, trB, hB, -, -⟩ := __clk_set_parent_before_acquire hw hops fuel s c
    (some p) hd hf hflag hanc
  obtain ⟨s5, hr⟩ := clk_reparent_some fuel { s with prepare_count := pcB, enable_count := ecB, protect_count := rcB, trace := trB } c p ho
  obtain ⟨orph, rl, ol, nc, e5⟩ := clk_reparent_spec _ _ _ _ _ hr
  unfold __clk_set_parent
  rw [hB, hr]
  have hret : (if ((some p).isSome && (s5.ops c).set_parent) = true then hw.set_parent s5 c idx
      else 0) = 0 := by
    split
    · exact hset _
    · rfl
  simp only [Option.map_some', hret, ne_eq, not_true_eq_false, if_false]
  generalize hs2 : (if ((some p).isSome && (s5.ops c).set_parent) = true then
    s5.log (.op_set_parent c idx) else s5) = s2
  obtain ⟨tr2, e2⟩ : ∃ tr2, s2 = { s5 with trace := tr2 } := by
    rw [← hs2]
    split
    · exact ⟨_, rfl⟩
    · exact ⟨_, rfl⟩
  have q1 : s2.parent = Function.update s.parent c (some p) := by rw [e2, e5]
  have q2 : s2.flags = s.flags := by rw [e2, e5]
  obtain ⟨s3, h3⟩ := __clk_set_parent_after_some fuel s2 c (some p) (s.parent c)
    (by rw [q1]; exact hd') hf' (by rw [q2]; exact hflag)
  rw [h3]
  exact ⟨s3, rfl⟩

/-- C33 (amended): on a node `c` with `prepare_count > 0` and without `CLK_OPS_PARENT_ENABLE`,
whose old parent `o` and new parent `p` do not lie on each other's chain of ancestors, with
prepare and enable callbacks that succeed, reference counts that respect ancestry, critical
nodes holding their references (the old parent, when critical, one of its own beside the
node's), a `__clk_set_parent` whose `set_parent` op succeeds returns 0 with `p` as the parent of
`c`, the `prepare_count` of `p` one higher and that of `o` one lower than before, the
`enable_count` of `p` one higher and that of `o` one lower exactly when `c` was enabled (both
unchanged otherwise), and the node's own two counts unchanged; and the call does return when
`c` and `p` agree on the orphan bit. -/
theorem reparent_migrates_references {N N' : Nat} {dep dep' : Nat → Nat} (hw : Hw)
    (hops : OpsSucceed hw) (fuel : Nat) (s : State) (c p o idx : Nat)
    (hd : IsDepth s.parent N dep) (hf : ∀ n, dep n < fuel)
    (hd' : IsDepth (Function.update s.parent c (some p)) N' dep') (hf' : ∀ n, dep' n < fuel)
    (hflag : (s.flags c).CLK_OPS_PARENT_ENABLE = false)
    (hpar : s.parent c = some o)
    (hancP : Ancestry s.parent s.prepare_count) (hancE : Ancestry s.parent s.enable_count)
    (hcrit : ∀ x, (s.flags x).CLK_IS_CRITICAL = true →
      0 < s.prepare_count x ∧ 0 < s.enable_count x)
    (hown : (s.flags o).CLK_IS_CRITICAL = true →
      1 < s.prepare_count o ∧ (0 < s.enable_count c → 1 < s.enable_count o))
    (h_po : on_chain s.parent fuel (some p) o = false)
    (h_op : on_chain s.parent fuel (some o) p = false)
    (hpos : 0 < s.prepare_count c)
    (hset : ∀ t, hw.set_parent t c idx = 0) :
    (∀ ret s', __clk_set_parent hw fuel s c (some p) idx = some (ret, s') →
      ret = 0 ∧ s'.parent c = some p ∧
      s'.prepare_count p = s.prepare_count p + 1 ∧
      s'.prepare_count o + 1 = s.prepare_count o ∧
      s'.prepare_count c = s.prepare_count c ∧ s'.enable_count c = s.enable_count c ∧
      (0 < s.enable_count c →
        s'.enable_count p = s.enable_count p + 1 ∧ s'.enable_count o + 1 = s.enable_count o) ∧
      (s.enable_count c = 0 →
        s'.enable_count p = s.enable_count p ∧ s'.enable_count o = s.enable_count o)) ∧
    (s.orphan c = s.orphan p →
      ∃ s', __clk_set_parent hw fuel s c (some p) idx = some (0, s')) := by
  refine ⟨?_, __clk_set_parent_returns hw hops fuel s c p idx hd hf hd' hf' hflag hancP hset⟩
  intro ret s' h
  obtain ⟨hret, pcB, ec1, ecB, ecA, gp, pp, g1, g2, p1, p2⟩ := __clk_set_parent_walks hw hops
    fuel s s' c p idx ret hd hf hd' hf' hflag hancP (by omega) hset h
  rw [hpar] at pp p2
  have hpo : 0 < s.prepare_count o := hancP c o hpar hpos
  obtain ⟨a1, a2, a3⟩ := migrate_prepare c p o hd hd' hpar _ fuel _ _ _ h_po h_op gp pp
    (by omega) (fun hc => by have := (hown hc.2).1; omega)
  obtain ⟨b1, b2, b3⟩ := migrate_enable c p o hd hd' hpar _ fuel _ _ _ _ _ h_po h_op g1 g2 p1 p2
    (fun x hx => (hcrit x hx).2) (fun hc => hancE c o hpar hc)
    (fun hc hq => by have := (hown hq.2).2 hc; omega)
  have hp' : s'.parent c = some p := by
    obtain ⟨s4, s5, f4, hr, f5⟩ := __clk_set_parent_ok hw fuel s s' c (some p) idx (by rw [← hret]; exact h)
    obtain ⟨orph, rl, ol, nc, e5⟩ := clk_reparent_spec _ _ _ _ _ hr
    obtain ⟨x1, x2, x3, x4, e1⟩ := f5
    rw [e1, e5]
    simp
  refine ⟨hret, hp', a1, by omega, a3, b1, ?_, b3⟩
  intro hc
  obtain ⟨x1, x2⟩ := b2 hc
  have := hancE c o hpar hc
  exact ⟨x1, by omega⟩

theorem IsDepth_mux_busy_moved :
    IsDepth (Function.update mux_busy.parent 0 (some 2)) 1 (fun n => if n = 0 then 1 else 0) := by
  intro n q hq
  by_cases hn : n = 0
  · subst hn
    simp only [Function.update_same, Option.some.injEq] at hq
    subst hq
    exact ⟨by decide, by decide, by decide⟩
  · rw [Function.update_noteq hn] at hq
    simp [mux_busy, mux1, State.blank, hn] at hq

/-- C33 (amended) on `mux_busy`, moving the prepared mux from node 1 to node 2. -/
theorem reparent_migrates_references_witness :
    (∀ ret s', __clk_set_parent Hw.quiet 3 mux_busy 0 (some 2) 1 = some (ret, s') →
      ret = 0 ∧ s'.parent 0 = some 2 ∧
      s'.prepare_count 2 = mux_busy.prepare_count 2 + 1 ∧
      s'.prepare_count 1 + 1 = mux_busy.prepare_count 1 ∧
      s'.prepare_count 0 = mux_busy.prepare_count 0 ∧
      s'.enable_count 0 = mux_busy.enable_count 0 ∧
      (0 < mux_busy.enable_count 0 →
        s'.enable_count 2 = mux_busy.enable_count 2 + 1 ∧
        s'.enable_count 1 + 1 = mux_busy.enable_count 1) ∧
      (mux_busy.enable_count 0 = 0 →
        s'.enable_count 2 = mux_busy.enable_count 2 ∧
        s'.enable_count 1 = mux_busy.enable_count 1)) ∧
    (mux_busy.orphan 0 = mux_busy.orphan 2 →
      ∃ s', __clk_set_parent Hw.quiet 3 mux_busy 0 (some 2) 1 = some (0, s')) := by
  refine reparent_migrates_references Hw.quiet OpsSucceed_quiet 3 mux_busy 0 2 1 1
    IsDepth_mux_busy ?_ IsDepth_mux_busy_moved ?_ (by decide) rfl ?_ ?_ ?_ ?_ (by decide)
    (by decide) (by decide) (fun _ => rfl)
  · intro n
    by_cases hn : n = 0
    · subst hn; decide
    · simp [hn]
  · intro n
    by_cases hn : n = 0
    · subst hn; decide
    · simp [hn]
  · intro n q hq hn
    simp only [mux_busy, mux1, State.blank] at hq
    split at hq
    · cases hq
      decide
    · cases hq
  · intro n q _ hn
    simp [mux_busy, mux1, State.blank] at hn
  · intro x hx
    simp [mux_busy, mux1, State.blank] at hx
  · intro hx
    simp [mux_busy, mux1, State.blank] at hx

/-- The reparent of `stacked_mux` from node 1 to node 2, the parent of node 1: the call returns
0 with node 2 as the parent of the mux, the old parent (node 1) has lost its prepare reference,
and the new parent (node 2) holds one prepare reference as before the call, not two: the
reference it got for the mux replaces the one it held for node 1. -/
theorem reparent_migrates_references_counterexample :
    stacked_mux.parent 0 = some 1 ∧ stacked_mux.prepare_count 0 = 1 ∧
    stacked_mux.prepare_count 1 = 1 ∧ stacked_mux.prepare_count 2 = 1 ∧
    (stacked_mux.flags 0).CLK_OPS_PARENT_ENABLE = false ∧
    (__clk_set_parent Hw.quiet 5 stacked_mux 0 (some 2) 1).map
      (fun x => (x.1, x.2.parent 0, x.2.prepare_count 2, x.2.prepare_count 1,
        x.2.prepare_count 0)) = some (0, some 2, 1, 0, 1) := by
  exact ⟨rfl, rfl, rfl, rfl, rfl, by decide⟩

theorem ref_get_fuel_succ (par : Nat → Option Nat) (fuel : Nat) (c c' : Nat → Nat)
    (m : Option Nat) (h : ref_get par fuel c m = some c') :
    ref_get par (fuel + 1) c m = some c' := by
  induction fuel generalizing c c' m with
  | zero =>
    cases m with
    | none => simpa [ref_get] using h
    | some x => simp [ref_get] at h
  | succ f ih =>
    cases m with
    | none => simpa [ref_get] using h
    | some x =>
      unfold ref_get at h ⊢
      by_cases h0 : c x = 0
      · simp only [h0, if_true] at h ⊢
        cases h1 : ref_get par f c (par x) with
        | none => simp [h1] at h
        | some c1 =>
          rw [ih _ _ _ h1]
          simpa [h1] using h
      · simp only [h0, if_false] at h ⊢
        exact h

/-- A walk that drops a reference does not see a change of the parent of a node off its
chain. -/
theorem ref_put_congr (par : Nat → Option Nat) (o : Nat) (v : Option Nat) (crit : Nat → Bool)
    (fuel : Nat) (c : Nat → Nat) (m : Option Nat) (h : on_chain par fuel m o = false) :
    ref_put (Function.update par o v) crit fuel c m = ref_put par crit fuel c m := by
  induction fuel generalizing c m with
  | zero => cases m <;> rfl
  | succ f ih =>
    cases m with
    | none => rfl
    | some x =>
      rw [on_chain_some, Bool.or_eq_false_iff] at h
      have hxo : x ≠ o := by simpa using h.1
      unfold ref_put
      rw [Function.update_noteq hxo, ih _ _ h.2]

/-- Under ancestry every node on the chain above a node with a positive counter has a positive
counter. -/
theorem on_chain_pos {par : Nat → Option Nat} {c : Nat → Nat} (hanc : Ancestry par c)
    (fuel p x : Nat) (hp : 0 < c p) (h : on_chain par fuel (some p) x = true) : 0 < c x := by
  induction fuel generalizing p with
  | zero => rw [on_chain_zero] at h; cases h
  | succ f ih =>
    rw [on_chain_some, Bool.or_eq_true] at h
    rcases h with h | h
    · have : p = x := by simpa using h
      rw [← this]; exact hp
    · cases hq : par p with
      | none => rw [hq, on_chain_none] at h; cases h
      | some q =>
        rw [hq] at h
        exact ih q (hanc p q hq hp) h

theorem Ancestry_update {par : Nat → Option Nat} {c : Nat → Nat} (o p : Nat)
    (hanc : Ancestry par c) (hedge : 0 < c o → 0 < c p) :
    Ancestry (Function.update par o (some p)) c := by
  intro n q hn hpos
  by_cases hno : n = o
  · subst hno
    simp only [Function.update_same, Option.some.injEq] at hn
    subst hn
    exact hedge hpos
  · rw [Function.update_noteq hno] at hn
    exact hanc n q hn hpos

/-- The enable references of an adoption of a prepared orphan `o` by `p`: one taken on `p` and
one on `o` while `o` has no parent, then one dropped on `o` below `p`.  An enabled orphan leaves
the reference on `p` in place; an orphan that is not enabled leaves every counter as it was. -/
theorem adopt_enable {par : Nat → Option Nat} {N : Nat} {dep : Nat → Nat} (o p : Nat)
    (hd : IsDepth par N dep) (hd' : IsDepth (Function.update par o (some p)) N dep)
    (hpar : par o = none) (crit : Nat → Bool) (fuel : Nat) (hf : dep o < fuel)
    (ec0 ec1 ecB ecA : Nat → Nat)
    (hg1 : ref_get par fuel ec0 (some p) = some ec1)
    (hg2 : ref_get par fuel ec1 (some o) = some ecB)
    (hp1 : ref_put (Function.update par o (some p)) crit fuel ecB (some o) = some ecA)
    (hcrit : ∀ x, crit x = true → 0 < ec0 x) :
    (0 < ec0 o → ecA = ec1) ∧ (ec0 o = 0 → ecA = ec0) := by
  have h_po := on_chain_acyclic o p hd' fuel
  have e1o : ec1 o = ec0 o := ref_get_off par fuel _ _ _ o hg1 h_po
  obtain ⟨f, rfl⟩ : ∃ f, fuel = f + 1 := ⟨fuel - 1, by omega⟩
  have hB : ecB = Function.update ec1 o (ec1 o + 1) := by
    unfold ref_get at hg2
    by_cases h0 : ec1 o = 0
    · rw [if_pos h0, hpar] at hg2
      have : ref_get par f ec1 none = some ec1 := by cases f <;> rfl
      rw [this] at hg2
      simpa using hg2.symm
    · rw [if_neg h0] at hg2
      simpa using hg2.symm
  have hBo : ecB o = ec0 o + 1 := by rw [hB, Function.update_same, e1o]
  constructor
  · intro hpos
    unfold ref_put at hp1
    rw [if_neg (by omega), if_neg (by simp; omega), if_pos (by omega)] at hp1
    simp only [Option.some.injEq] at hp1
    rw [← hp1, hB]
    funext x
    by_cases hx : x = o
    · subst hx; simp
    · simp [Function.update_noteq hx]
  · intro h0
    have hcc : crit o = false := by
      cases hq : crit o with
      | false => rfl
      | true => have := hcrit o hq; omega
    unfold ref_put at hp1
    rw [if_neg (by omega), if_neg (by simp [hcc]), if_neg (by omega)] at hp1
    simp only [Function.update_same] at hp1
    have hz : Function.update ecB o (ecB o - 1) = ec1 := by
      rw [hB]
      funext x
      by_cases hx : x = o
      · subst hx; simp [e1o, h0]
      · simp [Function.update_noteq hx]
    rw [hz, ref_put_congr par o (some p) crit f ec1 (some p)
      (on_chain_succ par f _ o h_po)] at hp1
    have hdp : dep p < f := by
      have := (hd' o p (by simp)).2.1
      omega
    obtain ⟨c2, h2⟩ := ref_get_total hd f ec0 p hdp
    have h3 := ref_get_fuel_succ par f _ _ _ h2
    rw [hg1] at h3
    simp only [Option.some.injEq] at h3
    subst h3
    rw [ref_put_get_crit hd crit f _ _ _ hcrit h2] at hp1
    simpa using hp1.symm

theorem Counted_of_fields {s t : State} (h : Counted s) (h1 : t.parent = s.parent)
    (h2 : t.flags = s.flags) (h3 : t.prepare_count = s.prepare_count)
    (h4 : t.enable_count = s.enable_count) : Counted t := by
  constructor
  · rw [h2]; exact h.flag
  · rw [h1, h3]; exact h.prep
  · rw [h1, h4]; exact h.enab
  · rw [h2, h3, h4]; exact h.crit
  · rw [h3, h4]; exact h.held

theorem ref_put_none (par : Nat → Option Nat) (crit : Nat → Bool) (fuel : Nat) (c : Nat → Nat) :
    ref_put par crit fuel c none = some c := by
  cases fuel <;> rfl

/-- One adoption, `__clk_set_parent_before(orphan, parent)` followed by
`__clk_set_parent_after(orphan, parent, NULL)`, keeps the invariant of the counts. -/
theorem adopt_step {N : Nat} {rank : Nat → Nat} (hw : Hw) (hops : OpsSucceed hw) (fuel : Nat)
    (t s2 s3 : State) (o p : Nat) (x : Option Nat)
    (hd : IsDepth t.parent N rank)
    (hd' : IsDepth (Function.update t.parent o (some p)) N rank)
    (hf : ∀ n, rank n < fuel) (hpar : t.parent o = none) (hc : Counted t)
    (h2 : __clk_set_parent_before hw fuel t o (some p) = some (x, s2))
    (h3 : __clk_set_parent_after fuel s2 o (some p) none = some s3) :
    Counted s3 ∧ s3.parent = Function.update t.parent o (some p) := by
  obtain ⟨pcB, ecB, rcB, trB, hB, hB0, hB1⟩ := __clk_set_parent_before_acquire hw hops fuel t o
    (some p) hd hf (hc.flag o) hc.prep
  rw [hB] at h2
  cases hr : clk_reparent fuel { t with prepare_count := pcB, enable_count := ecB, protect_count := rcB, trace := trB } o (some p) with
  | none => simp [hr] at h2
  | some s5 =>
    obtain ⟨orph, rl, ol, nc, e5⟩ := clk_reparent_spec _ _ _ _ _ hr
    simp only [hr, Option.map_some', Option.some.injEq, Prod.mk.injEq] at h2
    obtain ⟨-, rfl⟩ := h2
    have q1 : s5.parent = Function.update t.parent o (some p) := by rw [e5]
    have q2 : s5.flags = t.flags := by rw [e5]
    have q3 : s5.prepare_count = pcB := by rw [e5]
    have q4 : s5.enable_count = ecB := by rw [e5]
    have hfl5 : (s5.flags o).CLK_OPS_PARENT_ENABLE = false := by rw [q2]; exact hc.flag o
    unfold __clk_set_parent_after at h3
    by_cases hpc : t.prepare_count o = 0
    · obtain ⟨e1, e2⟩ := hB0 hpc
      subst e1 e2
      have : s5.prepare_count o = 0 := by rw [q3]; exact hpc
      simp only [this, ne_eq, not_true_eq_false, if_false, hfl5, Bool.false_eq_true,
        Option.some.injEq] at h3
      subst h3
      refine ⟨?_, q1⟩
      constructor
      · rw [q2]; exact hc.flag
      · rw [q1, q3]
        exact Ancestry_update o p hc.prep (fun h => by omega)
      · rw [q1, q4]
        exact Ancestry_update o p hc.enab (fun h => by have := hc.held o h; omega)
      · rw [q2, q3, q4]; exact hc.crit
      · rw [q3, q4]; exact hc.held
    · obtain ⟨hBo, gp, ec1, ge1, ge2⟩ := hB1 hpc
      have hd5 : IsDepth s5.parent N rank := by rw [q1]; exact hd'
      obtain ⟨t1, d1, g1, e1⟩ := clk_core_disable_spec fuel s5 o hd5 (hf o)
      obtain ⟨ecA, trA, eA⟩ : ∃ ecA trA, t1 = { s5 with enable_count := ecA, trace := trA } :=
        ⟨_, _, e1⟩
      have hdA : IsDepth t1.parent N rank := by rw [eA]; exact hd5
      obtain ⟨pc2, ec2, rc2, tr2, d2, g2, g3⟩ := clk_core_disable_unprepare_spec fuel t1 none
        hdA hf
      rw [ref_put_none] at g2 g3
      simp only [Option.some.injEq] at g2 g3
      have hne5 : s5.prepare_count o ≠ 0 := by rw [q3]; exact hBo
      simp only [hne5, ne_eq, not_false_eq_true, if_true, d1, d2] at h3
      have hfl : ({ t1 with prepare_count := pc2, enable_count := ec2, protect_count := rc2, trace := tr2 } : State).flags = t.flags := by
        simp only [eA, q2]
      rw [hfl, hc.flag o] at h3
      simp only [if_false, Bool.false_eq_true, Option.some.injEq] at h3
      subst h3
      have r1 : t1.parent = Function.update t.parent o (some p) := by rw [eA]; exact q1
      have r2 : t1.flags = t.flags := by rw [eA]; exact q2
      have r3 : t1.prepare_count = pcB := by rw [eA]; exact q3
      have r4 : t1.enable_count = ecA := by rw [eA]
      rw [q1, q2, q4, r4] at g1
      obtain ⟨k1, k2⟩ := adopt_enable o p hd hd' hpar _ fuel (hf o) _ _ _ _ ge1 ge2 g1
        (fun y hy => (hc.crit y hy).2)
      have hP : Ancestry t.parent pcB := ref_get_ancestry hd fuel _ _ _ hc.prep gp
      have hPp : 0 < pcB p := by
        have := ref_get_self hd fuel _ _ p gp
        omega
      have hPm := ref_get_mono _ _ _ _ _ gp
      have hE1 : Ancestry t.parent ec1 := ref_get_ancestry hd fuel _ _ _ hc.enab ge1
      have hE1p : 0 < ec1 p := by
        have := ref_get_self hd fuel _ _ p ge1
        omega
      have hE1m := ref_get_mono _ _ _ _ _ ge1
      have hheld1 : ∀ y, 0 < ec1 y → 0 < pcB y := by
        intro y hy
        by_cases hy0 : 0 < t.enable_count y
        · have := hc.held y hy0
          have := hPm y
          omega
        · have hch : on_chain t.parent fuel (some p) y = true := by
            by_contra hoff
            have := ref_get_off t.parent fuel _ _ _ y ge1 (by simpa using hoff)
            omega
          exact on_chain_pos hP fuel p y hPp hch
      refine ⟨?_, r1⟩
      constructor
      · intro n
        dsimp only
        exact hc.flag n
      · show Ancestry t1.parent pc2
        rw [r1, ← g3, r3]
        exact Ancestry_update o p hP (fun _ => hPp)
      · show Ancestry t1.parent ec2
        rw [r1, ← g2, r4]
        by_cases he : 0 < t.enable_count o
        · rw [k1 he]
          exact Ancestry_update o p hE1 (fun _ => hE1p)
        · rw [k2 (by omega)]
          exact Ancestry_update o p hc.enab (fun h => absurd h he)
      · intro y
        dsimp only
        rw [← g3, ← g2, r3, r4]
        intro hy
        obtain ⟨c1, c2⟩ := hc.crit y hy
        refine ⟨by have := hPm y; omega, ?_⟩
        by_cases he : 0 < t.enable_count o
        · rw [k1 he]
          have := hE1m y; omega
        · rw [k2 (by omega)]; exact c2
      · show ∀ y, 0 < ec2 y → 0 < pc2 y
        rw [← g3, ← g2, r3, r4]
        intro y hy
        by_cases he : 0 < t.enable_count o
        · rw [k1 he] at hy
          exact hheld1 y hy
        · rw [k2 (by omega)] at hy
          have := hc.held y hy
          have := hPm y
          omega

theorem hlist_next_in_suffix (pre tail : List Nat) (o : Nat) (h : o ∉ pre) :
    hlist_next_in (pre ++ o :: tail) o = tail.head? := by
  induction pre with
  | nil =>
    cases tail with
    | nil => rfl
    | cons b r => simp [hlist_next_in]
  | cons a pre ih =>
    have ha : a ≠ o := fun e => h (by simp [e])
    have hp : o ∉ pre := fun e => h (List.mem_cons_of_mem _ e)
    cases hq : pre ++ o :: tail with
    | nil => simp at hq
    | cons b r =>
      rw [List.cons_append, hq]
      unfold hlist_next_in
      rw [if_neg ha, ← hq]
      exact ih hp

theorem erase_suffix (pre tail : List Nat) (o : Nat) (h : o ∉ pre) :
    (pre ++ o :: tail).erase o = pre ++ tail := by
  induction pre with
  | nil => simp
  | cons a pre ih =>
    have ha : a ≠ o := fun e => h (by simp [e])
    have hp : o ∉ pre := fun e => h (List.mem_cons_of_mem _ e)
    rw [List.cons_append, List.erase_cons_tail (by simpa using ha), ih hp, List.cons_append]

/-- The whole adoption walk keeps the forest well formed and ranked and keeps the invariant of
the counts, when its fuel covers the ranks and the orphans still to visit. -/
theorem clk_core_reparent_orphans_nolock_walk_counted {N : Nat} {rank : Nat → Nat} (hw : Hw)
    (hops : OpsSucceed hw) (hb : ∀ n, rank n ≤ N) (fuel : Nat) (s s' : State)
    (pre rest : List Nat) (hl : s.clk_orphan_list = pre ++ rest) (hwf : WellFormed s)
    (hr : Ranked hw rank s)
    (hsm : ∀ n, ((s.parent n).isSome = true ∨ n ∈ s.clk_orphan_list) → n < N)
    (hc : Counted s) (hfuel : N + rest.length < fuel)
    (h : clk_core_reparent_orphans_nolock.walk hw fuel s rest.head? = some s') :
    Counted s' := by
  induction fuel generalizing s pre rest with
  | zero => omega
  | succ fuel ih =>
    cases rest with
    | nil =>
      simp [clk_core_reparent_orphans_nolock.walk] at h
      subst h
      exact hc
    | cons o tail =>
      have ho : o ∈ s.clk_orphan_list := by rw [hl]; simp
      have hnd : (pre ++ o :: tail).Nodup := by rw [← hl]; exact hwf.orphans_nodup
      have hopre : o ∉ pre := by
        intro hm
        have := (List.nodup_append.mp hnd).2.2
        exact this hm (List.mem_cons_self _ _)
      simp only [List.head?_cons] at h
      unfold clk_core_reparent_orphans_nolock.walk at h
      simp only at h
      rw [hlist_next_orphan hwf ho, hl, hlist_next_in_suffix pre tail o hopre] at h
      simp only [List.length_cons] at hfuel
      have hf : ∀ n, rank n < fuel := fun n => by have := hb n; omega
      split at h
      · cases h
      · rename_i parent s1 h1
        obtain ⟨f1, hres⟩ := __clk_init_parent_calm h1
        obtain ⟨pm, e1⟩ := __clk_init_parent_frame _ _ _ _ _ _ h1
        have hc1 : Counted s1 := Counted_of_fields hc (by rw [e1]) (by rw [e1]) (by rw [e1])
          (by rw [e1])
        have hwf1 := Calm_wf f1 hwf
        have hr1 := Calm_ranked f1 hr
        clear h1
        split at h
        · cases h
        · rename_i s5 h5
          have key : WellFormed s5 ∧ Ranked hw rank s5 ∧ Counted s5 ∧
              (∀ n, ((s5.parent n).isSome = true ∨ n ∈ s5.clk_orphan_list) → n < N) ∧
              (s5.clk_orphan_list = (pre ++ [o]) ++ tail ∨
               s5.clk_orphan_list = pre ++ tail) := by
            split at h5
            · rename_i hsome
              split at h5
              · cases h5
              · rename_i x s2 h2
                obtain ⟨-, s4, g1, g3⟩ := __clk_set_parent_before_spec _ _ _ _ _ _ _ h2
                split at h5
                · cases h5
                · rename_i s3 h3
                  split at h5
                  · cases h5
                  · rename_i s4a h4
                    obtain ⟨p, rfl⟩ := Option.isSome_iff_exists.mp hsome
                    obtain ⟨i, hi⟩ := hres p rfl
                    have hrank : rank p < rank o := hr1.2 o i p hi
                    have ho1 : s1.parent o = none := by
                      rw [f1.parent]; exact hwf.orphan_parent o ho
                    have hsm1 : ∀ n, ((s1.parent n).isSome = true ∨
                        n ∈ s1.clk_orphan_list) → n < N := by
                      rw [f1.parent, f1.clk_orphan_list]; exact hsm
                    have hd1 : IsDepth s1.parent N rank := by
                      intro n q hq
                      exact ⟨hsm1 n (Or.inl (by rw [hq]; rfl)), hr1.1 n q hq, hb n⟩
                    have hd1' : IsDepth (Function.update s1.parent o (some p)) N rank := by
                      intro n q hq
                      by_cases hno : n = o
                      · subst hno
                        simp only [Function.update_same, Option.some.injEq] at hq
                        subst hq
                        exact ⟨hsm n (Or.inr ho), hrank, hb n⟩
                      · rw [Function.update_noteq hno] at hq
                        exact hd1 n q hq
                    obtain ⟨hc3, hp3⟩ := adopt_step hw hops fuel s1 s2 s3 o p x hd1 hd1' hf ho1
                      hc1 h2 h3
                    have f4 : Calm hw s1 s4 := Calm_of_count g1
                    have hwf2 : WellFormed s2 := clk_reparent_wf (Calm_wf f4 hwf1) g3
                    have hr2 : Ranked hw rank s2 :=
                      clk_reparent_ranked (Calm_ranked f4 hr1)
                        (fun q hq => by cases hq; exact hrank) g3
                    have ftail : Calm hw s2 s5 :=
                      Calm_trans (Calm_of_count (__clk_set_parent_after_frame _ _ _ _ _ _ h3))
                        (Calm_trans (Calm_recalc_accuracies h4) (Calm_recalc_rates h5))
                    obtain ⟨a1, a2, a3, a4, ea⟩ := RecalcFrame_trans
                      (__clk_recalc_accuracies_recalc _ _ _ _ _ h4)
                      (__clk_recalc_rates_recalc _ _ _ _ _ _ h5)
                    have hc5 : Counted s5 := Counted_of_fields hc3 (by rw [ea]) (by rw [ea])
                      (by rw [ea]) (by rw [ea])
                    obtain ⟨hpar2, -, hol, -, -, -⟩ := clk_reparent_exact _ _ _ _ _ g3
                    have hol5 : s5.clk_orphan_list = pre ++ tail := by
                      rw [ftail.clk_orphan_list, hol]
                      show s4.clk_orphan_list.erase o = _
                      rw [f4.clk_orphan_list, f1.clk_orphan_list, hl]
                      exact erase_suffix pre tail o hopre
                    refine ⟨Calm_wf ftail hwf2, Calm_ranked ftail hr2, hc5, ?_, Or.inr hol5⟩
                    intro n hn
                    rcases hn with hn | hn
                    · have e5 : s5.parent = Function.update s.parent o (some p) := by
                        rw [ea]
                        show s3.parent = _
                        rw [hp3, f1.parent]
                      rw [e5] at hn
                      by_cases hno : n = o
                      · subst hno; exact hsm n (Or.inr ho)
                      · rw [Function.update_noteq hno] at hn
                        exact hsm n (Or.inl hn)
                    · rw [hol5] at hn
                      refine hsm n (Or.inr ?_)
                      rw [hl]
                      rcases List.mem_append.mp hn with hn | hn
                      · exact List.mem_append_left _ hn
                      · exact List.mem_append_right _ (List.mem_cons_of_mem _ hn)
            · simp only [Option.some.injEq] at h5
              subst h5
              refine ⟨hwf1, hr1, hc1, ?_, Or.inl ?_⟩
              · rw [f1.parent, f1.clk_orphan_list]; exact hsm
              · rw [f1.clk_orphan_list, hl]; simp
          obtain ⟨hwf5, hr5, hc5, hsm5, hol5⟩ := key
          rcases hol5 with e | e
          · exact ih s5 (pre ++ [o]) tail e hwf5 hr5 hsm5 hc5 (by omega) h
          · exact ih s5 pre tail e hwf5 hr5 hsm5 hc5 (by omega) h

theorem Ancestry_chain {par : Nat → Option Nat} {c : Nat → Nat} (hanc : Ancestry par c)
    (n a : Nat) (h : Relation.ReflTransGen (fun x y => par x = some y) n a) (hn : 0 < c n) :
    0 < c a := by
  induction h with
  | refl => exact hn
  | tail _ hstep ih => exact hanc _ _ hstep ih

/-- C34 (amended): `clk_core_reparent_orphans_nolock` keeps the ancestry of the prepare counts
and of the enable counts.  In a well-formed forest whose declared parents have no cycle
(`Ranked`), with prepare and enable callbacks that succeed, no `CLK_OPS_PARENT_ENABLE`, fuel for
the ranks and the orphans, and counts that before the call respect ancestry, with critical
nodes holding their references and enabled nodes prepared (`Counted`), after the call every
node with `prepare_count > 0`, an adopted orphan included, has its parent and every ancestor
with `prepare_count > 0`, and the same holds for `enable_count`.  Nothing is stated for
`protect_count`, which the adoption does not migrate. -/
theorem adoption_keeps_ancestry {N : Nat} {rank : Nat → Nat} (hw : Hw) (hops : OpsSucceed hw)
    (fuel : Nat) (s s' : State) (hb : ∀ n, rank n ≤ N) (hwf : WellFormed s)
    (hr : Ranked hw rank s)
    (hsm : ∀ n, ((s.parent n).isSome = true ∨ n ∈ s.clk_orphan_list) → n < N)
    (hc : Counted s) (hfuel : N + s.clk_orphan_list.length < fuel)
    (h : clk_core_reparent_orphans_nolock hw fuel s = some s') :
    ∀ n a, Relation.ReflTransGen (fun x y => s'.parent x = some y) n a →
      (0 < s'.prepare_count n → 0 < s'.prepare_count a) ∧
      (0 < s'.enable_count n → 0 < s'.enable_count a) := by
  unfold clk_core_reparent_orphans_nolock at h
  have hc' := clk_core_reparent_orphans_nolock_walk_counted hw hops hb fuel s s' []
    s.clk_orphan_list rfl hwf hr hsm hc hfuel h
  intro n a hna
  exact ⟨Ancestry_chain hc'.prep n a hna, Ancestry_chain hc'.enab n a hna⟩

theorem OpsSucceed_fixed (R : Nat) : OpsSucceed (Hw.fixed R) := by
  intro s n
  simp [Hw.fixed, Hw.quiet]

theorem critical_orphan_counted : Counted critical_orphan := by
  refine ⟨fun n => ?_, ?_, ?_, ?_, ?_⟩
  · by_cases hn : n = 1
    · subst hn; rfl
    · simp [critical_orphan, hn]
  · intro n p hp
    cases hp
  · intro n p hp
    cases hp
  · intro x hx
    by_cases hn : x = 1
    · subst hn; exact ⟨by decide, by decide⟩
    · simp [critical_orphan, hn] at hx
  · intro x hx
    by_cases hn : x = 1
    · subst hn; decide
    · simp [critical_orphan, hn] at hx

/-- C34 (amended) on `critical_orphan`: after the adoption of the critical orphan X by Y, the
counts respect ancestry along every chain of parents, and Y has got the two references. -/
theorem adoption_keeps_ancestry_witness :
    (∀ n a, Relation.ReflTransGen
        (fun x y => ((clk_core_reparent_orphans_nolock (Hw.fixed 12000000) 5
          critical_orphan).getD critical_orphan).parent x = some y) n a →
      (0 < ((clk_core_reparent_orphans_nolock (Hw.fixed 12000000) 5
          critical_orphan).getD critical_orphan).prepare_count n →
        0 < ((clk_core_reparent_orphans_nolock (Hw.fixed 12000000) 5
          critical_orphan).getD critical_orphan).prepare_count a) ∧
      (0 < ((clk_core_reparent_orphans_nolock (Hw.fixed 12000000) 5
          critical_orphan).getD critical_orphan).enable_count n →
        0 < ((clk_core_reparent_orphans_nolock (Hw.fixed 12000000) 5
          critical_orphan).getD critical_orphan).enable_count a)) ∧
    (clk_core_reparent_orphans_nolock (Hw.fixed 12000000) 5 critical_orphan).map
      (fun t => (t.parent 1, t.prepare_count 1, t.prepare_count 0, t.enable_count 1,
        t.enable_count 0)) = some (some 0, 1, 1, 1, 1) :=
  ⟨@adoption_keeps_ancestry 2 (fun n => if n = 1 then 1 else 0) (Hw.fixed 12000000)
    (OpsSucceed_fixed 12000000) 5 critical_orphan _
    (fun n => by by_cases hn : n = 1 <;> simp [hn])
    ⟨adoptable_pair_wf.1, adoptable_pair_wf.2, adoptable_pair_wf.3, adoptable_pair_wf.4,
      adoptable_pair_wf.5, adoptable_pair_wf.6, adoptable_pair_wf.7⟩
    (adoptable_pair_ranked 12000000)
    (fun n hn => by
      rcases hn with hn | hn
      · cases hn
      · have : n = 1 := by simpa [critical_orphan, adoptable_pair] using hn
        omega)
    critical_orphan_counted (by decide) rfl, rfl⟩

/-- The adoption of the orphan of `protected_orphan`, which holds one protect reference: the
orphan (node 1) gets node 0 as its parent and keeps its `protect_count` of 1, while the
`protect_count` of the parent stays 0. -/
theorem adoption_keeps_ancestry_counterexample :
    protected_orphan.protect_count 1 = 1 ∧ protected_orphan.clk_orphan_list = [1] ∧
    (clk_core_reparent_orphans_nolock Hw.quiet 5 protected_orphan).map
      (fun t => (t.parent 1, t.protect_count 1, t.protect_count 0)) = some (some 0, 1, 0) :=
  ⟨rfl, rfl, rfl⟩

theorem Vetoed_nil (hw : Hw) (s : State) (ev : Nat) : ¬ Vetoed hw s ev [] := by
  rintro ⟨E1, cn, o, n, E2, e, -⟩
  simp at e

theorem Vetoed_append (hw : Hw) (s : State) (ev : Nat) (E E' : List clk_event) :
    Vetoed hw s ev (E ++ E') ↔
      Vetoed hw s ev E ∨ Vetoed hw { s with trace := s.trace ++ E } ev E' := by
  constructor
  · rintro ⟨E1, cn, o, n, E2, e, h⟩
    rcases List.append_eq_append_iff.mp e with ⟨a, rfl, rfl⟩ | ⟨c, rfl, e2⟩
    · right
      refine ⟨a, cn, o, n, E2, rfl, ?_⟩
      simpa [List.append_assoc] using h
    · cases c with
      | nil =>
        right
        simp only [List.nil_append] at e2
        refine ⟨[], cn, o, n, E2, by simp [e2], ?_⟩
        simpa using h
      | cons x c =>
        left
        simp only [List.cons_append, List.cons.injEq] at e2
        obtain ⟨rfl, rfl⟩ := e2
        exact ⟨E1, cn, o, n, c, rfl, h⟩
  · rintro (⟨E1, cn, o, n, E2, rfl, h⟩ | ⟨E1, cn, o, n, E2, rfl, h⟩)
    · exact ⟨E1, cn, o, n, E2 ++ E', by simp, h⟩
    · refine ⟨E ++ E1, cn, o, n, E2, by simp, ?_⟩
      simpa [List.append_assoc] using h

theorem Vetoed_shift (hw : Hw) (s : State) (ev : Nat) (E E1 E2 : List clk_event) :
    Vetoed hw { s with trace := s.trace ++ E } ev (E1 ++ E2) ↔
      Vetoed hw { s with trace := s.trace ++ E } ev E1 ∨
        Vetoed hw { s with trace := s.trace ++ E ++ E1 } ev E2 :=
  Vetoed_append hw _ ev E1 E2

theorem Vetoed_zero (hw : Hw) (s : State) (ev : Nat) (E : List clk_event) :
    Vetoed hw { s with trace := s.trace ++ [] } ev E ↔ Vetoed hw s ev E := by
  have : ({ s with trace := s.trace ++ [] } : State) = s := by simp
  rw [this]

/-- The walk of `__clk_notify` over the notifier list, entered with a value without the stop
bit, returns a value with the stop bit exactly when one of its deliveries was vetoed, and it is
vetoed when a handle of the node on the list answers with the stop bit whatever the state. -/
theorem __clk_notify_walk_vetoed (hw : Hw) (core msg o n : Nat) (l : List Nat) (ret : Nat)
    (s : State) (hret : ret &&& NOTIFY_STOP_MASK = 0) :
    ∃ ext, (__clk_notify.walk hw core msg o n l ret s).2 = { s with trace := s.trace ++ ext } ∧
      ((__clk_notify.walk hw core msg o n l ret s).1 &&& NOTIFY_STOP_MASK ≠ 0 ↔
        Vetoed hw s msg ext) ∧
      ((∃ cn ∈ l, s.clk_core cn = core ∧
          ∀ st, hw.notifier_call_chain st cn msg o n &&& NOTIFY_STOP_MASK ≠ 0) →
        Vetoed hw s msg ext) := by
  induction l generalizing ret s with
  | nil =>
    refine ⟨[], by simp [__clk_notify.walk], ?_, ?_⟩
    · simp only [__clk_notify.walk, ne_eq, hret, not_true_eq_false, false_iff]
      exact Vetoed_nil hw s msg
    · rintro ⟨cn, hcn, -⟩
      cases hcn
  | cons cn rest ih =>
    unfold __clk_notify.walk
    by_cases h1 : s.clk_core cn = core
    · by_cases h2 : hw.notifier_call_chain s cn msg o n &&& NOTIFY_STOP_MASK = 0
      · simp only [h1, h2, if_true, if_false, ne_eq, not_true_eq_false]
        obtain ⟨ext, e, ha, hb⟩ := ih (hw.notifier_call_chain s cn msg o n)
          (s.log (.notify cn msg o n)) h2
        have hv : Vetoed hw s msg ([clk_event.notify cn msg o n] ++ ext) ↔
            Vetoed hw (s.log (.notify cn msg o n)) msg ext := by
          rw [Vetoed_append]
          constructor
          · rintro (⟨E1, cn', o', n', E2, e1, hh⟩ | hh)
            · exfalso
              cases E1 with
              | nil =>
                simp only [List.nil_append, List.cons.injEq, clk_event.notify.injEq] at e1
                obtain ⟨⟨rfl, -, rfl, rfl⟩, -⟩ := e1
                apply hh
                simpa using h2
              | cons x E1 =>
                simp at e1
            · exact hh
          · intro hh
            exact Or.inr hh
        refine ⟨[clk_event.notify cn msg o n] ++ ext, ?_, ?_, ?_⟩
        · rw [e]
          simp [State.log, List.append_assoc]
        · rw [hv]
          exact ha
        · rintro ⟨cn', hcn', hc1, hc2⟩
          rw [hv]
          rcases List.mem_cons.mp hcn' with rfl | hm
          · exact absurd h2 (hc2 s)
          · exact hb ⟨cn', hm, hc1, hc2⟩
      · simp only [h1, h2, if_true, ne_eq, not_false_eq_true]
        have hv : Vetoed hw s msg [clk_event.notify cn msg o n] :=
          ⟨[], cn, o, n, [], rfl, by simpa using h2⟩
        exact ⟨[clk_event.notify cn msg o n], rfl, ⟨fun _ => hv, fun _ => by first | exact h2 | trivial⟩,
          fun _ => hv⟩
    · simp only [h1, if_false]
      obtain ⟨ext, e, ha, hb⟩ := ih ret s hret
      refine ⟨ext, e, ha, ?_⟩
      rintro ⟨cn', hcn', hc1, hc2⟩
      rcases List.mem_cons.mp hcn' with rfl | hm
      · exact absurd hc1 h1
      · exact hb ⟨cn', hm, hc1, hc2⟩

theorem Stops_trace (hw : Hw) (s : State) (tr : List clk_event) (ev n : Nat)
    (h : Stops hw s ev n) : Stops hw { s with trace := tr } ev n := h

/-- A loop over a list of nodes whose body extends the trace, reports a failing clock exactly
when it was entered with one or a delivery of its own was vetoed, and is vetoed below every
node it does not skip that has a stopping subscriber: the same holds of the loop. -/
theorem foldlM_vetoed (hw : Hw) (s : State) (ev : Nat) (skip : Nat → Prop)
    (F : Option Nat × State → Nat → Option (Option Nat × State))
    (step : ∀ a x r E, a.2 = { s with trace := s.trace ++ E } → F a x = some r →
      ∃ E', r.2 = { s with trace := s.trace ++ E ++ E' } ∧
        (r.1.isSome = true ↔
          a.1.isSome = true ∨ Vetoed hw { s with trace := s.trace ++ E } ev E') ∧
        (¬ skip x → ∀ n, Visits s x n → s.notifier_count n ≠ 0 → Stops hw s ev n →
          Vetoed hw { s with trace := s.trace ++ E } ev E'))
    (l : List Nat) (a a' : Option Nat × State) (E : List clk_event)
    (ha : a.2 = { s with trace := s.trace ++ E }) (h : l.foldlM F a = some a') :
    ∃ E', a'.2 = { s with trace := s.trace ++ E ++ E' } ∧
      (a'.1.isSome = true ↔
        a.1.isSome = true ∨ Vetoed hw { s with trace := s.trace ++ E } ev E') ∧
      ∀ c ∈ l, ¬ skip c → ∀ n, Visits s c n → s.notifier_count n ≠ 0 → Stops hw s ev n →
        Vetoed hw { s with trace := s.trace ++ E } ev E' := by
  induction l generalizing a E with
  | nil =>
    simp only [List.foldlM_nil, Option.pure_def, Option.some.injEq] at h
    subst h
    refine ⟨[], by rw [ha]; simp, ?_, fun c hc => by cases hc⟩
    constructor
    · exact fun h => Or.inl h
    · rintro (h | h)
      · exact h
      · exact absurd h (Vetoed_nil _ _ _)
  | cons x xs ihl =>
    simp only [List.foldlM_cons, Option.bind_eq_bind] at h
    cases hs : F a x with
    | none => simp [hs] at h
    | some r =>
      rw [hs] at h
      simp only [Option.some_bind] at h
      obtain ⟨E1, e1, p1, q1⟩ := step a x r E ha hs
      obtain ⟨E2, e2, p2, q2⟩ := ihl r (E ++ E1) (by rw [e1]; simp) h
      have e3 : ({ s with trace := s.trace ++ (E ++ E1) } : State) =
          { s with trace := s.trace ++ E ++ E1 } := by simp
      rw [e3] at p2 q2
      refine ⟨E1 ++ E2, by rw [e2]; simp, ?_, ?_⟩
      · rw [p2, p1, Vetoed_shift, or_assoc]
      · intro c hc hns n hv hn hst
        rw [Vetoed_shift]
        rcases List.mem_cons.mp hc with rfl | hc'
        · exact Or.inl (q1 hns n hv hn hst)
        · exact Or.inr (q2 c hc' hns n hv hn hst)

/-- The walk of `clk_propagate_rate_change` only extends the trace; it reports a failing clock
exactly when one of its deliveries was vetoed; and it is vetoed when a node it reaches has a
subscriber that answers the event with the stop bit. -/
theorem clk_propagate_rate_change_vetoed (hw : Hw) (ev : Nat) (fuel : Nat) (s s' : State)
    (core : Nat) (f : Option Nat)
    (h : clk_propagate_rate_change hw fuel s core ev = some (f, s')) :
    ∃ ext, s' = { s with trace := s.trace ++ ext } ∧
      (f.isSome = true ↔ Vetoed hw s ev ext) ∧
      ∀ n, Visits s core n → s.notifier_count n ≠ 0 → Stops hw s ev n → Vetoed hw s ev ext := by
  induction fuel generalizing s s' core f with
  | zero => simp [clk_propagate_rate_change] at h
  | succ fuel ih =>
    unfold clk_propagate_rate_change at h
    by_cases hr : s.rate core = s.new_rate core
    · rw [if_pos hr] at h
      simp only [Option.some.injEq, Prod.mk.injEq] at h
      obtain ⟨rfl, rfl⟩ := h
      refine ⟨[], by simp, ?_, ?_⟩
      · simp only [Option.isSome_none, Bool.false_eq_true, false_iff]
        exact Vetoed_nil _ _ _
      · intro n hv
        exact absurd hr (Visits_cases hv).1
    · rw [if_neg hr] at h
      simp only at h
      generalize hX : (if s.notifier_count core ≠ 0 then
          ((if (__clk_notify hw s core ev (s.rate core) (s.new_rate core)).1
              &&& NOTIFY_STOP_MASK ≠ 0 then some core else none : Option Nat),
            (__clk_notify hw s core ev (s.rate core) (s.new_rate core)).2)
          else (none, s)) = X at h
      obtain ⟨ext0, e0, p0, d0⟩ : ∃ ext0, X.2 = { s with trace := s.trace ++ ext0 } ∧
          (X.1.isSome = true ↔ Vetoed hw s ev ext0) ∧
          (s.notifier_count core ≠ 0 → Stops hw s ev core → Vetoed hw s ev ext0) := by
        rw [← hX]
        by_cases hnc : s.notifier_count core = 0
        · simp only [hnc, ne_eq, not_true_eq_false, if_false]
          refine ⟨[], by simp, ?_, fun h0 => h0.elim⟩
          simp only [Option.isSome_none, Bool.false_eq_true, false_iff]
          exact Vetoed_nil _ _ _
        · simp only [hnc, ne_eq, not_false_eq_true, if_true]
          obtain ⟨ext0, e0, q0, q1⟩ := __clk_notify_walk_vetoed hw core ev (s.rate core)
            (s.new_rate core) s.clk_notifier_list NOTIFY_DONE s (by decide)
          refine ⟨ext0, e0, ?_, ?_⟩
          · rw [← q0]
            unfold __clk_notify
            by_cases hb : (__clk_notify.walk hw core ev (s.rate core) (s.new_rate core)
                s.clk_notifier_list NOTIFY_DONE s).1 &&& NOTIFY_STOP_MASK = 0
            · simp [hb]
            · simp [hb]
          · intro _ hst
            exact q1 hst
      have hch : X.2.children = s.children := by rw [e0]
      rw [hch] at h
      split at h
      · cases h
      · rename_i fc2 s2 hF
        have hstep : ∀ (a : Option Nat × State) (x : Nat) (r : Option Nat × State)
            (E : List clk_event), a.2 = { s with trace := s.trace ++ E } →
            (if ((a.2.new_parent x).isSome && decide (a.2.new_parent x ≠ some core)) = true
              then some a
              else (clk_propagate_rate_change hw fuel a.2 x ev).bind
                (fun q => some (if q.1.isSome = true then q.1 else a.1, q.2))) = some r →
            ∃ E', r.2 = { s with trace := s.trace ++ E ++ E' } ∧
              (r.1.isSome = true ↔
                a.1.isSome = true ∨ Vetoed hw { s with trace := s.trace ++ E } ev E') ∧
              (¬ ((s.new_parent x).isSome = true ∧ s.new_parent x ≠ some core) →
                ∀ n, Visits s x n → s.notifier_count n ≠ 0 → Stops hw s ev n →
                  Vetoed hw { s with trace := s.trace ++ E } ev E') := by
          intro a x r E ha hs
          simp only at hs
          have hnp : a.2.new_parent = s.new_parent := by rw [ha]
          rw [hnp] at hs
          by_cases hc : ((s.new_parent x).isSome && decide (s.new_parent x ≠ some core)) = true
          · simp only [hc, if_true, Option.some.injEq] at hs
            subst hs
            refine ⟨[], by rw [ha]; simp, ?_, ?_⟩
            · constructor
              · exact fun h => Or.inl h
              · rintro (h | h)
                · exact h
                · exact absurd h (Vetoed_nil _ _ _)
            · intro hns
              exfalso
              apply hns
              simpa using hc
          · simp only [hc, if_false, Bool.false_eq_true] at hs
            cases hp : clk_propagate_rate_change hw fuel a.2 x ev with
            | none => simp [hp] at hs
            | some q =>
              obtain ⟨tmp, st⟩ := q
              simp only [hp, Option.some_bind, Option.some.injEq] at hs
              subst hs
              obtain ⟨ex, e2, p2, q2⟩ := ih _ _ _ _ hp
              rw [ha] at p2 q2
              refine ⟨ex, by rw [e2, ha], ?_, ?_⟩
              · simp only
                rw [← p2]
                cases tmp with
                | none => simp
                | some t => simp
              · intro _ n hv hn hst
                exact q2 n (Visits_of_trace s _ _ _ hv) hn hst
        obtain ⟨E1, e1, p1, q1⟩ := foldlM_vetoed hw s ev
          (fun c => (s.new_parent c).isSome = true ∧ s.new_parent c ≠ some core) _
          (fun a x r E ha hs => hstep a x r E ha (by
            rw [← hs]
            by_cases hc : ((a.2.new_parent x).isSome && decide (a.2.new_parent x ≠ some core)) = true
            · simp only [hc, if_true]
            · simp only [hc, if_false, Bool.false_eq_true]
              cases clk_propagate_rate_change hw fuel a.2 x ev with
              | none => rfl
              | some q => rfl))
          (s.children core) (X.1, X.2) (fc2, s2) ext0 e0 hF
        simp only at e1 p1
        subst e1
        simp only at h
        have hfc : fc2.isSome = true ↔ Vetoed hw s ev (ext0 ++ E1) := by
          rw [p1, p0, Vetoed_append]
        have hB : ∀ n, (n = core ∨ ∃ c, c ∈ s.children core ∧
            ¬ ((s.new_parent c).isSome = true ∧ s.new_parent c ≠ some core) ∧ Visits s c n) →
            s.notifier_count n ≠ 0 → Stops hw s ev n → Vetoed hw s ev (ext0 ++ E1) := by
          intro n hn hnc hst
          rw [Vetoed_append]
          rcases hn with rfl | ⟨c, hc1, hc2, hc3⟩
          · exact Or.inl (d0 hnc hst)
          · exact Or.inr (q1 c hc1 hc2 n hc3 hnc hst)
        cases hnc : s.new_child core with
        | none =>
          simp only [hnc, Option.some.injEq, Prod.mk.injEq] at h
          obtain ⟨rfl, rfl⟩ := h
          refine ⟨ext0 ++ E1, by simp, hfc, ?_⟩
          intro n hv hn hst
          rcases (Visits_cases hv).2 with rfl | ⟨c, hc1, hc2, hc3⟩ | ⟨c, hc1, -⟩
          · exact hB _ (Or.inl rfl) hn hst
          · exact hB _ (Or.inr ⟨c, hc1, hc2, hc3⟩) hn hst
          · rw [hnc] at hc1
            cases hc1
        | some nc =>
          simp only [hnc] at h
          cases hx : clk_propagate_rate_change hw fuel
            { s with trace := s.trace ++ ext0 ++ E1 } nc ev with
          | none =>
            rw [hx] at h
            cases h
          | some r =>
            obtain ⟨tmp, st⟩ := r
            rw [hx] at h
            simp only [Option.some.injEq, Prod.mk.injEq] at h
            obtain ⟨rfl, rfl⟩ := h
            obtain ⟨ex, e2, p2, q2⟩ := ih _ _ _ _ hx
            simp only at e2
            subst e2
            have e3 : ({ s with trace := s.trace ++ ext0 ++ E1 } : State) =
                { s with trace := s.trace ++ (ext0 ++ E1) } := by simp
            rw [e3] at p2 q2
            refine ⟨ext0 ++ E1 ++ ex, by simp, ?_, ?_⟩
            · rw [Vetoed_append, ← hfc, ← p2]
              cases tmp with
              | none => simp
              | some t => simp
            · intro n hv hn hst
              rw [Vetoed_append]
              rcases (Visits_cases hv).2 with rfl | ⟨c, hc1, hc2, hc3⟩ | ⟨c, hc1, hc3⟩
              · exact Or.inl (hB _ (Or.inl rfl) hn hst)
              · exact Or.inl (hB _ (Or.inr ⟨c, hc1, hc2, hc3⟩) hn hst)
              · rw [hnc] at hc1
                cases hc1
                exact Or.inr (q2 n (Visits_of_trace s _ _ _ hc3) hn hst)

theorem is_set_op_of_pm (e : clk_event) (h : clk_event.is_pm e = true) :
    clk_event.is_set_op e = false := by
  cases e <;> simp_all [clk_event.is_pm, clk_event.is_set_op]

/-- Claim C6.  When `clk_core_set_rate_nolock` gets as far as the `PRE_RATE_CHANGE` propagation
from `top` and that propagation returns, it has appended deliveries `pre` to the trace, and the
failing clock it reports is set exactly when a subscriber vetoed (`Vetoed`: the notifier chain
of a handle that was delivered the event in `pre` returned a value with the stop bit).  A veto
is there as soon as a node the walk reaches (`Visits`) with subscribers has one on the notifier
list whose chain answers `PRE_RATE_CHANGE` with the stop bit (`Stops`).  On a veto the call
returns `-EBUSY`; the trace it appends is `plan ++ pre ++ abort ++ tail`, with runtime-PM events
only in `plan` and `tail` and `ABORT_RATE_CHANGE` deliveries only in `abort`, so it holds no
`set_rate`, `set_parent` or `set_rate_and_parent` op; every node's rate and parent are what
they were; and every node with a handle that was delivered `PRE_RATE_CHANGE` in `pre` has a
handle that is delivered `ABORT_RATE_CHANGE` in `abort`. -/
theorem set_rate_veto (hw : Hw) (fuel : Nat) (s s1 s2 s4 : State) (c r rate top : Nat)
    (f : Option Nat)
    (h1 : clk_core_req_round_rate_nolock hw fuel s (some c) r = some (rate, s1))
    (h2 : rate ≠ clk_core_get_rate_nolock s1 (some c))
    (h3 : clk_core_rate_is_protected s1 c = false)
    (h4 : clk_calc_new_rates hw fuel s1 (some c) r = some (some top, s2))
    (h5 : (clk_pm_runtime_get hw s2 c).1 = 0)
    (h6 : clk_propagate_rate_change hw fuel (clk_pm_runtime_get hw s2 c).2 top PRE_RATE_CHANGE
      = some (f, s4)) :
    ∃ pre, s4.trace = (clk_pm_runtime_get hw s2 c).2.trace ++ pre ∧
      AllNotify PRE_RATE_CHANGE pre ∧
      (f.isSome = true ↔ Vetoed hw (clk_pm_runtime_get hw s2 c).2 PRE_RATE_CHANGE pre) ∧
      (∀ n, Visits s2 top n → s2.notifier_count n ≠ 0 → Stops hw s2 PRE_RATE_CHANGE n →
        Vetoed hw (clk_pm_runtime_get hw s2 c).2 PRE_RATE_CHANGE pre) ∧
      (Vetoed hw (clk_pm_runtime_get hw s2 c).2 PRE_RATE_CHANGE pre →
        ∃ s' plan abort tail,
          clk_core_set_rate_nolock hw fuel s (some c) r = some (-EBUSY, s') ∧
          s'.rate = s.rate ∧ s'.parent = s.parent ∧
          s'.trace = s.trace ++ plan ++ pre ++ abort ++ tail ∧
          (∀ e ∈ plan ++ tail, clk_event.is_pm e = true) ∧
          AllNotify ABORT_RATE_CHANGE abort ∧
          (∀ e ∈ plan ++ pre ++ abort ++ tail, clk_event.is_set_op e = false) ∧
          (∀ cn o n, clk_event.notify cn PRE_RATE_CHANGE o n ∈ pre →
            ∃ cn' o' n', clk_event.notify cn' ABORT_RATE_CHANGE o' n' ∈ abort ∧
              s.clk_core cn' = s.clk_core cn)) := by
  obtain ⟨pre, e4, p4, q4⟩ := clk_propagate_rate_change_vetoed hw PRE_RATE_CHANGE fuel _ _ top _ h6
  obtain ⟨tr3, e3⟩ := clk_pm_runtime_get_same hw s2 c
  obtain ⟨-, pre2, d1, d2⟩ := clk_propagate_rate_change_trace hw fuel _ _ top _ _ h6
  have hpre : pre2 = pre := by
    have := d1
    rw [e4] at this
    simpa using this.symm
  subst hpre
  refine ⟨pre2, d1, d2, p4, ?_, ?_⟩
  · intro n hv hn hst
    refine q4 n ?_ ?_ ?_
    · rw [e3]
      exact Visits_of_trace s2 _ _ _ hv
    · rw [e3]
      exact hn
    · rw [e3]
      exact hst
  · intro hvet
    obtain ⟨fail, rfl⟩ := Option.isSome_iff_exists.mp (p4.mpr hvet)
    obtain ⟨pc, e1⟩ := clk_core_req_round_rate_nolock_frame _ _ _ _ _ _ _ h1
    obtain ⟨a1, a2, a3, extA, a4, a5⟩ := PlanFrame_facts (clk_calc_new_rates_plan _ _ _ _ _ _ _ h4)
    obtain ⟨b1, b2, b3, extB, b4, b5⟩ := PlanFrame_facts (clk_pm_runtime_get_plan hw s2 c)
    obtain ⟨f2, s5, h7, ext1, ext2, g1, g2, g3, g4, g5⟩ := clk_propagate_rate_change_paired hw
      PRE_RATE_CHANGE ABORT_RATE_CHANGE fuel _ s4 top _ _ ⟨_, e4⟩ h6
    have hext : ext1 = pre2 := by
      have h8 : s4.trace = (clk_pm_runtime_get hw s2 c).2.trace ++ ext1 := congrArg State.trace g1
      rw [d1] at h8
      exact (List.append_cancel_left h8).symm
    subst hext
    obtain ⟨k1, k2, k3, extK, k4, k5⟩ := PlanFrame_facts (clk_pm_runtime_put_plan s5 c)
    have hcore : (clk_pm_runtime_get hw s2 c).2.clk_core = s.clk_core := by
      rw [b3, a3, e1]
    refine ⟨clk_pm_runtime_put s5 c, extA ++ extB, ext2, extK, ?_, ?_, ?_, ?_, ?_, g4, ?_, ?_⟩
    · unfold clk_core_set_rate_nolock
      simp only [h1, h2, h3, h4, h5, h6, h7, if_false, ne_eq, not_true_eq_false,
        Bool.false_eq_true]
    · rw [k1, g2, g1, b1, a1, e1]
    · rw [k2, g2, g1, b2, a2, e1]
    · rw [k4, g2, g1, b4, a4, e1]
      simp only [List.append_assoc]
    · intro e he
      simp only [List.mem_append] at he
      rcases he with (he | he) | he
      · exact a5 e he
      · exact b5 e he
      · exact k5 e he
    · intro e he
      simp only [List.mem_append] at he
      rcases he with ((((he | he) | he) | he) | he)
      · exact is_set_op_of_pm e (a5 e he)
      · exact is_set_op_of_pm e (b5 e he)
      · obtain ⟨cn, o, n, rfl⟩ := g3 e he
        rfl
      · obtain ⟨cn, o, n, rfl⟩ := g4 e he
        rfl
      · exact is_set_op_of_pm e (k5 e he)
    · intro cn o n he
      obtain ⟨cn', m', o', n', hm, hc⟩ := g5 cn _ o n he
      obtain ⟨cn2, o2, n2, e2⟩ := g4 _ hm
      cases e2
      rw [hcore] at hc
      exact ⟨cn', o', n', hm, hc⟩

/-- C6 on the node `notified1` with the vetoing notifier: node 0 is reached by the walk and its
subscriber answers `PRE_RATE_CHANGE` with the stop bit, so the propagation is vetoed and
`clk_core_set_rate_nolock(core, 200)` returns `-EBUSY` with rates and parents unchanged and
without a hardware op. -/
theorem set_rate_veto_witness :
    Stops Hw.vetoing notified1 PRE_RATE_CHANGE 0 ∧
    ∃ s' plan pre abort tail,
      clk_core_set_rate_nolock Hw.vetoing 2 notified1 (some 0) 200 = some (-EBUSY, s') ∧
      s'.rate = notified1.rate ∧ s'.parent = notified1.parent ∧
      s'.trace = notified1.trace ++ plan ++ pre ++ abort ++ tail ∧
      (∀ e ∈ plan ++ pre ++ abort ++ tail, clk_event.is_set_op e = false) ∧
      (∀ cn o n, clk_event.notify cn PRE_RATE_CHANGE o n ∈ pre →
        ∃ cn' o' n', clk_event.notify cn' ABORT_RATE_CHANGE o' n' ∈ abort ∧
          notified1.clk_core cn' = notified1.clk_core cn) := by
  have hstop : ∀ (s : State), s.clk_notifier_list = [0] → s.clk_core 0 = 0 →
      Stops Hw.vetoing s PRE_RATE_CHANGE 0 := by
    intro s hl hc
    refine ⟨0, by rw [hl]; simp, hc, ?_⟩
    intro st
    show (if PRE_RATE_CHANGE = PRE_RATE_CHANGE then NOTIFY_STOP_MASK + 2 else NOTIFY_DONE)
      &&& NOTIFY_STOP_MASK ≠ 0
    decide
  have h1 := eq_some_of_map_fst
    (clk_core_req_round_rate_nolock Hw.vetoing 2 notified1 (some 0) 200) 200 (0, notified1)
    (by decide)
  have h4 := eq_some_of_map_fst
    (clk_calc_new_rates Hw.vetoing 2
      ((clk_core_req_round_rate_nolock Hw.vetoing 2 notified1 (some 0) 200).getD
        (0, notified1)).2 (some 0) 200) (some 0) (none, notified1) (by decide)
  have h6 := eq_some_of_map_fst
    (clk_propagate_rate_change Hw.vetoing 2 (clk_pm_runtime_get Hw.vetoing
      ((clk_calc_new_rates Hw.vetoing 2
        ((clk_core_req_round_rate_nolock Hw.vetoing 2 notified1 (some 0) 200).getD
          (0, notified1)).2 (some 0) 200).getD (none, notified1)).2 0).2 0 PRE_RATE_CHANGE)
    (some 0) (none, notified1) (by decide)
  obtain ⟨pre, -, -, -, hv, hr⟩ := set_rate_veto Hw.vetoing 2 notified1 _ _ _ 0 200 200 0
    (some 0) h1 (by decide) (by decide) h4 (by decide) h6
  obtain ⟨s', plan, abort, tail, r1, r2, r3, r4, -, -, r5, r6⟩ :=
    hr (hv 0 (Visits.here 0 (by decide)) (by decide) (hstop _ (by decide) (by decide)))
  exact ⟨hstop _ rfl rfl, s', plan, pre, abort, tail, r1, r2, r3, r4, r5, r6⟩

/-- Claim C14 at a failing input.  In `sibling_mux` the mux (node 2) is asked for the rate 200,
which it takes from the divider (node 1), its sibling under the oscillator (node 0).  The plan
of `clk_calc_new_rates` reaches up to `top` = node 0, with `new_parent` of the mux the divider
and `new_child` of the divider the mux.  In the commit, the loop of `clk_change_rate(0)` over
the children of node 0 commits the divider, which commits its child node 3 (`set_rate` op,
`POST_RATE_CHANGE` delivery) and then its new child, the mux, which moves to the head of the
divider's child list.  The loop of node 0 goes on from the position it had saved, the mux, skips
it, and follows the mux's `next` pointer, which now leads along the divider's child list to
node 3: `clk_change_rate(3)` runs a second time, and the `set_rate` op of node 3 is invoked
after the `POST_RATE_CHANGE` delivery to node 3.  With the mux before the divider on the child
list of node 0 (`sibling_mux_first`) the same call commits every node once, each op before the
`POST_RATE_CHANGE` delivery of its node. -/
theorem set_rate_notify_order :
    ((clk_calc_new_rates Hw.following 8 sibling_mux (some 2) 200).map
        (fun x => (x.1, x.2.new_parent 2, x.2.new_child 1))
      = some (some 0, some 1, some 2) ∧
     (clk_core_set_rate_nolock Hw.following 8 sibling_mux (some 2) 200).map
        (fun x => (x.1, x.2.trace, x.2.children 0, x.2.children 1))
      = some (0, [clk_event.notify 3 PRE_RATE_CHANGE 100 200,
          clk_event.op_set_rate 0 200 0, clk_event.op_set_rate 1 200 200,
          clk_event.op_set_rate 3 200 200, clk_event.notify 3 POST_RATE_CHANGE 100 200,
          clk_event.op_set_parent 2 1, clk_event.op_set_rate 3 200 200], [1], [2, 3])) ∧
    (clk_core_set_rate_nolock Hw.following 8 sibling_mux_first (some 2) 200).map
        (fun x => (x.1, x.2.trace, x.2.children 0, x.2.children 1))
      = some (0, [clk_event.notify 3 PRE_RATE_CHANGE 100 200,
          clk_event.op_set_rate 0 200 0, clk_event.op_set_rate 1 200 200,
          clk_event.op_set_rate 3 200 200, clk_event.notify 3 POST_RATE_CHANGE 100 200,
          clk_event.op_set_parent 2 1], [1], [2, 3]) :=
  ⟨⟨by decide, by decide⟩, by decide⟩

theorem PlanFrame_protect {s s' : State} (h : PlanFrame s s') :
    s'.protect_count = s.protect_count := by
  obtain ⟨a1, a2, a3, a4, a5, ext, -, rfl⟩ := h
  rfl

end Clk
